import Mathlib

/-!
# QuickMAN Mandelbrot engine: stripe scheduler, worker count and quadrant panning

A shallow embedding of parts of `quickman.c` / `quickman.h`:

* `man_calculate` (the division of a calculation rectangle into per-thread stripe lists),
* `get_cpu_info` (the derivation of the worker count from the processor count),
* `reset_quadrants`, `swap_quadrants` and `pan_image` (the quadrant cache used for panning).

C `int` values are embedded as `Int`.  Image and screen coordinates are many orders of
magnitude below `2^31`, so the arithmetic is carried out on unbounded integers.  Arrays are
embedded as functions from the index; every store into `thread_states[..].stripes[..]`
is guarded by an explicit bounds check and the embedding returns `none` when a store would
leave the array.
-/

namespace QuickMan

/-! ## Constants (quickman.h) -/

/-- C left shift `a << k` of an `int` (no overflow). -/
def shl (a k : Int) : Int := a * 2 ^ k.toNat

/-- C arithmetic right shift `a >> k` of an `int`. -/
def shr (a k : Int) : Int := a >>> k.toNat

/-- Constant `MAX_THREADS_IND` (quickman.h:57). -/
def MAX_THREADS_IND : Int := 5

/-- Constant `MAX_THREADS`, defined as `1 << MAX_THREADS_IND` (quickman.h:58). -/
def MAX_THREADS : Int := shl 1 MAX_THREADS_IND

/-- Constant `MAX_STRIPES` (quickman.h:362). -/
def MAX_STRIPES : Int := 8

/-- Constant `QSTAT_DO_BLIT` (quickman.h:160). -/
def QSTAT_DO_BLIT : Int := 1

/-! ## Data model -/

/-- The C struct `stripe` (quickman.h): an inclusive pixel rectangle. -/
structure stripe where
  xstart : Int
  xend : Int
  ystart : Int
  yend : Int
deriving DecidableEq, Repr

/-- The fields of the C struct `thread_state` used by the scheduler:
the array `stripes[MAX_STRIPES]` and the counter `num_stripes`. -/
structure thread_state where
  stripes : Int → stripe
  num_stripes : Int

/-- The fields of the C struct `man_calc_struct` used here: image size, pan offsets and the
array `thread_states[MAX_THREADS]`. -/
structure man_calc_struct where
  xsize : Int
  ysize : Int
  pan_xoffs : Int
  pan_yoffs : Int
  thread_states : Int → thread_state

/-- The local variables of `man_calculate` that change inside the stripe loops, together with
the array they write to.  `s` is the C pointer `stripe *s`, represented by the pair
(thread index, stripe index) it points at, or `none` while it is still uninitialised. -/
structure calc_locals where
  thread_states : Int → thread_state
  thread_ind : Int
  stripe_ind : Int
  xstart : Int
  ystart : Int
  frac : Int
  this_step : Int
  s : Option (Int × Int)

/-! ## man_calculate (quickman.c:2088-2217) -/

/-- Lines 2113-2119: extract the 4-bit stripes-per-thread field for the current thread-count
index from the configuration bitfield and clamp it to `1 .. MAX_STRIPES`.  The mask `& 0xF`
of a two's-complement `int` is the Euclidean remainder modulo 16. -/
def stripes_per_thread (spt num_threads_ind : Int) : Int :=
  let num_stripes := (shr spt (shl num_threads_ind 2)) % 16
  let num_stripes := if num_stripes < 1 then 1 else num_stripes
  if num_stripes > MAX_STRIPES then MAX_STRIPES else num_stripes

/-- Lines 2096-2104: the rectangle actually calculated.  When `STAT_NEED_RECALC` is set the
rectangle passed in is replaced by the full image. -/
def compute_rect (need_recalc : Bool) (m : man_calc_struct) (xstart xend ystart yend : Int) :
    Int × Int × Int × Int :=
  if need_recalc then (0, m.xsize - 1, 0, m.ysize - 1) else (xstart, xend, ystart, yend)

/-- Lines 2125-2126: `for (i = 0; i < num_threads; i++) thread_states[i].num_stripes = 0`. -/
def clear_num_stripes (num_threads : Int) (ts : Int → thread_state) : Int → thread_state :=
  fun i => if 0 ≤ i ∧ i < num_threads then { ts i with num_stripes := 0 } else ts i

/-- The statement `m->thread_states[thread_ind].num_stripes++`. -/
def inc_num_stripes (ts : Int → thread_state) (thread_ind : Int) : Int → thread_state :=
  fun i => if i = thread_ind then { ts i with num_stripes := (ts i).num_stripes + 1 } else ts i

/-- A store of a whole stripe into `thread_states[thread_ind].stripes[stripe_ind]`. -/
def set_stripe (ts : Int → thread_state) (thread_ind stripe_ind : Int) (v : stripe) :
    Int → thread_state :=
  fun i => if i = thread_ind then
      { ts i with stripes := fun j => if j = stripe_ind then v else (ts i).stripes j }
    else ts i

/-- Lines 2166-2179 (and the identical lines 2204-2214): the stripe goes to the next lower
thread; on wrap-around the stripe index advances and the fractional accumulator decides
whether the next group of stripes is one unit larger. -/
def next_thread (num_threads num_stripes step frac_step : Int) (l : calc_locals) : calc_locals :=
  let thread_ind := l.thread_ind - 1
  if thread_ind < 0 then
    let frac := l.frac + frac_step
    if frac ≥ num_stripes then
      { l with thread_ind := num_threads - 1, stripe_ind := l.stripe_ind + 1,
               this_step := step + 1, frac := frac - num_stripes }
    else
      { l with thread_ind := num_threads - 1, stripe_ind := l.stripe_ind + 1,
               this_step := step, frac := frac }
  else
    { l with thread_ind := thread_ind }

/-- Lines 2157-2179: one iteration of the loop that divides along the y axis. -/
def stripe_step_y (num_threads num_stripes step frac_step xend : Int) (l : calc_locals) :
    Option calc_locals :=
  if 0 ≤ l.thread_ind ∧ l.thread_ind < MAX_THREADS ∧
      0 ≤ l.stripe_ind ∧ l.stripe_ind < MAX_STRIPES then
    let ts := inc_num_stripes l.thread_states l.thread_ind
    let ts := set_stripe ts l.thread_ind l.stripe_ind
      ⟨l.xstart, xend, l.ystart, l.ystart + l.this_step - 1⟩
    some (next_thread num_threads num_stripes step frac_step
      { l with thread_states := ts, s := some (l.thread_ind, l.stripe_ind),
               ystart := l.ystart + l.this_step })
  else none

/-- Lines 2196-2214: one iteration of the loop that divides along the x axis. -/
def stripe_step_x (num_threads num_stripes step frac_step yend : Int) (l : calc_locals) :
    Option calc_locals :=
  if 0 ≤ l.thread_ind ∧ l.thread_ind < MAX_THREADS ∧
      0 ≤ l.stripe_ind ∧ l.stripe_ind < MAX_STRIPES then
    let ts := inc_num_stripes l.thread_states l.thread_ind
    let ts := set_stripe ts l.thread_ind l.stripe_ind
      ⟨l.xstart, l.xstart + l.this_step - 1, l.ystart, yend⟩
    some (next_thread num_threads num_stripes step frac_step
      { l with thread_states := ts, s := some (l.thread_ind, l.stripe_ind),
               xstart := l.xstart + l.this_step })
  else none

/-- A counted loop `for (i = 0; i < n; i++) body` whose body does not read `i`. -/
def for_loop (body : calc_locals → Option calc_locals) : Nat → calc_locals → Option calc_locals
  | 0, l => some l
  | n + 1, l => (body l).bind (for_loop body n)

/-- Lines 2138-2153 / 2186-2192: step size, the stripe count limited to the extent, and the
fractional step.  Returns `(num_stripes, step, frac_step)`.  C integer division truncates. -/
def step_setup (size num_stripes : Int) : Int × Int × Int :=
  let step := Int.tdiv size num_stripes
  if step = 0 then (size, 1, size - size * 1)
  else (num_stripes, step, size - num_stripes * step)

/-- Lines 2138-2182: divide along the y axis and give the last stripe the leftover rows. -/
def divide_y (num_threads num_stripes : Int) (l : calc_locals) (xend yend : Int) :
    Option calc_locals :=
  let ysize := yend - l.ystart + 1
  let (num_stripes, step, frac_step) := step_setup ysize num_stripes
  let l := { l with frac := frac_step, this_step := step }
  match for_loop (stripe_step_y num_threads num_stripes step frac_step xend)
      num_stripes.toNat l with
  | none => none
  | some l =>
    match l.s with
    | none => none
    | some (t, j) =>
      let v := (l.thread_states t).stripes j
      some { l with thread_states := set_stripe l.thread_states t j { v with yend := yend } }

/-- Lines 2186-2216: divide along the x axis and give the last stripe the leftover columns. -/
def divide_x (num_threads num_stripes : Int) (l : calc_locals) (xend yend : Int) :
    Option calc_locals :=
  let xsize := xend - l.xstart + 1
  let (num_stripes, step, frac_step) := step_setup xsize num_stripes
  let l := { l with frac := frac_step, this_step := step }
  match for_loop (stripe_step_x num_threads num_stripes step frac_step yend)
      num_stripes.toNat l with
  | none => none
  | some l =>
    match l.s with
    | none => none
    | some (t, j) =>
      let v := (l.thread_states t).stripes j
      some { l with thread_states := set_stripe l.thread_states t j { v with xend := xend } }

/-- Line 2136: the test that selects division along the y axis. -/
def split_along_y (xsize ysize num_stripes : Int) : Bool :=
  decide (ysize ≥ shl num_stripes 3) || decide (ysize ≥ xsize)

/-- Lines 2108-2217 on the rectangle `xstart..xend` by `ystart..yend`: the state of the
locals after the stripe lists have been written.  `spt` is
`cfg_settings.stripes_per_thread.val`; `num_threads_ind` and `num_threads` are the globals of
the same name.  The result is `none` when a store leaves `thread_states` or a `stripes`
array, or when `s` is dereferenced uninitialised. -/
def man_calculate_locals (spt num_threads_ind num_threads : Int) (ts : Int → thread_state)
    (xstart xend ystart yend : Int) : Option calc_locals :=
  let xsize := xend - xstart + 1
  let ysize := yend - ystart + 1
  let num_stripes := stripes_per_thread spt num_threads_ind
  let num_stripes := shl num_stripes num_threads_ind
  if num_threads > MAX_THREADS then none
  else
    let l : calc_locals :=
      { thread_states := clear_num_stripes num_threads ts, thread_ind := num_threads - 1,
        stripe_ind := 0, xstart := xstart, ystart := ystart, frac := 0, this_step := 0,
        s := none }
    if split_along_y xsize ysize num_stripes then divide_y num_threads num_stripes l xend yend
    else divide_x num_threads num_stripes l xend yend

/-- The stripe scheduling of `man_calculate` (lines 2096-2217): the calculation structure
with the stripe lists filled in.  The calls that follow in the source (`man_setup`, the
dispatch of `man_calculate_threaded` and the timing) do not change the stripe lists. -/
def man_calculate (spt num_threads_ind num_threads : Int) (need_recalc : Bool)
    (m : man_calc_struct) (xstart xend ystart yend : Int) : Option man_calc_struct :=
  let (xstart, xend, ystart, yend) := compute_rect need_recalc m xstart xend ystart yend
  (man_calculate_locals spt num_threads_ind num_threads m.thread_states
    xstart xend ystart yend).map (fun l => { m with thread_states := l.thread_states })

/-! ## get_cpu_info (quickman.c:3190-3202) -/

/-- Lines 3198-3200: `for (ind = 0; ind <= MAX_THREADS_IND; ind++) if ((1 << ind) >=
num_threads) break;`, started at `ind`.  The first argument bounds the number of loop
tests; `none` means the bound was too small. -/
def num_threads_ind_loop (num_threads : Int) : Nat → Int → Option Int
  | 0, _ => none
  | fuel + 1, ind =>
    if ind ≤ MAX_THREADS_IND then
      if shl 1 ind ≥ num_threads then some ind
      else num_threads_ind_loop num_threads fuel (ind + 1)
    else some ind

/-- Lines 3193-3202: the worker count derived from `info.dwNumberOfProcessors`, a 32-bit
unsigned value that the assignment to the `int` `num_threads` reinterprets in two's
complement.  Returns `(num_threads, num_threads_ind)`. -/
def get_cpu_info (dwNumberOfProcessors : Nat) : Option (Int × Int) :=
  let dw : Nat := dwNumberOfProcessors % 4294967296
  let num_threads : Int := if dw < 2147483648 then (dw : Int) else (dw : Int) - 4294967296
  (num_threads_ind_loop num_threads (MAX_THREADS_IND + 2).toNat 0).map
    (fun num_threads_ind => (shl 1 num_threads_ind, num_threads_ind))

/-! ## Quadrant cache and panning (quickman.c:2264-2582) -/

/-- The C struct `rectangle` (quickman.h:127-133); `x0`, `x1` stand for `x[0]`, `x[1]`. -/
structure rectangle where
  x0 : Int
  x1 : Int
  y0 : Int
  y1 : Int
  valid : Int
deriving DecidableEq, Repr

/-- The C struct `quadrant` (quickman.h:136-157).  `handle` and `bitmap_data` are the
identities of the bitmap handle and of the pixel buffer. -/
structure quadrant where
  status : Int
  handle : Int
  quad_rect : rectangle
  bitmap_data : Int
  src_xoffs : Int
  src_yoffs : Int
  dest_xoffs : Int
  dest_yoffs : Int
  blit_xsize : Int
  blit_ysize : Int
deriving DecidableEq, Repr

/-- The global variables read and written by the quadrant functions: the image size and pan
offsets of `main_man_calc_struct`, `update_rect[0..1]`, `quad[UL]`, `quad[UR]`, `quad[LL]`,
`quad[LR]`, the screen position and the `STAT_RECALC_FOR_PALETTE` bit of `status`. -/
structure pan_globals where
  xsize : Int
  ysize : Int
  pan_xoffs : Int
  pan_yoffs : Int
  update_rect_0 : rectangle
  update_rect_1 : rectangle
  quad_UL : quadrant
  quad_UR : quadrant
  quad_LL : quadrant
  quad_LR : quadrant
  screen_xpos : Int
  screen_ypos : Int
  recalc_for_palette : Bool
deriving DecidableEq, Repr

/-- Function `swap_quadrants` (lines 2269-2282): exchange buffer pointer and handle. -/
def swap_quadrants (q1 q2 : quadrant) : quadrant × quadrant :=
  ({ q1 with bitmap_data := q2.bitmap_data, handle := q2.handle },
   { q2 with bitmap_data := q1.bitmap_data, handle := q1.handle })

/-- Function `reset_quadrants` (lines 2289-2344). -/
def reset_quadrants (g : pan_globals) : pan_globals :=
  let xsize := g.xsize
  let ysize := g.ysize
  { g with
    quad_UL := { g.quad_UL with
      status := QSTAT_DO_BLIT, src_xoffs := 0, src_yoffs := 0, dest_xoffs := 0,
      dest_yoffs := 0, blit_xsize := xsize, blit_ysize := ysize,
      quad_rect := { g.quad_UL.quad_rect with x0 := 0, y0 := 0, x1 := xsize - 1,
                                              y1 := ysize - 1 } },
    quad_UR := { g.quad_UR with
      status := 0,
      quad_rect := { g.quad_UR.quad_rect with x0 := xsize, y0 := 0, x1 := shl xsize 1 - 1,
                                              y1 := ysize - 1 } },
    quad_LL := { g.quad_LL with
      status := 0,
      quad_rect := { g.quad_LL.quad_rect with x0 := 0, y0 := ysize, x1 := xsize - 1,
                                              y1 := shl ysize 1 - 1 } },
    quad_LR := { g.quad_LR with
      status := 0,
      quad_rect := { g.quad_LR.quad_rect with x0 := xsize, y0 := ysize,
                                              x1 := shl xsize 1 - 1,
                                              y1 := shl ysize 1 - 1 } },
    update_rect_0 := { g.update_rect_0 with valid := 1, x0 := 0, x1 := xsize - 1, y0 := 0,
                                            y1 := ysize - 1 },
    update_rect_1 := { g.update_rect_1 with valid := 0 },
    screen_xpos := 0,
    screen_ypos := 0 }

/-- Lines 2446-2455 (x) and 2456-2465 (y): renormalise a moved screen coordinate.  Returns
the coordinate and the swap flag. -/
def renormalize (pos size : Int) : Int × Bool :=
  let r : Int × Bool := if pos < 0 then (pos + size, true) else (pos, false)
  if r.1 > size then (r.1 - size, true) else r

/-- Lines 2484-2498: the vertical update rectangle `update_rect[1]`. -/
def vertical_rect (u : rectangle) (offs_x screen_xpos screen_ypos xsize ysize : Int) :
    rectangle :=
  let u := { u with valid := offs_x, y0 := screen_ypos, y1 := screen_ypos + ysize - 1 }
  let u := if offs_x > 0 then { u with x0 := screen_xpos, x1 := screen_xpos + offs_x - 1 }
           else u
  if offs_x < 0 then { u with x0 := screen_xpos + xsize + offs_x,
                              x1 := screen_xpos + xsize - 1 }
  else u

/-- Lines 2505-2521: the horizontal update rectangle `update_rect[0]`, and the clipping of
the corner it shares with the vertical rectangle `u[1]`.  Returns
`(update_rect[0], update_rect[1])`. -/
def horizontal_rect (u u1 : rectangle) (offs_y screen_xpos screen_ypos xsize ysize : Int) :
    rectangle × rectangle :=
  let u := { u with valid := offs_y, x0 := screen_xpos, x1 := screen_xpos + xsize - 1 }
  let p : rectangle × rectangle :=
    if offs_y > 0 then
      let tmp := screen_ypos + offs_y - 1
      ({ u with y0 := screen_ypos, y1 := tmp }, { u1 with y0 := tmp + 1 })
    else (u, u1)
  if offs_y < 0 then
    let tmp := screen_ypos + ysize + offs_y
    ({ p.1 with y0 := tmp, y1 := screen_ypos + ysize - 1 }, { p.2 with y1 := tmp - 1 })
  else p

/-- Lines 2527-2575: the blit rectangles of the four quadrants from the screen position. -/
def blit_rects (g : pan_globals) : pan_globals :=
  let xsize := g.xsize
  let ysize := g.ysize
  let screen_xpos := g.screen_xpos
  let screen_ypos := g.screen_ypos
  let ul := { g.quad_UL with status := 0 }
  let ur := { g.quad_UR with status := 0 }
  let ll := { g.quad_LL with status := 0 }
  let lr := { g.quad_LR with status := 0 }
  let ul := if screen_xpos < xsize ∧ screen_ypos < ysize then
      { ul with status := QSTAT_DO_BLIT, dest_xoffs := 0, dest_yoffs := 0,
                src_xoffs := screen_xpos, src_yoffs := screen_ypos,
                blit_xsize := xsize - screen_xpos, blit_ysize := ysize - screen_ypos }
    else ul
  let ur := if screen_xpos > 0 ∧ screen_ypos < ysize then
      { ur with status := QSTAT_DO_BLIT, dest_xoffs := xsize - screen_xpos, dest_yoffs := 0,
                src_xoffs := 0, src_yoffs := screen_ypos,
                blit_xsize := screen_xpos, blit_ysize := ysize - screen_ypos }
    else ur
  let ll := if screen_xpos < xsize ∧ screen_ypos > 0 then
      { ll with status := QSTAT_DO_BLIT, dest_xoffs := 0, dest_yoffs := ysize - screen_ypos,
                src_xoffs := screen_xpos, src_yoffs := 0,
                blit_xsize := xsize - screen_xpos, blit_ysize := screen_ypos }
    else ll
  let lr := if screen_xpos > 0 ∧ screen_ypos > 0 then
      { lr with status := QSTAT_DO_BLIT, dest_xoffs := xsize - screen_xpos,
                dest_yoffs := ysize - screen_ypos, src_xoffs := 0, src_yoffs := 0,
                blit_xsize := screen_xpos, blit_ysize := screen_ypos }
    else lr
  { g with quad_UL := ul, quad_UR := ur, quad_LL := ll, quad_LR := lr }

/-- Function `pan_image` (lines 2422-2577): the new quadrant state after a pan by
`(offs_x, offs_y)`.  The test `offs_x | offs_y` is nonzero exactly when one of the offsets
is nonzero.  The closing call `do_man_calculate(0)` (line 2580), which hands the update
rectangles to the calculation, is a separate function and is not part of this definition. -/
def pan_image (offs_x offs_y : Int) (g : pan_globals) : pan_globals :=
  if offs_x ≠ 0 ∨ offs_y ≠ 0 then
    let xsize := g.xsize
    let ysize := g.ysize
    let rx := renormalize (g.screen_xpos - offs_x) xsize
    let ry := renormalize (g.screen_ypos - offs_y) ysize
    let screen_xpos := rx.1
    let screen_ypos := ry.1
    let swap_x := rx.2
    let swap_y := ry.2
    let top := if swap_x then swap_quadrants g.quad_UL g.quad_UR else (g.quad_UL, g.quad_UR)
    let bot := if swap_x then swap_quadrants g.quad_LL g.quad_LR else (g.quad_LL, g.quad_LR)
    let left := if swap_y then swap_quadrants top.1 bot.1 else (top.1, bot.1)
    let right := if swap_y then swap_quadrants top.2 bot.2 else (top.2, bot.2)
    let u1 := vertical_rect g.update_rect_1 offs_x screen_xpos screen_ypos xsize ysize
    let u := horizontal_rect g.update_rect_0 u1 offs_y screen_xpos screen_ypos xsize ysize
    let g := { g with
      pan_xoffs := g.pan_xoffs - offs_x, pan_yoffs := g.pan_yoffs - offs_y,
      screen_xpos := screen_xpos, screen_ypos := screen_ypos,
      quad_UL := left.1, quad_LL := left.2, quad_UR := right.1, quad_LR := right.2,
      update_rect_0 := u.1, update_rect_1 := u.2 }
    { blit_rects g with recalc_for_palette := true }
  else g

/-! ## Specification vocabulary for the stripe scheduler -/

/-- The accumulator `frac` and the stripe extent `this_step` that are in force while the
stripes with stripe index `g` are written (the values of lines 2152-2153 for `g = 0`, and the
update of lines 2173-2178 for each later index). -/
def frac_seq (num_stripes step frac_step : Int) : Nat → Int × Int
  | 0 => (frac_step, step)
  | g + 1 =>
    if (frac_seq num_stripes step frac_step g).1 + frac_step ≥ num_stripes then
      ((frac_seq num_stripes step frac_step g).1 + frac_step - num_stripes, step + 1)
    else ((frac_seq num_stripes step frac_step g).1 + frac_step, step)

/-- The extent given to every stripe with stripe index `g`. -/
def group_step (num_stripes step frac_step : Int) (g : Int) : Int :=
  (frac_seq num_stripes step frac_step g.toNat).2

/-- The sum of the extents of the stripe indices below `g` (for one thread). -/
def rows_before (num_stripes step frac_step : Int) : Nat → Int
  | 0 => 0
  | g + 1 => rows_before num_stripes step frac_step g + (frac_seq num_stripes step frac_step g).2

/-- Lower end of a stripe along the split axis (`along_y = true`: the stripes are stacked
along y). -/
def lo (along_y : Bool) (s : stripe) : Int := if along_y then s.ystart else s.xstart

/-- Upper end of a stripe along the split axis. -/
def hi (along_y : Bool) (s : stripe) : Int := if along_y then s.yend else s.xend

/-- Lower end of a stripe across the split axis. -/
def clo (along_y : Bool) (s : stripe) : Int := if along_y then s.xstart else s.ystart

/-- Upper end of a stripe across the split axis. -/
def chi (along_y : Bool) (s : stripe) : Int := if along_y then s.xend else s.yend

/-- The running start coordinate of the loop along the split axis. -/
def pos (along_y : Bool) (l : calc_locals) : Int := if along_y then l.ystart else l.xstart

/-- The start coordinate across the split axis, which the loop leaves alone. -/
def cpos (along_y : Bool) (l : calc_locals) : Int := if along_y then l.xstart else l.ystart

/-- One loop iteration for either axis. -/
def stripe_step (along_y : Bool) (num_threads num_stripes step frac_step cend : Int)
    (l : calc_locals) : Option calc_locals :=
  if along_y then stripe_step_y num_threads num_stripes step frac_step cend l
  else stripe_step_x num_threads num_stripes step frac_step cend l

/-- The pixel `(x, y)` lies in the stripe. -/
def in_stripe (s : stripe) (x y : Int) : Prop :=
  s.xstart ≤ x ∧ x ≤ s.xend ∧ s.ystart ≤ y ∧ y ≤ s.yend

/-- Number of pixels of a stripe with `xstart ≤ xend + 1` and `ystart ≤ yend + 1`. -/
def stripe_pixels (s : stripe) : Int := (s.xend - s.xstart + 1) * (s.yend - s.ystart + 1)

/-- Number of pixels in the stripe list of thread `t`. -/
def thread_pixels (ts : Int → thread_state) (t : Int) : Int :=
  ∑ g in Finset.range (ts t).num_stripes.toNat, stripe_pixels ((ts t).stripes g)

/-- The slot `stripes[g]` of thread `t` has been written when the loop stands at
`(l.thread_ind, l.stripe_ind)`. -/
def written (num_threads : Int) (l : calc_locals) (t g : Int) : Prop :=
  0 ≤ t ∧ t < num_threads ∧ 0 ≤ g ∧
    (g < l.stripe_ind ∨ (g = l.stripe_ind ∧ l.thread_ind < t))

/-- The slot `(t, g)` is written before the slot `(t', g')`: lower stripe index first, and
within one stripe index the higher thread first. -/
def before (t g t' g' : Int) : Prop := g < g' ∨ (g = g' ∧ t' < t)

/-- The loop invariant of the stripe loops after `k` iterations. -/
structure loop_inv (ay : Bool) (W N step r a0 c0 cend : Int) (k : Nat) (l : calc_locals) :
    Prop where
  ti_lo : 0 ≤ l.thread_ind
  ti_hi : l.thread_ind < W
  si_lo : 0 ≤ l.stripe_ind
  hk : (k : Int) = l.stripe_ind * W + (W - 1 - l.thread_ind)
  hfrac : l.frac = (frac_seq N step r l.stripe_ind.toNat).1
  hstep : l.this_step = group_step N step r l.stripe_ind
  hcpos : cpos ay l = c0
  hpos : pos ay l = a0 + W * rows_before N step r l.stripe_ind.toNat
    + (W - 1 - l.thread_ind) * l.this_step
  hpos_ge : a0 ≤ pos ay l
  hcnt : ∀ t, 0 ≤ t → t < W → (l.thread_states t).num_stripes =
    if l.thread_ind < t then l.stripe_ind + 1 else l.stripe_ind
  hmem : ∀ t g, written W l t g →
    clo ay ((l.thread_states t).stripes g) = c0 ∧
    chi ay ((l.thread_states t).stripes g) = cend ∧
    a0 ≤ lo ay ((l.thread_states t).stripes g) ∧
    hi ay ((l.thread_states t).stripes g) < pos ay l ∧
    hi ay ((l.thread_states t).stripes g) =
      lo ay ((l.thread_states t).stripes g) + group_step N step r g - 1
  hord : ∀ t g t' g', written W l t g → written W l t' g' → before t g t' g' →
    hi ay ((l.thread_states t).stripes g) < lo ay ((l.thread_states t').stripes g')
  hcov : ∀ a, a0 ≤ a → a < pos ay l → ∃ t g, written W l t g ∧
    lo ay ((l.thread_states t).stripes g) ≤ a ∧ a ≤ hi ay ((l.thread_states t).stripes g)
  hs : 0 < k → l.s = some (if l.thread_ind = W - 1 then (0, l.stripe_ind - 1)
    else (l.thread_ind + 1, l.stripe_ind))

/-- The store `s->yend = yend` (line 2182) or `s->xend = xend` (line 2216) into a stripe. -/
def set_hi (along_y : Bool) (v : stripe) (a : Int) : stripe :=
  if along_y then { v with yend := a } else { v with xend := a }

/-- The division along either axis; `cend` is the end of the rectangle across the split axis
and `aend` its end along the split axis. -/
def divide (along_y : Bool) (num_threads num_stripes : Int) (l : calc_locals)
    (cend aend : Int) : Option calc_locals :=
  if along_y then divide_y num_threads num_stripes l cend aend
  else divide_x num_threads num_stripes l aend cend

/-- The slot `stripes[g]` of thread `t` is part of the stripe list of thread `t`. -/
def valid_slot (num_threads : Int) (ts : Int → thread_state) (t g : Int) : Prop :=
  0 ≤ t ∧ t < num_threads ∧ 0 ≤ g ∧ g < (ts t).num_stripes

/-- What the stripe loops and the final store establish: `N` stripes with group extents
`group_step N step r`, written in the order `before`, the slot `last` being the last one written
and extended from `pN - 1` to `aend`. -/
structure sched_spec (ay : Bool) (W N step r a0 aend c0 cend : Int)
    (ts : Int → thread_state) (last : Int × Int) (pN : Int) : Prop where
  step_pos : 1 ≤ step
  r_nonneg : 0 ≤ r
  r_lt : r < N
  last_t0 : 0 ≤ last.1
  last_tW : last.1 < W
  last_g : 0 ≤ last.2
  total : N = last.2 * W + (W - last.1)
  cnt : ∀ t, 0 ≤ t → t < W →
    (ts t).num_stripes = if last.1 ≤ t then last.2 + 1 else last.2
  posN : pN = a0 + W * rows_before N step r last.2.toNat
    + (W - last.1) * group_step N step r last.2
  posN_le : pN ≤ aend + 1
  mem : ∀ t g, valid_slot W ts t g →
    clo ay ((ts t).stripes g) = c0 ∧ chi ay ((ts t).stripes g) = cend ∧
    a0 ≤ lo ay ((ts t).stripes g) ∧ hi ay ((ts t).stripes g) ≤ aend
  ext : ∀ t g, valid_slot W ts t g → (t, g) ≠ last →
    hi ay ((ts t).stripes g) = lo ay ((ts t).stripes g) + group_step N step r g - 1 ∧
    hi ay ((ts t).stripes g) < pN - 1
  ext_last : hi ay ((ts last.1).stripes last.2) = aend ∧
    lo ay ((ts last.1).stripes last.2) + group_step N step r last.2 = pN
  ord : ∀ t g t' g', valid_slot W ts t g → valid_slot W ts t' g' → before t g t' g' →
    hi ay ((ts t).stripes g) < lo ay ((ts t').stripes g')
  cov : ∀ a, a0 ≤ a → a ≤ aend → ∃ t g, valid_slot W ts t g ∧
    lo ay ((ts t).stripes g) ≤ a ∧ a ≤ hi ay ((ts t).stripes g)

/-- The total number of stripes requested for the image (lines 2113-2122). -/
def total_stripes (spt num_threads_ind : Int) : Int :=
  shl (stripes_per_thread spt num_threads_ind) num_threads_ind

/-- The axis chosen by line 2136 for a rectangle: `true` when the stripes are stacked
along y. -/
def axis_of (spt num_threads_ind xstart xend ystart yend : Int) : Bool :=
  split_along_y (xend - xstart + 1) (yend - ystart + 1) (total_stripes spt num_threads_ind)

/-- The coordinate of the pixel `(x, y)` along the split axis. -/
def along (along_y : Bool) (x y : Int) : Int := if along_y then y else x

/-- The coordinate of the pixel `(x, y)` across the split axis. -/
def across (along_y : Bool) (x y : Int) : Int := if along_y then x else y

/-- A concrete calculation structure: a 10 by 10 image with cleared stripe lists. -/
def example_calc : man_calc_struct :=
  ⟨10, 10, 0, 0, fun _ => ⟨fun _ => ⟨0, 0, 0, 0⟩, 0⟩⟩

/-- The number of stripes the loop generates: the value of `num_stripes` after line 2142
(or 2190), i.e. the requested total limited to the extent along the split axis. -/
def stripe_count (spt num_threads_ind xstart xend ystart yend : Int) : Int :=
  (step_setup (along (axis_of spt num_threads_ind xstart xend ystart yend) xend yend
      - along (axis_of spt num_threads_ind xstart xend ystart yend) xstart ystart + 1)
    (total_stripes spt num_threads_ind)).1

/-- The locals of `man_calculate` after the first `k` iterations of the stripe loop it runs
on this input (line 2155 when dividing along y, line 2194 when dividing along x). -/
def loop_locals (spt num_threads_ind num_threads : Int) (ts : Int → thread_state)
    (xstart xend ystart yend : Int) (k : Nat) : Option calc_locals :=
  let ay := axis_of spt num_threads_ind xstart xend ystart yend
  let p := step_setup (along ay xend yend - along ay xstart ystart + 1)
    (total_stripes spt num_threads_ind)
  for_loop (stripe_step ay num_threads p.1 p.2.1 p.2.2 (across ay xend yend)) k
    ⟨clear_num_stripes num_threads ts, num_threads - 1, 0, xstart, ystart, p.2.2, p.2.1, none⟩

/-- The store through `s` after the loop (line 2182 or 2216). -/
def store_last (along_y : Bool) (aend : Int) (l : calc_locals) : Option calc_locals :=
  l.s.bind (fun q =>
    let v := set_hi along_y ((l.thread_states q.1).stripes q.2) aend
    some { l with thread_states := set_stripe l.thread_states q.1 q.2 v })

/-- The total number of stripes in the stripe lists of threads `0 .. num_threads - 1`. -/
def stripes_written (num_threads : Int) (ts : Int → thread_state) : Int :=
  ∑ t ∈ Finset.range num_threads.toNat, (ts t).num_stripes

/-- The index part of the loop invariant after `k` iterations: it holds for every rectangle,
also an empty one. -/
structure index_inv (W : Int) (k : Nat) (l : calc_locals) : Prop where
  ti_lo : 0 ≤ l.thread_ind
  ti_hi : l.thread_ind < W
  si_lo : 0 ≤ l.stripe_ind
  hk : (k : Int) = l.stripe_ind * W + (W - 1 - l.thread_ind)
  hcnt : ∀ t, 0 ≤ t → t < W → (l.thread_states t).num_stripes =
    if l.thread_ind < t then l.stripe_ind + 1 else l.stripe_ind

/-! ## Specification vocabulary for the quadrant cache -/

/-- The canvas pixel `(x, y)` lies in the rectangle (its `valid` field is not consulted). -/
def in_rect (r : rectangle) (x y : Int) : Prop :=
  r.x0 ≤ x ∧ x ≤ r.x1 ∧ r.y0 ≤ y ∧ y ≤ r.y1

/-- The canvas pixel `(x, y)` is covered by a valid update rectangle. -/
def covered (u : rectangle) (x y : Int) : Prop :=
  u.valid ≠ 0 ∧ in_rect u x y

/-- The canvas pixel `(x, y)` lies in the screen window (the viewport), whose upper left
corner is `(screen_xpos, screen_ypos)` and whose size is the image size. -/
def in_viewport (g : pan_globals) (x y : Int) : Prop :=
  g.screen_xpos ≤ x ∧ x < g.screen_xpos + g.xsize ∧
  g.screen_ypos ≤ y ∧ y < g.screen_ypos + g.ysize

/-- The buffer identities (pixel buffer and bitmap handle) held by `quad[UL]`, `quad[UR]`,
`quad[LL]`, `quad[LR]`, in this order. -/
def buffers (g : pan_globals) : (Int × Int) × (Int × Int) × (Int × Int) × (Int × Int) :=
  ((g.quad_UL.bitmap_data, g.quad_UL.handle), (g.quad_UR.bitmap_data, g.quad_UR.handle),
   (g.quad_LL.bitmap_data, g.quad_LL.handle), (g.quad_LR.bitmap_data, g.quad_LR.handle))

/-- Exchange of the buffers of (UL, UR) and of (LL, LR). -/
def exchange_x {α : Type} (b : α × α × α × α) : α × α × α × α :=
  (b.2.1, b.1, b.2.2.2, b.2.2.1)

/-- Exchange of the buffers of (UL, LL) and of (UR, LR). -/
def exchange_y {α : Type} (b : α × α × α × α) : α × α × α × α :=
  (b.2.2.1, b.2.2.2, b.1, b.2.1)

/-- The four quadrant rectangles partition the `2 * xsize` by `2 * ysize` canvas: every canvas
pixel lies in exactly one of them and they contain nothing else. -/
def quad_partition (g : pan_globals) : Prop :=
  ∀ x y,
    ((0 ≤ x ∧ x < 2 * g.xsize ∧ 0 ≤ y ∧ y < 2 * g.ysize) ↔
      (in_rect g.quad_UL.quad_rect x y ∨ in_rect g.quad_UR.quad_rect x y ∨
       in_rect g.quad_LL.quad_rect x y ∨ in_rect g.quad_LR.quad_rect x y)) ∧
    ¬ (in_rect g.quad_UL.quad_rect x y ∧ in_rect g.quad_UR.quad_rect x y) ∧
    ¬ (in_rect g.quad_UL.quad_rect x y ∧ in_rect g.quad_LL.quad_rect x y) ∧
    ¬ (in_rect g.quad_UL.quad_rect x y ∧ in_rect g.quad_LR.quad_rect x y) ∧
    ¬ (in_rect g.quad_UR.quad_rect x y ∧ in_rect g.quad_LL.quad_rect x y) ∧
    ¬ (in_rect g.quad_UR.quad_rect x y ∧ in_rect g.quad_LR.quad_rect x y) ∧
    ¬ (in_rect g.quad_LL.quad_rect x y ∧ in_rect g.quad_LR.quad_rect x y)

/-- The states reached from `reset_quadrants` on an `xsize` by `ysize` image by pans whose
offsets do not exceed the image size; `reset_quadrants` may be called again at any time (as
`do_man_calculate` does when a recalculation is pending). -/
inductive reachable (xsize ysize : Int) : pan_globals → Prop
  | reset (g : pan_globals) (hx : g.xsize = xsize) (hy : g.ysize = ysize) :
      reachable xsize ysize (reset_quadrants g)
  | pan (g : pan_globals) (offs_x offs_y : Int) (h : reachable xsize ysize g)
      (hx0 : -xsize ≤ offs_x) (hx1 : offs_x ≤ xsize)
      (hy0 : -ysize ≤ offs_y) (hy1 : offs_y ≤ ysize) :
      reachable xsize ysize (pan_image offs_x offs_y g)

/-- A concrete quadrant state: a 5 by 5 image with buffers 10, 11, 12, 13, after
`reset_quadrants`. -/
def example_pan : pan_globals :=
  reset_quadrants ⟨5, 5, 0, 0, ⟨0, 0, 0, 0, 0⟩, ⟨0, 0, 0, 0, 0⟩,
    ⟨0, 10, ⟨0, 0, 0, 0, 0⟩, 10, 0, 0, 0, 0, 0, 0⟩,
    ⟨0, 11, ⟨0, 0, 0, 0, 0⟩, 11, 0, 0, 0, 0, 0, 0⟩,
    ⟨0, 12, ⟨0, 0, 0, 0, 0⟩, 12, 0, 0, 0, 0, 0, 0⟩,
    ⟨0, 13, ⟨0, 0, 0, 0, 0⟩, 13, 0, 0, 0, 0, 0, 0⟩, 0, 0, false⟩

/-- The quadrant `quad[i]` for the indices `UL = 0`, `UR = 1`, `LL = 2`, `LR = 3`
(quickman.c:260-263). -/
def quad (g : pan_globals) (i : Nat) : quadrant :=
  match i with
  | 0 => g.quad_UL
  | 1 => g.quad_UR
  | 2 => g.quad_LL
  | _ => g.quad_LR

/-- The screen pixel `(px, py)` is written by the blit of quadrant `q`: the quadrant has
`QSTAT_DO_BLIT` and the pixel lies in the destination rectangle of
`BitBlt(hdc, dest_xoffs, dest_yoffs, blit_xsize, blit_ysize, ..., src_xoffs, src_yoffs, SRCCOPY)`
(`striped_blit`, lines 4362-4373, which copies the rectangle in horizontal bands). -/
def blit_dest (q : quadrant) (px py : Int) : Prop :=
  q.status = QSTAT_DO_BLIT ∧
  q.dest_xoffs ≤ px ∧ px < q.dest_xoffs + q.blit_xsize ∧
  q.dest_yoffs ≤ py ∧ py < q.dest_yoffs + q.blit_ysize

/-- The cell of the quadrant bitmap that the blit of `q` copies to the screen pixel
`(px, py)`. -/
def blit_src (q : quadrant) (px py : Int) : Int × Int :=
  (px - q.dest_xoffs + q.src_xoffs, py - q.dest_yoffs + q.src_yoffs)

/-- A concrete quadrant state: an `xsize` by `ysize` image with buffers 10, 11, 12, 13, after
`reset_quadrants`. -/
def example_view (xsize ysize : Int) : pan_globals :=
  reset_quadrants ⟨xsize, ysize, 0, 0, ⟨0, 0, 0, 0, 0⟩, ⟨0, 0, 0, 0, 0⟩,
    ⟨0, 10, ⟨0, 0, 0, 0, 0⟩, 10, 0, 0, 0, 0, 0, 0⟩,
    ⟨0, 11, ⟨0, 0, 0, 0, 0⟩, 11, 0, 0, 0, 0, 0, 0⟩,
    ⟨0, 12, ⟨0, 0, 0, 0, 0⟩, 12, 0, 0, 0, 0, 0, 0⟩,
    ⟨0, 13, ⟨0, 0, 0, 0, 0⟩, 13, 0, 0, 0, 0, 0, 0⟩, 0, 0, false⟩

/-! ## Iteration of one point (quickman.c:833-978, quickman.h:95-100, 177-203) -/

/-- The constant `DIVERGED_THRESH` (quickman.h:99).  The assembly kernels test the same
threshold through the exponent constant `DIV_EXP` (quickman.h:103). -/
def DIVERGED_THRESH : ℚ := 16

/-- The constant `QUEUE_FULL` (quickman.c:1543). -/
def QUEUE_FULL : Nat := 15

/-- The constant `PRECISION_SINGLE` (quickman.h:34). -/
def PRECISION_SINGLE : Int := 1

/-- The constant `PRECISION_DOUBLE` (quickman.h:35). -/
def PRECISION_DOUBLE : Int := 2

/-- The constant `ALG_C` (quickman.h:49). -/
def ALG_C : Nat := 4

/-- The C struct `man_pointstruct` (quickman.h:177-203) in exact arithmetic: the floating
point fields hold rationals, the arrays are functions of the index, `iters_ptr[i]` is the
address of an entry of the iteration count array, and `ab_in` is the pair
`(ab_in[0], ab_in[1])`.  The constant fields `two_d`, `two_f`, `rad_d`, `rad_f` (2.0 and the
threshold) and the unused `mag_ptr` are left out. -/
structure man_pointstruct where
  x : Nat → ℚ
  y : Nat → ℚ
  yy : Nat → ℚ
  a : Nat → ℚ
  b : Nat → ℚ
  mag : Nat → ℚ
  magprev : Nat → ℚ
  iters : Nat → Nat
  iters_ptr : Nat → Int
  iterctr : Nat
  ab_in : ℚ × ℚ
  cur_max_iters : Nat
  queue_status : Nat

/-- A store into the output arrays of the calculation: `iters ptr v` is the store `*ptr = v`
into the iteration count array, `mag ptr v` the store `MAG(m, ptr) = v` into the magnitude
array (quickman.h:497). -/
inductive mem_write where
  | iters (ptr : Int) (v : Nat)
  | mag (ptr : Int) (v : ℚ)

/-- The loop of `iterate_c` (lines 845-855) with the `unsigned` counters `iters` and
`iter_ct`; returns `(xx, yy, iters)` at the loop exit.  The first argument bounds the number of
iterations; 2^32 is enough for every start value of `iter_ct`. -/
def iterate_c_loop (a b : ℚ) : Nat → ℚ → ℚ → ℚ → ℚ → Nat → Nat → Option (ℚ × ℚ × Nat)
  | 0, _, _, _, _, _, _ => none
  | fuel + 1, x, y, xx, yy, iters, iter_ct =>
    let y := (x + x) * y + b
    let x := xx - yy + a
    let yy := y * y
    let xx := x * x
    let iters := (iters + 1) % 4294967296
    if xx + yy ≥ DIVERGED_THRESH then some (xx, yy, iters)
    else
      let iter_ct := (iter_ct + 4294967295) % 4294967296
      if iter_ct ≠ 0 then iterate_c_loop a b fuel x y xx yy iters iter_ct
      else some (xx, yy, iters)

/-- Function `iterate_c` (lines 833-863): iterates the point `ab_in`, stores the final
magnitude in `mag[0]` and returns the iteration count. -/
def iterate_c (ps : man_pointstruct) : Option (man_pointstruct × Nat) :=
  (iterate_c_loop ps.ab_in.1 ps.ab_in.2 4294967296 0 0 0 0 0 ps.cur_max_iters).map
    (fun r => ({ ps with mag := Function.update ps.mag 0 (r.1 + r.2.1) }, r.2.2))

/-- Function `queue_point_c` (lines 866-978) for the calc structure fields `max_iters` and
`mandel_iterate`; `re_width` and `im_width` are the differences `img_re[1] - img_re[0]` and
`img_im[0] - img_im[1]` used by the logging block.  The logging block (lines 873-958) iterates
the point `ab_in - (re_width / 2, im_width / 2)` once (`SQUARE_SIZE` is 1) and writes the
result to a file; the file is not modelled.  `mem` is the list of the stores into the output
arrays so far, the latest first. -/
def queue_point_c (max_iters : Nat)
    (mandel_iterate : man_pointstruct → Option (man_pointstruct × Nat))
    (re_width im_width : ℚ) (ps : man_pointstruct) (iters_ptr : Int) (mem : List mem_write) :
    Option (man_pointstruct × List mem_write) :=
  let center_re := ps.ab_in.1
  let center_im := ps.ab_in.2
  let ps := { ps with ab_in := (center_re - re_width / 2 + re_width * (1 * 0 / 1),
                                center_im - im_width / 2 + im_width * (1 * 0 / 1)) }
  (mandel_iterate ps).bind (fun r =>
    let ps := { r.1 with ab_in := (center_re, center_im) }
    (mandel_iterate ps).bind (fun r =>
      let ps := r.1
      let iters := if r.2 ≠ max_iters then (r.2 + 1) % 4294967296 else r.2
      let ps := { ps with iters_ptr := Function.update ps.iters_ptr 0 iters_ptr }
      let mem := mem_write.iters (ps.iters_ptr 0) iters :: mem
      let ps := { ps with iterctr := (ps.iterctr + iters) % 18446744073709551616 }
      some (ps, mem_write.mag (ps.iters_ptr 0) (ps.mag 0) :: mem)))

/-! ## man_setup (quickman.c:1935-2050) -/

/-- Lines 2027 and 2033-2034 of `man_setup`: the initial value of `queue_status` for the
4-point queue (`PRECISION_DOUBLE`) and for the 8-point queue. -/
def queue_init (precision : Int) : Nat :=
  if precision = PRECISION_DOUBLE then
    (QUEUE_FULL <<< 12) ||| (3 <<< 9) ||| (2 <<< 6) ||| (1 <<< 3) ||| 0
  else
    (QUEUE_FULL <<< 24) ||| (7 <<< 21) ||| (6 <<< 18) ||| (5 <<< 15) |||
      (4 <<< 12) ||| (3 <<< 9) ||| (2 <<< 6) ||| (1 <<< 3) ||| 0

/-- Function `man_setup` (lines 1935-2050), the part that acts on the iteration limit and on
the point structures: line 1943 (`m->max_iters &= ~1` on the `unsigned` field, so `~1` is
`0xFFFFFFFE`), the test of line 2020 that selects the C functions, in which case the local
`queue_init` is never assigned and has the indeterminate value `uninit`, and the loop of lines
2043-2049 over the point structures of the threads.  The coordinate arrays and the precision
selection (lines 1944-2015) are not part of this definition; `precision` is the value of
`m->precision` they leave.  Returns the new `max_iters` and the point structures. -/
def man_setup (max_iters alg : Nat) (sse_support precision : Int) (uninit num_threads : Nat)
    (ps : Nat → man_pointstruct) : Nat × (Nat → man_pointstruct) :=
  let max_iters := max_iters &&& 4294967294
  let qi := if alg &&& ALG_C ≠ 0 ∨ (sse_support < 2 ∧ precision = PRECISION_DOUBLE) then uninit
            else queue_init precision
  (max_iters, fun i =>
    if i < num_threads then
      { ps i with queue_status := qi, cur_max_iters := max_iters, iterctr := 0 }
    else ps i)

/-! ## Specification vocabulary for the iteration -/

/-- The orbit of 0 under `z ↦ z² + c` for `c = a + b i`, as pairs (real part, imaginary
part): `mandel_z a b n` is `z_n`. -/
def mandel_z (a b : ℚ) : Nat → ℚ × ℚ
  | 0 => (0, 0)
  | n + 1 => ((mandel_z a b n).1 * (mandel_z a b n).1 - (mandel_z a b n).2 * (mandel_z a b n).2 + a,
              2 * (mandel_z a b n).1 * (mandel_z a b n).2 + b)

/-- The squared magnitude `|z|²`. -/
def mag2 (z : ℚ × ℚ) : ℚ := z.1 * z.1 + z.2 * z.2

/-- The squared magnitude `|z_n|²` of the orbit for the point `ab_in` of a point structure. -/
def orbit_mag (ps : man_pointstruct) (n : Nat) : ℚ := mag2 (mandel_z ps.ab_in.1 ps.ab_in.2 n)

/-- A point structure for examples: every field 0, the point `ab_in = (a, b)` and the budget
`cur_max_iters = cap`. -/
def example_ps (a b : ℚ) (cap : Nat) : man_pointstruct :=
  ⟨fun _ => 0, fun _ => 0, fun _ => 0, fun _ => 0, fun _ => 0, fun _ => 0, fun _ => 0,
   fun _ => 0, fun _ => 0, 0, (a, b), cap, 0⟩

/-! ## The assembly kernels and the point queues (quickman.c:1002-1700) -/

/-- The macros `DIVERGED` and `DIVERGED_S` (lines 1546, 1552).  They compare the exponent bits
of the non-negative magnitude `mag[ind]` with `DIV_EXP`, the exponent of 16.0; in exact
arithmetic this is the test `mag[ind] ≥ 16`. -/
def DIVERGED (p : man_pointstruct) (ind : Nat) : Prop := p.mag ind ≥ DIVERGED_THRESH

/-- The macros `DIVERGED_PREV` and `DIVERGED_PREV_S` (lines 1549, 1553). -/
def DIVERGED_PREV (p : man_pointstruct) (ind : Nat) : Prop := p.magprev ind ≥ DIVERGED_THRESH

instance (p : man_pointstruct) (ind : Nat) : Decidable (DIVERGED p ind) :=
  inferInstanceAs (Decidable (p.mag ind ≥ DIVERGED_THRESH))

instance (p : man_pointstruct) (ind : Nat) : Decidable (DIVERGED_PREV p ind) :=
  inferInstanceAs (Decidable (p.magprev ind ≥ DIVERGED_THRESH))

/-- The registers `xmm_x01`, `xmm_x23` (`x`), `xmm_y01`, `xmm_y23` (`y`) and `xmm_yy01`,
`xmm_yy23` (`yy`) of the SSE2 kernels, one rational per point; for the SSE kernels the
registers `xmm_x03`, `xmm_x47` and so on. -/
structure xmm_regs where
  x : Nat → ℚ
  y : Nat → ℚ
  yy : Nat → ℚ

/-- The instructions of one pass of the loop of `iterate_amd_sse2` (lines 1081-1128, from
`skip_top` to the loop test) that act on the registers `xmm_x01`, `xmm_y01`, `xmm_yy01` and
`xmm_mag`, for one of the points 0, 1, in program order; the same instructions act on the
points 0-3 in `iterate_amd_sse` (lines 1330-1383).  The register `xmm_yy01` is written before
it is read.  Returns `(x, y, yy, mag)`, where `mag` is the value stored to `PS4_MAG01`. -/
def iter_block_01 (a b x y : ℚ) : ℚ × ℚ × ℚ × ℚ :=
  let y := y + b        -- addpd xmm_y01, PS4_B01
  let x := x + a        -- addpd xmm_x01, PS4_A01
  let yy := y           -- movapd xmm_yy01, xmm_y01
  let yy := yy * yy     -- mulpd xmm_yy01, xmm_yy01
  let y := y * x        -- mulpd xmm_y01, xmm_x01
  let x := x * x        -- mulpd xmm_x01, xmm_x01
  let y := y * 2        -- mulpd xmm_y01, xmm_two
  let mag := x          -- movapd xmm_mag, xmm_x01
  let x := x - yy       -- subpd xmm_x01, xmm_yy01
  let y := y + b        -- addpd xmm_y01, PS4_B01
  let mag := mag + yy   -- addpd xmm_mag, xmm_yy01
  let x := x + a        -- addpd xmm_x01, PS4_A01
  let yy := y           -- movapd xmm_yy01, xmm_y01
  let mag01 := mag      -- movapd PS4_MAG01, xmm_mag
  let yy := yy * yy     -- mulpd xmm_yy01, xmm_yy01
  let y := y * x        -- mulpd xmm_y01, xmm_x01
  let x := x * x        -- mulpd xmm_x01, xmm_x01
  let y := y * 2        -- mulpd xmm_y01, xmm_two
  let x := x - yy       -- subpd xmm_x01, xmm_yy01
  (x, y, yy, mag01)

/-- The instructions of one pass of the loop of `iterate_amd_sse2` that act on the registers
`xmm_x23`, `xmm_y23`, `xmm_yy23` and `xmm_mag`, for one of the points 2, 3, in program order
(points 4-7 in `iterate_amd_sse`).  Returns `(x, y, yy, mag, save_x, save_yy)`: `mag` is the
value stored to `PS4_MAG23`, `save_x` and `save_yy` are the values stored to `PS4_X23` and
`PS4_YY23` for the magnitude backout. -/
def iter_block_23 (a b x y yy : ℚ) : ℚ × ℚ × ℚ × ℚ × ℚ × ℚ :=
  let y := y * x        -- mulpd xmm_y23, xmm_x23
  let x := x * x        -- mulpd xmm_x23, xmm_x23
  let y := y + y        -- addpd xmm_y23, xmm_y23
  let save_x := x       -- movapd PS4_X23, xmm_x23
  let x := x - yy       -- subpd xmm_x23, xmm_yy23
  let y := y + b        -- addpd xmm_y23, PS4_B23
  let save_yy := yy     -- movapd PS4_YY23, xmm_yy23
  let x := x + a        -- addpd xmm_x23, PS4_A23
  let yy := y           -- movapd xmm_yy23, xmm_y23
  let yy := yy * yy     -- mulpd xmm_yy23, xmm_yy23
  let y := y * x        -- mulpd xmm_y23, xmm_x23
  let x := x * x        -- mulpd xmm_x23, xmm_x23
  let y := y * 2        -- mulpd xmm_y23, xmm_two
  let mag := x          -- movapd xmm_mag, xmm_x23
  let x := x - yy       -- subpd xmm_x23, xmm_yy23
  let y := y + b        -- addpd xmm_y23, PS4_B23
  let mag := mag + yy   -- addpd xmm_mag, xmm_yy23
  let mag23 := mag      -- movapd PS4_MAG23, xmm_mag
  let x := x + a        -- addpd xmm_x23, PS4_A23
  let yy := y           -- movapd xmm_yy23, xmm_y23
  let yy := yy * yy     -- mulpd xmm_yy23, xmm_yy23
  (x, y, yy, mag23, save_x, save_yy)

/-- One pass of the loop body from `skip_top` to the loop test for a kernel with `nlanes`
points: the points below `nlanes / 2` are in the first register group (`iter_block_01`), the
others in the second (`iter_block_23`); the array entries from `nlanes` on are not touched.
The blocks of the two groups are interleaved in the source; they share no register but
`xmm_mag`, which the first group has stored before the second group loads it. -/
def iter_pass (nlanes : Nat) (ps : man_pointstruct) (r : xmm_regs) :
    man_pointstruct × xmm_regs :=
  let lo := fun i => iter_block_01 (ps.a i) (ps.b i) (r.x i) (r.y i)
  let hi := fun i => iter_block_23 (ps.a i) (ps.b i) (r.x i) (r.y i) (r.yy i)
  ({ ps with
      x := fun i => if nlanes / 2 ≤ i ∧ i < nlanes then (hi i).2.2.2.2.1 else ps.x i,
      yy := fun i => if nlanes / 2 ≤ i ∧ i < nlanes then (hi i).2.2.2.2.2 else ps.yy i,
      mag := fun i => if i < nlanes / 2 then (lo i).2.2.2
                      else if i < nlanes then (hi i).2.2.2.1 else ps.mag i },
   { x := fun i => if i < nlanes / 2 then (lo i).1 else if i < nlanes then (hi i).1 else r.x i,
     y := fun i => if i < nlanes / 2 then (lo i).2.1
                   else if i < nlanes then (hi i).2.1 else r.y i,
     yy := fun i => if i < nlanes / 2 then (lo i).2.2.1
                    else if i < nlanes then (hi i).2.2.1 else r.yy i })

/-- The loop of `iterate_amd_sse2` (lines 1078-1128) and of `iterate_amd_sse` (lines
1327-1383), entered at `skip_top`: `eax` counts the iterations (two per pass), `ecx` holds the
budget and is set to `eax` by the `cmovge` instructions when a magnitude stored in this pass
has reached the threshold (in `iterate_amd_sse` the last comparison jumps out with `jge done`
instead).  When the loop goes on, the two stores at `iter_loop` save `yy` and `x` of the first
register group.  The first argument bounds the number of passes. -/
def iterate_amd_loop (nlanes : Nat) :
    Nat → man_pointstruct → xmm_regs → Nat → Nat → Option (man_pointstruct × xmm_regs × Nat)
  | 0, _, _, _, _ => none
  | fuel + 1, ps, r, eax, ecx =>
    let eax := (eax + 2) % 4294967296
    let s := iter_pass nlanes ps r
    let ecx := if ∃ i, i < nlanes ∧ DIVERGED s.1 i then eax else ecx
    if ecx ≠ eax then
      let ps := { s.1 with
        yy := fun i => if i < nlanes / 2 then s.2.yy i else s.1.yy i,
        x := fun i => if i < nlanes / 2 then s.2.x i else s.1.x i }
      iterate_amd_loop nlanes fuel ps s.2 eax ecx
    else some (s.1, s.2, eax)

/-- The code after the loop of `iterate_amd_sse2` (lines 1130-1158) and of `iterate_amd_sse`
(lines 1385-1412): store `y`, compute the previous magnitudes from the values saved for the
backout, add `eax` to `iterctr`, store `yy` and `x`, and add `eax` to the iteration counts.
The argument is the point structure, the registers and `eax` at the loop exit; the result is
the point structure and the return value `eax`. -/
def amd_backout (nlanes : Nat) (s : man_pointstruct × xmm_regs × Nat) : man_pointstruct × Nat :=
  let ps := s.1
  let r := s.2.1
  let eax := s.2.2
  let ps := { ps with y := fun i => if i < nlanes then r.y i else ps.y i }
  let ps := { ps with magprev := fun i =>
    if i < nlanes / 2 then 2 * ps.yy i + ps.x i
    else if i < nlanes then ps.x i + ps.yy i else ps.magprev i }
  let ps := { ps with iterctr := (ps.iterctr + eax) % 18446744073709551616 }
  let ps := { ps with
    yy := fun i => if i < nlanes then r.yy i else ps.yy i,
    x := fun i => if i < nlanes then r.x i else ps.x i }
  let ps := { ps with
    iters := fun i => if i < nlanes then (ps.iters i + eax) % 4294967296 else ps.iters i }
  (ps, eax)

/-- The kernels `iterate_amd_sse2` (`nlanes = 4`, lines 1044-1172) and `iterate_amd_sse`
(`nlanes = 8`, lines 1300-1414) in exact arithmetic: load the registers, run the loop with the
budget `cur_max_iters`, then the code after the loop.  The register of `yy` of the first group
is not loaded at entry (it is written before it is read); the model starts it with the memory
value.  The bound of 2^31 passes is reached by no even or zero budget; the result `none`
stands for a loop that has not exited after 2^31 passes, which takes an odd budget. -/
def iterate_amd (nlanes : Nat) (ps : man_pointstruct) : Option (man_pointstruct × Nat) :=
  (iterate_amd_loop nlanes 2147483648 ps ⟨ps.x, ps.y, ps.yy⟩ 0 ps.cur_max_iters).map
    (amd_backout nlanes)

/-- Function `iterate_amd_sse2` (lines 1044-1172). -/
def iterate_amd_sse2 (ps : man_pointstruct) : Option (man_pointstruct × Nat) :=
  iterate_amd 4 ps

/-- Function `iterate_amd_sse` (lines 1300-1414). -/
def iterate_amd_sse (ps : man_pointstruct) : Option (man_pointstruct × Nat) :=
  iterate_amd 8 ps

/-- The body of the retire loop of `queue_4point_sse2` (lines 1583-1616) and of
`queue_8point_sse` (lines 1662-1690) for the point `i`, acting on the locals `max` and
`queue_status` and on the output arrays; `st` is `(max, queue_status, mem)`. -/
def retire_lane (max_iters : Nat) (ps : man_pointstruct) (st : Nat × Nat × List mem_write)
    (i : Nat) : Nat × Nat × List mem_write :=
  let max := st.1
  let queue_status := st.2.1
  let mem := st.2.2
  let iters := ps.iters i
  if DIVERGED ps i then
    let ptr := ps.iters_ptr i
    let mem :=
      if DIVERGED_PREV ps i then
        mem_write.mag ptr (ps.magprev i) ::
          mem_write.iters ptr ((iters + 4294967295) % 4294967296) :: mem
      else mem_write.mag ptr (ps.mag i) :: mem_write.iters ptr iters :: mem
    (max, (queue_status * 8 + i) % 4294967296, mem)
  else if iters ≥ max then
    if iters = max_iters then
      (max, (queue_status * 8 + i) % 4294967296, mem_write.iters (ps.iters_ptr i) iters :: mem)
    else (iters, queue_status, mem)
  else (max, queue_status, mem)

/-- The last block of the queue functions (lines 1622-1630 and 1696-1705): the point `ab_in`
and the initial conditions are stored into slot `i`. -/
def init_point (ps : man_pointstruct) (i : Nat) (iters_ptr : Int) : man_pointstruct :=
  { ps with
    a := Function.update ps.a i ps.ab_in.1,
    b := Function.update ps.b i ps.ab_in.2,
    y := Function.update ps.y i 0,
    x := Function.update ps.x i 0,
    yy := Function.update ps.yy i 0,
    iters := Function.update ps.iters i 0,
    iters_ptr := Function.update ps.iters_ptr i iters_ptr }

/-- The queue functions `queue_4point_sse2` (`nlanes = 4`, `mask = 3`, lines 1565-1631) and
`queue_8point_sse` (`nlanes = 8`, `mask = 7`, lines 1647-1706) in exact arithmetic, for the
calc structure fields `max_iters` and `mandel_iterate`.  The two functions differ in the loop
bound, in the mask and in the conversions to `float`, which exact arithmetic drops.  The
return value of `mandel_iterate` is not used.  `mem` is the list of the stores into the
output arrays so far, the latest first. -/
def queue_point_sse (nlanes mask : Nat) (max_iters : Nat)
    (mandel_iterate : man_pointstruct → Option (man_pointstruct × Nat))
    (ps : man_pointstruct) (iters_ptr : Int) (mem : List mem_write) :
    Option (man_pointstruct × List mem_write) :=
  let queue_status := ps.queue_status
  let r : Option (man_pointstruct × Nat × List mem_write) :=
    if queue_status = QUEUE_FULL then
      (mandel_iterate ps).map (fun k =>
        let st := (List.range nlanes).foldl (retire_lane max_iters k.1) (0, queue_status, mem)
        ({ k.1 with cur_max_iters := (max_iters + 4294967296 - st.1) % 4294967296 },
          st.2.1, st.2.2))
    else some (ps, queue_status, mem)
  r.map (fun s =>
    let queue_status := s.2.1
    let i := queue_status &&& mask
    (init_point { s.1 with queue_status := queue_status >>> 3 } i iters_ptr, s.2.2))

/-- Function `queue_4point_sse2` (lines 1565-1631). -/
def queue_4point_sse2 (max_iters : Nat)
    (mandel_iterate : man_pointstruct → Option (man_pointstruct × Nat))
    (ps : man_pointstruct) (iters_ptr : Int) (mem : List mem_write) :
    Option (man_pointstruct × List mem_write) :=
  queue_point_sse 4 3 max_iters mandel_iterate ps iters_ptr mem

/-- Function `queue_8point_sse` (lines 1647-1706). -/
def queue_8point_sse (max_iters : Nat)
    (mandel_iterate : man_pointstruct → Option (man_pointstruct × Nat))
    (ps : man_pointstruct) (iters_ptr : Int) (mem : List mem_write) :
    Option (man_pointstruct × List mem_write) :=
  queue_point_sse 8 7 max_iters mandel_iterate ps iters_ptr mem

/-- The calls of `queue_point` made for a list of points `(a, b, iters_ptr)`, in order: the
loops of `man_calculate_threaded` store the coordinates of each point into `ab_in` and call
`m->queue_point(m, ps_ptr, iters_ptr)` (lines 1762-1768). -/
def queue_points
    (queue_point : man_pointstruct → Int → List mem_write →
      Option (man_pointstruct × List mem_write)) :
    List (ℚ × ℚ × Int) → man_pointstruct → List mem_write →
      Option (man_pointstruct × List mem_write)
  | [], ps, mem => some (ps, mem)
  | p :: rest, ps, mem =>
    (queue_point { ps with ab_in := (p.1, p.2.1) } p.2.2 mem).bind
      (fun s => queue_points queue_point rest s.1 s.2)

/-- The flush at the end of `man_calculate_threaded` (lines 1878-1884): `ab_in` is set to
(0, 0) and `queue_point` is called 8 times (`PRECISION_SINGLE`) or 4 times with the address
`dummy` (`m->iter_data + m->image_size`). -/
def flush_queue (precision : Int)
    (queue_point : man_pointstruct → Int → List mem_write →
      Option (man_pointstruct × List mem_write))
    (dummy : Int) (ps : man_pointstruct) (mem : List mem_write) :
    Option (man_pointstruct × List mem_write) :=
  queue_points queue_point
    (List.replicate (if precision = PRECISION_SINGLE then 8 else 4) (0, 0, dummy))
    { ps with ab_in := (0, 0) } mem

/-! ## Specification vocabulary for the point queues -/

/-- The value of `queue_status` that holds the free slots `fs`, the next one to be popped
first (lines 1535-1541): three bits per slot above the marker `QUEUE_FULL`. -/
def free_code : List Nat → Nat
  | [] => QUEUE_FULL
  | i :: fs => free_code fs * 8 + i

/-- The stores made by the retire loop for the slot `i`. -/
def lane_writes (ps : man_pointstruct) (i : Nat) : List mem_write :=
  if DIVERGED ps i then
    if DIVERGED_PREV ps i then
      [mem_write.mag (ps.iters_ptr i) (ps.magprev i),
       mem_write.iters (ps.iters_ptr i) ((ps.iters i + 4294967295) % 4294967296)]
    else [mem_write.mag (ps.iters_ptr i) (ps.mag i), mem_write.iters (ps.iters_ptr i) (ps.iters i)]
  else [mem_write.iters (ps.iters_ptr i) (ps.iters i)]

/-- The slots retired by the retire loop over the slots `l` when it starts with the running
maximum `max`, the last retired slot first, and the final value of `max`. -/
def retire_list (max_iters : Nat) (ps : man_pointstruct) : List Nat → Nat → List Nat × Nat
  | [], max => ([], max)
  | i :: l, max =>
    if DIVERGED ps i then
      ((retire_list max_iters ps l max).1 ++ [i], (retire_list max_iters ps l max).2)
    else if ps.iters i ≥ max then
      if ps.iters i = max_iters then
        ((retire_list max_iters ps l max).1 ++ [i], (retire_list max_iters ps l max).2)
      else retire_list max_iters ps l (ps.iters i)
    else retire_list max_iters ps l max

/-- The addresses of the iteration count stores in `mem`. -/
def stored_slots (mem : List mem_write) : List Int :=
  mem.filterMap (fun w => match w with
    | mem_write.iters p _ => some p
    | mem_write.mag _ _ => none)

/-- The output addresses of the points in flight: those held by the slots below `nlanes` that
are not in the free list `fs`. -/
def in_flight_slots (nlanes : Nat) (fs : List Nat) (ps : man_pointstruct) : List Int :=
  ((List.range nlanes).filter (fun i => i ∉ fs)).map ps.iters_ptr

/-- The kernel `K` restricted to the calls that satisfy the assumption of the queue functions
(line 1579 and lines 1618-1620): on return some point has diverged, or the point with the most
accumulated iterations has reached `max_iters`; and the kernel has left `ab_in` and the output
addresses `iters_ptr` of the points alone.  A call that does not is treated like one that does
not return. -/
def checked_kernel (nlanes max_iters : Nat)
    (K : man_pointstruct → Option (man_pointstruct × Nat)) (ps : man_pointstruct) :
    Option (man_pointstruct × Nat) :=
  (K ps).bind (fun r =>
    if r.1.ab_in = ps.ab_in ∧ (∀ i, i < nlanes → r.1.iters_ptr i = ps.iters_ptr i) ∧
        ((∃ i, i < nlanes ∧ DIVERGED r.1 i) ∨
         (∃ i, i < nlanes ∧ r.1.iters i = max_iters ∧
            ∀ j, j < nlanes → r.1.iters j ≤ r.1.iters i)) then some r
    else none)

/-- The bookkeeping invariant of a point queue with `nlanes` slots after the points `pts` have
been queued: `queue_status` holds a list `fs` of distinct free slots below `nlanes`; the
output addresses of the queued points are, up to order, those of the points in flight (the
slots not in `fs`) together with those of the iteration count stores made; and the last
queued point sits, with count 0, in a slot below `nlanes` that is not free. -/
def queue_inv (nlanes : Nat) (pts : List (ℚ × ℚ × Int)) (ps : man_pointstruct)
    (mem : List mem_write) : Prop :=
  ∃ fs : List Nat, ps.queue_status = free_code fs ∧ fs.Nodup ∧ (∀ i ∈ fs, i < nlanes) ∧
    (pts.map (fun p => p.2.2)).Perm (in_flight_slots nlanes fs ps ++ stored_slots mem) ∧
    (∀ p, pts.getLast? = some p → ∃ i, i < nlanes ∧ i ∉ fs ∧
      ps.a i = p.1 ∧ ps.b i = p.2.1 ∧ ps.iters_ptr i = p.2.2 ∧ ps.iters i = 0)

/-- The values `(x, y, yy)` that a kernel keeps for a point `c = a + b i` that has done `n`
iterations, with `z_n = X + Y i`: `(X² - Y², 2XY, Y²)` for a point of the first register
group and `(X, Y, Y²)` for a point of the second. -/
def lane_state (first : Bool) (a b : ℚ) (n : Nat) : ℚ × ℚ × ℚ :=
  if first then
    ((mandel_z a b n).1 * (mandel_z a b n).1 - (mandel_z a b n).2 * (mandel_z a b n).2,
     2 * (mandel_z a b n).1 * (mandel_z a b n).2,
     (mandel_z a b n).2 * (mandel_z a b n).2)
  else ((mandel_z a b n).1, (mandel_z a b n).2, (mandel_z a b n).2 * (mandel_z a b n).2)

/-- Slot `i` of a queue with `nlanes` slots holds the kernel state of its point `(a[i], b[i])`
after `iters[i]` iterations. -/
def lane_ok (nlanes : Nat) (ps : man_pointstruct) (i : Nat) : Prop :=
  (ps.x i, ps.y i, ps.yy i) =
    lane_state (decide (i < nlanes / 2)) (ps.a i) (ps.b i) (ps.iters i)

/-- The fields of the point structure that the loop of a kernel does not write. -/
structure kernel_frame (ps0 ps : man_pointstruct) : Prop where
  ha : ps.a = ps0.a
  hb : ps.b = ps0.b
  hiters : ps.iters = ps0.iters
  hptr : ps.iters_ptr = ps0.iters_ptr
  hab : ps.ab_in = ps0.ab_in
  hcur : ps.cur_max_iters = ps0.cur_max_iters
  hqs : ps.queue_status = ps0.queue_status

/-- The state of a kernel loop at the top of pass `k + 1`, for a call that started from the
point structure `ps0`: the registers hold the state of every point after `2 * k` more
iterations, and so do the memory copies of `x` and `yy` of the first register group. -/
structure kernel_top (nlanes : Nat) (ps0 : man_pointstruct) (k : Nat) (ps : man_pointstruct)
    (r : xmm_regs) : Prop where
  frame : kernel_frame ps0 ps
  regs : ∀ i, i < nlanes →
    r.x i = (lane_state (decide (i < nlanes / 2)) (ps0.a i) (ps0.b i)
      (ps0.iters i + 2 * k)).1 ∧
    r.y i = (lane_state (decide (i < nlanes / 2)) (ps0.a i) (ps0.b i)
      (ps0.iters i + 2 * k)).2.1
  regs_yy : ∀ i, nlanes / 2 ≤ i → i < nlanes →
    r.yy i = (lane_state false (ps0.a i) (ps0.b i) (ps0.iters i + 2 * k)).2.2
  saved : ∀ i, i < nlanes / 2 →
    ps.x i = (lane_state true (ps0.a i) (ps0.b i) (ps0.iters i + 2 * k)).1 ∧
    ps.yy i = (lane_state true (ps0.a i) (ps0.b i) (ps0.iters i + 2 * k)).2.2

/-- The state of a kernel loop at the loop test of pass `p`: the registers hold the state of
every point after `2 * p` more iterations, `mag` holds the magnitude of the iteration before,
and the values saved for the backout give the magnitude of the iteration before that. -/
structure kernel_exit (nlanes : Nat) (ps0 : man_pointstruct) (p : Nat) (ps : man_pointstruct)
    (r : xmm_regs) : Prop where
  frame : kernel_frame ps0 ps
  regs : ∀ i, i < nlanes →
    (r.x i, r.y i, r.yy i) =
      lane_state (decide (i < nlanes / 2)) (ps0.a i) (ps0.b i) (ps0.iters i + 2 * p)
  mag : ∀ i, i < nlanes →
    ps.mag i = mag2 (mandel_z (ps0.a i) (ps0.b i) (ps0.iters i + 2 * p - 1))
  prev_lo : ∀ i, i < nlanes / 2 →
    2 * ps.yy i + ps.x i = mag2 (mandel_z (ps0.a i) (ps0.b i) (ps0.iters i + 2 * p - 2))
  prev_hi : ∀ i, nlanes / 2 ≤ i → i < nlanes →
    ps.x i + ps.yy i = mag2 (mandel_z (ps0.a i) (ps0.b i) (ps0.iters i + 2 * p - 2))

/-- The point structure `ps` that a kernel call from `ps0` returns after `p` passes: every
point has done `2 * p` more iterations, `mag` and `magprev` are the magnitudes of the last
iteration but one and of the iteration before it, and the point coordinates, output
addresses, `ab_in`, budget and `queue_status` are as before. -/
structure kernel_result (nlanes : Nat) (ps0 : man_pointstruct) (p : Nat)
    (ps : man_pointstruct) : Prop where
  ha : ps.a = ps0.a
  hb : ps.b = ps0.b
  hptr : ps.iters_ptr = ps0.iters_ptr
  hab : ps.ab_in = ps0.ab_in
  hcur : ps.cur_max_iters = ps0.cur_max_iters
  hqs : ps.queue_status = ps0.queue_status
  hiters : ∀ i, i < nlanes → ps.iters i = ps0.iters i + 2 * p
  hok : ∀ i, i < nlanes → lane_ok nlanes ps i
  hmag : ∀ i, i < nlanes →
    ps.mag i = mag2 (mandel_z (ps0.a i) (ps0.b i) (ps0.iters i + 2 * p - 1))
  hprev : ∀ i, i < nlanes →
    ps.magprev i = mag2 (mandel_z (ps0.a i) (ps0.b i) (ps0.iters i + 2 * p - 2))

/-- The count `v` is what the scalar path commits for the point `c = a + b i` under the cap
`cap`: with `n` the least index in `1..cap` whose `|z_n|²` reaches 16, or `cap` if there is
none, `v` is `n + 1` if `n ≠ cap` and `cap` otherwise (the result of `iterate_c` and the
adjustment of `queue_point_c`, lines 962-964). -/
def commits (cap : Nat) (a b : ℚ) (v : Nat) : Prop :=
  ∃ n, 1 ≤ n ∧ n ≤ cap ∧ (∀ j, 1 ≤ j → j < n → mag2 (mandel_z a b j) < 16) ∧
    (16 ≤ mag2 (mandel_z a b n) ∨ n = cap) ∧ v = if n ≠ cap then n + 1 else n

/-- What holds for a point in flight in slot `i`: the slot holds the kernel state of the point
after an even number `iters[i]` of iterations that the budget does not take beyond `cap`, no
tested (odd) iteration below `iters[i]` has diverged, and the point was queued. -/
structure lane_inv (nlanes cap : Nat) (pts : List (ℚ × ℚ × Int)) (ps : man_pointstruct)
    (i : Nat) : Prop where
  ok : lane_ok nlanes ps i
  even : ps.iters i % 2 = 0
  le : ps.iters i + ps.cur_max_iters ≤ cap
  tested : ∀ t, t < ps.iters i → t % 2 = 1 → mag2 (mandel_z (ps.a i) (ps.b i) t) < 16
  queued : (ps.a i, ps.b i, ps.iters_ptr i) ∈ pts

/-- The invariant of a point queue with `nlanes` slots run with an AMD kernel under the even
cap `cap`, after the points `pts` have been queued: `queue_status` holds the list `fs` of
distinct free slots; the budget `cur_max_iters` is even, at least 2 and takes the point with
the most iterations exactly to `cap`; every point in flight satisfies `lane_inv`; and every
iteration count stored so far is the count the scalar path commits for a queued point with
that output address. -/
structure batch_inv (nlanes cap : Nat) (fs : List Nat) (pts : List (ℚ × ℚ × Int))
    (ps : man_pointstruct) (mem : List mem_write) : Prop where
  hq : ps.queue_status = free_code fs
  nodup : fs.Nodup
  lt : ∀ i ∈ fs, i < nlanes
  beven : ps.cur_max_iters % 2 = 0
  bpos : 2 ≤ ps.cur_max_iters
  ble : ps.cur_max_iters ≤ cap
  reach : ps.cur_max_iters = cap ∨
    ∃ i, i < nlanes ∧ i ∉ fs ∧ ps.iters i + ps.cur_max_iters = cap
  lanes : ∀ i, i < nlanes → i ∉ fs → lane_inv nlanes cap pts ps i
  stores : ∀ p v, mem_write.iters p v ∈ mem → ∃ a b, (a, b, p) ∈ pts ∧ commits cap a b v

/-- How one call of a queue function with the point `(a, b, ptr)` changes the queue: the
point goes to the slot `i`, which was free or has just been retired; the points that stay in
flight keep their coordinates and output address and have done `e` more iterations; and if
the queue was full, the retired slots `R` are exactly those whose tested magnitude has
reached 16 or whose count has reached `cap`. -/
structure step_info (nlanes cap : Nat) (fs : List Nat) (ps : man_pointstruct) (a b : ℚ)
    (ptr : Int) (fs1 : List Nat) (ps1 : man_pointstruct) (i e : Nat) (R : List Nat) :
    Prop where
  new_lt : i < nlanes
  new_live : i ∉ fs1
  new_a : ps1.a i = a
  new_b : ps1.b i = b
  new_ptr : ps1.iters_ptr i = ptr
  new_iters : ps1.iters i = 0
  kept : ∀ j, j < nlanes → j ≠ i → ps1.a j = ps.a j ∧ ps1.b j = ps.b j ∧
    ps1.iters_ptr j = ps.iters_ptr j ∧ (j ∉ fs → ps1.iters j = ps.iters j + e)
  cases : (fs = i :: fs1 ∧ e = 0 ∧ R = []) ∨
    (fs = [] ∧ R = i :: fs1 ∧ 2 ≤ e ∧ R.Nodup ∧ (∀ j ∈ R, j < nlanes) ∧
      (∀ j, j < nlanes → ps.iters j + e ≤ cap) ∧
      ∀ j, j < nlanes → (j ∈ R ↔
        (16 ≤ mag2 (mandel_z (ps.a j) (ps.b j) (ps.iters j + e - 1)) ∨
          ps.iters j + e = cap)))

/-- The bookkeeping of the flush at the end of a pass, with `k` dummy points still to be
queued: the slots in `D` hold dummy points (the point 0 with the output address `d`), which
are in flight and have done no more iterations than any other point in flight; and either
every point in flight is a dummy, or the number of the other points in flight plus the number
of free slots is at most `k`. -/
structure flush_inv (nlanes : Nat) (d : Int) (k : Nat) (fs D : List Nat)
    (ps : man_pointstruct) : Prop where
  live : ∀ j ∈ D, j < nlanes ∧ j ∉ fs
  dummy : ∀ j ∈ D, ps.a j = 0 ∧ ps.b j = 0 ∧ ps.iters_ptr j = d
  least : ∀ j ∈ D, ∀ r, r < nlanes → r ∉ fs → r ∉ D → ps.iters j ≤ ps.iters r
  count : (∀ r, r < nlanes → r ∉ fs → r ∈ D) ∨
    ((Finset.range nlanes).filter (fun r => r ∉ fs ∧ r ∉ D)).card + fs.length ≤ k

/-- The point structure of thread 0 after `man_setup` for the cap `cap`, the given precision,
SSE2 support and an algorithm without `ALG_C`, from a structure with every field 0. -/
def example_queue (precision : Int) (cap : Nat) : man_pointstruct :=
  (man_setup cap 0 2 precision 0 1 (fun _ => example_ps 0 0 0)).2 0

/-- Six points with the output addresses 0 to 5: two that never diverge, two far outside the
set and two near its boundary. -/
def example_points : List (ℚ × ℚ × Int) :=
  [(0, 0, 0), (2, 2, 1), (1 / 4, 1 / 2, 2), (-3 / 4, 1 / 10, 3), (3, 0, 4), (-1, 0, 5)]

/-! ## Stripe mode, precision selection and memory allocation
(quickman.c:1743-1751, 1892-2014, 3205-3247) -/

/-- Constant `ALG_EXACT` (quickman.h:47). -/
def ALG_EXACT : Nat := 1

/-- Constant `FE_SWITCHOVER_THRESH` (quickman.c:1748). -/
def FE_SWITCHOVER_THRESH : Int := 2

/-- Lines 1750-1752 of `man_calculate_threaded`: the value of `m->cur_alg` for the stripe `s`
when the configured algorithm is `alg`. -/
def stripe_cur_alg (alg : Nat) (s : stripe) : Nat :=
  if s.xend - s.xstart < FE_SWITCHOVER_THRESH ∨ s.yend - s.ystart < FE_SWITCHOVER_THRESH then
    alg ||| ALG_EXACT
  else alg

/-- Constant `PRECISION_AUTO` (quickman.h:33). -/
def PRECISION_AUTO : Int := 0

/-- Constant `PLOSS_DOUBLE` (quickman.c:1899). -/
def PLOSS_DOUBLE : Nat := 2

/-- Constant `PLOSS_FLOAT` (quickman.c:1900). -/
def PLOSS_FLOAT : Nat := 1

/-- Function `check_precision_loss` (lines 1902-1928).  The function compares the bit patterns
of two consecutive doubles (low bit masked off) and of their conversions to `float`;
`double_equal` and `float_equal` are the outcomes of these two comparisons. -/
def check_precision_loss (double_equal float_equal : Bool) : Nat :=
  if double_equal then PLOSS_DOUBLE ||| PLOSS_FLOAT
  else if float_equal then PLOSS_FLOAT
  else 0

/-- The accumulation `ploss |= check_precision_loss(..)` of `man_setup` (lines 1972, 1983)
over the consecutive coordinate samples, each given by the outcomes of its two comparisons,
starting from `ploss = 0` (line 1965). -/
def accumulate_ploss (samples : List (Bool × Bool)) : Nat :=
  samples.foldl (fun ploss s => ploss ||| check_precision_loss s.1 s.2) 0

/-- The `switch` of `man_setup` outside save mode (lines 1991-2014): the new value of
`m->precision` and the value of the global `precision_loss`, which is set to 0 before the
switch.  The case `PRECISION_AUTO` falls through into the case `PRECISION_DOUBLE`. -/
def man_setup_precision (precision : Int) (ploss : Nat) : Int × Nat :=
  if precision = PRECISION_AUTO then
    let precision := if ploss &&& PLOSS_FLOAT ≠ 0 then PRECISION_DOUBLE else PRECISION_SINGLE
    (precision, if ploss &&& PLOSS_DOUBLE ≠ 0 then 1 else 0)
  else if precision = PRECISION_DOUBLE then
    (precision, if ploss &&& PLOSS_DOUBLE ≠ 0 then 1 else 0)
  else if precision = PRECISION_SINGLE then
    (precision, if ploss &&& PLOSS_FLOAT ≠ 0 then 1 else 0)
  else (precision, 0)

/-- Constant `FLAG_IS_SAVE` (quickman.h:492). -/
def FLAG_IS_SAVE : Nat := 1

/-- The fields of `man_calc_struct` that `alloc_man_mem` sets, with the extent of the arrays
in elements.  `iter_data` points `iter_data_line_size` elements into a block of
`iter_data_line_size * (height + 7)` elements, so the indices `i` with
`iter_lo ≤ i < iter_hi` are those inside the block; the magnitude array has the same extent.
`img_re` and `img_im` have `img_re_len` and `img_im_len` elements. -/
structure man_mem where
  iter_data_line_size : Int
  image_size : Int
  iter_lo : Int
  iter_hi : Int
  img_re_len : Int
  img_im_len : Int
deriving DecidableEq

/-- Function `alloc_man_mem` (lines 3207-3247).  Each `malloc` is a parameter that tells
whether the call returned a block (`true`) or `NULL`; the PNG buffer is only allocated when
`FLAG_IS_SAVE` is set.  Returns the fields set and the return value. -/
def alloc_man_mem (flags : Nat) (width height : Int)
    (iter_ok mag_ok re_ok im_ok png_ok : Bool) : man_mem × Int :=
  let line_size := width + 2
  let m : man_mem :=
    ⟨line_size, width * height, -line_size, line_size * (height + 7) - line_size,
      width + 4, height + 4⟩
  if flags &&& FLAG_IS_SAVE ≠ 0 ∧ png_ok = false then (m, 0)
  else if iter_ok = false ∨ mag_ok = false ∨ re_ok = false ∨ im_ok = false then (m, 0)
  else (m, 1)

/-- The offset from `m->iter_data` of the entry of the pixel `(x, y)`: the loops of
`man_calculate_threaded` address it as `m->iter_data + y * line_size + x`
(lines 1764, 1799, 1823). -/
def pixel_addr (line_size x y : Int) : Int := y * line_size + x

/-! ## man_calculate_threaded (quickman.c:267-284, 1710-1890) -/

/-- Table `wave_ystart` (line 270). -/
def wave_ystart (wave : Nat) : Int := [3, 1, 3, 1, 0, 1, 0].getD wave 0

/-- Table `wave_xstart` (line 271). -/
def wave_xstart (wave : Nat) : Int := [0, 2, 2, 0, 1, 1, 0].getD wave 0

/-- Table `wave_inc` (line 274). -/
def wave_inc (wave : Nat) : Int := [4, 4, 4, 4, 2, 2, 2].getD wave 0

/-- Table `wave_xoffs` (lines 279-280). -/
def wave_xoffs (wave j : Nat) : Int :=
  ([[0, 0, 0, 0], [-2, 2, -2, 2], [0, -2, 2, 0], [0, -2, 2, 0], [-1, 1, -1, 1], [0, -1, 1, 0],
    [0, -1, 1, 0]].getD wave []).getD j 0

/-- Table `wave_yoffs` (lines 281-282). -/
def wave_yoffs (wave j : Nat) : Int :=
  ([[0, 0, 0, 0], [-2, -2, 2, 2], [-2, 0, 0, 2], [-2, 0, 0, 2], [-1, -1, 1, 1], [-1, 0, 0, 1],
    [-1, 0, 0, 1]].getD wave []).getD j 0

/-- Table `wave_ptr_offs` as filled by `create_bitmap` (lines 3324-3326) for the line size
`line_size`; the entries of wave 0 stay 0. -/
def wave_ptr_offs (line_size : Int) (wave j : Nat) : Int :=
  wave_yoffs wave j * line_size + wave_xoffs wave j

/-- The entry `ptr` of the iteration array: the latest store into it in `mem`, or its content
`iter_data ptr` from before the stores. -/
def load_iters (iter_data : Int → Nat) : List mem_write → Int → Nat
  | [], ptr => iter_data ptr
  | mem_write.iters q v :: mem, ptr => if q = ptr then v else load_iters iter_data mem ptr
  | mem_write.mag _ _ :: mem, ptr => load_iters iter_data mem ptr

/-- The entry `ptr` of the magnitude array (macro `MAG`, quickman.h:497). -/
def load_mag (mag_data : Int → ℚ) : List mem_write → Int → ℚ
  | [], ptr => mag_data ptr
  | mem_write.mag q v :: mem, ptr => if q = ptr then v else load_mag mag_data mem ptr
  | mem_write.iters _ _ :: mem, ptr => load_mag mag_data mem ptr

/-- The fields of `man_calc_struct` that `man_calculate_threaded` reads.  `iter_data` and
`mag_data` are the contents of the two arrays before the stores recorded in the store list,
indexed by the offset from `m->iter_data`. -/
structure man_calc_data where
  alg : Nat
  precision : Int
  iter_data_line_size : Int
  image_size : Int
  img_re : Int → ℚ
  img_im : Int → ℚ
  iter_data : Int → Nat
  mag_data : Int → ℚ
  queue_point : man_pointstruct → Int → List mem_write →
    Option (man_pointstruct × List mem_write)

/-- What a run of `man_calculate_threaded` changes: the point structure `*ps_ptr`, the stores
into the iteration and magnitude arrays (the latest first) and the local `points_guessed`. -/
structure thread_run where
  ps : man_pointstruct
  mem : List mem_write
  points_guessed : Nat

/-- The loop `do { body } while ((x += inc) <= lim)` on the state `s` with the loop variable
starting at `x`; with `inc = 1` it is the loop `do { body } while (++x <= lim)`.  `fuel`
bounds the number of passes. -/
def do_while {σ : Type} (inc lim : Int) (body : Int → σ → Option σ) :
    Nat → Int → σ → Option σ
  | 0, _, _ => none
  | fuel + 1, x, s =>
    (body x s).bind (fun s1 =>
      if x + inc ≤ lim then do_while inc lim body fuel (x + inc) s1 else some s1)

/-- The statement `ps_ptr->ab_in[1] = m->img_im[y]` at the start of a line
(lines 1763, 1798, 1822). -/
def load_im (m : man_calc_data) (y : Int) (r : thread_run) : thread_run :=
  { r with ps := { r.ps with ab_in := (r.ps.ab_in.1, m.img_im y) } }

/-- The statements `ps_ptr->ab_in[0] = m->img_re[x]; m->queue_point(m, ps_ptr, iters_ptr)`
(lines 1767-1768, 1802-1803, 1852-1853).  The pointer `iters_ptr`, which is set to
`m->iter_data + y * line_size + x` at the start of a line and advanced together with `x`, is
represented by the offset `pixel_addr line_size x y`. -/
def queue_pixel (m : man_calc_data) (x y : Int) (r : thread_run) : Option thread_run :=
  (m.queue_point { r.ps with ab_in := (m.img_re x, r.ps.ab_in.2) }
    (pixel_addr m.iter_data_line_size x y) r.mem).map
    (fun q => { r with ps := q.1, mem := q.2 })

/-- One line of the exact algorithm (lines 1762-1770). -/
def exact_line (m : man_calc_data) (s : stripe) (y : Int) (r : thread_run) :
    Option thread_run :=
  do_while 1 s.xend (fun x r => queue_pixel m x y r) ((s.xend - s.xstart).toNat + 1) s.xstart
    (load_im m y r)

/-- The exact algorithm on the stripe `s` (lines 1759-1772). -/
def exact_stripe (m : man_calc_data) (s : stripe) (r : thread_run) : Option thread_run :=
  do_while 1 s.yend (exact_line m s) ((s.yend - s.ystart).toNat + 1) s.ystart r

/-- One line of wave 0 (lines 1797-1807). -/
def wave0_line (m : man_calc_data) (s : stripe) (y : Int) (r : thread_run) :
    Option thread_run :=
  do_while (wave_inc 0) s.xend (fun x r => queue_pixel m x y r)
    ((s.xend - s.xstart).toNat + 1) s.xstart (load_im m y r)

/-- The body of the loop over `x` of the waves 1 to 6 (lines 1827-1857): the four neighbours
are loaded; if they are equal, the pixel and its magnitude are set from the neighbour at
`offs2` and `points_guessed` is incremented, otherwise the point is queued. -/
def guess_pixel (m : man_calc_data) (wave : Nat) (x y : Int) (r : thread_run) :
    Option thread_run :=
  let iters_ptr := pixel_addr m.iter_data_line_size x y
  let p0 := load_iters m.iter_data r.mem (iters_ptr + wave_ptr_offs m.iter_data_line_size wave 0)
  let p1 := load_iters m.iter_data r.mem (iters_ptr + wave_ptr_offs m.iter_data_line_size wave 1)
  let p2 := load_iters m.iter_data r.mem (iters_ptr + wave_ptr_offs m.iter_data_line_size wave 2)
  let p3 := load_iters m.iter_data r.mem (iters_ptr + wave_ptr_offs m.iter_data_line_size wave 3)
  if p0 = p1 ∧ p0 = p2 ∧ p0 = p3 then
    some { r with
      mem := mem_write.mag iters_ptr
          (load_mag m.mag_data r.mem (iters_ptr + wave_ptr_offs m.iter_data_line_size wave 2)) ::
        mem_write.iters iters_ptr p2 :: r.mem,
      points_guessed := r.points_guessed + 1 }
  else queue_pixel m x y r

/-- One line of a wave from 1 to 6 (lines 1820-1858). -/
def wave_line (m : man_calc_data) (s : stripe) (wave : Nat) (y : Int) (r : thread_run) :
    Option thread_run :=
  let xoffs := wave_xstart wave + s.xstart
  if xoffs ≤ s.xend then
    do_while (wave_inc wave) s.xend (fun x r => guess_pixel m wave x y r)
      ((s.xend - xoffs).toNat + 1) xoffs (load_im m y r)
  else some (load_im m y r)

/-- The body of the loop over the waves (lines 1783-1862). -/
def wave_pass (m : man_calc_data) (s : stripe) (wave : Nat) (r : thread_run) :
    Option thread_run :=
  do_while (wave_inc wave) s.yend
    (if wave = 0 then wave0_line m s else wave_line m s wave)
    ((s.yend - (wave_ystart wave + s.ystart)).toNat + 1) (wave_ystart wave + s.ystart) r

/-- The fast algorithm on the stripe `s` (lines 1775-1864): the waves 0 to 6 in order. -/
def wave_stripe (m : man_calc_data) (s : stripe) (r : thread_run) : Option thread_run :=
  (List.range 7).foldlM (fun r wave => wave_pass m s wave r) r

/-- The body of the loop over the stripes (lines 1738-1866). -/
def calc_stripe (m : man_calc_data) (s : stripe) (r : thread_run) : Option thread_run :=
  if stripe_cur_alg m.alg s &&& ALG_EXACT ≠ 0 then exact_stripe m s r else wave_stripe m s r

/-- The stripes `t->stripes[0 .. t->num_stripes - 1]` of a thread. -/
def thread_stripes (t : thread_state) : List stripe :=
  (List.range t.num_stripes.toNat).map (fun (i : Nat) => t.stripes (i : Int))

/-- Function `man_calculate_threaded` (lines 1710-1890) for the thread state `t` with the
point structure `ps`, when the stores `mem` have been made before: the loop over the
stripes and the flush with the dummy address `m->iter_data + m->image_size`. -/
def man_calculate_threaded (m : man_calc_data) (t : thread_state) (ps : man_pointstruct)
    (mem : List mem_write) : Option thread_run :=
  ((thread_stripes t).foldlM (fun r s => calc_stripe m s r) ⟨ps, mem, 0⟩).bind (fun r =>
    (flush_queue m.precision m.queue_point m.image_size r.ps r.mem).map
      (fun q => { r with ps := q.1, mem := q.2 }))

/-! ## Specification vocabulary for the stripe loops of man_calculate_threaded -/

/-- The values that the loop variable of `do_while` takes. -/
def do_while_range (inc lim : Int) : Nat → Int → List Int
  | 0, _ => []
  | fuel + 1, x => x :: (if x + inc ≤ lim then do_while_range inc lim fuel (x + inc) else [])

/-- The values of `y` for which wave `wave` runs a line on the stripe `s`. -/
def wave_rows (s : stripe) (wave : Nat) : List Int :=
  do_while_range (wave_inc wave) s.yend ((s.yend - (wave_ystart wave + s.ystart)).toNat + 1)
    (wave_ystart wave + s.ystart)

/-- The values of `x` that wave `wave` visits in each of its lines on the stripe `s`. -/
def wave_cols (s : stripe) (wave : Nat) : List Int :=
  if wave = 0 then do_while_range (wave_inc 0) s.xend ((s.xend - s.xstart).toNat + 1) s.xstart
  else if wave_xstart wave + s.xstart ≤ s.xend then
    do_while_range (wave_inc wave) s.xend ((s.xend - (wave_xstart wave + s.xstart)).toNat + 1)
      (wave_xstart wave + s.xstart)
  else []

/-- The statements executed for the pixel `(x, y)` by wave `wave`. -/
def wave_pixel (m : man_calc_data) (wave : Nat) (x y : Int) (r : thread_run) :
    Option thread_run :=
  if wave = 0 then queue_pixel m x y r else guess_pixel m wave x y r

/-- The values of `y` for which the exact algorithm runs a line on the stripe `s`. -/
def exact_rows (s : stripe) : List Int :=
  do_while_range 1 s.yend ((s.yend - s.ystart).toNat + 1) s.ystart

/-- The values of `x` that the exact algorithm visits in each line on the stripe `s`. -/
def exact_cols (s : stripe) : List Int :=
  do_while_range 1 s.xend ((s.xend - s.xstart).toNat + 1) s.xstart

/-- A queue function makes the same changes to the point structure and the same stores
whatever stores `mem` were made before. -/
def mem_independent
    (qp : man_pointstruct → Int → List mem_write → Option (man_pointstruct × List mem_write)) :
    Prop :=
  ∀ ps ptr mem, qp ps ptr mem = (qp ps ptr []).map (fun r => (r.1, r.2 ++ mem))

/-- A queue function leaves `ab_in` as the caller has set it. -/
def keeps_ab_in
    (qp : man_pointstruct → Int → List mem_write → Option (man_pointstruct × List mem_write)) :
    Prop :=
  ∀ ps ptr mem r, qp ps ptr mem = some r → r.1.ab_in = ps.ab_in

/-- What the exact algorithm needs from a queue function `qp` under the cap `cap`, for the
point structures that satisfy `ready`: it is `mem_independent` and `keeps_ab_in`; and for
every list of points queued from a ready point structure, followed by the flush with the
dummy address `d`, the calls return, a count is stored at the output address of every point,
and every count stored is at the dummy address or is the count that the scalar path commits
for a queued point with that address. -/
structure exact_queue (cap : Nat) (precision : Int)
    (qp : man_pointstruct → Int → List mem_write → Option (man_pointstruct × List mem_write))
    (ready : man_pointstruct → Prop) : Prop where
  indep : mem_independent qp
  keeps : keeps_ab_in qp
  commits_all : ∀ (pts : List (ℚ × ℚ × Int)) (d : Int) (ps0 : man_pointstruct), ready ps0 →
    ∃ (ps : man_pointstruct) (mem : List mem_write),
      (queue_points qp pts ps0 []).bind (fun s => flush_queue precision qp d s.1 s.2) =
        some (ps, mem) ∧
      (∀ q, q ∈ pts → ∃ v, mem_write.iters q.2.2 v ∈ mem) ∧
      (∀ p v, mem_write.iters p v ∈ mem →
        p = d ∨ ∃ a b, (a, b, p) ∈ pts ∧ commits cap a b v)

/-- The points that the exact algorithm queues for the stripe `s`, in order. -/
def stripe_points (m : man_calc_data) (s : stripe) : List (ℚ × ℚ × Int) :=
  (exact_rows s).flatMap (fun y =>
    (exact_cols s).map (fun x => (m.img_re x, m.img_im y, pixel_addr m.iter_data_line_size x y)))

/-- The points that the exact algorithm queues for the stripes of a thread, in order. -/
def thread_points (m : man_calc_data) (t : thread_state) : List (ℚ × ℚ × Int) :=
  (thread_stripes t).flatMap (stripe_points m)

/-- The state that `man_setup` leaves in a point structure for the SSE2 and SSE queues. -/
def queue_ready (cap : Nat) (precision : Int) (ps : man_pointstruct) : Prop :=
  ps.queue_status = queue_init precision ∧ ps.cur_max_iters = cap

/-- The calls of `man_calculate_threaded` that `man_calculate` makes for the threads
`0 .. n - 1` (lines 2249-2257), in the schedule in which the threads run one after the other
in the order of their index; `ps t` is the point structure of thread `t`.  Returns the stores
made.  In the exact algorithm no thread reads the arrays, so that every other schedule makes
the same stores for each thread. -/
def man_calculate_pass (m : man_calc_data) (ts : Int → thread_state)
    (ps : Int → man_pointstruct) : Nat → Option (List mem_write)
  | 0 => some []
  | n + 1 =>
    (man_calculate_pass m ts ps n).bind (fun mem =>
      (man_calculate_threaded m (ts n) (ps n) mem).map (fun r => r.mem))

/-- Function `man_calculate` on the rectangle `xstart..xend` by `ystart..yend` with
`num_threads` threads: the stripe lists are written (`man_calculate_locals`) and the threads
are run on them (`man_calculate_pass`). -/
def man_calculate_run (spt num_threads_ind num_threads : Int) (ts : Int → thread_state)
    (m : man_calc_data) (ps : Int → man_pointstruct) (xstart xend ystart yend : Int) :
    Option (List mem_write) :=
  (man_calculate_locals spt num_threads_ind num_threads ts xstart xend ystart yend).bind
    (fun l => man_calculate_pass m l.thread_states ps num_threads.toNat)

/-- A calculation structure for examples: an image of `width` by `height` pixels with the
line size and the image size that `alloc_man_mem` sets, double precision with the queue
`queue_4point_sse2` and the kernel `iterate_amd_sse2` under the cap `cap`, the algorithm `alg`,
a view with the coordinates `4 + x` and `4 + y`, which lies outside the circle of radius 4,
an iteration array that holds `u` everywhere and a magnitude array that holds 0. -/
def example_data (alg : Nat) (width height : Int) (cap u : Nat) : man_calc_data :=
  ⟨alg, PRECISION_DOUBLE, width + 2, width * height, fun x => 4 + (x : ℚ),
    fun y => 4 + (y : ℚ), fun _ => u, fun _ => 0, queue_4point_sse2 cap iterate_amd_sse2⟩

theorem frac_seq_bounds (N step r : Int) (hr0 : 0 ≤ r) (hrN : r < N) (g : Nat) :
    0 ≤ (frac_seq N step r g).1 ∧ (frac_seq N step r g).1 < N ∧
    step ≤ (frac_seq N step r g).2 ∧ (frac_seq N step r g).2 ≤ step + 1 := by
  induction g with
  | zero => simp [frac_seq]; omega
  | succ g ih =>
    simp only [frac_seq]
    split_ifs with h <;> simp <;> omega

theorem frac_seq_zero (N step : Int) (hN : 0 < N) (g : Nat) :
    frac_seq N step 0 g = (0, step) := by
  induction g with
  | zero => simp [frac_seq]
  | succ g ih =>
    simp only [frac_seq, ih]
    split_ifs with h
    · omega
    · simp

theorem rows_before_zero (N step : Int) (hN : 0 < N) (g : Nat) :
    rows_before N step 0 g = g * step := by
  induction g with
  | zero => simp [rows_before]
  | succ g ih =>
    simp only [rows_before, ih, frac_seq_zero N step hN]
    push_cast; ring

theorem rows_before_succ_mul (N step r size : Int) (hsize : size = N * step + r) (g : Nat) :
    N * rows_before N step r (g + 1) = (g + 1) * size - (frac_seq N step r g).1 := by
  induction g with
  | zero => simp [rows_before, frac_seq]; omega
  | succ g ih =>
    rw [rows_before, mul_add, ih]
    simp only [frac_seq]
    split_ifs with h
    · push_cast; rw [hsize]; ring
    · push_cast; rw [hsize]; ring

theorem rows_before_nonneg (N step r : Int) (hr0 : 0 ≤ r) (hrN : r < N) (hstep : 0 ≤ step)
    (g : Nat) : 0 ≤ rows_before N step r g := by
  induction g with
  | zero => simp [rows_before]
  | succ g ih =>
    have := frac_seq_bounds N step r hr0 hrN g
    simp only [rows_before]; omega

theorem set_stripe_num (ts : Int → thread_state) (ti si : Int) (v : stripe) (t : Int) :
    (set_stripe (inc_num_stripes ts ti) ti si v t).num_stripes =
      (ts t).num_stripes + (if t = ti then 1 else 0) := by
  unfold set_stripe inc_num_stripes
  by_cases h : t = ti <;> simp [h]

theorem set_stripe_get (ts : Int → thread_state) (ti si : Int) (v : stripe) (t g : Int) :
    (set_stripe (inc_num_stripes ts ti) ti si v t).stripes g =
      if t = ti ∧ g = si then v else (ts t).stripes g := by
  unfold set_stripe inc_num_stripes
  by_cases h : t = ti <;> by_cases h2 : g = si <;> simp [h, h2]

theorem next_thread_spec (W N step r : Int) (l : calc_locals) (h0 : 0 ≤ l.thread_ind)
    (hsi : 0 ≤ l.stripe_ind)
    (hfrac : l.frac = (frac_seq N step r l.stripe_ind.toNat).1) :
    (next_thread W N step r l).thread_states = l.thread_states ∧
    (next_thread W N step r l).s = l.s ∧
    (next_thread W N step r l).xstart = l.xstart ∧
    (next_thread W N step r l).ystart = l.ystart ∧
    ((l.thread_ind = 0 ∧ (next_thread W N step r l).thread_ind = W - 1 ∧
        (next_thread W N step r l).stripe_ind = l.stripe_ind + 1 ∧
        (next_thread W N step r l).frac = (frac_seq N step r (l.stripe_ind + 1).toNat).1 ∧
        (next_thread W N step r l).this_step = group_step N step r (l.stripe_ind + 1)) ∨
     (0 < l.thread_ind ∧ (next_thread W N step r l).thread_ind = l.thread_ind - 1 ∧
        (next_thread W N step r l).stripe_ind = l.stripe_ind ∧
        (next_thread W N step r l).frac = l.frac ∧
        (next_thread W N step r l).this_step = l.this_step)) := by
  have hnat : (l.stripe_ind + 1).toNat = l.stripe_ind.toNat + 1 := by omega
  unfold next_thread group_step
  rw [hnat]
  simp only [frac_seq]
  by_cases h1 : l.thread_ind - 1 < 0
  · have : l.thread_ind = 0 := by omega
    rw [← hfrac]
    by_cases h2 : l.frac + r ≥ N
    · simp [h1, h2, this]
    · simp [h1, h2, this]
  · have : 0 < l.thread_ind := by omega
    simp [h1, this]

theorem stripe_step_shape (ay : Bool) (W N step r cend : Int) (l : calc_locals)
    (h0 : 0 ≤ l.thread_ind) (h1 : l.thread_ind < MAX_THREADS)
    (h2 : 0 ≤ l.stripe_ind) (h3 : l.stripe_ind < MAX_STRIPES) :
    ∃ v l1, stripe_step ay W N step r cend l = some (next_thread W N step r l1) ∧
      l1.thread_states =
        set_stripe (inc_num_stripes l.thread_states l.thread_ind) l.thread_ind l.stripe_ind v ∧
      l1.s = some (l.thread_ind, l.stripe_ind) ∧
      l1.thread_ind = l.thread_ind ∧ l1.stripe_ind = l.stripe_ind ∧
      l1.frac = l.frac ∧ l1.this_step = l.this_step ∧
      pos ay l1 = pos ay l + l.this_step ∧ cpos ay l1 = cpos ay l ∧
      lo ay v = pos ay l ∧ hi ay v = pos ay l + l.this_step - 1 ∧
      clo ay v = cpos ay l ∧ chi ay v = cend := by
  cases ay
  · refine ⟨⟨l.xstart, l.xstart + l.this_step - 1, l.ystart, cend⟩,
      { l with thread_states := set_stripe (inc_num_stripes l.thread_states l.thread_ind)
                 l.thread_ind l.stripe_ind ⟨l.xstart, l.xstart + l.this_step - 1, l.ystart, cend⟩,
               s := some (l.thread_ind, l.stripe_ind), xstart := l.xstart + l.this_step },
      by simp [stripe_step, stripe_step_x, h0, h1, h2, h3], rfl, rfl, rfl, rfl, rfl,
      rfl, by simp [pos], by simp [cpos], by simp [lo, pos], by simp [hi, pos],
      by simp [clo, cpos], by simp [chi]⟩
  · refine ⟨⟨l.xstart, cend, l.ystart, l.ystart + l.this_step - 1⟩,
      { l with thread_states := set_stripe (inc_num_stripes l.thread_states l.thread_ind)
                 l.thread_ind l.stripe_ind ⟨l.xstart, cend, l.ystart, l.ystart + l.this_step - 1⟩,
               s := some (l.thread_ind, l.stripe_ind), ystart := l.ystart + l.this_step },
      by simp [stripe_step, stripe_step_y, h0, h1, h2, h3], rfl, rfl, rfl, rfl, rfl,
      rfl, by simp [pos], by simp [cpos], by simp [lo, pos], by simp [hi, pos],
      by simp [clo, cpos], by simp [chi]⟩

theorem pos_next_thread (ay : Bool) (W N step r : Int) (l : calc_locals)
    (hx : (next_thread W N step r l).xstart = l.xstart)
    (hy : (next_thread W N step r l).ystart = l.ystart) :
    pos ay (next_thread W N step r l) = pos ay l ∧
    cpos ay (next_thread W N step r l) = cpos ay l := by
  cases ay <;> simp [pos, cpos, hx, hy]

theorem stripe_step_inv (ay : Bool) (W N step r a0 c0 cend : Int) (k : Nat) (l : calc_locals)
    (hW : W ≤ 32) (hN : N ≤ 8 * W) (hstep : 1 ≤ step) (hr0 : 0 ≤ r) (hrN : r < N)
    (hkN : (k : Int) < N) (inv : loop_inv ay W N step r a0 c0 cend k l) :
    ∃ l', stripe_step ay W N step r cend l = some l' ∧
      loop_inv ay W N step r a0 c0 cend (k + 1) l' := by
  obtain ⟨ti_lo, ti_hi, si_lo, hk, hfrac, hstp, hcpos, hpos, hpos_ge, hcnt, hmem, hord, hcov,
    hs⟩ := inv
  have hsi : l.stripe_ind < 8 := by
    by_contra hc
    have h8 := mul_le_mul_of_nonneg_right (show (8 : Int) ≤ l.stripe_ind by omega)
      (show (0 : Int) ≤ W by omega)
    omega
  have hMT : MAX_THREADS = 32 := by decide
  have hMS : MAX_STRIPES = 8 := rfl
  obtain ⟨v, l1, hstepeq, hts, hs1, hti1, hsi1, hfrac1, hstp1, hpos1, hcpos1, hvlo, hvhi, hvclo,
    hvchi⟩ := stripe_step_shape ay W N step r cend l ti_lo (by omega) si_lo (by omega)
  obtain ⟨nts, ns, nx, ny, hcase⟩ := next_thread_spec W N step r l1 (by omega) (by omega)
    (by rw [hfrac1, hsi1]; exact hfrac)
  obtain ⟨npos, ncpos⟩ := pos_next_thread ay W N step r l1 nx ny
  rw [hti1, hsi1, hfrac1, hstp1] at hcase
  have hgs := frac_seq_bounds N step r hr0 hrN l.stripe_ind.toNat
  have hthis : 1 ≤ l.this_step := by rw [hstp]; unfold group_step; omega
  refine ⟨_, hstepeq, ?_⟩
  generalize next_thread W N step r l1 = l' at *
  have hmem' : ∀ t g, (l'.thread_states t).stripes g =
      if t = l.thread_ind ∧ g = l.stripe_ind then v else (l.thread_states t).stripes g := by
    intro t g; rw [nts, hts, set_stripe_get]
  have hcnt' : ∀ t, (l'.thread_states t).num_stripes =
      (l.thread_states t).num_stripes + (if t = l.thread_ind then 1 else 0) := by
    intro t; rw [nts, hts, set_stripe_num]
  have hw : ∀ t g, written W l' t g ↔
      (written W l t g ∨ (t = l.thread_ind ∧ g = l.stripe_ind)) := by
    intro t g; unfold written
    rcases hcase with ⟨c1, c2, c3, -, -⟩ | ⟨c1, c2, c3, -, -⟩ <;> rw [c2, c3] <;> omega
  have hnw : ¬ written W l l.thread_ind l.stripe_ind := by unfold written; omega
  have hposl' : pos ay l' = pos ay l + l.this_step := by rw [npos, hpos1]
  constructor
  · rcases hcase with ⟨c1, c2, c3, -, -⟩ | ⟨c1, c2, c3, -, -⟩ <;> omega
  · rcases hcase with ⟨c1, c2, c3, -, -⟩ | ⟨c1, c2, c3, -, -⟩ <;> omega
  · rcases hcase with ⟨c1, c2, c3, -, -⟩ | ⟨c1, c2, c3, -, -⟩ <;> omega
  · rcases hcase with ⟨c1, c2, c3, -, -⟩ | ⟨c1, c2, c3, -, -⟩
    · rw [c2, c3]; push_cast; rw [hk, c1]; ring
    · rw [c2, c3]; push_cast; rw [hk]; ring
  · rcases hcase with ⟨c1, c2, c3, c4, -⟩ | ⟨c1, c2, c3, c4, -⟩
    · rw [c4, c3]
    · rw [c4, c3, hfrac]
  · rcases hcase with ⟨c1, c2, c3, -, c5⟩ | ⟨c1, c2, c3, -, c5⟩
    · rw [c5, c3]
    · rw [c5, c3, hstp]
  · rw [ncpos, hcpos1, hcpos]
  · rw [hposl', hpos]
    rcases hcase with ⟨c1, c2, c3, -, c5⟩ | ⟨c1, c2, c3, -, c5⟩
    · have hnat : (l.stripe_ind + 1).toNat = l.stripe_ind.toNat + 1 := by omega
      rw [c2, c3, hnat, rows_before, c1, hstp]; unfold group_step; ring
    · rw [c2, c3, c5]; ring
  · omega
  · intro t ht0 htW
    rw [hcnt', hcnt t ht0 htW]
    rcases hcase with ⟨c1, c2, c3, -, -⟩ | ⟨c1, c2, c3, -, -⟩ <;> rw [c2, c3] <;>
      split_ifs <;> omega
  · intro t g hwr
    rw [hmem', hposl']
    rcases (hw t g).1 hwr with hold | ⟨hte, hge⟩
    · have hne : ¬ (t = l.thread_ind ∧ g = l.stripe_ind) := by
        rintro ⟨hte, hge⟩; rw [hte, hge] at hold; exact hnw hold
      rw [if_neg hne]
      obtain ⟨m1, m2, m3, m4, m5⟩ := hmem t g hold
      exact ⟨m1, m2, m3, by omega, m5⟩
    · rw [if_pos ⟨hte, hge⟩, hvlo, hvhi, hvclo, hvchi, hge, ← hstp]
      exact ⟨hcpos, rfl, hpos_ge, by omega, rfl⟩
  · intro t g t' g' hwr hwr' hb
    rw [hmem', hmem']
    rcases (hw t g).1 hwr with hold | ⟨hte, hge⟩
    · have hne : ¬ (t = l.thread_ind ∧ g = l.stripe_ind) := by
        rintro ⟨hte, hge⟩; rw [hte, hge] at hold; exact hnw hold
      rw [if_neg hne]
      rcases (hw t' g').1 hwr' with hold' | ⟨hte', hge'⟩
      · have hne' : ¬ (t' = l.thread_ind ∧ g' = l.stripe_ind) := by
          rintro ⟨hte', hge'⟩; rw [hte', hge'] at hold'; exact hnw hold'
        rw [if_neg hne']
        exact hord t g t' g' hold hold' hb
      · rw [if_pos ⟨hte', hge'⟩, hvlo]
        exact (hmem t g hold).2.2.2.1
    · exfalso
      rcases (hw t' g').1 hwr' with hold' | hnew
      · unfold written at hold'; unfold before at hb; omega
      · unfold before at hb; omega
  · intro a ha0 ha
    rw [hposl'] at ha
    by_cases hlt : a < pos ay l
    · obtain ⟨t, g, hwr, h1, h2⟩ := hcov a ha0 hlt
      have hne : ¬ (t = l.thread_ind ∧ g = l.stripe_ind) := by
        rintro ⟨hte, hge⟩; rw [hte, hge] at hwr; exact hnw hwr
      exact ⟨t, g, (hw t g).2 (Or.inl hwr), by rw [hmem', if_neg hne]; exact h1,
        by rw [hmem', if_neg hne]; exact h2⟩
    · refine ⟨l.thread_ind, l.stripe_ind, (hw _ _).2 (Or.inr ⟨rfl, rfl⟩), ?_, ?_⟩
      · rw [hmem', if_pos ⟨rfl, rfl⟩, hvlo]; omega
      · rw [hmem', if_pos ⟨rfl, rfl⟩, hvhi]; omega
  · intro _
    rw [ns, hs1]
    rcases hcase with ⟨c1, c2, c3, -, -⟩ | ⟨c1, c2, c3, -, -⟩
    · rw [c2, c3, if_pos rfl, c1]; simp
    · rw [c2, c3]
      have : ¬ (l.thread_ind - 1 = W - 1) := by omega
      rw [if_neg this]; simp

theorem step_setup_spec (size N : Int) (hsize : 1 ≤ size) (hN : 1 ≤ N) :
    (step_setup size N).1 = (if size < N then size else N) ∧
    1 ≤ (step_setup size N).2.1 ∧
    0 ≤ (step_setup size N).2.2 ∧
    (step_setup size N).2.2 < (step_setup size N).1 ∧
    size = (step_setup size N).1 * (step_setup size N).2.1 + (step_setup size N).2.2 ∧
    (size < N → (step_setup size N).2.1 = 1 ∧ (step_setup size N).2.2 = 0) := by
  unfold step_setup
  rw [Int.tdiv_eq_ediv (by omega) (by omega)]
  have hmod := Int.emod_add_ediv size N
  have hm0 := Int.emod_nonneg size (show N ≠ 0 by omega)
  have hm1 := Int.emod_lt_of_pos size (show 0 < N by omega)
  by_cases hlt : size < N
  · have hz : size / N = 0 := Int.ediv_eq_zero_of_lt (by omega) hlt
    simp [hz, hlt]; omega
  · have hq : 1 ≤ size / N := Int.le_ediv_of_mul_le (by omega) (by omega)
    have hne : ¬ (size / N = 0) := by omega
    simp only [hne, if_false, hlt]
    refine ⟨trivial, hq, by omega, by omega, by omega, fun h => h.elim⟩

theorem for_loop_inv (ay : Bool) (W N step r a0 c0 cend : Int)
    (hW : W ≤ 32) (hN : N ≤ 8 * W) (hstep : 1 ≤ step) (hr0 : 0 ≤ r) (hrN : r < N) (n : Nat) :
    ∀ (k : Nat) (l : calc_locals), ((k + n : Nat) : Int) ≤ N →
      loop_inv ay W N step r a0 c0 cend k l →
      ∃ l', for_loop (stripe_step ay W N step r cend) n l = some l' ∧
        loop_inv ay W N step r a0 c0 cend (k + n) l' := by
  induction n with
  | zero => intro k l _ inv; exact ⟨l, rfl, inv⟩
  | succ n ih =>
    intro k l hk inv
    obtain ⟨l1, h1, inv1⟩ := stripe_step_inv ay W N step r a0 c0 cend k l hW hN hstep hr0 hrN
      (by push_cast at hk; omega) inv
    obtain ⟨l2, h2, inv2⟩ := ih (k + 1) l1 (by push_cast at hk ⊢; omega) inv1
    refine ⟨l2, ?_, ?_⟩
    · simp [for_loop, h1, h2]
    · have : k + (n + 1) = k + 1 + n := by omega
      rw [this]; exact inv2

theorem init_inv (ay : Bool) (W N step r cend : Int) (l0 : calc_locals) (hW : 1 ≤ W)
    (hti : l0.thread_ind = W - 1) (hsi : l0.stripe_ind = 0)
    (hfrac : l0.frac = r) (hstp : l0.this_step = step)
    (hcnt : ∀ t, 0 ≤ t → t < W → (l0.thread_states t).num_stripes = 0) :
    loop_inv ay W N step r (pos ay l0) (cpos ay l0) cend 0 l0 := by
  constructor
  · omega
  · omega
  · omega
  · rw [hti, hsi]; simp
  · rw [hsi, hfrac]; simp [frac_seq]
  · rw [hsi, hstp]; simp [group_step, frac_seq]
  · rfl
  · rw [hsi, hti]; simp [rows_before]
  · exact le_refl _
  · intro t h0 h1; rw [hcnt t h0 h1, hti, hsi]; simp; omega
  · intro t g hw; unfold written at hw; omega
  · intro t g t' g' hw; unfold written at hw; omega
  · intro a h1 h2; omega
  · intro h; omega

theorem final_pos (ay : Bool) (W N N' step r a0 c0 cend size : Int) (l : calc_locals)
    (hW : 1 ≤ W) (S : Int) (hS : 1 ≤ S) (hNS : N = S * W)
    (hN' : N' = if size < N then size else N) (hr0 : 0 ≤ r) (hrN : r < N')
    (hsz : size = N' * step + r) (hred : size < N → step = 1 ∧ r = 0)
    (inv : loop_inv ay W N' step r a0 c0 cend N'.toNat l) (hN'pos : 1 ≤ N') :
    pos ay l ≤ a0 + size ∧ a0 + size - pos ay l < W ∧
    (N ≤ size → l.thread_ind = W - 1 ∧ l.stripe_ind = S ∧
      W * rows_before N' step r S.toNat = pos ay l - a0) := by
  have hk := inv.hk
  have hpos := inv.hpos
  have hstp := inv.hstep
  have h1 := inv.ti_lo
  have h2 := inv.ti_hi
  have h3 := inv.si_lo
  rw [Int.toNat_of_nonneg (by omega)] at hk
  by_cases hlt : size < N
  · obtain ⟨hs1, hr⟩ := hred hlt
    subst hr
    rw [if_pos hlt] at hN'
    rw [hstp] at hpos
    unfold group_step at hpos
    rw [frac_seq_zero N' step (by omega), rows_before_zero N' step (by omega),
      Int.toNat_of_nonneg h3] at hpos
    simp only at hpos
    rw [hs1] at hpos hsz
    have e1 : W * (l.stripe_ind * 1) = l.stripe_ind * W := by ring
    rw [e1] at hpos
    refine ⟨by omega, by omega, fun h => by omega⟩
  · rw [if_neg hlt] at hN'
    subst hN'
    have hsi : l.stripe_ind = S := by
      rcases lt_trichotomy l.stripe_ind S with h | h | h
      · exfalso
        have := mul_le_mul_of_nonneg_right (show l.stripe_ind + 1 ≤ S by omega)
          (show (0 : Int) ≤ W by omega)
        have e : (l.stripe_ind + 1) * W = l.stripe_ind * W + W := by ring
        omega
      · exact h
      · exfalso
        have := mul_le_mul_of_nonneg_right (show S + 1 ≤ l.stripe_ind by omega)
          (show (0 : Int) ≤ W by omega)
        have e : (S + 1) * W = S * W + W := by ring
        omega
    have hti : l.thread_ind = W - 1 := by rw [hsi] at hk; omega
    rw [hsi, hti] at hpos
    have e0 : (W - 1 - (W - 1)) * l.this_step = 0 := by ring
    rw [e0] at hpos
    obtain ⟨n, hn⟩ : ∃ n : Nat, S.toNat = n + 1 := ⟨S.toNat - 1, by omega⟩
    have hmul := rows_before_succ_mul N' step r size hsz n
    have hfb := frac_seq_bounds N' step r hr0 hrN n
    rw [← hn] at hmul
    have hSn : ((n : Int) + 1) = S := by omega
    rw [hSn] at hmul
    set P := rows_before N' step r S.toNat with hP
    set f := (frac_seq N' step r n).1 with hf
    have key : S * (size - W * P) = f := by
      have : S * (size - W * P) = S * size - N' * P := by rw [hNS]; ring
      rw [this, hmul]; ring
    have hL0 : 0 ≤ size - W * P := by
      by_contra hc
      have : S * (size - W * P) ≤ S * (-1) :=
        mul_le_mul_of_nonneg_left (by omega) (by omega)
      omega
    have hL1 : size - W * P < W := by
      by_contra hc
      have : S * W ≤ S * (size - W * P) :=
        mul_le_mul_of_nonneg_left (by omega) (by omega)
      omega
    refine ⟨by omega, by omega, fun _ => ⟨hti, hsi, by omega⟩⟩

theorem set_stripe_num' (ts : Int → thread_state) (a b : Int) (v : stripe) (t : Int) :
    (set_stripe ts a b v t).num_stripes = (ts t).num_stripes := by
  unfold set_stripe
  by_cases h : t = a <;> simp [h]

theorem set_stripe_get' (ts : Int → thread_state) (a b : Int) (v : stripe) (t g : Int) :
    (set_stripe ts a b v t).stripes g = if t = a ∧ g = b then v else (ts t).stripes g := by
  unfold set_stripe
  by_cases h : t = a <;> by_cases h2 : g = b <;> simp [h, h2]

theorem set_hi_spec (ay : Bool) (v : stripe) (a : Int) :
    lo ay (set_hi ay v a) = lo ay v ∧ hi ay (set_hi ay v a) = a ∧
    clo ay (set_hi ay v a) = clo ay v ∧ chi ay (set_hi ay v a) = chi ay v := by
  cases ay <;> simp [lo, hi, clo, chi, set_hi]

theorem divide_eq (ay : Bool) (W N : Int) (l : calc_locals) (cend aend : Int) :
    divide ay W N l cend aend =
      (for_loop (stripe_step ay W (step_setup (aend - pos ay l + 1) N).1
          (step_setup (aend - pos ay l + 1) N).2.1 (step_setup (aend - pos ay l + 1) N).2.2 cend)
        (step_setup (aend - pos ay l + 1) N).1.toNat
        { l with frac := (step_setup (aend - pos ay l + 1) N).2.2,
                 this_step := (step_setup (aend - pos ay l + 1) N).2.1 }).bind
      (fun l' => l'.s.bind (fun q => some
        { l' with thread_states := set_stripe l'.thread_states q.1 q.2
                    (set_hi ay ((l'.thread_states q.1).stripes q.2) aend) })) := by
  cases ay
  · have hf : ∀ a b c d e, stripe_step false a b c d e = stripe_step_x a b c d e := by
      intros; funext l; simp [stripe_step]
    simp only [divide, divide_x, pos, hf, set_hi, Bool.false_eq_true, if_false]
    cases h1 : for_loop _ _ _ with
    | none => rfl
    | some l' =>
      simp only [Option.bind]
      cases h2 : l'.s with
      | none => rfl
      | some q => rfl
  · have hf : ∀ a b c d e, stripe_step true a b c d e = stripe_step_y a b c d e := by
      intros; funext l; simp [stripe_step]
    simp only [divide, divide_y, pos, hf, set_hi, if_true]
    cases h1 : for_loop _ _ _ with
    | none => rfl
    | some l' =>
      simp only [Option.bind]
      cases h2 : l'.s with
      | none => rfl
      | some q => rfl

theorem divide_spec (ay : Bool) (W N S : Int) (l0 : calc_locals) (cend aend : Int)
    (hW1 : 1 ≤ W) (hW : W ≤ 32) (hS1 : 1 ≤ S) (hS8 : S ≤ 8) (hNS : N = S * W)
    (hti : l0.thread_ind = W - 1) (hsi : l0.stripe_ind = 0)
    (hcnt : ∀ t, 0 ≤ t → t < W → (l0.thread_states t).num_stripes = 0)
    (hsize : pos ay l0 ≤ aend) :
    ∃ l' last pN, divide ay W N l0 cend aend = some l' ∧ l'.s = some last ∧
      sched_spec ay W (step_setup (aend - pos ay l0 + 1) N).1
        (step_setup (aend - pos ay l0 + 1) N).2.1 (step_setup (aend - pos ay l0 + 1) N).2.2
        (pos ay l0) aend (cpos ay l0) cend l'.thread_states last pN ∧
      aend + 1 - pN < W ∧
      (N ≤ aend - pos ay l0 + 1 → last = (0, S - 1) ∧
        W * rows_before (step_setup (aend - pos ay l0 + 1) N).1
          (step_setup (aend - pos ay l0 + 1) N).2.1 (step_setup (aend - pos ay l0 + 1) N).2.2
          S.toNat = pN - pos ay l0) := by
  have hN1 : 1 ≤ N := by
    have := mul_le_mul_of_nonneg_right hS1 (show (0 : Int) ≤ W by omega)
    omega
  have hN8 : N ≤ 8 * W := by
    have := mul_le_mul_of_nonneg_right hS8 (show (0 : Int) ≤ W by omega)
    omega
  rw [divide_eq]
  obtain ⟨e1, e2, e3, e4, e5, e6⟩ := step_setup_spec (aend - pos ay l0 + 1) N (by omega) hN1
  generalize (step_setup (aend - pos ay l0 + 1) N).1 = N' at *
  generalize (step_setup (aend - pos ay l0 + 1) N).2.1 = step at *
  generalize (step_setup (aend - pos ay l0 + 1) N).2.2 = r at *
  have hN'1 : 1 ≤ N' := by rw [e1]; split_ifs <;> omega
  have hN'N : N' ≤ N := by rw [e1]; split_ifs <;> omega
  have hp1 : pos ay { l0 with frac := r, this_step := step } = pos ay l0 := by
    cases ay <;> rfl
  have hc1 : cpos ay { l0 with frac := r, this_step := step } = cpos ay l0 := by
    cases ay <;> rfl
  have inv0 := init_inv ay W N' step r cend { l0 with frac := r, this_step := step } hW1 hti hsi
    rfl rfl hcnt
  rw [hp1, hc1] at inv0
  obtain ⟨l, hl, inv⟩ := for_loop_inv ay W N' step r (pos ay l0) (cpos ay l0) cend hW
    (by omega) e2 e3 e4 N'.toNat 0 _ (by simp; omega) inv0
  rw [Nat.zero_add] at inv
  obtain ⟨f1, f2, f3⟩ := final_pos ay W N N' step r (pos ay l0) (cpos ay l0) cend
    (aend - pos ay l0 + 1) l hW1 S hS1 hNS e1 e3 e4 e5 e6 inv hN'1
  obtain ⟨ti_lo, ti_hi, si_lo, hk, hfrac, hstp, hcpos, hpos, hpos_ge, hcnt', hmem, hord, hcov,
    hs⟩ := inv
  rw [Int.toNat_of_nonneg (by omega)] at hk
  have hs' := hs (by omega)
  have hsi1 : l.thread_ind = W - 1 → 1 ≤ l.stripe_ind := by
    intro h
    by_contra hc
    have : l.stripe_ind = 0 := by omega
    rw [this, h] at hk; simp at hk; omega
  rw [hl]
  simp only [Option.bind, hs']
  refine ⟨_, _, pos ay l, rfl, rfl, ?_, by omega, ?_⟩
  · set last : Int × Int := (if l.thread_ind = W - 1 then ((0 : Int), l.stripe_ind - 1)
      else (l.thread_ind + 1, l.stripe_ind)) with hlast
    have hl1 : last.1 = if l.thread_ind = W - 1 then 0 else l.thread_ind + 1 := by
      rw [hlast]; split_ifs <;> rfl
    have hl2 : last.2 = if l.thread_ind = W - 1 then l.stripe_ind - 1 else l.stripe_ind := by
      rw [hlast]; split_ifs <;> rfl
    have hvw : ∀ t g, valid_slot W (set_stripe l.thread_states last.1 last.2
        (set_hi ay ((l.thread_states last.1).stripes last.2) aend)) t g ↔ written W l t g := by
      intro t g
      unfold valid_slot written
      rw [set_stripe_num']
      constructor
      · rintro ⟨a, b, c, d⟩; rw [hcnt' t a b] at d; split_ifs at d <;> omega
      · rintro ⟨a, b, c, d⟩; rw [hcnt' t a b]; split_ifs <;> omega
    have hwl : written W l last.1 last.2 := by
      unfold written; rw [hl1, hl2]; split_ifs with h
      · have := hsi1 h; omega
      · omega
    have hmax : ∀ t g, written W l t g → (t, g) ≠ last → before t g last.1 last.2 := by
      intro t g hw hne
      have hne' : ¬ (t = last.1 ∧ g = last.2) := by
        rintro ⟨a, b⟩; apply hne; rw [a, b]
      unfold written at hw; unfold before
      rw [hl1, hl2] at hne' ⊢; split_ifs at hne' ⊢ <;> omega
    obtain ⟨s1, s2, s3, s4⟩ := set_hi_spec ay ((l.thread_states last.1).stripes last.2) aend
    obtain ⟨m1, m2, m3, m4, m5⟩ := hmem _ _ hwl
    have hg1 : 1 ≤ group_step N' step r last.2 := by
      have := frac_seq_bounds N' step r e3 e4 last.2.toNat
      unfold group_step; omega
    constructor
    · exact e2
    · exact e3
    · exact e4
    · rw [hl1]; split_ifs <;> omega
    · rw [hl1]; split_ifs <;> omega
    · rw [hl2]; split_ifs with h
      · have := hsi1 h; omega
      · omega
    · rw [hl1, hl2, hk]; split_ifs with h
      · rw [h]; ring
      · ring
    · intro t a b
      rw [set_stripe_num', hcnt' t a b, hl1, hl2]
      split_ifs <;> omega
    · rw [hpos, hstp, hl1, hl2]
      split_ifs with h
      · have hnat : l.stripe_ind.toNat = (l.stripe_ind - 1).toNat + 1 := by
          have := hsi1 h; omega
        rw [hnat, rows_before, h]; unfold group_step; ring
      · ring
    · omega
    · intro t g hv
      have hw := (hvw t g).1 hv
      rw [set_stripe_get']
      split_ifs with h
      · rw [s2, s3, s4, s1]; exact ⟨m1, m2, m3, le_refl _⟩
      · obtain ⟨n1, n2, n3, n4, n5⟩ := hmem t g hw
        exact ⟨n1, n2, n3, by omega⟩
    · intro t g hv hne
      have hw := (hvw t g).1 hv
      have hne' : ¬ (t = last.1 ∧ g = last.2) := by
        rintro ⟨a, b⟩; apply hne; rw [a, b]
      rw [set_stripe_get', if_neg hne']
      obtain ⟨n1, n2, n3, n4, n5⟩ := hmem t g hw
      have := hord t g _ _ hw hwl (hmax t g hw hne)
      exact ⟨n5, by omega⟩
    · rw [set_stripe_get', if_pos ⟨rfl, rfl⟩, s2, s1]
      refine ⟨rfl, ?_⟩
      have : pos ay l = lo ay ((l.thread_states last.1).stripes last.2)
          + group_step N' step r last.2 := by
        have hlo : ∀ a, a < pos ay l → a ≤ hi ay ((l.thread_states last.1).stripes last.2) := by
          intro a ha
          by_contra hc
          by_cases ha0 : pos ay l0 ≤ a
          · obtain ⟨t, g, hw, c1, c2⟩ := hcov a ha0 ha
            by_cases he : (t, g) = last
            · have ht : t = last.1 := by rw [← he]
              have hg : g = last.2 := by rw [← he]
              rw [ht, hg] at c2; omega
            · have := hord t g _ _ hw hwl (hmax t g hw he)
              omega
          · omega
        have := hlo (pos ay l - 1) (by omega)
        omega
      omega
    · intro t g t' g' hv hv' hb
      have hw := (hvw t g).1 hv
      have hw' := (hvw t' g').1 hv'
      have hne : ¬ (t = last.1 ∧ g = last.2) := by
        rintro ⟨a, b⟩
        unfold before at hb; unfold written at hw'
        rw [a, b, hl1, hl2] at hb; split_ifs at hb <;> omega
      rw [set_stripe_get', set_stripe_get', if_neg hne]
      split_ifs with h
      · rw [s1, ← h.1, ← h.2]; exact hord t g t' g' hw hw' hb
      · exact hord t g t' g' hw hw' hb
    · intro a ha0 ha1
      by_cases hlt : a < pos ay l
      · obtain ⟨t, g, hw, c1, c2⟩ := hcov a ha0 hlt
        refine ⟨t, g, (hvw t g).2 hw, ?_, ?_⟩
        · rw [set_stripe_get']; split_ifs with h
          · rw [s1, ← h.1, ← h.2]; exact c1
          · exact c1
        · rw [set_stripe_get']; split_ifs with h
          · rw [s2]; exact ha1
          · exact c2
      · refine ⟨last.1, last.2, (hvw _ _).2 hwl, ?_, ?_⟩
        · rw [set_stripe_get', if_pos ⟨rfl, rfl⟩, s1]; omega
        · rw [set_stripe_get', if_pos ⟨rfl, rfl⟩, s2]; exact ha1
  · intro hle
    obtain ⟨g1, g2, g3⟩ := f3 hle
    refine ⟨?_, by omega⟩
    rw [if_pos g1, g2]

theorem stripes_per_thread_bounds (spt ind : Int) :
    1 ≤ stripes_per_thread spt ind ∧ stripes_per_thread spt ind ≤ 8 := by
  unfold stripes_per_thread MAX_STRIPES
  simp only
  split_ifs <;> omega

theorem num_threads_bounds (ind W : Int) (h0 : 0 ≤ ind) (h5 : ind ≤ MAX_THREADS_IND)
    (hW : W = shl 1 ind) : 1 ≤ W ∧ W ≤ 32 := by
  unfold MAX_THREADS_IND at h5
  subst hW
  interval_cases ind <;> simp [shl]

theorem total_stripes_eq (spt ind W : Int) (hW : W = shl 1 ind) :
    total_stripes spt ind = stripes_per_thread spt ind * W := by
  subst hW; unfold total_stripes shl; ring

theorem man_calculate_locals_eq (spt ind W : Int) (ts : Int → thread_state)
    (xs xe ys ye : Int) (hW : W ≤ 32) :
    man_calculate_locals spt ind W ts xs xe ys ye =
      divide (axis_of spt ind xs xe ys ye) W (total_stripes spt ind)
        { thread_states := clear_num_stripes W ts, thread_ind := W - 1, stripe_ind := 0,
          xstart := xs, ystart := ys, frac := 0, this_step := 0, s := none }
        (across (axis_of spt ind xs xe ys ye) xe ye) (along (axis_of spt ind xs xe ys ye) xe ye) := by
  have hMT : MAX_THREADS = 32 := by decide
  have hn : ¬ (W > MAX_THREADS) := by omega
  unfold man_calculate_locals
  simp only [hn, if_false]
  unfold divide axis_of total_stripes
  cases split_along_y (xe - xs + 1) (ye - ys + 1) (shl (stripes_per_thread spt ind) ind) <;>
    simp [across, along]

theorem man_calculate_sched (spt ind W : Int) (ts : Int → thread_state) (xs xe ys ye : Int)
    (hind0 : 0 ≤ ind) (hind5 : ind ≤ MAX_THREADS_IND) (hW : W = shl 1 ind)
    (hx : xs ≤ xe) (hy : ys ≤ ye) (ay : Bool) (hay : ay = axis_of spt ind xs xe ys ye) :
    ∃ l last pN N' step r,
      man_calculate_locals spt ind W ts xs xe ys ye = some l ∧ l.s = some last ∧
      sched_spec ay W N' step r (along ay xs ys) (along ay xe ye) (across ay xs ys)
        (across ay xe ye) l.thread_states last pN ∧
      1 ≤ W ∧ W ≤ 32 ∧
      N' = (if along ay xe ye - along ay xs ys + 1 < total_stripes spt ind
        then along ay xe ye - along ay xs ys + 1 else total_stripes spt ind) ∧
      along ay xe ye - along ay xs ys + 1 = N' * step + r ∧
      (along ay xe ye - along ay xs ys + 1 < total_stripes spt ind → step = 1 ∧ r = 0) ∧
      along ay xe ye + 1 - pN < W ∧
      (total_stripes spt ind ≤ along ay xe ye - along ay xs ys + 1 →
        last = (0, stripes_per_thread spt ind - 1) ∧
        W * rows_before N' step r (stripes_per_thread spt ind).toNat = pN - along ay xs ys) := by
  obtain ⟨hW1, hW32⟩ := num_threads_bounds ind W hind0 hind5 hW
  obtain ⟨hS1, hS8⟩ := stripes_per_thread_bounds spt ind
  have hNS := total_stripes_eq spt ind W hW
  rw [man_calculate_locals_eq spt ind W ts xs xe ys ye hW32, ← hay]
  have hpos : pos ay ⟨clear_num_stripes W ts, W - 1, 0, xs, ys, 0, 0, none⟩
      = along ay xs ys := by cases ay <;> rfl
  have hcpos : cpos ay ⟨clear_num_stripes W ts, W - 1, 0, xs, ys, 0, 0, none⟩
      = across ay xs ys := by cases ay <;> rfl
  have hsz : along ay xs ys ≤ along ay xe ye := by
    cases ay
    · exact hx
    · exact hy
  obtain ⟨l, last, pN, h1, h2, h3, h4, h5⟩ := divide_spec ay W (total_stripes spt ind)
    (stripes_per_thread spt ind) ⟨clear_num_stripes W ts, W - 1, 0, xs, ys, 0, 0, none⟩
    (across ay xe ye) (along ay xe ye) hW1 hW32 hS1 hS8 hNS
    rfl rfl (by intro t h0 h1; simp [clear_num_stripes, h0, h1]) (by rw [hpos]; exact hsz)
  rw [hpos, hcpos] at h3
  rw [hpos] at h5
  have hN1 : 1 ≤ total_stripes spt ind := by
    have := mul_le_mul_of_nonneg_right hS1 (show (0 : Int) ≤ W by omega)
    omega
  obtain ⟨e1, e2, e3, e4, e5, e6⟩ := step_setup_spec (along ay xe ye - along ay xs ys + 1)
    (total_stripes spt ind) (by omega) hN1
  exact ⟨l, last, pN, _, _, _, h1, h2, h3, hW1, hW32, e1, e5, e6, h4, h5⟩

theorem group_step_bounds (N step r : Int) (hr0 : 0 ≤ r) (hrN : r < N) (g : Int) :
    step ≤ group_step N step r g ∧ group_step N step r g ≤ step + 1 := by
  have := frac_seq_bounds N step r hr0 hrN g.toNat
  unfold group_step; omega

theorem in_stripe_iff (ay : Bool) (s : stripe) (x y : Int) :
    in_stripe s x y ↔ (lo ay s ≤ along ay x y ∧ along ay x y ≤ hi ay s ∧
      clo ay s ≤ across ay x y ∧ across ay x y ≤ chi ay s) := by
  cases ay
  · simp [in_stripe, lo, hi, clo, chi, along, across]
  · simp [in_stripe, lo, hi, clo, chi, along, across]; tauto

theorem sched_nonempty {ay : Bool} {W N step r a0 aend c0 cend : Int}
    {ts : Int → thread_state} {last : Int × Int} {pN : Int}
    (spec : sched_spec ay W N step r a0 aend c0 cend ts last pN) (t g : Int)
    (hv : valid_slot W ts t g) :
    lo ay ((ts t).stripes g) ≤ hi ay ((ts t).stripes g) := by
  by_cases he : (t, g) = last
  · have ht : t = last.1 := by rw [← he]
    have hg : g = last.2 := by rw [← he]
    have h1 := spec.ext_last
    have h2 := spec.posN_le
    have h3 := (group_step_bounds N step r spec.r_nonneg spec.r_lt last.2).1
    have h4 := spec.step_pos
    rw [ht, hg]; omega
  · have h1 := (spec.ext t g hv he).1
    have h3 := (group_step_bounds N step r spec.r_nonneg spec.r_lt g).1
    have h4 := spec.step_pos
    omega

theorem sched_disjoint {ay : Bool} {W N step r a0 aend c0 cend : Int}
    {ts : Int → thread_state} {last : Int × Int} {pN : Int}
    (spec : sched_spec ay W N step r a0 aend c0 cend ts last pN) (t g t' g' a : Int)
    (hv : valid_slot W ts t g) (hv' : valid_slot W ts t' g')
    (h1 : lo ay ((ts t).stripes g) ≤ a) (h2 : a ≤ hi ay ((ts t).stripes g))
    (h1' : lo ay ((ts t').stripes g') ≤ a) (h2' : a ≤ hi ay ((ts t').stripes g')) :
    t = t' ∧ g = g' := by
  by_contra hne
  have hb : before t g t' g' ∨ before t' g' t g := by unfold before; omega
  rcases hb with hb | hb
  · have := spec.ord t g t' g' hv hv' hb; omega
  · have := spec.ord t' g' t g hv' hv hb; omega

/-- C1.  For a non-empty calculation rectangle, a thread-count index `0..5` with
`num_threads = 1 << num_threads_ind` and any stripes-per-thread bitfield, `man_calculate`
succeeds, every stripe in a thread's stripe list is non-empty, and every pixel of the
rectangle lies in exactly one stripe of exactly one thread, while no stripe contains a pixel
outside the rectangle. -/
theorem man_calculate_partition (spt ind W : Int) (need_recalc : Bool) (m : man_calc_struct)
    (xs xe ys ye x0 x1 y0 y1 : Int)
    (hind0 : 0 ≤ ind) (hind5 : ind ≤ MAX_THREADS_IND) (hW : W = shl 1 ind)
    (hrect : compute_rect need_recalc m xs xe ys ye = (x0, x1, y0, y1))
    (hx : x0 ≤ x1) (hy : y0 ≤ y1) :
    ∃ m', man_calculate spt ind W need_recalc m xs xe ys ye = some m' ∧
      (∀ t g, valid_slot W m'.thread_states t g →
        ((m'.thread_states t).stripes g).xstart ≤ ((m'.thread_states t).stripes g).xend ∧
        ((m'.thread_states t).stripes g).ystart ≤ ((m'.thread_states t).stripes g).yend) ∧
      (∀ x y, (x0 ≤ x ∧ x ≤ x1 ∧ y0 ≤ y ∧ y ≤ y1) ↔
        ∃ t g, valid_slot W m'.thread_states t g ∧
          in_stripe ((m'.thread_states t).stripes g) x y) ∧
      (∀ x y t g t' g', valid_slot W m'.thread_states t g →
        valid_slot W m'.thread_states t' g' →
        in_stripe ((m'.thread_states t).stripes g) x y →
        in_stripe ((m'.thread_states t').stripes g') x y → t = t' ∧ g = g') := by
  obtain ⟨l, last, pN, N', step, r, h1, -, spec, -⟩ := man_calculate_sched spt ind W
    m.thread_states x0 x1 y0 y1 hind0 hind5 hW hx hy _ rfl
  generalize axis_of spt ind x0 x1 y0 y1 = ay at spec
  have hc : across ay x0 y0 ≤ across ay x1 y1 := by
    cases ay
    · exact hy
    · exact hx
  refine ⟨{ m with thread_states := l.thread_states }, ?_, ?_, ?_, ?_⟩
  · simp only [man_calculate, hrect, h1, Option.map]
  · intro t g hv
    dsimp only at hv ⊢
    have hne := sched_nonempty spec t g hv
    obtain ⟨m1, m2, -, -⟩ := spec.mem t g hv
    cases ay
    · simp only [lo, hi, clo, chi, across, Bool.false_eq_true, if_false] at hne m1 m2 hc
      exact ⟨hne, by omega⟩
    · simp only [lo, hi, clo, chi, across, if_true] at hne m1 m2 hc
      exact ⟨by omega, hne⟩
  · intro x y
    dsimp only
    constructor
    · intro hin
      have hal : along ay x0 y0 ≤ along ay x y ∧ along ay x y ≤ along ay x1 y1 ∧
          across ay x0 y0 ≤ across ay x y ∧ across ay x y ≤ across ay x1 y1 := by
        cases ay <;> simp only [along, across, Bool.false_eq_true, if_false, if_true] <;> omega
      obtain ⟨t, g, hv, c1, c2⟩ := spec.cov _ hal.1 hal.2.1
      obtain ⟨m1, m2, -, -⟩ := spec.mem t g hv
      exact ⟨t, g, hv, (in_stripe_iff ay _ x y).2 ⟨c1, c2, by omega, by omega⟩⟩
    · rintro ⟨t, g, hv, hin⟩
      obtain ⟨c1, c2, c3, c4⟩ := (in_stripe_iff ay _ x y).1 hin
      obtain ⟨m1, m2, m3, m4⟩ := spec.mem t g hv
      have hal : along ay x0 y0 ≤ along ay x y ∧ along ay x y ≤ along ay x1 y1 ∧
          across ay x0 y0 ≤ across ay x y ∧ across ay x y ≤ across ay x1 y1 :=
        ⟨by omega, by omega, by omega, by omega⟩
      cases ay <;> simp only [along, across, Bool.false_eq_true, if_false, if_true] at hal <;>
        omega
  · intro x y t g t' g' hv hv' hin hin'
    dsimp only at hv hv' hin hin'
    obtain ⟨c1, c2, -, -⟩ := (in_stripe_iff ay _ x y).1 hin
    obtain ⟨d1, d2, -, -⟩ := (in_stripe_iff ay _ x y).1 hin'
    exact sched_disjoint spec t g t' g' _ hv hv' c1 c2 d1 d2

/-- Witness for C1: four threads on the full 10 by 10 image with the default bitfield. -/
theorem man_calculate_partition_witness :
    ∃ m', man_calculate 0x234471 2 4 false example_calc 0 9 0 9 = some m' ∧
      (∀ t g, valid_slot 4 m'.thread_states t g →
        ((m'.thread_states t).stripes g).xstart ≤ ((m'.thread_states t).stripes g).xend ∧
        ((m'.thread_states t).stripes g).ystart ≤ ((m'.thread_states t).stripes g).yend) ∧
      (∀ x y, (0 ≤ x ∧ x ≤ 9 ∧ 0 ≤ y ∧ y ≤ 9) ↔
        ∃ t g, valid_slot 4 m'.thread_states t g ∧
          in_stripe ((m'.thread_states t).stripes g) x y) ∧
      (∀ x y t g t' g', valid_slot 4 m'.thread_states t g →
        valid_slot 4 m'.thread_states t' g' →
        in_stripe ((m'.thread_states t).stripes g) x y →
        in_stripe ((m'.thread_states t').stripes g') x y → t = t' ∧ g = g') :=
  man_calculate_partition 0x234471 2 4 false example_calc 0 9 0 9 0 9 0 9
    (by decide) (by decide) (by decide) rfl (by decide) (by decide)

theorem sched_extent {ay : Bool} {W N step r a0 aend c0 cend : Int}
    {ts : Int → thread_state} {last : Int × Int} {pN : Int}
    (spec : sched_spec ay W N step r a0 aend c0 cend ts last pN) (hleft : aend + 1 - pN < W)
    (t g : Int) (hv : valid_slot W ts t g) :
    step ≤ hi ay ((ts t).stripes g) - lo ay ((ts t).stripes g) + 1 ∧
    hi ay ((ts t).stripes g) - lo ay ((ts t).stripes g) + 1 ≤ step + W ∧
    (hi ay ((ts t).stripes g) ≠ aend →
      hi ay ((ts t).stripes g) - lo ay ((ts t).stripes g) + 1 ≤ step + 1) := by
  have h3 := group_step_bounds N step r spec.r_nonneg spec.r_lt g
  have hW := spec.last_tW
  have hW0 := spec.last_t0
  by_cases he : (t, g) = last
  · have ht : t = last.1 := by rw [← he]
    have hg : g = last.2 := by rw [← he]
    have h1 := spec.ext_last
    have h2 := spec.posN_le
    rw [← ht, ← hg] at h1
    refine ⟨by omega, by omega, fun h => absurd h1.1 h⟩
  · have h1 := (spec.ext t g hv he).1
    refine ⟨by omega, by omega, fun _ => by omega⟩

/-- C2 (amended).  For a non-empty rectangle, any two stripes other than the final one (the
stripe that ends at the rectangle's end along the split axis) differ in extent along the
split axis by at most one; the final stripe is at most one unit smaller and at most
`num_threads` units larger than any other stripe. -/
theorem man_calculate_extents (spt ind W : Int) (need_recalc : Bool) (m : man_calc_struct)
    (xs xe ys ye x0 x1 y0 y1 : Int)
    (hind0 : 0 ≤ ind) (hind5 : ind ≤ MAX_THREADS_IND) (hW : W = shl 1 ind)
    (hrect : compute_rect need_recalc m xs xe ys ye = (x0, x1, y0, y1))
    (hx : x0 ≤ x1) (hy : y0 ≤ y1) :
    ∃ m', man_calculate spt ind W need_recalc m xs xe ys ye = some m' ∧
      ∀ t g t' g', valid_slot W m'.thread_states t g → valid_slot W m'.thread_states t' g' →
        hi (axis_of spt ind x0 x1 y0 y1) ((m'.thread_states t').stripes g') ≠
          along (axis_of spt ind x0 x1 y0 y1) x1 y1 →
        (hi (axis_of spt ind x0 x1 y0 y1) ((m'.thread_states t).stripes g) ≠
            along (axis_of spt ind x0 x1 y0 y1) x1 y1 →
          (hi (axis_of spt ind x0 x1 y0 y1) ((m'.thread_states t).stripes g) -
            lo (axis_of spt ind x0 x1 y0 y1) ((m'.thread_states t).stripes g)) -
          (hi (axis_of spt ind x0 x1 y0 y1) ((m'.thread_states t').stripes g') -
            lo (axis_of spt ind x0 x1 y0 y1) ((m'.thread_states t').stripes g')) ≤ 1) ∧
        (hi (axis_of spt ind x0 x1 y0 y1) ((m'.thread_states t').stripes g') -
            lo (axis_of spt ind x0 x1 y0 y1) ((m'.thread_states t').stripes g')) -
          (hi (axis_of spt ind x0 x1 y0 y1) ((m'.thread_states t).stripes g) -
            lo (axis_of spt ind x0 x1 y0 y1) ((m'.thread_states t).stripes g)) ≤ 1 ∧
        (hi (axis_of spt ind x0 x1 y0 y1) ((m'.thread_states t).stripes g) -
            lo (axis_of spt ind x0 x1 y0 y1) ((m'.thread_states t).stripes g)) -
          (hi (axis_of spt ind x0 x1 y0 y1) ((m'.thread_states t').stripes g') -
            lo (axis_of spt ind x0 x1 y0 y1) ((m'.thread_states t').stripes g')) ≤ W := by
  obtain ⟨l, last, pN, N', step, r, h1, -, spec, -, -, -, -, -, hleft, -⟩ :=
    man_calculate_sched spt ind W m.thread_states x0 x1 y0 y1 hind0 hind5 hW hx hy _ rfl
  generalize axis_of spt ind x0 x1 y0 y1 = ay at spec hleft ⊢
  refine ⟨{ m with thread_states := l.thread_states }, ?_, ?_⟩
  · simp only [man_calculate, hrect, h1, Option.map]
  · intro t g t' g' hv hv' hnf'
    dsimp only at hv hv' hnf' ⊢
    obtain ⟨a1, a2, a3⟩ := sched_extent spec hleft t g hv
    obtain ⟨b1, b2, b3⟩ := sched_extent spec hleft t' g' hv'
    have b4 := b3 hnf'
    refine ⟨fun hnf => ?_, by omega, by omega⟩
    have a4 := a3 hnf
    omega

/-- Witness for C2 (amended): four threads with the default bitfield (four stripes each) on
a 1 by 35 rectangle. -/
theorem man_calculate_extents_witness :
    ∃ m', man_calculate 0x234471 2 4 false example_calc 0 0 0 34 = some m' ∧
      ∀ t g t' g', valid_slot 4 m'.thread_states t g → valid_slot 4 m'.thread_states t' g' →
        hi (axis_of 0x234471 2 0 0 0 34) ((m'.thread_states t').stripes g') ≠
          along (axis_of 0x234471 2 0 0 0 34) 0 34 →
        (hi (axis_of 0x234471 2 0 0 0 34) ((m'.thread_states t).stripes g) ≠
            along (axis_of 0x234471 2 0 0 0 34) 0 34 →
          (hi (axis_of 0x234471 2 0 0 0 34) ((m'.thread_states t).stripes g) -
            lo (axis_of 0x234471 2 0 0 0 34) ((m'.thread_states t).stripes g)) -
          (hi (axis_of 0x234471 2 0 0 0 34) ((m'.thread_states t').stripes g') -
            lo (axis_of 0x234471 2 0 0 0 34) ((m'.thread_states t').stripes g')) ≤ 1) ∧
        (hi (axis_of 0x234471 2 0 0 0 34) ((m'.thread_states t').stripes g') -
            lo (axis_of 0x234471 2 0 0 0 34) ((m'.thread_states t').stripes g')) -
          (hi (axis_of 0x234471 2 0 0 0 34) ((m'.thread_states t).stripes g) -
            lo (axis_of 0x234471 2 0 0 0 34) ((m'.thread_states t).stripes g)) ≤ 1 ∧
        (hi (axis_of 0x234471 2 0 0 0 34) ((m'.thread_states t).stripes g) -
            lo (axis_of 0x234471 2 0 0 0 34) ((m'.thread_states t).stripes g)) -
          (hi (axis_of 0x234471 2 0 0 0 34) ((m'.thread_states t').stripes g') -
            lo (axis_of 0x234471 2 0 0 0 34) ((m'.thread_states t').stripes g')) ≤ 4 :=
  man_calculate_extents 0x234471 2 4 false example_calc 0 0 0 34 0 0 0 34
    (by decide) (by decide) (by decide) rfl (by decide) (by decide)

/-- The first stripe of thread 3, the stripe counts of threads 3 and 0 and the four stripes of
thread 0 after scheduling the 1 by 35 rectangle for four threads with the default bitfield
`SPT_DEFAULT = 0x234471` (four stripes per thread). -/
theorem man_calculate_1x35 :
    (man_calculate 0x234471 2 4 false example_calc 0 0 0 34).map
      (fun m => ((m.thread_states 3).stripes 0, (m.thread_states 3).num_stripes,
        (m.thread_states 0).num_stripes,
        [(m.thread_states 0).stripes 0, (m.thread_states 0).stripes 1,
          (m.thread_states 0).stripes 2, (m.thread_states 0).stripes 3])) =
    some (⟨0, 0, 0, 1⟩, 4, 4, [⟨0, 0, 6, 7⟩, ⟨0, 0, 14, 15⟩, ⟨0, 0, 22, 23⟩, ⟨0, 0, 30, 34⟩]) := by
  decide

/-- C2 (as stated) fails: with the default bitfield and four threads the 1 by 35 rectangle
is split along y into 16 stripes; the first stripe (thread 3) is rows 0..1 and the final
stripe (thread 0) is rows 30..34, so two stripes differ by three rows. -/
theorem man_calculate_extents_counterexample :
    axis_of 0x234471 2 0 0 0 34 = true ∧
    ¬ (∀ m', man_calculate 0x234471 2 4 false example_calc 0 0 0 34 = some m' →
      ∀ t g t' g', valid_slot 4 m'.thread_states t g → valid_slot 4 m'.thread_states t' g' →
        (((m'.thread_states t).stripes g).yend - ((m'.thread_states t).stripes g).ystart + 1) -
        (((m'.thread_states t').stripes g').yend - ((m'.thread_states t').stripes g').ystart + 1)
          ≤ 1) := by
  refine ⟨by decide, fun h => ?_⟩
  have hev := man_calculate_1x35
  cases hm : man_calculate 0x234471 2 4 false example_calc 0 0 0 34 with
  | none => rw [hm] at hev; simp at hev
  | some m' =>
    rw [hm] at hev
    simp only [Option.map, Option.some.injEq, Prod.mk.injEq, List.cons.injEq] at hev
    obtain ⟨e1, e2, e3, -, -, -, e7, -⟩ := hev
    have := h m' hm 0 3 3 0 (by unfold valid_slot; rw [e3]; decide)
      (by unfold valid_slot; rw [e2]; decide)
    rw [e1, e7] at this
    simp at this

theorem stripe_pixels_eq (ay : Bool) (s : stripe) :
    stripe_pixels s = (hi ay s - lo ay s + 1) * (chi ay s - clo ay s + 1) := by
  cases ay
  · simp [stripe_pixels, hi, lo, chi, clo]
  · simp [stripe_pixels, hi, lo, chi, clo]; ring

theorem sched_units_sum {ay : Bool} {W N step r a0 aend c0 cend : Int}
    {ts : Int → thread_state} {last : Int × Int} {pN : Int}
    (spec : sched_spec ay W N step r a0 aend c0 cend ts last pN) (t : Int)
    (ht0 : 0 ≤ t) (htW : t < W) (n : Nat) (hn : (n : Int) ≤ (ts t).num_stripes) :
    ∑ g ∈ Finset.range n, stripe_pixels ((ts t).stripes g) =
      (rows_before N step r n + (if t = last.1 ∧ last.2 < n then aend + 1 - pN else 0))
        * (cend - c0 + 1) := by
  induction n with
  | zero =>
    have := spec.last_g
    have hf : ¬ (t = last.1 ∧ last.2 < ((0 : Nat) : Int)) := by push_cast; omega
    rw [if_neg hf]; simp [rows_before]
  | succ n ih =>
    have hv : valid_slot W ts t n := ⟨ht0, htW, by omega, by push_cast at hn; omega⟩
    rw [Finset.sum_range_succ, ih (by push_cast at hn ⊢; omega), stripe_pixels_eq ay]
    obtain ⟨m1, m2, -, -⟩ := spec.mem t n hv
    rw [m1, m2, rows_before]
    have hgs : group_step N step r (n : Int) = (frac_seq N step r n).2 := by
      unfold group_step; simp
    by_cases he : (t, (n : Int)) = last
    · have ht : t = last.1 := by rw [← he]
      have hg : (n : Int) = last.2 := by rw [← he]
      have h1 := spec.ext_last
      rw [← ht, ← hg, hgs] at h1
      have c1 : ¬ (t = last.1 ∧ last.2 < (n : Int)) := by omega
      have c2 : (t = last.1 ∧ last.2 < ((n + 1 : Nat) : Int)) := by
        push_cast; exact ⟨ht, by omega⟩
      rw [if_neg c1, if_pos c2]
      have : hi ay ((ts t).stripes n) - lo ay ((ts t).stripes n) + 1
          = (frac_seq N step r n).2 + (aend + 1 - pN) := by omega
      rw [this]; ring
    · have h1 := (spec.ext t n hv he).1
      rw [hgs] at h1
      have c : (t = last.1 ∧ last.2 < ((n + 1 : Nat) : Int)) ↔ (t = last.1 ∧ last.2 < (n : Int)) := by
        push_cast
        constructor
        · rintro ⟨a, b⟩
          refine ⟨a, ?_⟩
          by_contra hc
          apply he
          have : (n : Int) = last.2 := by omega
          rw [a, this]
        · rintro ⟨a, b⟩; exact ⟨a, by omega⟩
      have : hi ay ((ts t).stripes n) - lo ay ((ts t).stripes n) + 1
          = (frac_seq N step r n).2 := by omega
      rw [this]
      by_cases hc : (t = last.1 ∧ last.2 < (n : Int))
      · rw [if_pos hc, if_pos (c.2 hc)]; ring
      · rw [if_neg hc, if_neg (fun h => hc (c.1 h))]; ring

theorem sched_balance {ay : Bool} {W N N' S step r a0 aend c0 cend : Int}
    {ts : Int → thread_state} {last : Int × Int} {pN : Int}
    (spec : sched_spec ay W N' step r a0 aend c0 cend ts last pN)
    (hW1 : 1 ≤ W)
    (hN' : N' = if aend - a0 + 1 < N then aend - a0 + 1 else N)
    (hred : aend - a0 + 1 < N → step = 1 ∧ r = 0)
    (hleft : aend + 1 - pN < W)
    (hnorm : N ≤ aend - a0 + 1 →
      last = (0, S - 1) ∧ W * rows_before N' step r S.toNat = pN - a0)
    (hc : c0 ≤ cend) (t : Int) (ht0 : 0 ≤ t) (htW : t < W) :
    (aend - a0 + 1) * (cend - c0 + 1) - W * (cend - c0 + 1) < W * thread_pixels ts t ∧
    (t ≠ 0 → W * thread_pixels ts t < (aend - a0 + 1) * (cend - c0 + 1) + W * (cend - c0 + 1)) ∧
    (t = 0 → W * thread_pixels ts t ≤
      (aend - a0 + 1) * (cend - c0 + 1) + (W - 1) * (W - 1) * (cend - c0 + 1)) := by
  have hcnt := spec.cnt t ht0 htW
  have hlg := spec.last_g
  have hl0 := spec.last_t0
  have hlW := spec.last_tW
  have hn0 : 0 ≤ (ts t).num_stripes := by rw [hcnt]; split_ifs <;> omega
  have hsum := sched_units_sum spec t ht0 htW (ts t).num_stripes.toNat
    (by rw [Int.toNat_of_nonneg hn0])
  have hL0 := spec.posN_le
  unfold thread_pixels
  rw [hsum]
  generalize hU : rows_before N' step r (ts t).num_stripes.toNat +
    (if t = last.1 ∧ last.2 < ((ts t).num_stripes.toNat : Int) then aend + 1 - pN else 0) = U
  have key : -W < W * U - (aend - a0 + 1) ∧ (t ≠ 0 → W * U - (aend - a0 + 1) < W) ∧
      (t = 0 → W * U - (aend - a0 + 1) ≤ (W - 1) * (W - 1)) := by
    rw [Int.toNat_of_nonneg hn0] at hU
    by_cases hlt : aend - a0 + 1 < N
    · obtain ⟨hs1, hr0⟩ := hred hlt
      rw [if_pos hlt] at hN'
      have hNpos : 0 < N' := by have := spec.r_lt; have := spec.r_nonneg; omega
      have hp := spec.posN
      have htot := spec.total
      subst hr0
      unfold group_step at hp
      rw [frac_seq_zero N' step hNpos, rows_before_zero N' step hNpos,
        Int.toNat_of_nonneg hlg, hs1] at hp
      simp only at hp
      have e1 : W * (last.2 * 1) = last.2 * W := by ring
      have e2 : (W - last.1) * 1 = W - last.1 := by ring
      rw [e1, e2] at hp
      have hL : aend + 1 - pN = 0 := by omega
      rw [rows_before_zero N' step hNpos, Int.toNat_of_nonneg hn0, hL, hs1] at hU
      have hU' : U = (ts t).num_stripes := by rw [← hU]; split_ifs <;> ring
      rw [hU', hcnt]
      have hsq : 0 ≤ (W - 1) * (W - 1) := mul_nonneg (by omega) (by omega)
      split_ifs with h
      · have e3 : W * (last.2 + 1) = last.2 * W + W := by ring
        rw [e3]
        refine ⟨by omega, fun _ => by omega, fun h0 => by omega⟩
      · have e3 : W * last.2 = last.2 * W := by ring
        rw [e3]
        refine ⟨by omega, fun _ => by omega, fun h0 => by omega⟩
    · obtain ⟨hlast, hrows⟩ := hnorm (by omega)
      have hl1 : last.1 = 0 := by rw [hlast]
      have hl2 : last.2 = S - 1 := by rw [hlast]
      rw [hl1, hl2] at hcnt
      rw [if_pos ht0] at hcnt
      rw [hcnt, hl1, hl2] at hU
      have e0 : S - 1 + 1 = S := by ring
      rw [e0] at hU
      by_cases h0 : t = 0
      · have hc1 : (t = 0 ∧ S - 1 < S) := ⟨h0, by omega⟩
        rw [if_pos hc1] at hU
        have hWU : W * U = (pN - a0) + W * (aend + 1 - pN) := by rw [← hU, mul_add, hrows]
        have hsq : (W - 1) * (aend + 1 - pN) ≤ (W - 1) * (W - 1) :=
          mul_le_mul_of_nonneg_left (by omega) (by omega)
        have hsq0 : 0 ≤ (W - 1) * (aend + 1 - pN) := mul_nonneg (by omega) (by omega)
        have e : (W - 1) * (aend + 1 - pN) = W * (aend + 1 - pN) - (aend + 1 - pN) := by ring
        refine ⟨by omega, fun h => absurd h0 h, fun _ => by omega⟩
      · have hc1 : ¬ (t = 0 ∧ S - 1 < S) := fun h => h0 h.1
        rw [if_neg hc1, add_zero] at hU
        have hWU : W * U = pN - a0 := by rw [← hU, hrows]
        refine ⟨by omega, fun _ => by omega, fun h => absurd h h0⟩
  obtain ⟨k1, k2, k3⟩ := key
  have hcs : 0 < cend - c0 + 1 := by omega
  have e : ∀ z : Int, W * (U * (cend - c0 + 1)) - (aend - a0 + 1) * (cend - c0 + 1) - z * (cend - c0 + 1)
      = (W * U - (aend - a0 + 1) - z) * (cend - c0 + 1) := by intro z; ring
  refine ⟨?_, fun h => ?_, fun h => ?_⟩
  · have := mul_pos (show 0 < W * U - (aend - a0 + 1) - (-W) by omega) hcs
    have e1 := e (-W)
    have e2 : -W * (cend - c0 + 1) = -(W * (cend - c0 + 1)) := by ring
    omega
  · have := mul_pos (show 0 < -(W * U - (aend - a0 + 1) - W) by have := k2 h; omega) hcs
    have e1 := e W
    have e2 : -(W * U - (aend - a0 + 1) - W) * (cend - c0 + 1)
        = -((W * U - (aend - a0 + 1) - W) * (cend - c0 + 1)) := by ring
    omega
  · have := mul_nonneg (show 0 ≤ -(W * U - (aend - a0 + 1) - (W - 1) * (W - 1)) by
      have := k3 h; omega) (le_of_lt hcs)
    have e1 := e ((W - 1) * (W - 1))
    have e2 : -(W * U - (aend - a0 + 1) - (W - 1) * (W - 1)) * (cend - c0 + 1)
        = -((W * U - (aend - a0 + 1) - (W - 1) * (W - 1)) * (cend - c0 + 1)) := by ring
    omega

/-- C3 (amended).  For a non-empty rectangle of `P` pixels and `W` threads, with one
split-axis unit being the pixels of one row (split along y) or one column (split along x):
every thread is assigned more than `P/W` minus one unit; every thread other than thread 0
is assigned less than `P/W` plus one unit; thread 0, which also takes the leftover of the
final stripe, is assigned at most `P/W` plus `(W-1)*(W-1)/W` units.  The inequalities are
stated multiplied by `W`. -/
theorem man_calculate_balance (spt ind W : Int) (need_recalc : Bool) (m : man_calc_struct)
    (xs xe ys ye x0 x1 y0 y1 : Int)
    (hind0 : 0 ≤ ind) (hind5 : ind ≤ MAX_THREADS_IND) (hW : W = shl 1 ind)
    (hrect : compute_rect need_recalc m xs xe ys ye = (x0, x1, y0, y1))
    (hx : x0 ≤ x1) (hy : y0 ≤ y1) :
    ∃ m', man_calculate spt ind W need_recalc m xs xe ys ye = some m' ∧
      ∀ t, 0 ≤ t → t < W →
        (x1 - x0 + 1) * (y1 - y0 + 1) -
            W * (across (axis_of spt ind x0 x1 y0 y1) x1 y1 -
              across (axis_of spt ind x0 x1 y0 y1) x0 y0 + 1)
          < W * thread_pixels m'.thread_states t ∧
        (t ≠ 0 → W * thread_pixels m'.thread_states t <
          (x1 - x0 + 1) * (y1 - y0 + 1) +
            W * (across (axis_of spt ind x0 x1 y0 y1) x1 y1 -
              across (axis_of spt ind x0 x1 y0 y1) x0 y0 + 1)) ∧
        (t = 0 → W * thread_pixels m'.thread_states t ≤
          (x1 - x0 + 1) * (y1 - y0 + 1) +
            (W - 1) * (W - 1) * (across (axis_of spt ind x0 x1 y0 y1) x1 y1 -
              across (axis_of spt ind x0 x1 y0 y1) x0 y0 + 1)) := by
  obtain ⟨l, last, pN, N', step, r, h1, -, spec, hW1, -, hN', -, hred, hleft, hnorm⟩ :=
    man_calculate_sched spt ind W m.thread_states x0 x1 y0 y1 hind0 hind5 hW hx hy _ rfl
  generalize axis_of spt ind x0 x1 y0 y1 = ay at spec hleft hN' hred hnorm ⊢
  have hc : across ay x0 y0 ≤ across ay x1 y1 := by
    cases ay
    · exact hy
    · exact hx
  have hP : (x1 - x0 + 1) * (y1 - y0 + 1) =
      (along ay x1 y1 - along ay x0 y0 + 1) * (across ay x1 y1 - across ay x0 y0 + 1) := by
    cases ay
    · simp [along, across]
    · simp [along, across]; ring
  refine ⟨{ m with thread_states := l.thread_states }, ?_, ?_⟩
  · simp only [man_calculate, hrect, h1, Option.map]
  · intro t ht0 htW
    dsimp only
    rw [hP]
    exact sched_balance spec hW1 hN' hred hleft hnorm hc t ht0 htW

/-- Witness for C3 (amended): four threads with the default bitfield on a 1 by 35
rectangle. -/
theorem man_calculate_balance_witness :
    ∃ m', man_calculate 0x234471 2 4 false example_calc 0 0 0 34 = some m' ∧
      ∀ t, 0 ≤ t → t < 4 →
        (0 - 0 + 1) * (34 - 0 + 1) -
            4 * (across (axis_of 0x234471 2 0 0 0 34) 0 34 -
              across (axis_of 0x234471 2 0 0 0 34) 0 0 + 1)
          < 4 * thread_pixels m'.thread_states t ∧
        (t ≠ 0 → 4 * thread_pixels m'.thread_states t <
          (0 - 0 + 1) * (34 - 0 + 1) +
            4 * (across (axis_of 0x234471 2 0 0 0 34) 0 34 -
              across (axis_of 0x234471 2 0 0 0 34) 0 0 + 1)) ∧
        (t = 0 → 4 * thread_pixels m'.thread_states t ≤
          (0 - 0 + 1) * (34 - 0 + 1) +
            (4 - 1) * (4 - 1) * (across (axis_of 0x234471 2 0 0 0 34) 0 34 -
              across (axis_of 0x234471 2 0 0 0 34) 0 0 + 1)) :=
  man_calculate_balance 0x234471 2 4 false example_calc 0 0 0 34 0 0 0 34
    (by decide) (by decide) (by decide) rfl (by decide) (by decide)

/-- C3 (as stated) fails: on the 1 by 35 rectangle (`P = 35`, split along y, one unit = one
row = 1 pixel) with four threads and the default bitfield, thread 0 is assigned rows 6..7,
14..15, 22..23 and 30..34, i.e. 11 pixels, which differs from `P/W = 8.75` by more than one
unit: `|4 * 11 - 35| = 9 > 4 * 1`. -/
theorem man_calculate_balance_counterexample :
    axis_of 0x234471 2 0 0 0 34 = true ∧
    ¬ (∀ m', man_calculate 0x234471 2 4 false example_calc 0 0 0 34 = some m' →
      ∀ t, 0 ≤ t → t < 4 → |4 * thread_pixels m'.thread_states t - 35| ≤ 4 * 1) := by
  refine ⟨by decide, fun h => ?_⟩
  have hev := man_calculate_1x35
  cases hm : man_calculate 0x234471 2 4 false example_calc 0 0 0 34 with
  | none => rw [hm] at hev; simp at hev
  | some m' =>
    rw [hm] at hev
    simp only [Option.map, Option.some.injEq, Prod.mk.injEq, List.cons.injEq] at hev
    obtain ⟨-, -, e3, e4, e5, e6, e7, -⟩ := hev
    have := h m' hm 0 (by decide) (by decide)
    have hp : thread_pixels m'.thread_states 0 = 11 := by
      unfold thread_pixels
      rw [e3]
      have e5' : (m'.thread_states 0).stripes ((1 : Nat) : Int) = ⟨0, 0, 14, 15⟩ := e5
      have e6' : (m'.thread_states 0).stripes ((2 : Nat) : Int) = ⟨0, 0, 22, 23⟩ := e6
      have e7' : (m'.thread_states 0).stripes ((3 : Nat) : Int) = ⟨0, 0, 30, 34⟩ := e7
      have e4' : (m'.thread_states 0).stripes ((0 : Nat) : Int) = ⟨0, 0, 6, 7⟩ := e4
      show ∑ g ∈ Finset.range 4, stripe_pixels ((m'.thread_states 0).stripes g) = 11
      rw [Finset.sum_range_succ, Finset.sum_range_succ, Finset.sum_range_succ,
        Finset.sum_range_one, e4', e5', e6', e7']
      decide
    rw [hp] at this
    simp at this

theorem man_calculate_locals_loop (spt ind W : Int) (ts : Int → thread_state)
    (xs xe ys ye : Int) (hW : W ≤ 32) :
    man_calculate_locals spt ind W ts xs xe ys ye =
      (loop_locals spt ind W ts xs xe ys ye (stripe_count spt ind xs xe ys ye).toNat).bind
        (store_last (axis_of spt ind xs xe ys ye) (along (axis_of spt ind xs xe ys ye) xe ye)) := by
  rw [man_calculate_locals_eq spt ind W ts xs xe ys ye hW, divide_eq]
  unfold loop_locals stripe_count store_last
  have hp : pos (axis_of spt ind xs xe ys ye)
      ⟨clear_num_stripes W ts, W - 1, 0, xs, ys, 0, 0, none⟩
      = along (axis_of spt ind xs xe ys ye) xs ys := by
    cases axis_of spt ind xs xe ys ye <;> rfl
  rw [hp]

theorem slot_of_index (W si ti k : Int) (hW : 1 ≤ W) (h0 : 0 ≤ ti) (h1 : ti < W)
    (hk : k + 1 = si * W + (W - 1 - ti)) :
    (if ti = W - 1 then ((0 : Int), si - 1) else (ti + 1, si)) = (W - 1 - k % W, k / W) := by
  split_ifs with h
  · have hu := (Int.ediv_emod_unique (a := k) (b := W) (r := W - 1) (q := si - 1)
      (by omega)).2 ⟨by rw [mul_sub, mul_one, mul_comm]; omega, by omega, by omega⟩
    rw [hu.1, hu.2]; simp
  · have hu := (Int.ediv_emod_unique (a := k) (b := W) (r := W - 2 - ti) (q := si)
      (by omega)).2 ⟨by rw [mul_comm]; omega, by omega, by omega⟩
    rw [hu.1, hu.2]
    have : W - 1 - (W - 2 - ti) = ti + 1 := by ring
    rw [this]

theorem loop_locals_inv (spt ind W : Int) (ts : Int → thread_state) (xs xe ys ye : Int)
    (hind0 : 0 ≤ ind) (hind5 : ind ≤ MAX_THREADS_IND) (hW : W = shl 1 ind)
    (hx : xs ≤ xe) (hy : ys ≤ ye) (k : Nat)
    (hk : (k : Int) ≤ stripe_count spt ind xs xe ys ye) :
    ∃ l step r, loop_locals spt ind W ts xs xe ys ye k = some l ∧
      loop_inv (axis_of spt ind xs xe ys ye) W (stripe_count spt ind xs xe ys ye) step r
        (along (axis_of spt ind xs xe ys ye) xs ys) (across (axis_of spt ind xs xe ys ye) xs ys)
        (across (axis_of spt ind xs xe ys ye) xe ye) k l := by
  obtain ⟨hW1, hW32⟩ := num_threads_bounds ind W hind0 hind5 hW
  obtain ⟨hS1, hS8⟩ := stripes_per_thread_bounds spt ind
  have hNS := total_stripes_eq spt ind W hW
  have hN1 : 1 ≤ total_stripes spt ind := by
    have := mul_le_mul_of_nonneg_right hS1 (show (0 : Int) ≤ W by omega)
    omega
  have hN8 : total_stripes spt ind ≤ 8 * W := by
    have := mul_le_mul_of_nonneg_right hS8 (show (0 : Int) ≤ W by omega)
    omega
  simp only [loop_locals, stripe_count] at hk ⊢
  generalize axis_of spt ind xs xe ys ye = ay at *
  have hsz : along ay xs ys ≤ along ay xe ye := by
    cases ay
    · exact hx
    · exact hy
  obtain ⟨e1, e2, e3, e4, e5, e6⟩ := step_setup_spec (along ay xe ye - along ay xs ys + 1)
    (total_stripes spt ind) (by omega) hN1
  generalize (step_setup (along ay xe ye - along ay xs ys + 1) (total_stripes spt ind)).1
    = N' at *
  generalize (step_setup (along ay xe ye - along ay xs ys + 1) (total_stripes spt ind)).2.1
    = step at *
  generalize (step_setup (along ay xe ye - along ay xs ys + 1) (total_stripes spt ind)).2.2
    = r at *
  have hN'N : N' ≤ total_stripes spt ind := by rw [e1]; split_ifs <;> omega
  have inv0 := init_inv ay W N' step r (across ay xe ye)
    ⟨clear_num_stripes W ts, W - 1, 0, xs, ys, r, step, none⟩ hW1 rfl rfl rfl rfl
    (by intro t h0 h1; simp [clear_num_stripes, h0, h1])
  have hp : pos ay ⟨clear_num_stripes W ts, W - 1, 0, xs, ys, r, step, none⟩
      = along ay xs ys := by cases ay <;> rfl
  have hc : cpos ay ⟨clear_num_stripes W ts, W - 1, 0, xs, ys, r, step, none⟩
      = across ay xs ys := by cases ay <;> rfl
  rw [hp, hc] at inv0
  obtain ⟨l, hl, inv⟩ := for_loop_inv ay W N' step r (along ay xs ys) (across ay xs ys)
    (across ay xe ye) hW32 (by omega) e2 e3 e4 k 0 _ (by simp; omega) inv0
  rw [Nat.zero_add] at inv
  exact ⟨l, step, r, hl, inv⟩

/-- C4 (amended).  The stripe loop of `man_calculate` stores the `k`-th generated stripe
(`k = 0, 1, ...`) in slot `floor(k / W)` of the stripe list of thread `W - 1 - (k mod W)`:
after iteration `k` the pointer `s` designates that slot.  The last generated stripe, number
`n - 1` for `n` generated stripes, is the one that ends at the rectangle's end; it belongs to
thread `W - 1 - ((n - 1) mod W)`, which is thread 0 whenever the extent of the rectangle along
the split axis is at least the requested total number of stripes. -/
theorem man_calculate_round_robin (spt ind W : Int) (ts : Int → thread_state)
    (xs xe ys ye : Int)
    (hind0 : 0 ≤ ind) (hind5 : ind ≤ MAX_THREADS_IND) (hW : W = shl 1 ind)
    (hx : xs ≤ xe) (hy : ys ≤ ye) :
    man_calculate_locals spt ind W ts xs xe ys ye =
      (loop_locals spt ind W ts xs xe ys ye (stripe_count spt ind xs xe ys ye).toNat).bind
        (store_last (axis_of spt ind xs xe ys ye)
          (along (axis_of spt ind xs xe ys ye) xe ye)) ∧
    (∀ k : Nat, (k : Int) < stripe_count spt ind xs xe ys ye →
      ∃ l, loop_locals spt ind W ts xs xe ys ye (k + 1) = some l ∧
        l.s = some (W - 1 - (k : Int) % W, (k : Int) / W)) ∧
    (∃ l, man_calculate_locals spt ind W ts xs xe ys ye = some l ∧
      l.s = some (W - 1 - (stripe_count spt ind xs xe ys ye - 1) % W,
        (stripe_count spt ind xs xe ys ye - 1) / W) ∧
      hi (axis_of spt ind xs xe ys ye)
        ((l.thread_states (W - 1 - (stripe_count spt ind xs xe ys ye - 1) % W)).stripes
          ((stripe_count spt ind xs xe ys ye - 1) / W))
        = along (axis_of spt ind xs xe ys ye) xe ye ∧
      (total_stripes spt ind ≤ along (axis_of spt ind xs xe ys ye) xe ye
          - along (axis_of spt ind xs xe ys ye) xs ys + 1 →
        W - 1 - (stripe_count spt ind xs xe ys ye - 1) % W = 0)) := by
  obtain ⟨hW1, hW32⟩ := num_threads_bounds ind W hind0 hind5 hW
  refine ⟨man_calculate_locals_loop spt ind W ts xs xe ys ye hW32, ?_, ?_⟩
  · intro k hk
    obtain ⟨l, step, r, hl, inv⟩ := loop_locals_inv spt ind W ts xs xe ys ye hind0 hind5 hW
      hx hy (k + 1) (by push_cast; omega)
    refine ⟨l, hl, ?_⟩
    rw [inv.hs (by omega)]
    have := inv.hk
    push_cast at this
    rw [slot_of_index W l.stripe_ind l.thread_ind k hW1 inv.ti_lo inv.ti_hi this]
  · obtain ⟨l, last, pN, N', step, r, h1, h2, spec, -, -, hN', -, -, -, hnorm⟩ :=
      man_calculate_sched spt ind W ts xs xe ys ye hind0 hind5 hW hx hy _ rfl
    have hcnt : stripe_count spt ind xs xe ys ye = N' := by
      unfold stripe_count
      obtain ⟨hS1, hS8⟩ := stripes_per_thread_bounds spt ind
      have hNS := total_stripes_eq spt ind W hW
      have hN1 : 1 ≤ total_stripes spt ind := by
        have := mul_le_mul_of_nonneg_right hS1 (show (0 : Int) ≤ W by omega)
        omega
      have hsz : along (axis_of spt ind xs xe ys ye) xs ys
          ≤ along (axis_of spt ind xs xe ys ye) xe ye := by
        cases axis_of spt ind xs xe ys ye
        · exact hx
        · exact hy
      rw [(step_setup_spec _ _ (by omega) hN1).1, hN']
    have htot := spec.total
    have hu := (Int.ediv_emod_unique (a := N' - 1) (b := W) (r := W - 1 - last.1)
      (q := last.2) (by omega)).2
      ⟨by rw [mul_comm]; omega, by have := spec.last_tW; omega,
        by have := spec.last_t0; omega⟩
    have hl1 : W - 1 - (N' - 1) % W = last.1 := by rw [hu.2]; ring
    rw [hcnt, hl1, hu.1]
    refine ⟨l, h1, h2, spec.ext_last.1, fun hle => ?_⟩
    rw [(hnorm hle).1]

/-- Witness for C4 (amended): four threads on the full 10 by 10 image. -/
theorem man_calculate_round_robin_witness :
    man_calculate_locals 0x234471 2 4 example_calc.thread_states 0 9 0 9 =
      (loop_locals 0x234471 2 4 example_calc.thread_states 0 9 0 9
        (stripe_count 0x234471 2 0 9 0 9).toNat).bind
        (store_last (axis_of 0x234471 2 0 9 0 9)
          (along (axis_of 0x234471 2 0 9 0 9) 9 9)) ∧
    (∀ k : Nat, (k : Int) < stripe_count 0x234471 2 0 9 0 9 →
      ∃ l, loop_locals 0x234471 2 4 example_calc.thread_states 0 9 0 9 (k + 1) = some l ∧
        l.s = some (4 - 1 - (k : Int) % 4, (k : Int) / 4)) ∧
    (∃ l, man_calculate_locals 0x234471 2 4 example_calc.thread_states 0 9 0 9 = some l ∧
      l.s = some (4 - 1 - (stripe_count 0x234471 2 0 9 0 9 - 1) % 4,
        (stripe_count 0x234471 2 0 9 0 9 - 1) / 4) ∧
      hi (axis_of 0x234471 2 0 9 0 9)
        ((l.thread_states (4 - 1 - (stripe_count 0x234471 2 0 9 0 9 - 1) % 4)).stripes
          ((stripe_count 0x234471 2 0 9 0 9 - 1) / 4))
        = along (axis_of 0x234471 2 0 9 0 9) 9 9 ∧
      (total_stripes 0x234471 2 ≤ along (axis_of 0x234471 2 0 9 0 9) 9 9
          - along (axis_of 0x234471 2 0 9 0 9) 0 0 + 1 →
        4 - 1 - (stripe_count 0x234471 2 0 9 0 9 - 1) % 4 = 0)) :=
  man_calculate_round_robin 0x234471 2 4 example_calc.thread_states 0 9 0 9
    (by decide) (by decide) (by decide) (by decide) (by decide)

/-- C4 (as stated) fails in its last part: for a 1 by 1 rectangle and two threads (default
bitfield) a single stripe is generated; it is the last generated stripe and it belongs to
thread 1, while thread 0 receives nothing. -/
theorem man_calculate_round_robin_counterexample :
    ¬ (∀ l, man_calculate_locals 0x234471 1 2 example_calc.thread_states 0 0 0 0 = some l →
      ∃ g, l.s = some (0, g)) := by
  intro h
  have hev : (man_calculate_locals 0x234471 1 2 example_calc.thread_states 0 0 0 0).map
      (fun l => l.s) = some (some (1, 0)) := by decide
  cases hm : man_calculate_locals 0x234471 1 2 example_calc.thread_states 0 0 0 0 with
  | none => rw [hm] at hev; simp at hev
  | some l =>
    rw [hm] at hev
    simp only [Option.map, Option.some.injEq] at hev
    obtain ⟨g, hg⟩ := h l hm
    rw [hev] at hg
    simp at hg

theorem sum_ite_le (a : Int) (v : Int) (ha : 0 ≤ a) (n : Nat) :
    ∑ t ∈ Finset.range n, (if a ≤ (t : Int) then v + 1 else v) =
      n * v + (if a ≤ (n : Int) then (n : Int) - a else 0) := by
  induction n with
  | zero => simp; omega
  | succ n ih =>
    rw [Finset.sum_range_succ, ih]
    push_cast
    split_ifs <;> first | omega | (ring_nf; omega) | ring

theorem sched_total {ay : Bool} {W N step r a0 aend c0 cend : Int}
    {ts : Int → thread_state} {last : Int × Int} {pN : Int}
    (spec : sched_spec ay W N step r a0 aend c0 cend ts last pN) :
    stripes_written W ts = N := by
  unfold stripes_written
  have hW : 0 ≤ W := by have := spec.last_t0; have := spec.last_tW; omega
  have hsum : ∑ t ∈ Finset.range W.toNat, (ts t).num_stripes =
      ∑ t ∈ Finset.range W.toNat, (if last.1 ≤ (t : Int) then last.2 + 1 else last.2) := by
    apply Finset.sum_congr rfl
    intro t ht
    rw [Finset.mem_range] at ht
    exact spec.cnt t (by omega) (by omega)
  rw [hsum, sum_ite_le last.1 last.2 spec.last_t0, Int.toNat_of_nonneg hW, spec.total]
  have := spec.last_tW
  rw [if_pos (by omega)]; ring

theorem axis_of_iff (spt ind x0 x1 y0 y1 : Int) :
    axis_of spt ind x0 x1 y0 y1 = true ↔
      (y1 - y0 + 1 ≥ 8 * total_stripes spt ind ∨ y1 - y0 + 1 ≥ x1 - x0 + 1) := by
  unfold axis_of split_along_y shl
  have : total_stripes spt ind * 2 ^ (3 : Int).toNat = 8 * total_stripes spt ind := by
    simp; ring
  rw [this]
  simp

/-- C5.  For a non-empty rectangle, `man_calculate` stacks the stripes along y exactly when
`height ≥ 8 * N` or `height ≥ width` (`N` the requested total number of stripes): then every
stripe spans the full width and `min N height` stripes are generated; otherwise every stripe
spans the full height and `min N width` stripes are generated.  In particular a rectangle of
one row and width `w > 1` is divided along x into `min N w` one-row stripes. -/
theorem man_calculate_split_axis (spt ind W : Int) (need_recalc : Bool) (m : man_calc_struct)
    (xs xe ys ye x0 x1 y0 y1 : Int)
    (hind0 : 0 ≤ ind) (hind5 : ind ≤ MAX_THREADS_IND) (hW : W = shl 1 ind)
    (hrect : compute_rect need_recalc m xs xe ys ye = (x0, x1, y0, y1))
    (hx : x0 ≤ x1) (hy : y0 ≤ y1) :
    (axis_of spt ind x0 x1 y0 y1 = true ↔
      (y1 - y0 + 1 ≥ 8 * total_stripes spt ind ∨ y1 - y0 + 1 ≥ x1 - x0 + 1)) ∧
    ∃ m', man_calculate spt ind W need_recalc m xs xe ys ye = some m' ∧
      ((y1 - y0 + 1 ≥ 8 * total_stripes spt ind ∨ y1 - y0 + 1 ≥ x1 - x0 + 1) →
        (∀ t g, valid_slot W m'.thread_states t g →
          ((m'.thread_states t).stripes g).xstart = x0 ∧
          ((m'.thread_states t).stripes g).xend = x1) ∧
        stripes_written W m'.thread_states = min (total_stripes spt ind) (y1 - y0 + 1)) ∧
      (¬ (y1 - y0 + 1 ≥ 8 * total_stripes spt ind ∨ y1 - y0 + 1 ≥ x1 - x0 + 1) →
        (∀ t g, valid_slot W m'.thread_states t g →
          ((m'.thread_states t).stripes g).ystart = y0 ∧
          ((m'.thread_states t).stripes g).yend = y1) ∧
        stripes_written W m'.thread_states = min (total_stripes spt ind) (x1 - x0 + 1)) ∧
      (y0 = y1 → x0 < x1 →
        (∀ t g, valid_slot W m'.thread_states t g →
          ((m'.thread_states t).stripes g).ystart = y0 ∧
          ((m'.thread_states t).stripes g).yend = y0) ∧
        stripes_written W m'.thread_states = min (total_stripes spt ind) (x1 - x0 + 1)) := by
  have hax := axis_of_iff spt ind x0 x1 y0 y1
  refine ⟨hax, ?_⟩
  obtain ⟨l, last, pN, N', step, r, h1, -, spec, hW1, -, hN', -, -, -, -⟩ :=
    man_calculate_sched spt ind W m.thread_states x0 x1 y0 y1 hind0 hind5 hW hx hy _ rfl
  have htot := sched_total spec
  have hN1 : 1 ≤ total_stripes spt ind := by
    obtain ⟨hS1, -⟩ := stripes_per_thread_bounds spt ind
    have hNS := total_stripes_eq spt ind W hW
    have := mul_le_mul_of_nonneg_right hS1 (show (0 : Int) ≤ W by omega)
    omega
  have hy_case : (y1 - y0 + 1 ≥ 8 * total_stripes spt ind ∨ y1 - y0 + 1 ≥ x1 - x0 + 1) →
      (∀ t g, valid_slot W l.thread_states t g →
        ((l.thread_states t).stripes g).xstart = x0 ∧
        ((l.thread_states t).stripes g).xend = x1) ∧
      stripes_written W l.thread_states = min (total_stripes spt ind) (y1 - y0 + 1) := by
    intro hc
    rw [hax.2 hc] at spec hN'
    simp only [along, across, if_true] at spec hN'
    refine ⟨fun t g hv => ?_, ?_⟩
    · obtain ⟨m1, m2, -, -⟩ := spec.mem t g hv
      simp only [clo, chi, if_true] at m1 m2
      exact ⟨m1, m2⟩
    · rw [htot, hN']; split_ifs <;> omega
  have hx_case : ¬ (y1 - y0 + 1 ≥ 8 * total_stripes spt ind ∨ y1 - y0 + 1 ≥ x1 - x0 + 1) →
      (∀ t g, valid_slot W l.thread_states t g →
        ((l.thread_states t).stripes g).ystart = y0 ∧
        ((l.thread_states t).stripes g).yend = y1) ∧
      stripes_written W l.thread_states = min (total_stripes spt ind) (x1 - x0 + 1) := by
    intro hc
    have hf : axis_of spt ind x0 x1 y0 y1 = false := by
      cases h : axis_of spt ind x0 x1 y0 y1
      · rfl
      · exact absurd (hax.1 h) hc
    rw [hf] at spec hN'
    simp only [along, across, Bool.false_eq_true, if_false] at spec hN'
    refine ⟨fun t g hv => ?_, ?_⟩
    · obtain ⟨m1, m2, -, -⟩ := spec.mem t g hv
      simp only [clo, chi, Bool.false_eq_true, if_false] at m1 m2
      exact ⟨m1, m2⟩
    · rw [htot, hN']; split_ifs <;> omega
  refine ⟨{ m with thread_states := l.thread_states }, ?_, hy_case, hx_case, ?_⟩
  · simp only [man_calculate, hrect, h1, Option.map]
  · intro h01 hlt
    dsimp only
    obtain ⟨c1, c2⟩ := hx_case (by omega)
    refine ⟨fun t g hv => ?_, c2⟩
    obtain ⟨d1, d2⟩ := c1 t g hv
    exact ⟨d1, by omega⟩

/-- Witness for C5: a rectangle of one row and width 10, four threads. -/
theorem man_calculate_split_axis_witness :
    (axis_of 0x234471 2 0 9 0 0 = true ↔
      (0 - 0 + 1 ≥ 8 * total_stripes 0x234471 2 ∨ (0 : Int) - 0 + 1 ≥ 9 - 0 + 1)) ∧
    ∃ m', man_calculate 0x234471 2 4 false example_calc 0 9 0 0 = some m' ∧
      ((0 - 0 + 1 ≥ 8 * total_stripes 0x234471 2 ∨ (0 : Int) - 0 + 1 ≥ 9 - 0 + 1) →
        (∀ t g, valid_slot 4 m'.thread_states t g →
          ((m'.thread_states t).stripes g).xstart = 0 ∧
          ((m'.thread_states t).stripes g).xend = 9) ∧
        stripes_written 4 m'.thread_states = min (total_stripes 0x234471 2) (0 - 0 + 1)) ∧
      (¬ (0 - 0 + 1 ≥ 8 * total_stripes 0x234471 2 ∨ (0 : Int) - 0 + 1 ≥ 9 - 0 + 1) →
        (∀ t g, valid_slot 4 m'.thread_states t g →
          ((m'.thread_states t).stripes g).ystart = 0 ∧
          ((m'.thread_states t).stripes g).yend = 0) ∧
        stripes_written 4 m'.thread_states = min (total_stripes 0x234471 2) (9 - 0 + 1)) ∧
      ((0 : Int) = 0 → (0 : Int) < 9 →
        (∀ t g, valid_slot 4 m'.thread_states t g →
          ((m'.thread_states t).stripes g).ystart = 0 ∧
          ((m'.thread_states t).stripes g).yend = 0) ∧
        stripes_written 4 m'.thread_states = min (total_stripes 0x234471 2) (9 - 0 + 1)) :=
  man_calculate_split_axis 0x234471 2 4 false example_calc 0 9 0 0 0 9 0 0
    (by decide) (by decide) (by decide) rfl (by decide) (by decide)

theorem next_thread_idx (W N step r : Int) (l : calc_locals) (h0 : 0 ≤ l.thread_ind) :
    (next_thread W N step r l).thread_states = l.thread_states ∧
    ((l.thread_ind = 0 ∧ (next_thread W N step r l).thread_ind = W - 1 ∧
        (next_thread W N step r l).stripe_ind = l.stripe_ind + 1) ∨
     (0 < l.thread_ind ∧ (next_thread W N step r l).thread_ind = l.thread_ind - 1 ∧
        (next_thread W N step r l).stripe_ind = l.stripe_ind)) := by
  unfold next_thread
  by_cases h1 : l.thread_ind - 1 < 0
  · have : l.thread_ind = 0 := by omega
    by_cases h2 : l.frac + r ≥ N
    · simp [h1, h2, this]
    · simp [h1, h2, this]
  · have : 0 < l.thread_ind := by omega
    simp [h1, this]

theorem stripe_step_index (ay : Bool) (W N step r cend : Int) (k : Nat) (l : calc_locals)
    (hW : W ≤ 32) (hN : N ≤ 8 * W) (hkN : (k : Int) < N) (inv : index_inv W k l) :
    ∃ l', stripe_step ay W N step r cend l = some l' ∧ index_inv W (k + 1) l' := by
  obtain ⟨ti_lo, ti_hi, si_lo, hk, hcnt⟩ := inv
  have hsi : l.stripe_ind < 8 := by
    by_contra hc
    have h8 := mul_le_mul_of_nonneg_right (show (8 : Int) ≤ l.stripe_ind by omega)
      (show (0 : Int) ≤ W by omega)
    omega
  have hMT : MAX_THREADS = 32 := by decide
  have hMS : MAX_STRIPES = 8 := rfl
  obtain ⟨v, l1, hstepeq, hts, -, hti1, hsi1, -⟩ :=
    stripe_step_shape ay W N step r cend l ti_lo (by omega) si_lo (by omega)
  obtain ⟨nts, hcase⟩ := next_thread_idx W N step r l1 (by omega)
  rw [hti1, hsi1] at hcase
  refine ⟨_, hstepeq, ?_⟩
  generalize next_thread W N step r l1 = l' at *
  have hcnt' : ∀ t, (l'.thread_states t).num_stripes =
      (l.thread_states t).num_stripes + (if t = l.thread_ind then 1 else 0) := by
    intro t; rw [nts, hts, set_stripe_num]
  constructor
  · rcases hcase with ⟨c1, c2, c3⟩ | ⟨c1, c2, c3⟩ <;> omega
  · rcases hcase with ⟨c1, c2, c3⟩ | ⟨c1, c2, c3⟩ <;> omega
  · rcases hcase with ⟨c1, c2, c3⟩ | ⟨c1, c2, c3⟩ <;> omega
  · rcases hcase with ⟨c1, c2, c3⟩ | ⟨c1, c2, c3⟩
    · rw [c2, c3]; push_cast; rw [hk, c1]; ring
    · rw [c2, c3]; push_cast; rw [hk]; ring
  · intro t ht0 htW
    rw [hcnt', hcnt t ht0 htW]
    rcases hcase with ⟨c1, c2, c3⟩ | ⟨c1, c2, c3⟩ <;> rw [c2, c3] <;>
      split_ifs <;> omega

theorem for_loop_index (ay : Bool) (W N step r cend : Int)
    (hW : W ≤ 32) (hN : N ≤ 8 * W) (n : Nat) :
    ∀ (k : Nat) (l : calc_locals), ((k + n : Nat) : Int) ≤ N → index_inv W k l →
      ∃ l', for_loop (stripe_step ay W N step r cend) n l = some l' ∧
        index_inv W (k + n) l' := by
  induction n with
  | zero => intro k l _ inv; exact ⟨l, rfl, inv⟩
  | succ n ih =>
    intro k l hk inv
    obtain ⟨l1, h1, inv1⟩ := stripe_step_index ay W N step r cend k l hW hN
      (by push_cast at hk; omega) inv
    obtain ⟨l2, h2, inv2⟩ := ih (k + 1) l1 (by push_cast at hk ⊢; omega) inv1
    refine ⟨l2, ?_, ?_⟩
    · simp [for_loop, h1, h2]
    · have : k + (n + 1) = k + 1 + n := by omega
      rw [this]; exact inv2

theorem step_setup_le (size N : Int) (hN : 1 ≤ N) : (step_setup size N).1 ≤ N := by
  unfold step_setup
  by_cases hz : Int.tdiv size N = 0
  · simp only [hz, if_true]
    by_contra hc
    have h1 : N ≤ size := by omega
    rw [Int.tdiv_eq_ediv (by omega) (by omega)] at hz
    have hq : 1 ≤ size / N := Int.le_ediv_of_mul_le (by omega) (by omega)
    omega
  · simp only [hz, if_false]; exact le_refl _

theorem loop_locals_index (spt ind W : Int) (ts : Int → thread_state) (xs xe ys ye : Int)
    (hind0 : 0 ≤ ind) (hind5 : ind ≤ MAX_THREADS_IND) (hW : W = shl 1 ind) (k : Nat)
    (hk : k ≤ (stripe_count spt ind xs xe ys ye).toNat) :
    ∃ l, loop_locals spt ind W ts xs xe ys ye k = some l ∧ index_inv W k l := by
  obtain ⟨hW1, hW32⟩ := num_threads_bounds ind W hind0 hind5 hW
  obtain ⟨hS1, hS8⟩ := stripes_per_thread_bounds spt ind
  have hNS := total_stripes_eq spt ind W hW
  have hN1 : 1 ≤ total_stripes spt ind := by
    have := mul_le_mul_of_nonneg_right hS1 (show (0 : Int) ≤ W by omega)
    omega
  have hN8 : total_stripes spt ind ≤ 8 * W := by
    have := mul_le_mul_of_nonneg_right hS8 (show (0 : Int) ≤ W by omega)
    omega
  simp only [loop_locals, stripe_count] at hk ⊢
  have hle := step_setup_le (along (axis_of spt ind xs xe ys ye) xe ye
    - along (axis_of spt ind xs xe ys ye) xs ys + 1) (total_stripes spt ind) hN1
  have inv0 : index_inv W 0 ⟨clear_num_stripes W ts, W - 1, 0, xs, ys,
      (step_setup (along (axis_of spt ind xs xe ys ye) xe ye
        - along (axis_of spt ind xs xe ys ye) xs ys + 1) (total_stripes spt ind)).2.2,
      (step_setup (along (axis_of spt ind xs xe ys ye) xe ye
        - along (axis_of spt ind xs xe ys ye) xs ys + 1) (total_stripes spt ind)).2.1,
      none⟩ := by
    constructor
    · show 0 ≤ W - 1; omega
    · show W - 1 < W; omega
    · exact le_refl _
    · show ((0 : Nat) : Int) = 0 * W + (W - 1 - (W - 1)); simp
    · intro t h0 h1
      show (clear_num_stripes W ts t).num_stripes = if W - 1 < t then 0 + 1 else 0
      have : ¬ (W - 1 < t) := by omega
      simp [clear_num_stripes, h0, h1, this]
  generalize (step_setup (along (axis_of spt ind xs xe ys ye) xe ye
    - along (axis_of spt ind xs xe ys ye) xs ys + 1) (total_stripes spt ind)).1 = N' at *
  generalize (step_setup (along (axis_of spt ind xs xe ys ye) xe ye
    - along (axis_of spt ind xs xe ys ye) xs ys + 1) (total_stripes spt ind)).2.1 = step at *
  generalize (step_setup (along (axis_of spt ind xs xe ys ye) xe ye
    - along (axis_of spt ind xs xe ys ye) xs ys + 1) (total_stripes spt ind)).2.2 = r at *
  rcases Nat.eq_zero_or_pos k with hk0 | hkpos
  · subst hk0
    exact ⟨_, rfl, inv0⟩
  · obtain ⟨l, hl, inv⟩ := for_loop_index (axis_of spt ind xs xe ys ye) W N' step r
      (across (axis_of spt ind xs xe ys ye) xe ye) hW32 (by omega) k 0 _ (by simp; omega) inv0
    rw [Nat.zero_add] at inv
    exact ⟨l, hl, inv⟩

theorem index_inv_count {W : Int} {k : Nat} {l : calc_locals} (inv : index_inv W k l)
    (hk : (k : Int) ≤ 8 * W) (t : Int) (ht0 : 0 ≤ t) (htW : t < W) :
    0 ≤ (l.thread_states t).num_stripes ∧ (l.thread_states t).num_stripes ≤ 8 := by
  obtain ⟨ti_lo, ti_hi, si_lo, hk', hcnt⟩ := inv
  rw [hcnt t ht0 htW]
  by_cases h8 : 8 ≤ l.stripe_ind
  · have h := mul_le_mul_of_nonneg_right h8 (show (0 : Int) ≤ W by omega)
    have h9 : l.stripe_ind ≤ 8 := by
      by_contra hc
      have := mul_le_mul_of_nonneg_right (show (9 : Int) ≤ l.stripe_ind by omega)
        (show (0 : Int) ≤ W by omega)
      omega
    split_ifs <;> omega
  · split_ifs <;> omega

/-- C6.  For every stripes-per-thread bitfield and every thread-count index `0..5` (with
`num_threads = 1 << num_threads_ind`), and for every rectangle: the per-thread stripe count
used by `man_calculate` lies in `1 .. MAX_STRIPES`; the total number of stripes, and the
number actually generated, are at most `MAX_STRIPES * num_threads`; every iteration of the
stripe loop runs (no store leaves an array) with `0 ≤ thread_ind < num_threads ≤
MAX_THREADS` and `0 ≤ stripe_ind < MAX_STRIPES`; and no thread's list receives more than
`MAX_STRIPES` stripes. -/
theorem man_calculate_index_range (spt ind W : Int) (ts : Int → thread_state)
    (xs xe ys ye : Int)
    (hind0 : 0 ≤ ind) (hind5 : ind ≤ MAX_THREADS_IND) (hW : W = shl 1 ind) :
    1 ≤ stripes_per_thread spt ind ∧ stripes_per_thread spt ind ≤ MAX_STRIPES ∧
    total_stripes spt ind ≤ MAX_STRIPES * W ∧
    stripe_count spt ind xs xe ys ye ≤ MAX_STRIPES * W ∧
    W ≤ MAX_THREADS ∧
    (∀ k : Nat, (k : Int) < stripe_count spt ind xs xe ys ye →
      ∃ l, loop_locals spt ind W ts xs xe ys ye k = some l ∧
        0 ≤ l.thread_ind ∧ l.thread_ind < W ∧ 0 ≤ l.stripe_ind ∧ l.stripe_ind < MAX_STRIPES) ∧
    (∃ l, loop_locals spt ind W ts xs xe ys ye (stripe_count spt ind xs xe ys ye).toNat
        = some l ∧
      ∀ t, 0 ≤ t → t < W → (l.thread_states t).num_stripes ≤ MAX_STRIPES) ∧
    (∀ l, man_calculate_locals spt ind W ts xs xe ys ye = some l →
      ∀ t, 0 ≤ t → t < W → (l.thread_states t).num_stripes ≤ MAX_STRIPES) := by
  obtain ⟨hW1, hW32⟩ := num_threads_bounds ind W hind0 hind5 hW
  obtain ⟨hS1, hS8⟩ := stripes_per_thread_bounds spt ind
  have hNS := total_stripes_eq spt ind W hW
  have hMT : MAX_THREADS = 32 := by decide
  have hMS : MAX_STRIPES = 8 := rfl
  have hN1 : 1 ≤ total_stripes spt ind := by
    have := mul_le_mul_of_nonneg_right hS1 (show (0 : Int) ≤ W by omega)
    omega
  have hN8 : total_stripes spt ind ≤ 8 * W := by
    have := mul_le_mul_of_nonneg_right hS8 (show (0 : Int) ≤ W by omega)
    omega
  have hc8 : stripe_count spt ind xs xe ys ye ≤ 8 * W := by
    have := step_setup_le (along (axis_of spt ind xs xe ys ye) xe ye
      - along (axis_of spt ind xs xe ys ye) xs ys + 1) (total_stripes spt ind) hN1
    unfold stripe_count; omega
  have hfull : ∃ l, loop_locals spt ind W ts xs xe ys ye
      (stripe_count spt ind xs xe ys ye).toNat = some l ∧
      ∀ t, 0 ≤ t → t < W → (l.thread_states t).num_stripes ≤ MAX_STRIPES := by
    obtain ⟨l, hl, inv⟩ := loop_locals_index spt ind W ts xs xe ys ye hind0 hind5 hW
      (stripe_count spt ind xs xe ys ye).toNat (le_refl _)
    refine ⟨l, hl, fun t h0 h1 => ?_⟩
    rw [hMS]
    exact (index_inv_count inv (by omega) t h0 h1).2
  rw [hMS]
  refine ⟨hS1, hS8, hN8, hc8, by omega, ?_, by rw [hMS] at hfull; exact hfull, ?_⟩
  · intro k hk
    obtain ⟨l, hl, inv⟩ := loop_locals_index spt ind W ts xs xe ys ye hind0 hind5 hW k
      (by omega)
    refine ⟨l, hl, inv.ti_lo, inv.ti_hi, inv.si_lo, ?_⟩
    by_contra hc
    have h8 := mul_le_mul_of_nonneg_right (show (8 : Int) ≤ l.stripe_ind by omega)
      (show (0 : Int) ≤ W by omega)
    have := inv.hk
    have := inv.ti_hi
    omega
  · intro l hl t h0 h1
    obtain ⟨l', hl', hcnt⟩ := hfull
    rw [man_calculate_locals_loop spt ind W ts xs xe ys ye hW32, hl'] at hl
    simp only [Option.bind, store_last] at hl
    cases hs : l'.s with
    | none => rw [hs] at hl; simp at hl
    | some q =>
      rw [hs] at hl
      simp only [Option.some.injEq] at hl
      rw [← hl]
      simp only [set_stripe_num']
      rw [← hMS]; exact hcnt t h0 h1

/-- Witness for C6: the default bitfield, 32 threads, on the full 10 by 10 image. -/
theorem man_calculate_index_range_witness :
    1 ≤ stripes_per_thread 0x234471 5 ∧ stripes_per_thread 0x234471 5 ≤ MAX_STRIPES ∧
    total_stripes 0x234471 5 ≤ MAX_STRIPES * 32 ∧
    stripe_count 0x234471 5 0 9 0 9 ≤ MAX_STRIPES * 32 ∧
    (32 : Int) ≤ MAX_THREADS ∧
    (∀ k : Nat, (k : Int) < stripe_count 0x234471 5 0 9 0 9 →
      ∃ l, loop_locals 0x234471 5 32 example_calc.thread_states 0 9 0 9 k = some l ∧
        0 ≤ l.thread_ind ∧ l.thread_ind < 32 ∧ 0 ≤ l.stripe_ind ∧ l.stripe_ind < MAX_STRIPES) ∧
    (∃ l, loop_locals 0x234471 5 32 example_calc.thread_states 0 9 0 9
        (stripe_count 0x234471 5 0 9 0 9).toNat = some l ∧
      ∀ t, 0 ≤ t → t < 32 → (l.thread_states t).num_stripes ≤ MAX_STRIPES) ∧
    (∀ l, man_calculate_locals 0x234471 5 32 example_calc.thread_states 0 9 0 9 = some l →
      ∀ t, 0 ≤ t → t < 32 → (l.thread_states t).num_stripes ≤ MAX_STRIPES) :=
  man_calculate_index_range 0x234471 5 32 example_calc.thread_states 0 9 0 9
    (by decide) (by decide) (by decide)

/-! ## Worker count and quadrant cache -/

/-- C7.  `get_cpu_info` on a system reporting 33 processors: the search loop leaves
`num_threads_ind = MAX_THREADS_IND + 1 = 6` and the worker count becomes 64, above
`MAX_THREADS = 32`. -/
theorem get_cpu_info_33 :
    get_cpu_info 33 = some (64, 6) ∧ MAX_THREADS = 32 ∧ MAX_THREADS_IND = 5 := by
  decide

theorem renormalize_spec (p size : Int) (h0 : -size ≤ p) (h1 : p ≤ 2 * size) :
    (renormalize p size).1 =
      (if p < 0 then p + size else if p > size then p - size else p) ∧
    ((renormalize p size).2 = true ↔ (p < 0 ∨ p > size)) ∧
    0 ≤ (renormalize p size).1 ∧ (renormalize p size).1 ≤ size := by
  unfold renormalize
  by_cases ha : p < 0
  · have hb : ¬ (p + size > size) := by omega
    simp [ha, hb]; omega
  · by_cases hb : p > size
    · simp [ha, hb]; omega
    · simp [ha, hb]; omega

theorem pan_image_fields (dx dy : Int) (g : pan_globals) (h : dx ≠ 0 ∨ dy ≠ 0) :
    (pan_image dx dy g).xsize = g.xsize ∧ (pan_image dx dy g).ysize = g.ysize ∧
    (pan_image dx dy g).pan_xoffs = g.pan_xoffs - dx ∧
    (pan_image dx dy g).pan_yoffs = g.pan_yoffs - dy ∧
    (pan_image dx dy g).screen_xpos = (renormalize (g.screen_xpos - dx) g.xsize).1 ∧
    (pan_image dx dy g).screen_ypos = (renormalize (g.screen_ypos - dy) g.ysize).1 ∧
    (pan_image dx dy g).update_rect_0 =
      (horizontal_rect g.update_rect_0
        (vertical_rect g.update_rect_1 dx (renormalize (g.screen_xpos - dx) g.xsize).1
          (renormalize (g.screen_ypos - dy) g.ysize).1 g.xsize g.ysize)
        dy (renormalize (g.screen_xpos - dx) g.xsize).1
        (renormalize (g.screen_ypos - dy) g.ysize).1 g.xsize g.ysize).1 ∧
    (pan_image dx dy g).update_rect_1 =
      (horizontal_rect g.update_rect_0
        (vertical_rect g.update_rect_1 dx (renormalize (g.screen_xpos - dx) g.xsize).1
          (renormalize (g.screen_ypos - dy) g.ysize).1 g.xsize g.ysize)
        dy (renormalize (g.screen_xpos - dx) g.xsize).1
        (renormalize (g.screen_ypos - dy) g.ysize).1 g.xsize g.ysize).2 := by
  unfold pan_image
  rw [if_pos h]
  simp [blit_rects]

theorem pan_image_quad_rect (dx dy : Int) (g : pan_globals) :
    (pan_image dx dy g).quad_UL.quad_rect = g.quad_UL.quad_rect ∧
    (pan_image dx dy g).quad_UR.quad_rect = g.quad_UR.quad_rect ∧
    (pan_image dx dy g).quad_LL.quad_rect = g.quad_LL.quad_rect ∧
    (pan_image dx dy g).quad_LR.quad_rect = g.quad_LR.quad_rect := by
  unfold pan_image
  by_cases h : dx ≠ 0 ∨ dy ≠ 0
  · rw [if_pos h]
    simp only [blit_rects, swap_quadrants]
    cases (renormalize (g.screen_xpos - dx) g.xsize).2 <;>
      cases (renormalize (g.screen_ypos - dy) g.ysize).2 <;>
      refine ⟨?_, ?_, ?_, ?_⟩ <;> (split_ifs <;> rfl)
  · rw [if_neg h]; exact ⟨rfl, rfl, rfl, rfl⟩

theorem reachable_inv (xsize ysize : Int) (g : pan_globals) (hx : 0 ≤ xsize) (hy : 0 ≤ ysize)
    (h : reachable xsize ysize g) :
    g.xsize = xsize ∧ g.ysize = ysize ∧
    0 ≤ g.screen_xpos ∧ g.screen_xpos ≤ xsize ∧ 0 ≤ g.screen_ypos ∧ g.screen_ypos ≤ ysize ∧
    (g.quad_UL.quad_rect.x0 = 0 ∧ g.quad_UL.quad_rect.x1 = xsize - 1 ∧
      g.quad_UL.quad_rect.y0 = 0 ∧ g.quad_UL.quad_rect.y1 = ysize - 1) ∧
    (g.quad_UR.quad_rect.x0 = xsize ∧ g.quad_UR.quad_rect.x1 = 2 * xsize - 1 ∧
      g.quad_UR.quad_rect.y0 = 0 ∧ g.quad_UR.quad_rect.y1 = ysize - 1) ∧
    (g.quad_LL.quad_rect.x0 = 0 ∧ g.quad_LL.quad_rect.x1 = xsize - 1 ∧
      g.quad_LL.quad_rect.y0 = ysize ∧ g.quad_LL.quad_rect.y1 = 2 * ysize - 1) ∧
    (g.quad_LR.quad_rect.x0 = xsize ∧ g.quad_LR.quad_rect.x1 = 2 * xsize - 1 ∧
      g.quad_LR.quad_rect.y0 = ysize ∧ g.quad_LR.quad_rect.y1 = 2 * ysize - 1) := by
  induction h with
  | reset g0 h1 h2 =>
    have e : ∀ a : Int, shl a 1 = 2 * a := by intro a; simp [shl]; ring
    refine ⟨h1, h2, le_refl _, hx, le_refl _, hy, ?_, ?_, ?_, ?_⟩ <;>
      simp [reset_quadrants, e, h1, h2]
  | pan g0 dx dy _ hx0 hx1 hy0 hy1 ih =>
    obtain ⟨i1, i2, i3, i4, i5, i6, i7, i8, i9, i10⟩ := ih
    obtain ⟨q1, q2, q3, q4⟩ := pan_image_quad_rect dx dy g0
    rw [q1, q2, q3, q4]
    refine ⟨?_, ?_, ?_, ?_, ?_, ?_, i7, i8, i9, i10⟩
    all_goals
      by_cases hz : dx ≠ 0 ∨ dy ≠ 0
      · obtain ⟨f1, f2, -, -, f5, f6, -, -⟩ := pan_image_fields dx dy g0 hz
        obtain ⟨-, -, r3, r4⟩ := renormalize_spec (g0.screen_xpos - dx) g0.xsize
          (by omega) (by omega)
        obtain ⟨-, -, s3, s4⟩ := renormalize_spec (g0.screen_ypos - dy) g0.ysize
          (by omega) (by omega)
        first
          | (rw [f1]; exact i1)
          | (rw [f2]; exact i2)
          | (rw [f5]; omega)
          | (rw [f6]; omega)
      · simp only [pan_image, if_neg hz]
        first | exact i1 | exact i2 | exact i3 | exact i4 | exact i5 | exact i6

/-- Quadrant conservation for bounded deltas.  Starting from `reset_quadrants` and applying
any sequence of `pan_image(dx, dy)` calls with `|dx| ≤ xsize` and `|dy| ≤ ysize` (with further
calls of `reset_quadrants` anywhere in between), the four quadrant rectangles exactly
partition the
`2 * xsize` by `2 * ysize` canvas, and the viewport stays inside the canvas:
`0 ≤ screen_xpos ≤ xsize` and `0 ≤ screen_ypos ≤ ysize` after every call. -/
theorem pan_image_conservation (xsize ysize : Int) (g : pan_globals)
    (hx : 0 ≤ xsize) (hy : 0 ≤ ysize) (h : reachable xsize ysize g) :
    g.xsize = xsize ∧ g.ysize = ysize ∧ quad_partition g ∧
    0 ≤ g.screen_xpos ∧ g.screen_xpos ≤ xsize ∧ 0 ≤ g.screen_ypos ∧ g.screen_ypos ≤ ysize ∧
    (∀ x y, in_viewport g x y → 0 ≤ x ∧ x < 2 * xsize ∧ 0 ≤ y ∧ y < 2 * ysize) := by
  obtain ⟨i1, i2, i3, i4, i5, i6, ⟨a1, a2, a3, a4⟩, ⟨b1, b2, b3, b4⟩, ⟨c1, c2, c3, c4⟩,
    ⟨d1, d2, d3, d4⟩⟩ := reachable_inv xsize ysize g hx hy h
  refine ⟨i1, i2, ?_, i3, i4, i5, i6, ?_⟩
  · intro x y
    unfold in_rect
    rw [a1, a2, a3, a4, b1, b2, b3, b4, c1, c2, c3, c4, d1, d2, d3, d4, i1, i2]
    omega
  · intro x y hv
    unfold in_viewport at hv
    rw [i1, i2] at hv
    omega

/-- Instance of `pan_image_conservation`: one pan by (2, 3) after a reset of a 5 by 5
image. -/
theorem pan_image_conservation_witness :
    (pan_image 2 3 example_pan).xsize = 5 ∧ (pan_image 2 3 example_pan).ysize = 5 ∧
    quad_partition (pan_image 2 3 example_pan) ∧
    0 ≤ (pan_image 2 3 example_pan).screen_xpos ∧ (pan_image 2 3 example_pan).screen_xpos ≤ 5 ∧
    0 ≤ (pan_image 2 3 example_pan).screen_ypos ∧ (pan_image 2 3 example_pan).screen_ypos ≤ 5 ∧
    (∀ x y, in_viewport (pan_image 2 3 example_pan) x y →
      0 ≤ x ∧ x < 2 * 5 ∧ 0 ≤ y ∧ y < 2 * 5) :=
  pan_image_conservation 5 5 (pan_image 2 3 example_pan) (by decide) (by decide)
    (reachable.pan _ 2 3 (reachable.reset _ rfl rfl) (by decide) (by decide) (by decide)
      (by decide))

/-- C8.  A pan by (6, 0) of a 5 by 5 image from the state left by `reset_quadrants` leaves
`screen_xpos = -1`, and a pan by (7, 0) leaves `screen_xpos = -2`: after the call the screen
position is outside `0 .. xsize`, so the viewport is not inside the canvas. -/
theorem pan_image_leaves_canvas :
    (pan_image 6 0 example_pan).screen_xpos = -1 ∧
    ¬ (0 ≤ (pan_image 6 0 example_pan).screen_xpos ∧
      (pan_image 6 0 example_pan).screen_xpos ≤ (pan_image 6 0 example_pan).xsize) ∧
    (pan_image 7 0 example_pan).screen_xpos = -2 ∧
    ¬ (0 ≤ (pan_image 7 0 example_pan).screen_xpos ∧
      (pan_image 7 0 example_pan).screen_xpos ≤ (pan_image 7 0 example_pan).xsize) := by
  decide

theorem blit_rects_buffers (g : pan_globals) : buffers (blit_rects g) = buffers g := by
  unfold blit_rects buffers
  simp only
  split_ifs <;> rfl

theorem pan_image_buffers (dx dy : Int) (g : pan_globals) (h : dx ≠ 0 ∨ dy ≠ 0) :
    buffers (pan_image dx dy g) =
      (if (renormalize (g.screen_ypos - dy) g.ysize).2 = true then exchange_y else id)
        ((if (renormalize (g.screen_xpos - dx) g.xsize).2 = true then exchange_x else id)
          (buffers g)) := by
  unfold pan_image
  rw [if_pos h]
  simp only
  have hb : ∀ g1 : pan_globals,
      buffers { blit_rects g1 with recalc_for_palette := true } = buffers g1 := by
    intro g1; rw [← blit_rects_buffers g1]; rfl
  rw [hb]
  cases (renormalize (g.screen_xpos - dx) g.xsize).2 <;>
    cases (renormalize (g.screen_ypos - dy) g.ysize).2 <;>
    simp [buffers, swap_quadrants, exchange_x, exchange_y]

/-- C9.  From a state with the screen position inside `0..xsize` by `0..ysize`, a pan with
`|dx| ≤ xsize` and `|dy| ≤ ysize` subtracts `dx`, `dy` from the pan offsets and from the screen
position; a moved coordinate below 0 gets the size added, one above the size gets the size
subtracted, any other is left alone; the buffers of (UL, UR) and (LL, LR) are exchanged
exactly when the x coordinate was renormalised, then those of (UL, LL) and (UR, LR) exactly
when the y coordinate was; the resulting screen position lies in `0..xsize` by `0..ysize`. -/
theorem pan_image_renormalize (dx dy : Int) (g : pan_globals)
    (hsx0 : 0 ≤ g.screen_xpos) (hsx1 : g.screen_xpos ≤ g.xsize)
    (hsy0 : 0 ≤ g.screen_ypos) (hsy1 : g.screen_ypos ≤ g.ysize)
    (hdx0 : -g.xsize ≤ dx) (hdx1 : dx ≤ g.xsize)
    (hdy0 : -g.ysize ≤ dy) (hdy1 : dy ≤ g.ysize) :
    (pan_image dx dy g).pan_xoffs = g.pan_xoffs - dx ∧
    (pan_image dx dy g).pan_yoffs = g.pan_yoffs - dy ∧
    (pan_image dx dy g).screen_xpos =
      (if g.screen_xpos - dx < 0 then g.screen_xpos - dx + g.xsize
        else if g.screen_xpos - dx > g.xsize then g.screen_xpos - dx - g.xsize
        else g.screen_xpos - dx) ∧
    (pan_image dx dy g).screen_ypos =
      (if g.screen_ypos - dy < 0 then g.screen_ypos - dy + g.ysize
        else if g.screen_ypos - dy > g.ysize then g.screen_ypos - dy - g.ysize
        else g.screen_ypos - dy) ∧
    buffers (pan_image dx dy g) =
      (if g.screen_ypos - dy < 0 ∨ g.screen_ypos - dy > g.ysize then exchange_y else id)
        ((if g.screen_xpos - dx < 0 ∨ g.screen_xpos - dx > g.xsize then exchange_x else id)
          (buffers g)) ∧
    0 ≤ (pan_image dx dy g).screen_xpos ∧ (pan_image dx dy g).screen_xpos ≤ g.xsize ∧
    0 ≤ (pan_image dx dy g).screen_ypos ∧ (pan_image dx dy g).screen_ypos ≤ g.ysize := by
  by_cases hz : dx ≠ 0 ∨ dy ≠ 0
  · obtain ⟨-, -, f3, f4, f5, f6, -, -⟩ := pan_image_fields dx dy g hz
    obtain ⟨r1, r2, r3, r4⟩ := renormalize_spec (g.screen_xpos - dx) g.xsize
      (by omega) (by omega)
    obtain ⟨s1, s2, s3, s4⟩ := renormalize_spec (g.screen_ypos - dy) g.ysize
      (by omega) (by omega)
    rw [pan_image_buffers dx dy g hz, f3, f4, f5, f6, ← r1, ← s1]
    refine ⟨rfl, rfl, rfl, rfl, ?_, r3, r4, s3, s4⟩
    simp only [r2, s2]
  · have h0 : dx = 0 ∧ dy = 0 := by omega
    obtain ⟨hx0, hy0⟩ := h0
    subst hx0; subst hy0
    simp only [pan_image, ne_eq, not_true_eq_false, or_self, if_false, sub_zero]
    have h1 : ¬ (g.screen_xpos < 0) := by omega
    have h2 : ¬ (g.screen_xpos > g.xsize) := by omega
    have h3 : ¬ (g.screen_ypos < 0) := by omega
    have h4 : ¬ (g.screen_ypos > g.ysize) := by omega
    simp [h1, h2, h3, h4, hsx0, hsx1, hsy0, hsy1]

/-- Witness for C9: the pan by (2, 3) of the reset 5 by 5 image, which renormalises both
coordinates. -/
theorem pan_image_renormalize_witness :
    (pan_image 2 3 example_pan).pan_xoffs = example_pan.pan_xoffs - 2 ∧
    (pan_image 2 3 example_pan).pan_yoffs = example_pan.pan_yoffs - 3 ∧
    (pan_image 2 3 example_pan).screen_xpos =
      (if example_pan.screen_xpos - 2 < 0 then example_pan.screen_xpos - 2 + example_pan.xsize
        else if example_pan.screen_xpos - 2 > example_pan.xsize
          then example_pan.screen_xpos - 2 - example_pan.xsize
        else example_pan.screen_xpos - 2) ∧
    (pan_image 2 3 example_pan).screen_ypos =
      (if example_pan.screen_ypos - 3 < 0 then example_pan.screen_ypos - 3 + example_pan.ysize
        else if example_pan.screen_ypos - 3 > example_pan.ysize
          then example_pan.screen_ypos - 3 - example_pan.ysize
        else example_pan.screen_ypos - 3) ∧
    buffers (pan_image 2 3 example_pan) =
      (if example_pan.screen_ypos - 3 < 0 ∨ example_pan.screen_ypos - 3 > example_pan.ysize
          then exchange_y else id)
        ((if example_pan.screen_xpos - 2 < 0 ∨ example_pan.screen_xpos - 2 > example_pan.xsize
            then exchange_x else id)
          (buffers example_pan)) ∧
    0 ≤ (pan_image 2 3 example_pan).screen_xpos ∧
    (pan_image 2 3 example_pan).screen_xpos ≤ example_pan.xsize ∧
    0 ≤ (pan_image 2 3 example_pan).screen_ypos ∧
    (pan_image 2 3 example_pan).screen_ypos ≤ example_pan.ysize :=
  pan_image_renormalize 2 3 example_pan (by decide) (by decide) (by decide) (by decide)
    (by decide) (by decide) (by decide) (by decide)

/-- C10.  For a pan `(dx, dy) ≠ (0, 0)` with `|dx| ≤ xsize` and `|dy| ≤ ysize` from a state
whose screen position lies in `0..xsize` by `0..ysize`: no canvas pixel is covered by both
valid update rectangles, and a canvas pixel is covered by a valid update rectangle exactly
when it is a viewport pixel whose translate by `(-dx, -dy)` is not a viewport pixel, i.e. a
pixel newly exposed by the pan. -/
theorem pan_image_update_rects (dx dy : Int) (g : pan_globals) (x y : Int)
    (hne : dx ≠ 0 ∨ dy ≠ 0)
    (hsx0 : 0 ≤ g.screen_xpos) (hsx1 : g.screen_xpos ≤ g.xsize)
    (hsy0 : 0 ≤ g.screen_ypos) (hsy1 : g.screen_ypos ≤ g.ysize)
    (hdx0 : -g.xsize ≤ dx) (hdx1 : dx ≤ g.xsize)
    (hdy0 : -g.ysize ≤ dy) (hdy1 : dy ≤ g.ysize) :
    ¬ (covered (pan_image dx dy g).update_rect_0 x y ∧
        covered (pan_image dx dy g).update_rect_1 x y) ∧
    ((covered (pan_image dx dy g).update_rect_0 x y ∨
        covered (pan_image dx dy g).update_rect_1 x y) ↔
      (in_viewport (pan_image dx dy g) x y ∧
        ¬ in_viewport (pan_image dx dy g) (x - dx) (y - dy))) := by
  obtain ⟨f1, f2, -, -, f5, f6, f7, f8⟩ := pan_image_fields dx dy g hne
  obtain ⟨-, -, r3, r4⟩ := renormalize_spec (g.screen_xpos - dx) g.xsize (by omega) (by omega)
  obtain ⟨-, -, s3, s4⟩ := renormalize_spec (g.screen_ypos - dy) g.ysize (by omega) (by omega)
  unfold in_viewport
  rw [f1, f2, f5, f6, f7, f8]
  generalize (renormalize (g.screen_xpos - dx) g.xsize).1 = px at *
  generalize (renormalize (g.screen_ypos - dy) g.ysize).1 = py at *
  unfold covered in_rect horizontal_rect vertical_rect
  dsimp only
  split_ifs <;> dsimp only <;> omega

/-- Witness for C10: the pan by (2, 3) of the reset 5 by 5 image at the canvas pixel
(3, 2), the new upper left corner of the viewport. -/
theorem pan_image_update_rects_witness :
    ¬ (covered (pan_image 2 3 example_pan).update_rect_0 3 2 ∧
        covered (pan_image 2 3 example_pan).update_rect_1 3 2) ∧
    ((covered (pan_image 2 3 example_pan).update_rect_0 3 2 ∨
        covered (pan_image 2 3 example_pan).update_rect_1 3 2) ↔
      (in_viewport (pan_image 2 3 example_pan) 3 2 ∧
        ¬ in_viewport (pan_image 2 3 example_pan) (3 - 2) (2 - 3))) :=
  pan_image_update_rects 2 3 example_pan 3 2 (by decide) (by decide) (by decide) (by decide)
    (by decide) (by decide) (by decide) (by decide) (by decide)

/-- C15.  After `reset_quadrants`, for every image size: the screen position is (0, 0); the UL
quadrant has `QSTAT_DO_BLIT`, its source and destination offsets are 0 and its blit size is
`xsize` by `ysize`, so its blit copies each buffer cell to the same screen pixel and covers
exactly the screen; UR, LL and LR have status 0 and blit nothing; `update_rect[0]` is valid,
`update_rect[1]` is not; and `update_rect[0]` is (0,0)-(xsize-1, ysize-1), the rectangle of the
UL quadrant, which is the whole viewport. -/
theorem reset_quadrants_state (g : pan_globals) :
    (reset_quadrants g).screen_xpos = 0 ∧ (reset_quadrants g).screen_ypos = 0 ∧
    (quad (reset_quadrants g) 0).status = QSTAT_DO_BLIT ∧
    blit_src (quad (reset_quadrants g) 0) = (fun px py => (px, py)) ∧
    (∀ px py, blit_dest (quad (reset_quadrants g) 0) px py ↔
      (0 ≤ px ∧ px < g.xsize ∧ 0 ≤ py ∧ py < g.ysize)) ∧
    (quad (reset_quadrants g) 0).src_xoffs = 0 ∧ (quad (reset_quadrants g) 0).src_yoffs = 0 ∧
    (quad (reset_quadrants g) 0).dest_xoffs = 0 ∧ (quad (reset_quadrants g) 0).dest_yoffs = 0 ∧
    (quad (reset_quadrants g) 0).blit_xsize = g.xsize ∧
    (quad (reset_quadrants g) 0).blit_ysize = g.ysize ∧
    (quad (reset_quadrants g) 1).status = 0 ∧ (quad (reset_quadrants g) 2).status = 0 ∧
    (quad (reset_quadrants g) 3).status = 0 ∧
    (∀ i px py, 1 ≤ i → ¬ blit_dest (quad (reset_quadrants g) i) px py) ∧
    (reset_quadrants g).update_rect_0.valid ≠ 0 ∧ (reset_quadrants g).update_rect_1.valid = 0 ∧
    (reset_quadrants g).update_rect_0.x0 = 0 ∧
    (reset_quadrants g).update_rect_0.y0 = 0 ∧
    (reset_quadrants g).update_rect_0.x1 = g.xsize - 1 ∧
    (reset_quadrants g).update_rect_0.y1 = g.ysize - 1 ∧
    (∀ x y, in_rect (reset_quadrants g).update_rect_0 x y ↔
      in_rect (quad (reset_quadrants g) 0).quad_rect x y) ∧
    (∀ x y, covered (reset_quadrants g).update_rect_0 x y ↔
      in_viewport (reset_quadrants g) x y) := by
  have hq : ∀ i px py, 1 ≤ i → ¬ blit_dest (quad (reset_quadrants g) i) px py := by
    intro i px py hi hb
    have h0 : (quad (reset_quadrants g) i).status = 0 := by
      match i, hi with
      | 1, _ => rfl
      | 2, _ => rfl
      | (n + 3), _ => rfl
    have h1 := hb.1
    rw [h0] at h1
    exact absurd h1 (by decide)
  refine ⟨rfl, rfl, rfl, ?_, ?_, rfl, rfl, rfl, rfl, rfl, rfl, rfl, rfl, rfl, hq, by
    simp [reset_quadrants], rfl, rfl, rfl, rfl, rfl, ?_, ?_⟩
  · funext px py
    simp [blit_src, quad, reset_quadrants]
  · intro px py
    simp [blit_dest, quad, reset_quadrants]
  · intro x y
    simp [in_rect, quad, reset_quadrants]
  · intro x y
    simp only [covered, in_rect, in_viewport, reset_quadrants]
    constructor
    · rintro ⟨-, h⟩; omega
    · intro h; exact ⟨by decide, by omega⟩

/-- C11.  For a pan `pan_image(dx, 0)` with `0 < |dx| ≤ xsize`: the horizontal update rectangle
`update_rect[0]` is invalid and the vertical one `update_rect[1]` is valid; the vertical
rectangle spans the whole viewport height (`ysize` rows from the new `screen_ypos`), is
`|dx|` columns wide, starts at the left viewport edge when `dx > 0` and ends at the right
viewport edge when `dx < 0`; so the canvas pixels it covers are exactly the viewport pixels
of the first `dx` columns (`dx > 0`) or of the last `-dx` columns (`dx < 0`). -/
theorem pan_image_vertical_strip (dx : Int) (g : pan_globals)
    (hne : dx ≠ 0) (hdx0 : -g.xsize ≤ dx) (hdx1 : dx ≤ g.xsize) :
    (pan_image dx 0 g).update_rect_0.valid = 0 ∧
    (pan_image dx 0 g).update_rect_1.valid ≠ 0 ∧
    (pan_image dx 0 g).update_rect_1.y0 = (pan_image dx 0 g).screen_ypos ∧
    (pan_image dx 0 g).update_rect_1.y1 = (pan_image dx 0 g).screen_ypos + g.ysize - 1 ∧
    (pan_image dx 0 g).update_rect_1.x1 - (pan_image dx 0 g).update_rect_1.x0 + 1 = |dx| ∧
    (0 < dx → (pan_image dx 0 g).update_rect_1.x0 = (pan_image dx 0 g).screen_xpos) ∧
    (dx < 0 → (pan_image dx 0 g).update_rect_1.x1 =
      (pan_image dx 0 g).screen_xpos + g.xsize - 1) ∧
    (∀ x y, covered (pan_image dx 0 g).update_rect_1 x y ↔
      (in_viewport (pan_image dx 0 g) x y ∧
        (if 0 < dx then x < (pan_image dx 0 g).screen_xpos + dx
         else (pan_image dx 0 g).screen_xpos + g.xsize + dx ≤ x))) := by
  obtain ⟨f1, f2, -, -, f5, f6, f7, f8⟩ := pan_image_fields dx 0 g (Or.inl hne)
  unfold in_viewport
  rw [f1, f2, f5, f6, f7, f8]
  generalize (renormalize (g.screen_xpos - dx) g.xsize).1 = px
  generalize (renormalize (g.screen_ypos - 0) g.ysize).1 = py
  rcases lt_or_gt_of_ne hne with hneg | hpos
  · have h1 : ¬ (dx > 0) := by omega
    have h2 : ¬ (0 < dx) := by omega
    have h3 : |dx| = -dx := abs_of_neg hneg
    simp only [horizontal_rect, vertical_rect, covered, in_rect, h1, h2, hneg, h3, if_true,
      if_false, lt_irrefl, gt_iff_lt]
    refine ⟨trivial, hne, trivial, trivial, by omega, fun h => h.elim, fun _ => trivial, ?_⟩
    intro x y
    omega
  · have h1 : ¬ (dx < 0) := by omega
    have h3 : |dx| = dx := abs_of_pos hpos
    simp only [horizontal_rect, vertical_rect, covered, in_rect, h1, hpos, h3, if_true,
      if_false, lt_irrefl, gt_iff_lt]
    refine ⟨trivial, hne, trivial, trivial, by omega, fun _ => trivial, fun h => h.elim, ?_⟩
    intro x y
    omega

/-- Witness for C11: the pan by (+5, 0) of a 100 by 100 view gives one strip of width 5. -/
theorem pan_image_vertical_strip_witness :
    (pan_image 5 0 (example_view 100 100)).update_rect_0.valid = 0 ∧
    (pan_image 5 0 (example_view 100 100)).update_rect_1.valid ≠ 0 ∧
    (pan_image 5 0 (example_view 100 100)).update_rect_1.x1 -
      (pan_image 5 0 (example_view 100 100)).update_rect_1.x0 + 1 = 5 :=
  have h := pan_image_vertical_strip 5 (example_view 100 100) (by decide) (by decide)
    (by decide)
  ⟨h.1, h.2.1, h.2.2.2.2.1⟩

/-- C12 fails at the pan by (5, 100) of a 100 by 100 view: the vertical update rectangle is
left valid (`valid = 5`) with `y[0] = 100 > y[1] = 99`, an empty rectangle, although
quickman.h:129-130 documents `y[0] <= y[1]`. -/
theorem pan_image_empty_valid_rect :
    (pan_image 5 100 (example_view 100 100)).update_rect_1 = ⟨95, 99, 100, 99, 5⟩ := by
  decide

theorem blit_rects_idem (g : pan_globals) : blit_rects (blit_rects g) = blit_rects g := by
  unfold blit_rects
  simp only
  split_ifs <;> rfl

theorem blit_rects_quad (g : pan_globals) (px py : Int)
    (h1 : 0 ≤ g.screen_xpos) (h2 : g.screen_xpos ≤ g.xsize)
    (h3 : 0 ≤ g.screen_ypos) (h4 : g.screen_ypos ≤ g.ysize) (i : Nat) (hi : i < 4) :
    (blit_dest (quad (blit_rects g) i) px py ↔
      ((if i % 2 = 0 then 0 ≤ px ∧ px < g.xsize - g.screen_xpos
        else g.xsize - g.screen_xpos ≤ px ∧ px < g.xsize) ∧
       (if i / 2 = 0 then 0 ≤ py ∧ py < g.ysize - g.screen_ypos
        else g.ysize - g.screen_ypos ≤ py ∧ py < g.ysize))) ∧
    (blit_dest (quad (blit_rects g) i) px py →
      blit_src (quad (blit_rects g) i) px py =
        (px + g.screen_xpos - (if i % 2 = 0 then 0 else g.xsize),
         py + g.screen_ypos - (if i / 2 = 0 then 0 else g.ysize))) ∧
    ((quad (blit_rects g) i).status = QSTAT_DO_BLIT →
      0 ≤ (quad (blit_rects g) i).src_xoffs ∧ 0 < (quad (blit_rects g) i).blit_xsize ∧
      (quad (blit_rects g) i).src_xoffs + (quad (blit_rects g) i).blit_xsize ≤ g.xsize ∧
      0 ≤ (quad (blit_rects g) i).src_yoffs ∧ 0 < (quad (blit_rects g) i).blit_ysize ∧
      (quad (blit_rects g) i).src_yoffs + (quad (blit_rects g) i).blit_ysize ≤ g.ysize) ∧
    (quad (blit_rects g) i).quad_rect = (quad g i).quad_rect := by
  interval_cases i
  · simp only [quad, blit_rects, blit_dest, blit_src]
    by_cases c : g.screen_xpos < g.xsize ∧ g.screen_ypos < g.ysize
    · simp [c, QSTAT_DO_BLIT]; omega
    · simp [c, QSTAT_DO_BLIT]; omega
  · simp only [quad, blit_rects, blit_dest, blit_src]
    by_cases c : g.screen_xpos > 0 ∧ g.screen_ypos < g.ysize
    · simp [c, QSTAT_DO_BLIT]; omega
    · simp [c, QSTAT_DO_BLIT]; omega
  · simp only [quad, blit_rects, blit_dest, blit_src]
    by_cases c : g.screen_xpos < g.xsize ∧ g.screen_ypos > 0
    · simp [c, QSTAT_DO_BLIT]; omega
    · simp [c, QSTAT_DO_BLIT]; omega
  · simp only [quad, blit_rects, blit_dest, blit_src]
    by_cases c : g.screen_xpos > 0 ∧ g.screen_ypos > 0
    · simp [c, QSTAT_DO_BLIT]; omega
    · simp [c, QSTAT_DO_BLIT]; omega

theorem pan_image_blit (dx dy : Int) (g : pan_globals) (h : dx ≠ 0 ∨ dy ≠ 0) :
    blit_rects (pan_image dx dy g) = pan_image dx dy g := by
  have e : ∀ g1 : pan_globals, blit_rects { blit_rects g1 with recalc_for_palette := true } =
      { blit_rects g1 with recalc_for_palette := true } := by
    intro g1
    unfold blit_rects
    simp only
    split_ifs <;> rfl
  unfold pan_image
  rw [if_pos h]
  exact e _

theorem reachable_blit (xsize ysize : Int) (g : pan_globals) (hx : 0 < xsize) (hy : 0 < ysize)
    (h : reachable xsize ysize g) : blit_rects g = g := by
  induction h with
  | reset g0 h1 h2 =>
    have c : (0 : Int) < g0.xsize ∧ (0 : Int) < g0.ysize := by omega
    simp [blit_rects, reset_quadrants, c, QSTAT_DO_BLIT]
  | pan g0 dx dy _ hx0 hx1 hy0 hy1 ih =>
    by_cases hz : dx ≠ 0 ∨ dy ≠ 0
    · exact pan_image_blit dx dy g0 hz
    · simp only [pan_image, if_neg hz]
      exact ih

theorem reachable_pan_image (xsize ysize dx dy : Int) (g : pan_globals)
    (hx : 0 ≤ xsize) (hy : 0 ≤ ysize) (h : reachable xsize ysize g)
    (hdx0 : -xsize ≤ dx) (hdx1 : dx ≤ xsize) (hdy0 : -ysize ≤ dy) (hdy1 : dy ≤ ysize) :
    (pan_image dx dy g).xsize = xsize ∧ (pan_image dx dy g).ysize = ysize ∧
    0 ≤ (pan_image dx dy g).screen_xpos ∧ (pan_image dx dy g).screen_xpos ≤ xsize ∧
    0 ≤ (pan_image dx dy g).screen_ypos ∧ (pan_image dx dy g).screen_ypos ≤ ysize ∧
    (∀ i, i < 4 →
      (quad (pan_image dx dy g) i).quad_rect.x0 = (if i % 2 = 0 then 0 else xsize) ∧
      (quad (pan_image dx dy g) i).quad_rect.x1 = (if i % 2 = 0 then 0 else xsize) + xsize - 1 ∧
      (quad (pan_image dx dy g) i).quad_rect.y0 = (if i / 2 = 0 then 0 else ysize) ∧
      (quad (pan_image dx dy g) i).quad_rect.y1 =
        (if i / 2 = 0 then 0 else ysize) + ysize - 1) := by
  obtain ⟨i1, i2, i3, i4, i5, i6, ⟨a1, a2, a3, a4⟩, ⟨b1, b2, b3, b4⟩, ⟨c1, c2, c3, c4⟩,
    ⟨d1, d2, d3, d4⟩⟩ := reachable_inv xsize ysize _ hx hy
      (reachable.pan g dx dy h hdx0 hdx1 hdy0 hdy1)
  refine ⟨i1, i2, i3, i4, i5, i6, ?_⟩
  intro i hi
  interval_cases i
  · simp only [quad, a1, a2, a3, a4]; norm_num
  · simp only [quad, b1, b2, b3, b4]; norm_num; omega
  · simp only [quad, c1, c2, c3, c4]; norm_num; omega
  · simp only [quad, d1, d2, d3, d4]; norm_num; omega

/-- C13.  After a pan `(dx, dy) ≠ (0, 0)` with `|dx| ≤ xsize`, `|dy| ≤ ysize` from a state
reached from `reset_quadrants`, the screen position lies in `0..xsize` by `0..ysize` and the
blit rectangles set by `pan_image` tile the screen: a pixel `(px, py)` is the destination of the
blit of some quadrant with `QSTAT_DO_BLIT` exactly when it is a screen pixel, and then of one
quadrant only; the source rectangle of every quadrant with `QSTAT_DO_BLIT` is non-empty and lies
inside the `xsize` by `ysize` quadrant buffer; and the source cell of a screen pixel `(px, py)`
is the canvas pixel `(screen_xpos + px, screen_ypos + py)`, which lies in the rectangle of the
blitting quadrant, taken relative to the origin of that rectangle. -/
theorem pan_image_blit_tiling (xsize ysize dx dy : Int) (g g1 : pan_globals) (px py : Int)
    (hx : 0 ≤ xsize) (hy : 0 ≤ ysize) (h : reachable xsize ysize g)
    (hne : dx ≠ 0 ∨ dy ≠ 0)
    (hdx0 : -xsize ≤ dx) (hdx1 : dx ≤ xsize) (hdy0 : -ysize ≤ dy) (hdy1 : dy ≤ ysize)
    (hg : g1 = pan_image dx dy g) :
    (0 ≤ g1.screen_xpos ∧ g1.screen_xpos ≤ xsize ∧
      0 ≤ g1.screen_ypos ∧ g1.screen_ypos ≤ ysize) ∧
    ((∃ i, i < 4 ∧ blit_dest (quad g1 i) px py) ↔
      (0 ≤ px ∧ px < xsize ∧ 0 ≤ py ∧ py < ysize)) ∧
    (∀ i j, i < 4 → j < 4 → blit_dest (quad g1 i) px py → blit_dest (quad g1 j) px py →
      i = j) ∧
    (∀ i, i < 4 → (quad g1 i).status = QSTAT_DO_BLIT →
      0 ≤ (quad g1 i).src_xoffs ∧ 0 < (quad g1 i).blit_xsize ∧
      (quad g1 i).src_xoffs + (quad g1 i).blit_xsize ≤ xsize ∧
      0 ≤ (quad g1 i).src_yoffs ∧ 0 < (quad g1 i).blit_ysize ∧
      (quad g1 i).src_yoffs + (quad g1 i).blit_ysize ≤ ysize) ∧
    (∀ i, i < 4 → blit_dest (quad g1 i) px py →
      in_rect (quad g1 i).quad_rect (g1.screen_xpos + px) (g1.screen_ypos + py) ∧
      blit_src (quad g1 i) px py =
        (g1.screen_xpos + px - (quad g1 i).quad_rect.x0,
         g1.screen_ypos + py - (quad g1 i).quad_rect.y0)) := by
  obtain ⟨e1, e2, p1, p2, p3, p4, hq⟩ :=
    reachable_pan_image xsize ysize dx dy g hx hy h hdx0 hdx1 hdy0 hdy1
  have hb := pan_image_blit dx dy g hne
  rw [← hg] at e1 e2 p1 p2 p3 p4 hq hb
  have hc : ∀ i, i < 4 → _ := fun i hi =>
    blit_rects_quad g1 px py p1 (by omega) p3 (by omega) i hi
  rw [hb, e1, e2] at hc
  refine ⟨⟨p1, p2, p3, p4⟩, ⟨?_, ?_⟩, ?_, ?_, ?_⟩
  · rintro ⟨i, hi, hd⟩
    have h1 := ((hc i hi).1).1 hd
    interval_cases i <;> norm_num at h1 <;> omega
  · intro hp
    by_cases cx : px < xsize - g1.screen_xpos
    · by_cases cy : py < ysize - g1.screen_ypos
      · exact ⟨0, by norm_num, ((hc 0 (by norm_num)).1).2 (by norm_num; omega)⟩
      · exact ⟨2, by norm_num, ((hc 2 (by norm_num)).1).2 (by norm_num; omega)⟩
    · by_cases cy : py < ysize - g1.screen_ypos
      · exact ⟨1, by norm_num, ((hc 1 (by norm_num)).1).2 (by norm_num; omega)⟩
      · exact ⟨3, by norm_num, ((hc 3 (by norm_num)).1).2 (by norm_num; omega)⟩
  · intro i j hi hj hdi hdj
    have h1 := ((hc i hi).1).1 hdi
    have h2 := ((hc j hj).1).1 hdj
    interval_cases i <;> interval_cases j <;> norm_num at h1 h2 <;> omega
  · intro i hi hs
    exact (hc i hi).2.2.1 hs
  · intro i hi hd
    have h1 := ((hc i hi).1).1 hd
    have h2 := (hc i hi).2.1 hd
    obtain ⟨q1, q2, q3, q4⟩ := hq i hi
    rw [h2]
    unfold in_rect
    rw [q1, q2, q3, q4]
    interval_cases i <;> norm_num at h1 ⊢ <;> omega

/-- Witness for C13: the pan by (2, 3) of the reset 5 by 5 image, at the screen pixel (1, 1). -/
theorem pan_image_blit_tiling_witness :
    ((∃ i, i < 4 ∧ blit_dest (quad (pan_image 2 3 example_pan) i) 1 1) ↔
      ((0 : Int) ≤ 1 ∧ (1 : Int) < 5 ∧ (0 : Int) ≤ 1 ∧ (1 : Int) < 5)) ∧
    (∀ i j, i < 4 → j < 4 → blit_dest (quad (pan_image 2 3 example_pan) i) 1 1 →
      blit_dest (quad (pan_image 2 3 example_pan) j) 1 1 → i = j) :=
  have h := pan_image_blit_tiling 5 5 2 3 example_pan (pan_image 2 3 example_pan) 1 1
    (by decide) (by decide) (reachable.reset _ rfl rfl) (by decide) (by decide) (by decide)
    (by decide) (by decide) rfl
  ⟨h.2.1, h.2.2.1⟩

theorem pan_image_quad_buffers (dx dy : Int) (g : pan_globals) (h : dx ≠ 0 ∨ dy ≠ 0)
    (i : Nat) (hi : i < 4) :
    (quad (pan_image dx dy g) i).bitmap_data =
      (quad g (i ^^^ (if (renormalize (g.screen_xpos - dx) g.xsize).2 = true then 1 else 0)
        ^^^ (if (renormalize (g.screen_ypos - dy) g.ysize).2 = true then 2 else 0))).bitmap_data ∧
    (quad (pan_image dx dy g) i).handle =
      (quad g (i ^^^ (if (renormalize (g.screen_xpos - dx) g.xsize).2 = true then 1 else 0)
        ^^^ (if (renormalize (g.screen_ypos - dy) g.ysize).2 = true then 2 else 0))).handle := by
  have hb := pan_image_buffers dx dy g h
  unfold buffers at hb
  cases hx : (renormalize (g.screen_xpos - dx) g.xsize).2 <;>
    cases hy : (renormalize (g.screen_ypos - dy) g.ysize).2 <;>
    simp only [hx, hy, exchange_x, exchange_y, id, if_true, if_false, Prod.mk.injEq,
      Bool.false_eq_true] at hb <;>
    obtain ⟨⟨a1, a2⟩, ⟨b1, b2⟩, ⟨c1, c2⟩, ⟨d1, d2⟩⟩ := hb <;>
    interval_cases i <;>
    simp [quad, a1, a2, b1, b2, c1, c2, d1, d2]

theorem pan_image_uncovered (dx dy : Int) (g : pan_globals) (px py : Int)
    (hne : dx ≠ 0 ∨ dy ≠ 0)
    (hpx0 : 0 ≤ px) (hpx1 : px < g.xsize) (hpy0 : 0 ≤ py) (hpy1 : py < g.ysize)
    (hc0 : ¬ covered (pan_image dx dy g).update_rect_0
      ((pan_image dx dy g).screen_xpos + px) ((pan_image dx dy g).screen_ypos + py))
    (hc1 : ¬ covered (pan_image dx dy g).update_rect_1
      ((pan_image dx dy g).screen_xpos + px) ((pan_image dx dy g).screen_ypos + py)) :
    0 ≤ px - dx ∧ px - dx < g.xsize ∧ 0 ≤ py - dy ∧ py - dy < g.ysize := by
  obtain ⟨f1, f2, -, -, f5, f6, f7, f8⟩ := pan_image_fields dx dy g hne
  rw [f5, f6, f7] at hc0
  rw [f5, f6, f8] at hc1
  generalize (renormalize (g.screen_xpos - dx) g.xsize).1 = sx at *
  generalize (renormalize (g.screen_ypos - dy) g.ysize).1 = sy at *
  revert hc0 hc1
  unfold covered in_rect horizontal_rect vertical_rect
  dsimp only
  split_ifs <;> dsimp only <;> omega

theorem blit_rects_tiles (g : pan_globals) (px py : Int) (hb : blit_rects g = g)
    (h1 : 0 ≤ g.screen_xpos) (h2 : g.screen_xpos ≤ g.xsize)
    (h3 : 0 ≤ g.screen_ypos) (h4 : g.screen_ypos ≤ g.ysize)
    (hp : 0 ≤ px ∧ px < g.xsize ∧ 0 ≤ py ∧ py < g.ysize) :
    ∃ i, i < 4 ∧ blit_dest (quad g i) px py := by
  have hc : ∀ i, i < 4 → _ := fun i hi => blit_rects_quad g px py h1 h2 h3 h4 i hi
  rw [hb] at hc
  by_cases cx : px < g.xsize - g.screen_xpos
  · by_cases cy : py < g.ysize - g.screen_ypos
    · exact ⟨0, by norm_num, ((hc 0 (by norm_num)).1).2 (by norm_num; omega)⟩
    · exact ⟨2, by norm_num, ((hc 2 (by norm_num)).1).2 (by norm_num; omega)⟩
  · by_cases cy : py < g.ysize - g.screen_ypos
    · exact ⟨1, by norm_num, ((hc 1 (by norm_num)).1).2 (by norm_num; omega)⟩
    · exact ⟨3, by norm_num, ((hc 3 (by norm_num)).1).2 (by norm_num; omega)⟩

theorem axis_reposition (size s d p : Int) (a b : Nat) (ha : a < 2) (hb : b < 2)
    (hs0 : 0 ≤ s) (hs1 : s ≤ size) (hd0 : -size ≤ d)
    (hn : if a = 0 then 0 ≤ p ∧ p < size -
          (if s - d < 0 then s - d + size else if s - d > size then s - d - size else s - d)
        else size -
          (if s - d < 0 then s - d + size else if s - d > size then s - d - size else s - d) ≤ p
          ∧ p < size)
    (ho : if b = 0 then 0 ≤ p - d ∧ p - d < size - s else size - s ≤ p - d ∧ p - d < size) :
    b = a ^^^ (if s - d < 0 ∨ s - d > size then 1 else 0) ∧
    p + (if s - d < 0 then s - d + size else if s - d > size then s - d - size else s - d)
        - (if a = 0 then 0 else size) =
      p - d + s - (if b = 0 then 0 else size) := by
  interval_cases a <;> interval_cases b <;> norm_num at hn ho ⊢ <;>
    (split_ifs at hn ⊢ <;> first | omega | (constructor <;> first | rfl | omega))

theorem quad_index_bits (i j : Nat) (hi : i < 4) (hj : j < 4) (cx cy : Prop)
    [Decidable cx] [Decidable cy]
    (h1 : j % 2 = (i % 2) ^^^ (if cx then 1 else 0))
    (h2 : j / 2 = (i / 2) ^^^ (if cy then 1 else 0)) :
    j = i ^^^ (if cx then 1 else 0) ^^^ (if cy then 2 else 0) := by
  by_cases c1 : cx <;> by_cases c2 : cy <;>
    simp only [c1, c2, if_true, if_false] at h1 h2 ⊢ <;>
    interval_cases i <;> interval_cases j <;>
    first | rfl | (exfalso; revert h1 h2; decide)

/-- C14.  For a pan `(dx, dy)` with `|dx| ≤ xsize` and `|dy| ≤ ysize` from a state reached from
`reset_quadrants` on a non-empty image, and a screen pixel `(px, py)` that no valid update
rectangle covers after the pan: the pixel is blitted after the pan, the screen pixel
`(px - dx, py - dy)` was blitted before the pan, and the quadrant that blits `(px, py)` after
the pan holds the same pixel buffer and bitmap handle, and reads the same cell of it, as the
quadrant that blitted `(px - dx, py - dy)` before the pan. -/
theorem pan_image_cached_pixels (xsize ysize dx dy : Int) (g g1 : pan_globals) (px py : Int)
    (hx : 0 < xsize) (hy : 0 < ysize) (h : reachable xsize ysize g)
    (hdx0 : -xsize ≤ dx) (hdx1 : dx ≤ xsize) (hdy0 : -ysize ≤ dy) (hdy1 : dy ≤ ysize)
    (hg : g1 = pan_image dx dy g)
    (hpx0 : 0 ≤ px) (hpx1 : px < xsize) (hpy0 : 0 ≤ py) (hpy1 : py < ysize)
    (hc0 : ¬ covered g1.update_rect_0 (g1.screen_xpos + px) (g1.screen_ypos + py))
    (hc1 : ¬ covered g1.update_rect_1 (g1.screen_xpos + px) (g1.screen_ypos + py)) :
    (∃ i, i < 4 ∧ blit_dest (quad g1 i) px py) ∧
    (∃ j, j < 4 ∧ blit_dest (quad g j) (px - dx) (py - dy)) ∧
    (∀ i j, i < 4 → j < 4 → blit_dest (quad g1 i) px py →
      blit_dest (quad g j) (px - dx) (py - dy) →
      (quad g1 i).bitmap_data = (quad g j).bitmap_data ∧
      (quad g1 i).handle = (quad g j).handle ∧
      blit_src (quad g1 i) px py = blit_src (quad g j) (px - dx) (py - dy)) := by
  obtain ⟨i1, i2, i3, i4, i5, i6, -⟩ :=
    reachable_inv xsize ysize g (le_of_lt hx) (le_of_lt hy) h
  obtain ⟨e1, e2, p1, p2, p3, p4, -⟩ :=
    reachable_pan_image xsize ysize dx dy g (le_of_lt hx) (le_of_lt hy) h hdx0 hdx1 hdy0 hdy1
  have hb := reachable_blit xsize ysize g hx hy h
  have hb1 := reachable_blit xsize ysize _ hx hy (reachable.pan g dx dy h hdx0 hdx1 hdy0 hdy1)
  rw [← hg] at e1 e2 p1 p2 p3 p4 hb1
  subst i1; subst i2
  have hold : 0 ≤ px - dx ∧ px - dx < g.xsize ∧ 0 ≤ py - dy ∧ py - dy < g.ysize := by
    by_cases hz : dx ≠ 0 ∨ dy ≠ 0
    · rw [hg] at hc0 hc1
      exact pan_image_uncovered dx dy g px py hz hpx0 hpx1 hpy0 hpy1 hc0 hc1
    · have h0 : dx = 0 ∧ dy = 0 := by omega
      omega
  refine ⟨blit_rects_tiles g1 px py hb1 p1 (by omega) p3 (by omega) (by omega),
    blit_rects_tiles g (px - dx) (py - dy) hb i3 i4 i5 i6 hold, ?_⟩
  have hq : ∀ j, j < 4 → _ := fun j hj =>
    blit_rects_quad g (px - dx) (py - dy) i3 i4 i5 i6 j hj
  have hq1 : ∀ i, i < 4 → _ := fun i hi =>
    blit_rects_quad g1 px py p1 (by omega) p3 (by omega) i hi
  rw [hb] at hq
  rw [hb1, e1, e2] at hq1
  intro i j hi hj hdi hdj
  have a1 := ((hq1 i hi).1).1 hdi
  have a2 := (hq1 i hi).2.1 hdi
  have b1 := ((hq j hj).1).1 hdj
  have b2 := (hq j hj).2.1 hdj
  rw [a2, b2]
  clear hq hq1 hb hb1 a2 b2 hc0 hc1 hdi hdj
  by_cases hz : dx ≠ 0 ∨ dy ≠ 0
  · obtain ⟨-, -, -, -, f5, f6, -, -⟩ := pan_image_fields dx dy g hz
    obtain ⟨r1, r2, -, -⟩ := renormalize_spec (g.screen_xpos - dx) g.xsize
      (by omega) (by omega)
    obtain ⟨s1, s2, -, -⟩ := renormalize_spec (g.screen_ypos - dy) g.ysize
      (by omega) (by omega)
    obtain ⟨k1, k2⟩ := pan_image_quad_buffers dx dy g hz i hi
    rw [← hg] at f5 f6 k1 k2
    rw [f5, r1, f6, s1] at a1
    obtain ⟨x1, x2⟩ := axis_reposition g.xsize g.screen_xpos dx px (i % 2) (j % 2)
      (Nat.mod_lt _ (by norm_num)) (Nat.mod_lt _ (by norm_num)) i3 i4 hdx0 a1.1 b1.1
    obtain ⟨y1, y2⟩ := axis_reposition g.ysize g.screen_ypos dy py (i / 2) (j / 2)
      (by omega) (by omega) i5 i6 hdy0 a1.2 b1.2
    have hj2 := quad_index_bits i j hi hj _ _ x1 y1
    simp only [← r2, ← s2] at hj2
    rw [k1, k2, f5, f6, r1, s1, ← hj2, x2, y2]
    exact ⟨rfl, rfl, rfl⟩
  · have h0 : dx = 0 ∧ dy = 0 := by omega
    have hgg : g1 = g := by rw [hg]; simp only [pan_image, if_neg hz]
    obtain ⟨hd0, hd1⟩ := h0
    subst hd0; subst hd1; subst hgg
    simp only [sub_zero] at b1
    have hij : i = j := by
      interval_cases i <;> interval_cases j <;> norm_num at a1 b1 ⊢ <;> omega
    subst hij
    simp

/-- Witness for C14: the pan by (2, 3) of the reset 5 by 5 image, at the screen pixel (3, 4),
which shows what the screen pixel (1, 1) showed before the pan. -/
theorem pan_image_cached_pixels_witness :
    (∃ i, i < 4 ∧ blit_dest (quad (pan_image 2 3 example_pan) i) 3 4) ∧
    (∃ j, j < 4 ∧ blit_dest (quad example_pan j) (3 - 2) (4 - 3)) ∧
    (∀ i j, i < 4 → j < 4 → blit_dest (quad (pan_image 2 3 example_pan) i) 3 4 →
      blit_dest (quad example_pan j) (3 - 2) (4 - 3) →
      (quad (pan_image 2 3 example_pan) i).bitmap_data = (quad example_pan j).bitmap_data ∧
      (quad (pan_image 2 3 example_pan) i).handle = (quad example_pan j).handle ∧
      blit_src (quad (pan_image 2 3 example_pan) i) 3 4 =
        blit_src (quad example_pan j) (3 - 2) (4 - 3)) :=
  pan_image_cached_pixels 5 5 2 3 example_pan (pan_image 2 3 example_pan) 3 4
    (by decide) (by decide) (reachable.reset _ rfl rfl) (by decide) (by decide) (by decide)
    (by decide) rfl (by decide) (by decide) (by decide) (by decide)
    (by unfold covered in_rect; decide) (by unfold covered in_rect; decide)

theorem iterate_c_loop_spec (a b : ℚ) (cap : Nat) (hcap : cap < 4294967296) :
    ∀ (fuel k : Nat), k < cap → cap - k ≤ fuel →
      (∀ j, 1 ≤ j → j ≤ k → mag2 (mandel_z a b j) < 16) →
      ∃ n, k < n ∧ n ≤ cap ∧
        iterate_c_loop a b fuel (mandel_z a b k).1 (mandel_z a b k).2
          ((mandel_z a b k).1 * (mandel_z a b k).1) ((mandel_z a b k).2 * (mandel_z a b k).2)
          k (cap - k) =
          some ((mandel_z a b n).1 * (mandel_z a b n).1,
                (mandel_z a b n).2 * (mandel_z a b n).2, n) ∧
        (∀ j, 1 ≤ j → j < n → mag2 (mandel_z a b j) < 16) ∧
        (16 ≤ mag2 (mandel_z a b n) ∨ n = cap) := by
  intro fuel
  induction fuel with
  | zero => intro k hk hf; omega
  | succ fuel ih =>
    intro k hk hf hnd
    have e1 : (mandel_z a b k).1 * (mandel_z a b k).1 - (mandel_z a b k).2 * (mandel_z a b k).2
        + a = (mandel_z a b (k + 1)).1 := by simp [mandel_z]
    have e2 : ((mandel_z a b k).1 + (mandel_z a b k).1) * (mandel_z a b k).2 + b =
        (mandel_z a b (k + 1)).2 := by simp only [mandel_z]; ring
    have e3 : (k + 1) % 4294967296 = k + 1 := Nat.mod_eq_of_lt (by omega)
    have e4 : (cap - k + 4294967295) % 4294967296 = cap - (k + 1) := by omega
    simp only [iterate_c_loop, e1, e2, e3, e4, DIVERGED_THRESH]
    by_cases hd : 16 ≤ mag2 (mandel_z a b (k + 1))
    · refine ⟨k + 1, by omega, by omega, ?_, ?_, Or.inl hd⟩
      · have hd2 : (mandel_z a b (k + 1)).1 * (mandel_z a b (k + 1)).1 +
            (mandel_z a b (k + 1)).2 * (mandel_z a b (k + 1)).2 ≥ 16 := hd
        rw [if_pos hd2]
      · intro j h1 h2; exact hnd j h1 (by omega)
    · have hd2 : ¬ ((mandel_z a b (k + 1)).1 * (mandel_z a b (k + 1)).1 +
          (mandel_z a b (k + 1)).2 * (mandel_z a b (k + 1)).2 ≥ 16) := hd
      rw [if_neg hd2]
      have hnd2 : ∀ j, 1 ≤ j → j ≤ k + 1 → mag2 (mandel_z a b j) < 16 := by
        intro j h1 h2
        rcases Nat.lt_or_ge j (k + 1) with h | h
        · exact hnd j h1 (by omega)
        · have : j = k + 1 := by omega
          rw [this]; exact lt_of_not_le hd
      by_cases hz : cap - (k + 1) = 0
      · rw [if_neg (by simpa using hz)]
        refine ⟨k + 1, by omega, by omega, rfl, ?_, Or.inr (by omega)⟩
        intro j h1 h2; exact hnd j h1 (by omega)
      · rw [if_pos hz]
        obtain ⟨n, n1, n2, n3, n4, n5⟩ := ih (k + 1) (by omega) (by omega) hnd2
        exact ⟨n, by omega, n2, n3, n4, n5⟩

theorem iterate_c_eq (ps : man_pointstruct) (h1 : 1 ≤ ps.cur_max_iters)
    (h2 : ps.cur_max_iters < 4294967296) :
    ∃ n, iterate_c ps = some ({ ps with mag := Function.update ps.mag 0 (orbit_mag ps n) }, n) ∧
      1 ≤ n ∧ n ≤ ps.cur_max_iters ∧
      (∀ j, 1 ≤ j → j < n → orbit_mag ps j < 16) ∧
      (16 ≤ orbit_mag ps n ∨ n = ps.cur_max_iters) := by
  obtain ⟨n, n1, n2, n3, n4, n5⟩ := iterate_c_loop_spec ps.ab_in.1 ps.ab_in.2
    ps.cur_max_iters h2 4294967296 0 (by omega) (by omega) (by intro j h1 h2; omega)
  refine ⟨n, ?_, by omega, n2, n4, n5⟩
  simp only [mandel_z, mul_zero, Nat.sub_zero] at n3
  unfold iterate_c
  rw [n3]
  rfl

/-- C16.  In exact (rational) arithmetic, for every point `c = ab_in` and every budget
`cur_max_iters = cap` with `1 ≤ cap` (an `unsigned` value, so `cap < 2^32`), `iterate_c`
returns: its result `n` satisfies `1 ≤ n ≤ cap`, no `z_j` with `1 ≤ j < n` has
`|z_j|² ≥ 16`, and either `|z_n|² ≥ 16` (so `n` is the least such index) or `n = cap` and no
`z_j` with `1 ≤ j ≤ cap` has `|z_j|² ≥ 16`; the magnitude stored in `mag[0]` is `|z_n|²` and
nothing else in the point structure changes. -/
theorem iterate_c_least_diverged (ps : man_pointstruct) (h1 : 1 ≤ ps.cur_max_iters)
    (h2 : ps.cur_max_iters < 4294967296) :
    ∃ n, iterate_c ps = some ({ ps with mag := Function.update ps.mag 0 (orbit_mag ps n) }, n) ∧
      1 ≤ n ∧ n ≤ ps.cur_max_iters ∧
      (∀ j, 1 ≤ j → j < n → orbit_mag ps j < 16) ∧
      (16 ≤ orbit_mag ps n ∨
        (n = ps.cur_max_iters ∧ ∀ j, 1 ≤ j → j ≤ ps.cur_max_iters → orbit_mag ps j < 16)) := by
  obtain ⟨n, n1, n2, n3, n4, n5⟩ := iterate_c_eq ps h1 h2
  refine ⟨n, n1, n2, n3, n4, ?_⟩
  by_cases hd : 16 ≤ orbit_mag ps n
  · exact Or.inl hd
  · rcases n5 with h | h
    · exact absurd h hd
    · refine Or.inr ⟨h, ?_⟩
      intro j j1 j2
      rcases Nat.lt_or_ge j n with c | c
      · exact n4 j j1 c
      · have : j = n := by omega
        rw [this]; exact lt_of_not_le hd

/-- Witness for C16: the point `c = 1` with budget 5 (`z_1 = 1`, `z_2 = 2`, `z_3 = 5`). -/
theorem iterate_c_least_diverged_witness :
    ∃ n, iterate_c (example_ps 1 0 5) =
        some ({ example_ps 1 0 5 with
          mag := Function.update (example_ps 1 0 5).mag 0 (orbit_mag (example_ps 1 0 5) n) }, n) ∧
      1 ≤ n ∧ n ≤ (example_ps 1 0 5).cur_max_iters ∧
      (∀ j, 1 ≤ j → j < n → orbit_mag (example_ps 1 0 5) j < 16) ∧
      (16 ≤ orbit_mag (example_ps 1 0 5) n ∨
        (n = (example_ps 1 0 5).cur_max_iters ∧
          ∀ j, 1 ≤ j → j ≤ (example_ps 1 0 5).cur_max_iters →
            orbit_mag (example_ps 1 0 5) j < 16)) :=
  iterate_c_least_diverged (example_ps 1 0 5) (by decide) (by decide)

theorem land_clear_bit0 (n : Nat) (h : n < 4294967296) : n &&& 4294967294 = n - n % 2 := by
  have e : (4294967294 : Nat) = 2 * 2147483647 := by norm_num
  have hn : n = 2 * (n / 2) + n % 2 := (Nat.div_add_mod n 2).symm
  have h2 : n / 2 &&& 2147483647 = n / 2 := by
    have := @Nat.and_pow_two_sub_one_of_lt_two_pow 31 (n / 2) (by omega)
    simpa using this
  apply Nat.eq_of_testBit_eq
  intro i
  rw [Nat.testBit_and]
  cases i with
  | zero =>
    have : (n - n % 2) % 2 = 0 := by omega
    simp [Nat.testBit_zero, this]
  | succ i =>
    have a1 : (4294967294 : Nat).testBit (i + 1) = (2147483647 : Nat).testBit i := by
      rw [e, Nat.testBit_succ]
    have a2 : n.testBit (i + 1) = (n / 2).testBit i := by rw [Nat.testBit_succ]
    have a3 : (n - n % 2).testBit (i + 1) = (n / 2).testBit i := by
      rw [Nat.testBit_succ]
      congr 1
      omega
    rw [a1, a2, a3, ← Nat.testBit_and, h2]

/-- C20.  For every iteration cap (an `unsigned` value), `man_setup` replaces `max_iters` by
the largest even number not exceeding it and leaves an even cap unchanged, and the budget
`cur_max_iters` of the point structure of every thread `i < num_threads` is initialised to
that even value. -/
theorem man_setup_even_cap (max_iters alg : Nat) (sse_support precision : Int)
    (uninit num_threads : Nat) (ps : Nat → man_pointstruct) (h : max_iters < 4294967296) :
    (man_setup max_iters alg sse_support precision uninit num_threads ps).1 % 2 = 0 ∧
    (man_setup max_iters alg sse_support precision uninit num_threads ps).1 ≤ max_iters ∧
    max_iters < (man_setup max_iters alg sse_support precision uninit num_threads ps).1 + 2 ∧
    (max_iters % 2 = 0 →
      (man_setup max_iters alg sse_support precision uninit num_threads ps).1 = max_iters) ∧
    (∀ i, i < num_threads →
      ((man_setup max_iters alg sse_support precision uninit num_threads ps).2 i).cur_max_iters
        = (man_setup max_iters alg sse_support precision uninit num_threads ps).1) := by
  have e := land_clear_bit0 max_iters h
  refine ⟨?_, ?_, ?_, ?_, ?_⟩
  · simp only [man_setup, e]; omega
  · simp only [man_setup, e]; omega
  · simp only [man_setup, e]; omega
  · intro h2; simp only [man_setup, e]; omega
  · intro i hi
    simp only [man_setup, if_pos hi]

/-- Witness for C20: the cap 1001 becomes 1000 in a setup for two threads. -/
theorem man_setup_even_cap_witness :
    (man_setup 1001 0 2 2 0 2 (fun _ => example_ps 0 0 0)).1 % 2 = 0 ∧
    (man_setup 1001 0 2 2 0 2 (fun _ => example_ps 0 0 0)).1 ≤ 1001 ∧
    1001 < (man_setup 1001 0 2 2 0 2 (fun _ => example_ps 0 0 0)).1 + 2 ∧
    (1001 % 2 = 0 → (man_setup 1001 0 2 2 0 2 (fun _ => example_ps 0 0 0)).1 = 1001) ∧
    (∀ i, i < 2 →
      ((man_setup 1001 0 2 2 0 2 (fun _ => example_ps 0 0 0)).2 i).cur_max_iters
        = (man_setup 1001 0 2 2 0 2 (fun _ => example_ps 0 0 0)).1) :=
  man_setup_even_cap 1001 0 2 2 0 2 (fun _ => example_ps 0 0 0) (by decide)

theorem free_code_ge (fs : List Nat) : 15 ≤ free_code fs := by
  induction fs with
  | nil => simp [free_code, QUEUE_FULL]
  | cons i fs ih => simp only [free_code]; omega

theorem free_code_eq_full (fs : List Nat) : free_code fs = QUEUE_FULL ↔ fs = [] := by
  cases fs with
  | nil => simp [free_code]
  | cons i fs =>
    have := free_code_ge fs
    simp only [free_code, QUEUE_FULL]
    constructor
    · intro h; omega
    · intro h; cases h

theorem free_code_lt (fs : List Nat) (h : ∀ i ∈ fs, i < 8) :
    free_code fs < 16 * 8 ^ fs.length := by
  induction fs with
  | nil => simp [free_code, QUEUE_FULL]
  | cons i fs ih =>
    have h1 := ih (fun j hj => h j (List.mem_cons_of_mem _ hj))
    have h2 := h i (List.mem_cons_self _ _)
    simp only [free_code, List.length_cons, pow_succ]
    omega

theorem free_code_lt_of_length (fs : List Nat) (h : ∀ i ∈ fs, i < 8) (hl : fs.length ≤ 9) :
    free_code fs < 4294967296 := by
  have h1 := free_code_lt fs h
  have h2 : 8 ^ fs.length ≤ 8 ^ 9 := Nat.pow_le_pow_right (by norm_num) hl
  have h3 : (8 : Nat) ^ 9 = 134217728 := by norm_num
  omega

theorem nodup_length_le (fs : List Nat) (n : Nat) (hn : fs.Nodup) (h : ∀ i ∈ fs, i < n) :
    fs.length ≤ n := by
  have h1 : fs.toFinset ⊆ Finset.range n := by
    intro i hi
    rw [List.mem_toFinset] at hi
    exact Finset.mem_range.mpr (h i hi)
  have h2 := Finset.card_le_card h1
  rw [List.toFinset_card_of_nodup hn, Finset.card_range] at h2
  exact h2

theorem free_code_pop (fs : List Nat) (i : Nat) (hi : i < 8) :
    free_code (i :: fs) >>> 3 = free_code fs ∧
    free_code (i :: fs) &&& 7 = i ∧ (i < 4 → free_code (i :: fs) &&& 3 = i) := by
  have e7 : ∀ x : Nat, x &&& 7 = x % 8 := fun x => Nat.and_pow_two_sub_one_eq_mod x 3
  have e3 : ∀ x : Nat, x &&& 3 = x % 4 := fun x => Nat.and_pow_two_sub_one_eq_mod x 2
  simp only [free_code, Nat.shiftRight_eq_div_pow, e7, e3]
  refine ⟨by omega, by omega, fun h => by omega⟩

theorem queue_init_code :
    queue_init PRECISION_DOUBLE = free_code [0, 1, 2, 3] ∧
    queue_init PRECISION_SINGLE = free_code [0, 1, 2, 3, 4, 5, 6, 7] := by
  decide

theorem retire_list_mem (max_iters : Nat) (ps : man_pointstruct) (l : List Nat) :
    ∀ (max j : Nat), j ∈ (retire_list max_iters ps l max).1 →
      j ∈ l ∧ (DIVERGED ps j ∨ (¬ DIVERGED ps j ∧ ps.iters j = max_iters)) := by
  induction l with
  | nil => intro max j h; simp [retire_list] at h
  | cons i l ih =>
    intro max j h
    simp only [retire_list] at h
    split_ifs at h with h1 h2 h3
    · rw [List.mem_append, List.mem_singleton] at h
      rcases h with h | h
      · exact ⟨List.mem_cons_of_mem _ (ih max j h).1, (ih max j h).2⟩
      · subst h; exact ⟨List.mem_cons_self _ _, Or.inl h1⟩
    · rw [List.mem_append, List.mem_singleton] at h
      rcases h with h | h
      · exact ⟨List.mem_cons_of_mem _ (ih max j h).1, (ih max j h).2⟩
      · subst h; exact ⟨List.mem_cons_self _ _, Or.inr ⟨h1, h3⟩⟩
    · exact ⟨List.mem_cons_of_mem _ (ih _ j h).1, (ih _ j h).2⟩
    · exact ⟨List.mem_cons_of_mem _ (ih _ j h).1, (ih _ j h).2⟩

theorem retire_list_nodup (max_iters : Nat) (ps : man_pointstruct) (l : List Nat)
    (hl : l.Nodup) : ∀ max : Nat, (retire_list max_iters ps l max).1.Nodup := by
  induction l with
  | nil => intro max; simp [retire_list]
  | cons i l ih =>
    intro max
    rw [List.nodup_cons] at hl
    have hi : ∀ m, i ∉ (retire_list max_iters ps l m).1 :=
      fun m h => hl.1 (retire_list_mem max_iters ps l m i h).1
    have hc : ∀ m, ((retire_list max_iters ps l m).1 ++ [i]).Nodup := by
      intro m
      rw [List.nodup_append]
      refine ⟨ih hl.2 m, List.nodup_singleton i, ?_⟩
      intro a ha hb
      rw [List.mem_singleton] at hb
      subst hb
      exact hi m ha
    simp only [retire_list]
    split_ifs
    · exact hc max
    · exact hc max
    · exact ih hl.2 _
    · exact ih hl.2 _

theorem retire_list_diverged (max_iters : Nat) (ps : man_pointstruct) (l : List Nat) :
    ∀ (max j : Nat), j ∈ l → DIVERGED ps j → j ∈ (retire_list max_iters ps l max).1 := by
  induction l with
  | nil => intro max j h; simp at h
  | cons i l ih =>
    intro max j h hd
    rw [List.mem_cons] at h
    simp only [retire_list]
    rcases h with h | h
    · subst h
      rw [if_pos hd]
      simp
    · split_ifs
      · exact List.mem_append_left _ (ih max j h hd)
      · exact List.mem_append_left _ (ih max j h hd)
      · exact ih _ j h hd
      · exact ih _ j h hd

/-- With all counts at most `max_iters`: every slot at `max_iters` is retired, the final
maximum bounds the counts of the slots that stay, is below `max_iters`, and is the start value
or the count of a slot that stays. -/
theorem retire_list_max (max_iters : Nat) (ps : man_pointstruct) (l : List Nat)
    (hl : l.Nodup) (hb : ∀ j ∈ l, ps.iters j ≤ max_iters) :
    ∀ (max : Nat), max < max_iters →
      (∀ j ∈ l, ps.iters j = max_iters → j ∈ (retire_list max_iters ps l max).1) ∧
      max ≤ (retire_list max_iters ps l max).2 ∧
      (retire_list max_iters ps l max).2 < max_iters ∧
      (∀ j ∈ l, j ∉ (retire_list max_iters ps l max).1 →
        ps.iters j ≤ (retire_list max_iters ps l max).2) ∧
      ((retire_list max_iters ps l max).2 = max ∨
        ∃ j ∈ l, j ∉ (retire_list max_iters ps l max).1 ∧
          ps.iters j = (retire_list max_iters ps l max).2) := by
  induction l with
  | nil => intro max hm; simp [retire_list, hm]
  | cons i l ih =>
    intro max hm
    rw [List.nodup_cons] at hl
    have hb2 : ∀ j ∈ l, ps.iters j ≤ max_iters := fun j hj => hb j (List.mem_cons_of_mem _ hj)
    have hbi := hb i (List.mem_cons_self _ _)
    have hi : ∀ m, i ∉ (retire_list max_iters ps l m).1 :=
      fun m h => hl.1 (retire_list_mem max_iters ps l m i h).1
    have hpush : ∀ m,
        ((∀ j ∈ l, ps.iters j = max_iters → j ∈ (retire_list max_iters ps l m).1) ∧
        m ≤ (retire_list max_iters ps l m).2 ∧
        (retire_list max_iters ps l m).2 < max_iters ∧
        (∀ j ∈ l, j ∉ (retire_list max_iters ps l m).1 →
          ps.iters j ≤ (retire_list max_iters ps l m).2) ∧
        ((retire_list max_iters ps l m).2 = m ∨
          ∃ j ∈ l, j ∉ (retire_list max_iters ps l m).1 ∧
            ps.iters j = (retire_list max_iters ps l m).2)) →
        (∀ j ∈ i :: l, ps.iters j = max_iters → j ∈ (retire_list max_iters ps l m).1 ++ [i]) ∧
        m ≤ (retire_list max_iters ps l m).2 ∧
        (retire_list max_iters ps l m).2 < max_iters ∧
        (∀ j ∈ i :: l, j ∉ (retire_list max_iters ps l m).1 ++ [i] →
          ps.iters j ≤ (retire_list max_iters ps l m).2) ∧
        ((retire_list max_iters ps l m).2 = m ∨
          ∃ j ∈ i :: l, j ∉ (retire_list max_iters ps l m).1 ++ [i] ∧
            ps.iters j = (retire_list max_iters ps l m).2) := by
      intro m ⟨a1, a2, a3, a4, a5⟩
      refine ⟨?_, a2, a3, ?_, ?_⟩
      · intro j hj hc
        rcases List.mem_cons.mp hj with h | h
        · subst h; simp
        · exact List.mem_append_left _ (a1 j h hc)
      · intro j hj hn
        rcases List.mem_cons.mp hj with h | h
        · subst h; simp at hn
        · exact a4 j h (fun hh => hn (List.mem_append_left _ hh))
      · rcases a5 with h | ⟨j, j1, j2, j3⟩
        · exact Or.inl h
        · refine Or.inr ⟨j, List.mem_cons_of_mem _ j1, ?_, j3⟩
          intro hh
          rcases List.mem_append.mp hh with h | h
          · exact j2 h
          · rw [List.mem_singleton] at h
            subst h
            exact hl.1 j1
    simp only [retire_list]
    split_ifs with h1 h2 h3
    · exact hpush max (ih hl.2 hb2 max hm)
    · exact hpush max (ih hl.2 hb2 max hm)
    · have hlt : ps.iters i < max_iters := by omega
      obtain ⟨a1, a2, a3, a4, a5⟩ := ih hl.2 hb2 (ps.iters i) hlt
      refine ⟨?_, by omega, a3, ?_, ?_⟩
      · intro j hj hc
        rcases List.mem_cons.mp hj with h | h
        · subst h; exact absurd hc h3
        · exact a1 j h hc
      · intro j hj hn
        rcases List.mem_cons.mp hj with h | h
        · subst h; exact a2
        · exact a4 j h hn
      · rcases a5 with h | ⟨j, j1, j2, j3⟩
        · exact Or.inr ⟨i, List.mem_cons_self _ _, hi _, h.symm⟩
        · exact Or.inr ⟨j, List.mem_cons_of_mem _ j1, j2, j3⟩
    · obtain ⟨a1, a2, a3, a4, a5⟩ := ih hl.2 hb2 max hm
      refine ⟨?_, a2, a3, ?_, ?_⟩
      · intro j hj hc
        rcases List.mem_cons.mp hj with h | h
        · subst h; omega
        · exact a1 j h hc
      · intro j hj hn
        rcases List.mem_cons.mp hj with h | h
        · subst h; omega
        · exact a4 j h hn
      · rcases a5 with h | ⟨j, j1, j2, j3⟩
        · exact Or.inl h
        · exact Or.inr ⟨j, List.mem_cons_of_mem _ j1, j2, j3⟩

theorem retire_fold (max_iters : Nat) (ps : man_pointstruct) (l : List Nat) :
    ∀ (max : Nat) (fs : List Nat) (mem : List mem_write),
      (∀ i ∈ l, i < 8) → (∀ i ∈ fs, i < 8) → l.length + fs.length ≤ 9 →
      l.foldl (retire_lane max_iters ps) (max, free_code fs, mem) =
        ((retire_list max_iters ps l max).2,
         free_code ((retire_list max_iters ps l max).1 ++ fs),
         ((retire_list max_iters ps l max).1.map (lane_writes ps)).flatten ++ mem) := by
  induction l with
  | nil => intro max fs mem _ _ _; simp [retire_list]
  | cons i l ih =>
    intro max fs mem h1 h2 h3
    have hi : i < 8 := h1 i (List.mem_cons_self _ _)
    have hl : ∀ j ∈ l, j < 8 := fun j hj => h1 j (List.mem_cons_of_mem _ hj)
    have hfs : ∀ j ∈ i :: fs, j < 8 := by
      intro j hj
      rcases List.mem_cons.mp hj with h | h
      · subst h; exact hi
      · exact h2 j h
    have hlen : l.length + (i :: fs).length ≤ 9 := by
      simp only [List.length_cons] at h3 ⊢; omega
    have hcode : (free_code fs * 8 + i) % 4294967296 = free_code (i :: fs) := by
      have := free_code_lt_of_length (i :: fs) hfs (by
        simp only [List.length_cons] at h3 ⊢; omega)
      simp only [free_code] at this ⊢
      exact Nat.mod_eq_of_lt this
    simp only [List.foldl_cons, retire_list]
    by_cases c1 : DIVERGED ps i
    · by_cases c2 : DIVERGED_PREV ps i
      · simp only [retire_lane, if_pos c1, if_pos c2, hcode]
        rw [ih max (i :: fs) _ hl hfs hlen]
        simp [lane_writes, c1, c2]
      · simp only [retire_lane, if_pos c1, if_neg c2, hcode]
        rw [ih max (i :: fs) _ hl hfs hlen]
        simp [lane_writes, c1, c2]
    · by_cases c3 : ps.iters i ≥ max
      · by_cases c4 : ps.iters i = max_iters
        · simp only [retire_lane, if_neg c1, if_pos c3, if_pos c4, hcode]
          rw [ih max (i :: fs) _ hl hfs hlen]
          simp [lane_writes, c1]
        · simp only [retire_lane, if_neg c1, if_pos c3, if_neg c4]
          rw [ih (ps.iters i) fs mem hl h2 (by
            simp only [List.length_cons] at h3; omega)]
      · simp only [retire_lane, if_neg c1, if_neg c3]
        rw [ih max fs mem hl h2 (by simp only [List.length_cons] at h3; omega)]

theorem retire_list_capped (max_iters : Nat) (ps : man_pointstruct) (l : List Nat)
    (hb : ∀ j ∈ l, ps.iters j ≤ max_iters) :
    ∀ (max : Nat), max ≤ max_iters →
      ∀ j ∈ l, ps.iters j = max_iters → j ∈ (retire_list max_iters ps l max).1 := by
  induction l with
  | nil => intro max _ j hj; simp at hj
  | cons i l ih =>
    intro max hm j hj hc
    have hb2 : ∀ j ∈ l, ps.iters j ≤ max_iters := fun j hj => hb j (List.mem_cons_of_mem _ hj)
    have hbi := hb i (List.mem_cons_self _ _)
    simp only [retire_list]
    rcases List.mem_cons.mp hj with h | h
    · subst h
      by_cases c1 : DIVERGED ps j
      · rw [if_pos c1]; simp
      · have c3 : ps.iters j ≥ max := by omega
        rw [if_neg c1, if_pos c3, if_pos hc]; simp
    · split_ifs
      · exact List.mem_append_left _ (ih hb2 max hm j h hc)
      · exact List.mem_append_left _ (ih hb2 max hm j h hc)
      · exact ih hb2 _ hbi j h hc
      · exact ih hb2 max hm j h hc

theorem queue_point_free (nlanes mask cap : Nat)
    (K : man_pointstruct → Option (man_pointstruct × Nat)) (ps : man_pointstruct)
    (ptr : Int) (mem : List mem_write) (i : Nat) (fs : List Nat)
    (hc : (nlanes = 4 ∧ mask = 3) ∨ (nlanes = 8 ∧ mask = 7))
    (hq : ps.queue_status = free_code (i :: fs)) (hi : i < nlanes) :
    queue_point_sse nlanes mask cap K ps ptr mem =
      some (init_point { ps with queue_status := free_code fs } i ptr, mem) := by
  have hne : ¬ (free_code (i :: fs) = QUEUE_FULL) := by
    rw [free_code_eq_full]; simp
  have hi8 : i < 8 := by omega
  obtain ⟨p1, p2, p3⟩ := free_code_pop fs i hi8
  have hm : free_code (i :: fs) &&& mask = i := by
    rcases hc with ⟨h1, h2⟩ | ⟨h1, h2⟩
    · rw [h2]; exact p3 (by omega)
    · rw [h2]; exact p2
  simp only [queue_point_sse, hq, if_neg hne, Option.map_some', hm, p1]

theorem queue_point_full (nlanes mask cap : Nat)
    (K : man_pointstruct → Option (man_pointstruct × Nat)) (ps ps1 : man_pointstruct)
    (e : Nat) (ptr : Int) (mem : List mem_write) (i : Nat) (fs : List Nat)
    (hc : (nlanes = 4 ∧ mask = 3) ∨ (nlanes = 8 ∧ mask = 7))
    (hq : ps.queue_status = free_code []) (hk : K ps = some (ps1, e))
    (hr : (retire_list cap ps1 (List.range nlanes) 0).1 = i :: fs) :
    i < nlanes ∧
    queue_point_sse nlanes mask cap K ps ptr mem =
      some (init_point { ps1 with
          cur_max_iters := (cap + 4294967296 -
            (retire_list cap ps1 (List.range nlanes) 0).2) % 4294967296,
          queue_status := free_code fs } i ptr,
        ((i :: fs).map (lane_writes ps1)).flatten ++ mem) := by
  have hL : nlanes ≤ 8 := by omega
  have hi : i < nlanes := by
    have := (retire_list_mem cap ps1 (List.range nlanes) 0 i (by rw [hr]; simp)).1
    exact List.mem_range.mp this
  have hi8 : i < 8 := by omega
  obtain ⟨p1, p2, p3⟩ := free_code_pop fs i hi8
  have hm : free_code (i :: fs) &&& mask = i := by
    rcases hc with ⟨h1, h2⟩ | ⟨h1, h2⟩
    · rw [h2]; exact p3 (by omega)
    · rw [h2]; exact p2
  have hf := retire_fold cap ps1 (List.range nlanes) 0 [] mem
    (fun j hj => by have := List.mem_range.mp hj; omega) (by simp)
    (by simp only [List.length_range, List.length_nil]; omega)
  rw [hr] at hf
  simp only [List.append_nil] at hf
  have hq2 : free_code [] = QUEUE_FULL := rfl
  refine ⟨hi, ?_⟩
  simp only [queue_point_sse, hq, if_pos hq2, hk, Option.map_some', hf, hm, p1]

theorem queue_point_full_some (nlanes mask cap : Nat)
    (K : man_pointstruct → Option (man_pointstruct × Nat)) (ps : man_pointstruct)
    (ptr : Int) (mem : List mem_write) (r : man_pointstruct × List mem_write)
    (hq : ps.queue_status = free_code [])
    (hr : queue_point_sse nlanes mask cap K ps ptr mem = some r) : ∃ k, K ps = some k := by
  have hfull : free_code [] = QUEUE_FULL := rfl
  cases hk : K ps with
  | none =>
    simp only [queue_point_sse, hq, if_pos hfull, hk, Option.map_none'] at hr
    cases hr
  | some k => exact ⟨k, rfl⟩

theorem perm_filter_split (l R fs : List Nat) (hl : l.Nodup) (hR : R.Nodup)
    (hRl : ∀ i ∈ R, i ∈ l) (hd : ∀ i ∈ R, i ∉ fs) :
    (l.filter (fun i => i ∉ fs)).Perm (R ++ l.filter (fun i => i ∉ R ++ fs)) := by
  have h2 : (R ++ l.filter (fun i => i ∉ R ++ fs)).Nodup := by
    rw [List.nodup_append]
    refine ⟨hR, hl.filter _, ?_⟩
    intro a ha hb
    rw [List.mem_filter] at hb
    simp only [List.mem_append, not_or, decide_eq_true_eq] at hb
    exact hb.2.1 ha
  rw [List.perm_ext_iff_of_nodup (hl.filter _) h2]
  intro a
  simp only [List.mem_filter, List.mem_append, not_or, decide_eq_true_eq]
  constructor
  · rintro ⟨h3, h4⟩
    by_cases c : a ∈ R
    · exact Or.inl c
    · exact Or.inr ⟨h3, c, h4⟩
  · rintro (h | ⟨h3, -, h4⟩)
    · exact ⟨hRl a h, hd a h⟩
    · exact ⟨h3, h4⟩

theorem stored_slots_append (w mem : List mem_write) :
    stored_slots (w ++ mem) = stored_slots w ++ stored_slots mem := by
  simp [stored_slots, List.filterMap_append]

theorem stored_slots_lane_writes (ps : man_pointstruct) (R : List Nat) :
    stored_slots ((R.map (lane_writes ps)).flatten) = R.map ps.iters_ptr := by
  induction R with
  | nil => simp [stored_slots]
  | cons i R ih =>
    simp only [List.map_cons, List.flatten_cons, stored_slots_append, ih]
    unfold lane_writes
    split_ifs <;> simp [stored_slots]

theorem in_flight_pop (nlanes : Nat) (fs : List Nat) (i : Nat) (ptr : Int)
    (f g : Nat → Int) (hg : ∀ j, j ≠ i → g j = f j) (hgi : g i = ptr)
    (hn : (i :: fs).Nodup) (hi : i < nlanes) :
    (((List.range nlanes).filter (fun j => j ∉ fs)).map g).Perm
      (ptr :: ((List.range nlanes).filter (fun j => j ∉ i :: fs)).map f) := by
  have h1 := perm_filter_split (List.range nlanes) [i] fs (List.nodup_range nlanes)
    (List.nodup_singleton i)
    (by intro j hj; rw [List.mem_singleton] at hj; subst hj; exact List.mem_range.mpr hi)
    (by intro j hj; rw [List.mem_singleton] at hj; subst hj; exact (List.nodup_cons.mp hn).1)
  have h2 := h1.map g
  simp only [List.singleton_append, List.map_cons, hgi] at h2
  refine h2.trans ?_
  refine List.Perm.cons _ ?_
  have h3 : ((List.range nlanes).filter (fun j => j ∉ i :: fs)).map g =
      ((List.range nlanes).filter (fun j => j ∉ i :: fs)).map f := by
    apply List.map_congr_left
    intro j hj
    rw [List.mem_filter] at hj
    have : j ≠ i := by
      intro h; subst h
      simp at hj
    exact hg j this
  rw [h3]

theorem queue_inv_init (nlanes : Nat) (ps : man_pointstruct)
    (h : ps.queue_status = free_code (List.range nlanes)) : queue_inv nlanes [] ps [] := by
  refine ⟨List.range nlanes, h, List.nodup_range _, fun i hi => List.mem_range.mp hi, ?_, ?_⟩
  · have : (List.range nlanes).filter (fun i => i ∉ List.range nlanes) = [] := by
      rw [List.filter_eq_nil_iff]
      intro a ha
      simp [ha]
    simp [in_flight_slots, stored_slots, this]
  · intro p hp; simp at hp

theorem queue_inv_step (nlanes mask cap : Nat)
    (K : man_pointstruct → Option (man_pointstruct × Nat)) (ps : man_pointstruct)
    (a b : ℚ) (ptr : Int) (mem : List mem_write) (pts : List (ℚ × ℚ × Int))
    (hc : (nlanes = 4 ∧ mask = 3) ∨ (nlanes = 8 ∧ mask = 7))
    (hinv : queue_inv nlanes pts ps mem) (r : man_pointstruct × List mem_write)
    (hr : queue_point_sse nlanes mask cap (checked_kernel nlanes cap K)
      { ps with ab_in := (a, b) } ptr mem = some r) :
    queue_inv nlanes (pts ++ [(a, b, ptr)]) r.1 r.2 := by
  obtain ⟨fs, hq, hn, hlt, hperm, -⟩ := hinv
  have hpts : ((pts ++ [(a, b, ptr)]).map (fun p => p.2.2)).Perm
      (ptr :: pts.map (fun p => p.2.2)) := by
    rw [List.map_append]
    exact List.perm_append_comm
  have hlast : ∀ (q : man_pointstruct) (i : Nat), q.ab_in = (a, b) →
      ∀ p, (pts ++ [(a, b, ptr)]).getLast? = some p →
      (init_point q i ptr).a i = p.1 ∧ (init_point q i ptr).b i = p.2.1 ∧
      (init_point q i ptr).iters_ptr i = p.2.2 ∧ (init_point q i ptr).iters i = 0 := by
    intro q i hab p hp
    rw [List.getLast?_concat] at hp
    have hp2 := (Option.some.inj hp).symm
    subst hp2
    simp [init_point, hab]
  have hq1 : ({ ps with ab_in := (a, b) } : man_pointstruct).queue_status = free_code fs := hq
  have hp1 : ({ ps with ab_in := (a, b) } : man_pointstruct).iters_ptr = ps.iters_ptr := rfl
  have hab1 : ({ ps with ab_in := (a, b) } : man_pointstruct).ab_in = (a, b) := rfl
  simp only [in_flight_slots] at hperm
  rw [← hp1] at hperm
  generalize ({ ps with ab_in := (a, b) } : man_pointstruct) = ps1 at hr hq1 hab1 hperm
  clear hp1 hq
  cases fs with
  | cons i fs =>
    have hi : i < nlanes := hlt i (List.mem_cons_self _ _)
    have hstep := queue_point_free nlanes mask cap (checked_kernel nlanes cap K)
      ps1 ptr mem i fs hc hq1 hi
    rw [hstep] at hr
    have hr2 := (Option.some.inj hr).symm
    subst hr2
    refine ⟨fs, rfl, (List.nodup_cons.mp hn).2,
      fun j hj => hlt j (List.mem_cons_of_mem _ hj), ?_,
      fun p hp => ⟨i, hi, (List.nodup_cons.mp hn).1, hlast _ i hab1 p hp⟩⟩
    refine hpts.trans ?_
    have h1 := in_flight_pop nlanes fs i ptr ps1.iters_ptr
      (init_point { ps1 with queue_status := free_code fs } i ptr).iters_ptr
      (by intro j hj; simp [init_point, Function.update, hj])
      (by simp [init_point]) hn hi
    simp only [in_flight_slots]
    exact (List.Perm.cons ptr hperm).trans (List.Perm.append_right _ h1.symm)
  | nil =>
    obtain ⟨k, hck⟩ := queue_point_full_some nlanes mask cap (checked_kernel nlanes cap K)
      ps1 ptr mem r hq1 hr
    obtain ⟨r0, hk0, hif⟩ := Option.bind_eq_some.mp hck
    split_ifs at hif with hchk
    have hr0 := Option.some.inj hif
    subst hr0
    obtain ⟨hab0, hfr, hprog⟩ := hchk
    have hRne : (retire_list cap r0.1 (List.range nlanes) 0).1 ≠ [] := by
      intro h0
      rcases hprog with ⟨i, i1, i2⟩ | ⟨i, i1, i2, i3⟩
      · have := retire_list_diverged cap r0.1 (List.range nlanes) 0 i
          (List.mem_range.mpr i1) i2
        rw [h0] at this
        simp at this
      · have := retire_list_capped cap r0.1 (List.range nlanes)
          (fun j hj => by
            have := i3 j (List.mem_range.mp hj)
            omega) 0 (Nat.zero_le _) i (List.mem_range.mpr i1) i2
        rw [h0] at this
        simp at this
    obtain ⟨i, R, hR⟩ := List.exists_cons_of_ne_nil hRne
    have hRn := retire_list_nodup cap r0.1 (List.range nlanes) (List.nodup_range _) 0
    have hRm := retire_list_mem cap r0.1 (List.range nlanes) 0
    rw [hR] at hRn hRm
    obtain ⟨hi, hstep⟩ := queue_point_full nlanes mask cap (checked_kernel nlanes cap K)
      ps1 r0.1 r0.2 ptr mem i R hc hq1 hck hR
    rw [hstep] at hr
    have hr2 := (Option.some.inj hr).symm
    subst hr2
    refine ⟨R, rfl, (List.nodup_cons.mp hRn).2,
      fun j hj => List.mem_range.mp (hRm j (List.mem_cons_of_mem _ hj)).1, ?_, ?_⟩
    · refine hpts.trans ?_
      have h1 := in_flight_pop nlanes R i ptr r0.1.iters_ptr
        (init_point { r0.1 with
          cur_max_iters := (cap + 4294967296 -
            (retire_list cap r0.1 (List.range nlanes) 0).2) % 4294967296,
          queue_status := free_code R } i ptr).iters_ptr
        (by intro j hj; simp [init_point, Function.update, hj])
        (by simp [init_point]) hRn hi
      have h2 := perm_filter_split (List.range nlanes) (i :: R) [] (List.nodup_range _) hRn
        (fun j hj => (hRm j hj).1) (by simp)
      simp only [List.append_nil] at h2
      have h3 : ((List.range nlanes).filter (fun j => j ∉ ([] : List Nat))).map ps1.iters_ptr =
          ((List.range nlanes).filter (fun j => j ∉ ([] : List Nat))).map r0.1.iters_ptr := by
        apply List.map_congr_left
        intro j hj
        rw [List.mem_filter] at hj
        exact (hfr j (List.mem_range.mp hj.1)).symm
      simp only [in_flight_slots]
      rw [h3] at hperm
      have h4 := (h2.map r0.1.iters_ptr)
      rw [List.map_append] at h4
      rw [stored_slots_append, stored_slots_lane_writes]
      have h5 := List.Perm.cons ptr (hperm.trans (List.Perm.append_right (stored_slots mem) h4))
      have h6 := List.Perm.append_right
        ((i :: R).map r0.1.iters_ptr ++ stored_slots mem) h1.symm
      refine h5.trans (List.Perm.trans ?_ h6)
      simp only [List.cons_append]
      refine List.Perm.cons ptr ?_
      have h8 : ((i :: R).map r0.1.iters_ptr ++
          ((List.range nlanes).filter (fun j => j ∉ i :: R)).map r0.1.iters_ptr).Perm
          (((List.range nlanes).filter (fun j => j ∉ i :: R)).map r0.1.iters_ptr ++
            (i :: R).map r0.1.iters_ptr) := List.perm_append_comm
      have h7 := List.Perm.append_right (stored_slots mem) h8
      rw [List.append_assoc, List.append_assoc] at h7
      rw [List.append_assoc]
      exact h7
    · intro p hp
      have hab : r0.1.ab_in = (a, b) := by rw [hab0, hab1]
      exact ⟨i, hi, (List.nodup_cons.mp hRn).1, hlast _ i hab p hp⟩

theorem queue_inv_run (nlanes mask cap : Nat)
    (K : man_pointstruct → Option (man_pointstruct × Nat))
    (hc : (nlanes = 4 ∧ mask = 3) ∨ (nlanes = 8 ∧ mask = 7)) :
    ∀ (pts done : List (ℚ × ℚ × Int)) (ps : man_pointstruct) (mem : List mem_write)
      (r : man_pointstruct × List mem_write),
      queue_inv nlanes done ps mem →
      queue_points (queue_point_sse nlanes mask cap (checked_kernel nlanes cap K)) pts ps mem
        = some r →
      queue_inv nlanes (done ++ pts) r.1 r.2 := by
  intro pts
  induction pts with
  | nil =>
    intro done ps mem r hinv hr
    simp only [queue_points, Option.some.injEq] at hr
    subst hr
    simpa using hinv
  | cons p pts ih =>
    intro done ps mem r hinv hr
    simp only [queue_points] at hr
    obtain ⟨s, hs, hr2⟩ := Option.bind_eq_some.mp hr
    have h1 := queue_inv_step nlanes mask cap K ps p.1 p.2.1 p.2.2 mem done hc hinv s hs
    have h2 := ih (done ++ [(p.1, p.2.1, p.2.2)]) s.1 s.2 r h1 hr2
    simpa using h2

theorem queue_inv_length (nlanes : Nat) (pts : List (ℚ × ℚ × Int)) (ps : man_pointstruct)
    (mem : List mem_write) (h : queue_inv nlanes pts ps mem) :
    pts.length ≤ (stored_slots mem).length + nlanes := by
  obtain ⟨fs, -, -, -, hperm, -⟩ := h
  have h1 := hperm.length_eq
  simp only [List.length_map, List.length_append, in_flight_slots] at h1
  have h2 := List.length_filter_le (fun i => decide (i ∉ fs)) (List.range nlanes)
  rw [List.length_range] at h2
  omega

/-- C18.  For every kernel `K`, restricted to the calls that return with some point diverged
or with the point of the most accumulated iterations at `max_iters`, every cap and every list
of points queued through `queue_4point_sse2` (resp. `queue_8point_sse`) from the `queue_status`
that `man_setup` installs: if the calls return, then `queue_status` holds a list of distinct
free slots below 4 (resp. 8); the output addresses of the queued points are, up to order,
exactly those of the points in flight (the slots that are not free) together with those of the
iteration count stores made so far, so no point in flight was overwritten before its count
was stored; the point queued last sits in a slot below 4 (resp. 8) that is not free; and the
number of points queued exceeds the number of counts stored by at most 4 (resp. 8). -/
theorem queue_free_slots (K : man_pointstruct → Option (man_pointstruct × Nat)) (cap : Nat)
    (pts : List (ℚ × ℚ × Int)) (ps0 ps : man_pointstruct) (mem : List mem_write) :
    (ps0.queue_status = queue_init PRECISION_DOUBLE →
      queue_points (queue_4point_sse2 cap (checked_kernel 4 cap K)) pts ps0 [] = some (ps, mem) →
      queue_inv 4 pts ps mem ∧ pts.length ≤ (stored_slots mem).length + 4) ∧
    (ps0.queue_status = queue_init PRECISION_SINGLE →
      queue_points (queue_8point_sse cap (checked_kernel 8 cap K)) pts ps0 [] = some (ps, mem) →
      queue_inv 8 pts ps mem ∧ pts.length ≤ (stored_slots mem).length + 8) := by
  constructor
  · intro h0 hr
    have hi := queue_inv_init 4 ps0 (by rw [h0, queue_init_code.1]; rfl)
    have h1 := queue_inv_run 4 3 cap K (Or.inl ⟨rfl, rfl⟩) pts [] ps0 [] (ps, mem) hi hr
    simp only [List.nil_append] at h1
    exact ⟨h1, queue_inv_length 4 pts ps mem h1⟩
  · intro h0 hr
    have hi := queue_inv_init 8 ps0 (by rw [h0, queue_init_code.2]; rfl)
    have h1 := queue_inv_run 8 7 cap K (Or.inr ⟨rfl, rfl⟩) pts [] ps0 [] (ps, mem) hi hr
    simp only [List.nil_append] at h1
    exact ⟨h1, queue_inv_length 8 pts ps mem h1⟩

theorem iter_block_01_spec (a b : ℚ) (n : Nat) :
    iter_block_01 a b (lane_state true a b n).1 (lane_state true a b n).2.1 =
      ((lane_state true a b (n + 2)).1, (lane_state true a b (n + 2)).2.1,
       (lane_state true a b (n + 2)).2.2, mag2 (mandel_z a b (n + 1))) := by
  simp only [iter_block_01, lane_state, if_true, mandel_z, mag2, Prod.mk.injEq]
  generalize (mandel_z a b n).1 = X
  generalize (mandel_z a b n).2 = Y
  refine ⟨?_, ?_, ?_, ?_⟩ <;> first | ring1 | ring_nf

theorem iter_block_23_spec (a b : ℚ) (n : Nat) :
    iter_block_23 a b (lane_state false a b n).1 (lane_state false a b n).2.1
        (lane_state false a b n).2.2 =
      ((lane_state false a b (n + 2)).1, (lane_state false a b (n + 2)).2.1,
       (lane_state false a b (n + 2)).2.2, mag2 (mandel_z a b (n + 1)),
       (mandel_z a b n).1 * (mandel_z a b n).1, (mandel_z a b n).2 * (mandel_z a b n).2) := by
  simp only [iter_block_23, lane_state, Bool.false_eq_true, if_false, mandel_z, mag2,
    Prod.mk.injEq, and_true]
  generalize (mandel_z a b n).1 = X
  generalize (mandel_z a b n).2 = Y
  refine ⟨?_, ?_, ?_, ?_⟩ <;> ring

theorem lane_state_mag_first (a b : ℚ) (n : Nat) :
    2 * (lane_state true a b n).2.2 + (lane_state true a b n).1 = mag2 (mandel_z a b n) := by
  simp only [lane_state, if_true, mag2]; ring

theorem iter_pass_spec (nlanes : Nat) (ps0 ps : man_pointstruct) (r : xmm_regs) (k : Nat)
    (h : kernel_top nlanes ps0 k ps r) :
    kernel_exit nlanes ps0 (k + 1) (iter_pass nlanes ps r).1 (iter_pass nlanes ps r).2 := by
  obtain ⟨hf, hr, hyy, hs⟩ := h
  have e1 : ∀ n : Nat, n + 2 * (k + 1) = n + 2 * k + 2 := fun n => by ring
  have e2 : ∀ n : Nat, n + 2 * (k + 1) - 1 = n + 2 * k + 1 := fun n => by omega
  have e3 : ∀ n : Nat, n + 2 * (k + 1) - 2 = n + 2 * k := fun n => by omega
  refine ⟨⟨hf.ha, hf.hb, hf.hiters, hf.hptr, hf.hab, hf.hcur, hf.hqs⟩, ?_, ?_, ?_, ?_⟩
  · intro i hi
    by_cases c : i < nlanes / 2
    · have h1 := iter_block_01_spec (ps0.a i) (ps0.b i) (ps0.iters i + 2 * k)
      obtain ⟨rx, ry⟩ := hr i hi
      simp only [c, decide_True] at rx ry
      simp only [iter_pass, if_true, if_false, if_pos c, hf.ha, hf.hb, rx, ry, h1, e1, c, decide_True]
    · have h1 := iter_block_23_spec (ps0.a i) (ps0.b i) (ps0.iters i + 2 * k)
      obtain ⟨rx, ry⟩ := hr i hi
      have ryy := hyy i (by omega) hi
      simp only [c, decide_False] at rx ry
      simp only [iter_pass, if_true, if_false, if_neg c, if_pos hi, hf.ha, hf.hb, rx, ry, ryy, h1, e1, c,
        decide_False]
  · intro i hi
    by_cases c : i < nlanes / 2
    · have h1 := iter_block_01_spec (ps0.a i) (ps0.b i) (ps0.iters i + 2 * k)
      obtain ⟨rx, ry⟩ := hr i hi
      simp only [c, decide_True] at rx ry
      simp only [iter_pass, if_true, if_false, if_pos c, hf.ha, hf.hb, rx, ry, h1, e2]
    · have h1 := iter_block_23_spec (ps0.a i) (ps0.b i) (ps0.iters i + 2 * k)
      obtain ⟨rx, ry⟩ := hr i hi
      have ryy := hyy i (by omega) hi
      simp only [c, decide_False] at rx ry
      simp only [iter_pass, if_true, if_false, if_neg c, if_pos hi, hf.ha, hf.hb, rx, ry, ryy, h1, e2]
  · intro i hi
    have c : ¬ (nlanes / 2 ≤ i ∧ i < nlanes) := by omega
    obtain ⟨sx, syy⟩ := hs i hi
    simp only [iter_pass, if_true, if_false, if_neg c, sx, syy, e3]
    exact lane_state_mag_first _ _ _
  · intro i h1 h2
    have c : nlanes / 2 ≤ i ∧ i < nlanes := ⟨h1, h2⟩
    have h3 := iter_block_23_spec (ps0.a i) (ps0.b i) (ps0.iters i + 2 * k)
    obtain ⟨rx, ry⟩ := hr i h2
    have ryy := hyy i h1 h2
    have c2 : ¬ i < nlanes / 2 := by omega
    simp only [c2, decide_False] at rx ry
    simp only [iter_pass, if_true, if_false, if_pos c, hf.ha, hf.hb, rx, ry, ryy, h3, e3, mag2]

theorem iter_pass_continue (nlanes : Nat) (ps0 ps : man_pointstruct) (r : xmm_regs) (p : Nat)
    (h : kernel_exit nlanes ps0 p ps r) :
    kernel_top nlanes ps0 p
      { ps with
        yy := fun i => if i < nlanes / 2 then r.yy i else ps.yy i,
        x := fun i => if i < nlanes / 2 then r.x i else ps.x i } r := by
  obtain ⟨hf, hr, -, -, -⟩ := h
  refine ⟨⟨hf.ha, hf.hb, hf.hiters, hf.hptr, hf.hab, hf.hcur, hf.hqs⟩, ?_, ?_, ?_⟩
  · intro i hi
    have := hr i hi
    rw [← this]
    exact ⟨rfl, rfl⟩
  · intro i h1 h2
    have := hr i h2
    have c2 : ¬ i < nlanes / 2 := by omega
    simp only [c2, decide_False] at this
    rw [← this]
  · intro i hi
    have h1 := hr i (by omega)
    simp only [hi, decide_True] at h1
    simp only [if_pos hi]
    rw [← h1]
    exact ⟨rfl, rfl⟩

theorem iterate_amd_loop_spec (nlanes : Nat) (ps0 : man_pointstruct) (B : Nat)
    (hB : B < 4294967296) (heven : B % 2 = 0) :
    ∀ (fuel k : Nat) (ps : man_pointstruct) (r : xmm_regs),
      2 * k < B → B ≤ 2 * k + 2 * fuel → kernel_top nlanes ps0 k ps r →
      ∃ (p : Nat) (ps1 : man_pointstruct) (r1 : xmm_regs), k < p ∧ 2 * p ≤ B ∧
        iterate_amd_loop nlanes fuel ps r (2 * k) B = some (ps1, r1, 2 * p) ∧
        kernel_exit nlanes ps0 p ps1 r1 ∧
        (∀ j, k < j → j < p → ∀ i, i < nlanes →
          ¬ 16 ≤ mag2 (mandel_z (ps0.a i) (ps0.b i) (ps0.iters i + 2 * j - 1))) ∧
        ((∃ i, i < nlanes ∧
            16 ≤ mag2 (mandel_z (ps0.a i) (ps0.b i) (ps0.iters i + 2 * p - 1))) ∨
          2 * p = B) := by
  intro fuel
  induction fuel with
  | zero => intro k ps r h1 h2; omega
  | succ fuel ih =>
    intro k ps r h1 h2 htop
    have hexit := iter_pass_spec nlanes ps0 ps r k htop
    have heax : (2 * k + 2) % 4294967296 = 2 * (k + 1) := by omega
    have hdiv : (∃ i, i < nlanes ∧ DIVERGED (iter_pass nlanes ps r).1 i) ↔
        (∃ i, i < nlanes ∧
          16 ≤ mag2 (mandel_z (ps0.a i) (ps0.b i) (ps0.iters i + 2 * (k + 1) - 1))) := by
      constructor
      · rintro ⟨i, hi, hd⟩
        refine ⟨i, hi, ?_⟩
        rw [← hexit.mag i hi]
        exact hd
      · rintro ⟨i, hi, hd⟩
        refine ⟨i, hi, ?_⟩
        show (iter_pass nlanes ps r).1.mag i ≥ DIVERGED_THRESH
        rw [hexit.mag i hi]
        exact hd
    simp only [iterate_amd_loop, heax]
    by_cases hany : ∃ i, i < nlanes ∧ DIVERGED (iter_pass nlanes ps r).1 i
    · rw [if_pos hany]
      simp only [ne_eq, not_true_eq_false, if_false]
      refine ⟨k + 1, _, _, by omega, by omega, rfl, hexit, ?_, Or.inl (hdiv.mp hany)⟩
      intro j j1 j2; omega
    · rw [if_neg hany]
      by_cases hend : B = 2 * (k + 1)
      · rw [if_neg (by simpa using hend)]
        refine ⟨k + 1, _, _, by omega, by omega, rfl, hexit, ?_, Or.inr hend.symm⟩
        intro j j1 j2; omega
      · rw [if_pos hend]
        obtain ⟨p, ps1, r1, p1, p2, p3, p4, p5, p6⟩ := ih (k + 1) _ _ (by omega) (by omega)
          (iter_pass_continue nlanes ps0 _ _ (k + 1) hexit)
        refine ⟨p, ps1, r1, by omega, p2, p3, p4, ?_, p6⟩
        intro j j1 j2 i hi
        rcases Nat.lt_or_ge (k + 1) j with c | c
        · exact p5 j c j2 i hi
        · have : j = k + 1 := by omega
          subst this
          intro hd
          exact hany (hdiv.mpr ⟨i, hi, hd⟩)

theorem iterate_amd_spec (nlanes : Nat) (ps0 : man_pointstruct)
    (hok : ∀ i, i < nlanes → lane_ok nlanes ps0 i)
    (hB1 : 2 ≤ ps0.cur_max_iters) (heven : ps0.cur_max_iters % 2 = 0)
    (hwrap : ∀ i, i < nlanes → ps0.iters i + ps0.cur_max_iters < 4294967296)
    (hB : ps0.cur_max_iters < 4294967296) :
    ∃ (p : Nat) (ps1 : man_pointstruct), 1 ≤ p ∧ 2 * p ≤ ps0.cur_max_iters ∧
      iterate_amd nlanes ps0 = some (ps1, 2 * p) ∧
      kernel_result nlanes ps0 p ps1 ∧
      (∀ j, 1 ≤ j → j < p → ∀ i, i < nlanes →
        ¬ 16 ≤ mag2 (mandel_z (ps0.a i) (ps0.b i) (ps0.iters i + 2 * j - 1))) ∧
      ((∃ i, i < nlanes ∧
          16 ≤ mag2 (mandel_z (ps0.a i) (ps0.b i) (ps0.iters i + 2 * p - 1))) ∨
        2 * p = ps0.cur_max_iters) := by
  have htop : kernel_top nlanes ps0 0 ps0 ⟨ps0.x, ps0.y, ps0.yy⟩ := by
    refine ⟨⟨rfl, rfl, rfl, rfl, rfl, rfl, rfl⟩, ?_, ?_, ?_⟩
    · intro i hi
      have := hok i hi
      unfold lane_ok at this
      simp only [Nat.mul_zero, Nat.add_zero]
      rw [← this]
      exact ⟨rfl, rfl⟩
    · intro i h1 h2
      have := hok i h2
      unfold lane_ok at this
      have c : ¬ i < nlanes / 2 := by omega
      simp only [c, decide_False] at this
      simp only [Nat.mul_zero, Nat.add_zero]
      rw [← this]
    · intro i hi
      have := hok i (by omega)
      unfold lane_ok at this
      simp only [hi, decide_True] at this
      simp only [Nat.mul_zero, Nat.add_zero]
      rw [← this]
      exact ⟨rfl, rfl⟩
  obtain ⟨p, ps1, r1, p1, p2, p3, p4, p5, p6⟩ := iterate_amd_loop_spec nlanes ps0
    ps0.cur_max_iters hB heven 2147483648 0 ps0 ⟨ps0.x, ps0.y, ps0.yy⟩ (by omega) (by omega) htop
  rw [show 2 * 0 = 0 from rfl] at p3
  have hrun : iterate_amd nlanes ps0 = some (amd_backout nlanes (ps1, r1, 2 * p)) := by
    unfold iterate_amd
    rw [p3]
    rfl
  refine ⟨p, _, by omega, p2, hrun, ?_, fun j j1 j2 => p5 j (by omega) j2, p6⟩
  · obtain ⟨hf, hr, hm, hlo, hhi⟩ := p4
    simp only [amd_backout]
    refine ⟨hf.ha, hf.hb, hf.hptr, hf.hab, hf.hcur, hf.hqs, ?_, ?_, ?_, ?_⟩
    · intro i hi
      have := hwrap i hi
      simp only [if_pos hi, hf.hiters]
      exact Nat.mod_eq_of_lt (by omega)
    · intro i hi
      have h1 := hr i hi
      have := hwrap i hi
      have e : (ps0.iters i + 2 * p) % 4294967296 = ps0.iters i + 2 * p :=
        Nat.mod_eq_of_lt (by omega)
      unfold lane_ok
      simp only [if_pos hi, hf.hiters, hf.ha, hf.hb, e]
      exact h1
    · intro i hi
      simp only [hf.ha, hf.hb]
      exact hm i hi
    · intro i hi
      by_cases c : i < nlanes / 2
      · simp only [if_pos c]
        exact hlo i c
      · simp only [if_neg c, if_pos hi]
        exact hhi i (by omega) hi

/-- Once `|z|² ≥ 16` with `|c|² < 16`, the next iterate has `|z² + c|² ≥ 16`. -/
theorem diverged_persists (a b X Y : ℚ) (hc : a * a + b * b < 16) (hz : 16 ≤ X * X + Y * Y) :
    16 ≤ (X * X - Y * Y + a) * (X * X - Y * Y + a) + (2 * X * Y + b) * (2 * X * Y + b) := by
  nlinarith [sq_nonneg (X * X - Y * Y + a), sq_nonneg (2 * X * Y + b), sq_nonneg (X * X + Y * Y - 16),
    sq_nonneg (a * (X * X - Y * Y) + b * (2 * X * Y)), sq_nonneg (a * (2 * X * Y) - b * (X * X - Y * Y)),
    sq_nonneg a, sq_nonneg b, sq_nonneg (X*X+Y*Y), mul_nonneg (sq_nonneg X) (sq_nonneg Y)]

theorem mandel_z_one (a b : ℚ) : mag2 (mandel_z a b 1) = a * a + b * b := by
  simp [mandel_z, mag2]

theorem mandel_z_zero (a b : ℚ) : mag2 (mandel_z a b 0) = 0 := by
  simp [mandel_z, mag2]

/-- If no odd index below `M` has diverged, no index `j ≥ 1` with `j + 1 < M` has. -/
theorem nondiv_of_tested (a b : ℚ) (M : Nat)
    (ht : ∀ t, t < M → t % 2 = 1 → mag2 (mandel_z a b t) < 16) :
    ∀ j, 1 ≤ j → j + 1 < M → mag2 (mandel_z a b j) < 16 := by
  intro j j1 j2
  rcases Nat.mod_two_eq_zero_or_one j with c | c
  · have h1 := ht 1 (by omega) rfl
    rw [mandel_z_one] at h1
    have h2 := ht (j + 1) j2 (by omega)
    by_contra hd
    have hd2 : 16 ≤ (mandel_z a b j).1 * (mandel_z a b j).1 +
        (mandel_z a b j).2 * (mandel_z a b j).2 := le_of_not_lt hd
    have h3 := diverged_persists a b _ _ h1 hd2
    have h4 : mag2 (mandel_z a b (j + 1)) =
        ((mandel_z a b j).1 * (mandel_z a b j).1 - (mandel_z a b j).2 * (mandel_z a b j).2 + a) *
        ((mandel_z a b j).1 * (mandel_z a b j).1 - (mandel_z a b j).2 * (mandel_z a b j).2 + a) +
        (2 * (mandel_z a b j).1 * (mandel_z a b j).2 + b) *
        (2 * (mandel_z a b j).1 * (mandel_z a b j).2 + b) := by
      simp only [mandel_z, mag2]
    rw [h4] at h2
    exact absurd h3 (not_le.mpr h2)
  · exact ht j (by omega) c

/-- The count committed by the retire loop for a point with `N` iterations done is the count
of the scalar path. -/
theorem commits_of_lane (cap : Nat) (a b : ℚ) (N : Nat) (hN : N % 2 = 0) (hN2 : 2 ≤ N)
    (hcap : N ≤ cap) (ht : ∀ t, t + 1 < N → t % 2 = 1 → mag2 (mandel_z a b t) < 16) :
    (16 ≤ mag2 (mandel_z a b (N - 1)) → 16 ≤ mag2 (mandel_z a b (N - 2)) →
      commits cap a b (N - 1)) ∧
    (16 ≤ mag2 (mandel_z a b (N - 1)) → ¬ 16 ≤ mag2 (mandel_z a b (N - 2)) →
      commits cap a b N) ∧
    (¬ 16 ≤ mag2 (mandel_z a b (N - 1)) → N = cap → commits cap a b N) := by
  have hb := nondiv_of_tested a b (N - 1) (fun t h1 h2 => ht t (by omega) h2)
  refine ⟨?_, ?_, ?_⟩
  · intro h1 h2
    have hN4 : 4 ≤ N := by
      by_contra hc
      have : N = 2 := by omega
      subst this
      have h3 := mandel_z_zero a b
      rw [show 2 - 2 = 0 from rfl, h3] at h2
      norm_num at h2
    refine ⟨N - 2, by omega, by omega, fun j j1 j2 => hb j j1 (by omega), Or.inl h2, ?_⟩
    rw [if_pos (by omega)]
    omega
  · intro h1 h2
    refine ⟨N - 1, by omega, by omega, ?_, Or.inl h1, ?_⟩
    · intro j j1 j2
      rcases Nat.lt_or_ge j (N - 2) with c | c
      · exact hb j j1 (by omega)
      · have : j = N - 2 := by omega
        rw [this]; exact lt_of_not_le h2
    · rw [if_pos (by omega)]
      omega
  · intro h1 h2
    refine ⟨N, by omega, hcap, ?_, Or.inr h2, ?_⟩
    · have hb2 := nondiv_of_tested a b N (fun t t1 t2 => by
        rcases Nat.lt_or_ge (t + 1) N with c | c
        · exact ht t c t2
        · have : t = N - 1 := by omega
          rw [this]; exact lt_of_not_le h1)
      intro j j1 j2
      rcases Nat.lt_or_ge (j + 1) N with c | c
      · exact hb2 j j1 c
      · have : j = N - 1 := by omega
        rw [this]; exact lt_of_not_le h1
    · rw [if_neg (by omega)]

theorem commits_unique (cap : Nat) (a b : ℚ) (v w : Nat) (hv : commits cap a b v)
    (hw : commits cap a b w) : v = w := by
  obtain ⟨n, n1, n2, n3, n4, n5⟩ := hv
  obtain ⟨m, m1, m2, m3, m4, m5⟩ := hw
  have hnm : n = m := by
    rcases Nat.lt_trichotomy n m with c | c | c
    · rcases n4 with h | h
      · exact absurd h (not_le.mpr (m3 n n1 c))
      · omega
    · exact c
    · rcases m4 with h | h
      · exact absurd h (not_le.mpr (n3 m m1 c))
      · omega
  subst hnm
  rw [n5, m5]

theorem iterate_c_fields (ps : man_pointstruct) (h1 : 1 ≤ ps.cur_max_iters)
    (h2 : ps.cur_max_iters < 4294967296) :
    ∃ (ps1 : man_pointstruct) (n : Nat), iterate_c ps = some (ps1, n) ∧
      ps1.cur_max_iters = ps.cur_max_iters ∧ ps1.ab_in = ps.ab_in ∧
      1 ≤ n ∧ n ≤ ps.cur_max_iters ∧
      (∀ j, 1 ≤ j → j < n → mag2 (mandel_z ps.ab_in.1 ps.ab_in.2 j) < 16) ∧
      (16 ≤ mag2 (mandel_z ps.ab_in.1 ps.ab_in.2 n) ∨ n = ps.cur_max_iters) := by
  obtain ⟨n, e, n1, n2, n3, n4⟩ := iterate_c_eq ps h1 h2
  exact ⟨_, n, e, rfl, rfl, n1, n2, n3, n4⟩

/-- The scalar path commits a count with the property `commits`. -/
theorem queue_point_c_commits (cap : Nat) (w1 w2 : ℚ) (ps : man_pointstruct) (ptr : Int)
    (mem : List mem_write) (h1 : 1 ≤ cap) (h2 : cap + 1 < 4294967296)
    (hcur : ps.cur_max_iters = cap) :
    ∃ (ps1 : man_pointstruct) (m : ℚ) (v : Nat),
      queue_point_c cap iterate_c w1 w2 ps ptr mem =
        some (ps1, mem_write.mag ptr m :: mem_write.iters ptr v :: mem) ∧
      commits cap ps.ab_in.1 ps.ab_in.2 v := by
  obtain ⟨pa, n0, e0, a1, -, -⟩ := iterate_c_fields
    { ps with ab_in := (ps.ab_in.1 - w1 / 2 + w1 * (1 * 0 / 1),
                        ps.ab_in.2 - w2 / 2 + w2 * (1 * 0 / 1)) }
    (by show 1 ≤ ps.cur_max_iters; omega) (by show ps.cur_max_iters < 4294967296; omega)
  have a2 : pa.cur_max_iters = cap := by rw [a1]; exact hcur
  obtain ⟨pb, n, e1, b1, b2, n1, n2, n3, n4⟩ := iterate_c_fields
    { pa with ab_in := (ps.ab_in.1, ps.ab_in.2) }
    (by show 1 ≤ pa.cur_max_iters; omega) (by show pa.cur_max_iters < 4294967296; omega)
  have hn2 : n ≤ cap := by rw [← a2]; exact n2
  have hm : (n + 1) % 4294967296 = n + 1 := Nat.mod_eq_of_lt (by omega)
  have hc : commits cap ps.ab_in.1 ps.ab_in.2 (if n ≠ cap then n + 1 else n) := by
    refine ⟨n, n1, hn2, n3, ?_, rfl⟩
    rcases n4 with h | h
    · exact Or.inl h
    · exact Or.inr (by rw [h]; exact a2)
  cases h : queue_point_c cap iterate_c w1 w2 ps ptr mem with
  | none =>
    simp only [queue_point_c, e0, Option.some_bind, e1] at h
    cases h
  | some r =>
    simp only [queue_point_c, e0, Option.some_bind, e1, Option.some.injEq, hm,
      Function.update_same] at h
    subst h
    exact ⟨_, _, _, rfl, hc⟩

theorem init_point_other (ps : man_pointstruct) (i : Nat) (ptr : Int) (j : Nat) (h : j ≠ i) :
    (init_point ps i ptr).x j = ps.x j ∧ (init_point ps i ptr).y j = ps.y j ∧
    (init_point ps i ptr).yy j = ps.yy j ∧ (init_point ps i ptr).a j = ps.a j ∧
    (init_point ps i ptr).b j = ps.b j ∧ (init_point ps i ptr).iters j = ps.iters j ∧
    (init_point ps i ptr).iters_ptr j = ps.iters_ptr j := by
  simp [init_point, Function.update_noteq h]

theorem init_point_self (ps : man_pointstruct) (i : Nat) (ptr : Int) :
    (init_point ps i ptr).x i = 0 ∧ (init_point ps i ptr).y i = 0 ∧
    (init_point ps i ptr).yy i = 0 ∧ (init_point ps i ptr).a i = ps.ab_in.1 ∧
    (init_point ps i ptr).b i = ps.ab_in.2 ∧ (init_point ps i ptr).iters i = 0 ∧
    (init_point ps i ptr).iters_ptr i = ptr := by
  simp [init_point]

theorem lane_state_zero (first : Bool) (a b : ℚ) : lane_state first a b 0 = (0, 0, 0) := by
  cases first <;> simp [lane_state, mandel_z]

theorem lane_inv_new (nlanes cap : Nat) (pts : List (ℚ × ℚ × Int)) (ps : man_pointstruct)
    (i : Nat) (ptr : Int) (hle : ps.cur_max_iters ≤ cap)
    (hq : (ps.ab_in.1, ps.ab_in.2, ptr) ∈ pts) :
    lane_inv nlanes cap pts (init_point ps i ptr) i := by
  obtain ⟨h1, h2, h3, h4, h5, h6, h7⟩ := init_point_self ps i ptr
  refine ⟨?_, ?_, ?_, ?_, ?_⟩
  · unfold lane_ok
    rw [h1, h2, h3, h6, lane_state_zero]
  · rw [h6]
  · rw [h6]
    show 0 + ps.cur_max_iters ≤ cap
    omega
  · intro t ht
    rw [h6] at ht
    omega
  · rw [h4, h5, h7]
    exact hq

theorem lane_inv_other (nlanes cap : Nat) (pts pts1 : List (ℚ × ℚ × Int))
    (ps ps1 : man_pointstruct) (j : Nat)
    (hx : ps1.x j = ps.x j) (hy : ps1.y j = ps.y j) (hyy : ps1.yy j = ps.yy j)
    (ha : ps1.a j = ps.a j) (hb : ps1.b j = ps.b j) (hi : ps1.iters j = ps.iters j)
    (hp : ps1.iters_ptr j = ps.iters_ptr j) (hc : ps1.cur_max_iters = ps.cur_max_iters)
    (hpts : ∀ q, q ∈ pts → q ∈ pts1) (h : lane_inv nlanes cap pts ps j) :
    lane_inv nlanes cap pts1 ps1 j := by
  obtain ⟨h1, h2, h3, h4, h5⟩ := h
  refine ⟨?_, ?_, ?_, ?_, ?_⟩
  · unfold lane_ok at h1 ⊢
    rw [hx, hy, hyy, ha, hb, hi]
    exact h1
  · rw [hi]; exact h2
  · rw [hi, hc]; exact h3
  · rw [hi, ha, hb]; exact h4
  · rw [ha, hb, hp]; exact hpts _ h5

theorem batch_step_free (nlanes mask cap : Nat)
    (K : man_pointstruct → Option (man_pointstruct × Nat)) (ps : man_pointstruct)
    (a b : ℚ) (ptr : Int) (mem : List mem_write) (pts : List (ℚ × ℚ × Int))
    (i : Nat) (fs : List Nat)
    (hc : (nlanes = 4 ∧ mask = 3) ∨ (nlanes = 8 ∧ mask = 7))
    (hinv : batch_inv nlanes cap (i :: fs) pts ps mem) :
    ∃ ps1, queue_point_sse nlanes mask cap K { ps with ab_in := (a, b) } ptr mem =
        some (ps1, mem) ∧
      batch_inv nlanes cap fs (pts ++ [(a, b, ptr)]) ps1 mem ∧
      step_info nlanes cap (i :: fs) ps a b ptr fs ps1 i 0 [] := by
  obtain ⟨hq, hn, hlt, h1, h2, h3, h4, h5, h6⟩ := hinv
  have hi : i < nlanes := hlt i (List.mem_cons_self _ _)
  have hni : i ∉ fs := (List.nodup_cons.mp hn).1
  have hstep := queue_point_free nlanes mask cap K { ps with ab_in := (a, b) } ptr mem i fs
    hc hq hi
  obtain ⟨s1, s2, s3, s4, s5, s6, s7⟩ := init_point_self
    { ps with ab_in := (a, b), queue_status := free_code fs } i ptr
  have hoth := init_point_other { ps with ab_in := (a, b), queue_status := free_code fs } i ptr
  refine ⟨_, hstep, ⟨rfl, (List.nodup_cons.mp hn).2,
    fun j hj => hlt j (List.mem_cons_of_mem _ hj), h1, h2, h3, ?_, ?_, ?_⟩,
    ⟨hi, hni, s4, s5, s7, s6, ?_, Or.inl ⟨rfl, rfl, rfl⟩⟩⟩
  · rcases h4 with h | ⟨j, j1, j2, j3⟩
    · exact Or.inl h
    · have hne : j ≠ i := by
        intro h; subst h; exact j2 (List.mem_cons_self _ _)
      refine Or.inr ⟨j, j1, fun h => j2 (List.mem_cons_of_mem _ h), ?_⟩
      rw [(hoth j hne).2.2.2.2.2.1]
      exact j3
  · intro j j1 j2
    by_cases hji : j = i
    · subst hji
      exact lane_inv_new nlanes cap _ _ j ptr h3 (by simp)
    · obtain ⟨o1, o2, o3, o4, o5, o6, o7⟩ := hoth j hji
      have hold := h5 j j1 (by
        intro h
        rcases List.mem_cons.mp h with h | h
        · exact hji h
        · exact j2 h)
      exact lane_inv_other nlanes cap pts _ ps _ j o1 o2 o3 o4 o5 o6 o7 rfl
        (fun q hq => List.mem_append_left _ hq) hold
  · intro p v hv
    obtain ⟨a1, b1, hm, hcm⟩ := h6 p v hv
    exact ⟨a1, b1, List.mem_append_left _ hm, hcm⟩
  · intro j j1 hji
    obtain ⟨o1, o2, o3, o4, o5, o6, o7⟩ := hoth j hji
    exact ⟨o4, o5, o7, fun _ => by rw [o6]; rfl⟩

theorem batch_step_full (nlanes mask cap : Nat) (ps : man_pointstruct)
    (a b : ℚ) (ptr : Int) (mem : List mem_write) (pts : List (ℚ × ℚ × Int))
    (hc : (nlanes = 4 ∧ mask = 3) ∨ (nlanes = 8 ∧ mask = 7))
    (hcap : cap < 4294967296)
    (hinv : batch_inv nlanes cap [] pts ps mem) :
    ∃ (ps1 : man_pointstruct) (mem1 : List mem_write) (fs1 : List Nat) (i e : Nat)
      (R : List Nat),
      queue_point_sse nlanes mask cap (iterate_amd nlanes) { ps with ab_in := (a, b) } ptr mem
        = some (ps1, mem1) ∧
      queue_point_sse nlanes mask cap (checked_kernel nlanes cap (iterate_amd nlanes))
        { ps with ab_in := (a, b) } ptr mem = some (ps1, mem1) ∧
      batch_inv nlanes cap fs1 (pts ++ [(a, b, ptr)]) ps1 mem1 ∧
      step_info nlanes cap [] ps a b ptr fs1 ps1 i e R := by
  obtain ⟨hq, -, -, h1, h2, h3, h4, h5, h6⟩ := hinv
  have hL : 0 < nlanes := by
    rcases hc with ⟨h, -⟩ | ⟨h, -⟩ <;> omega
  have hlive : ∀ j, j < nlanes → lane_inv nlanes cap pts ps j :=
    fun j hj => h5 j hj (List.not_mem_nil j)
  have hceven : cap % 2 = 0 := by
    rcases h4 with h | ⟨j, j1, -, j3⟩
    · omega
    · have := (hlive j j1).even
      omega
  obtain ⟨p, psk, hp1, hp2, hk, kres, hnd, hexit⟩ :=
    iterate_amd_spec nlanes { ps with ab_in := (a, b) }
      (fun j hj => (hlive j hj).ok) h2 h1
      (fun j hj => by
        have := (hlive j hj).le
        show ps.iters j + ps.cur_max_iters < 4294967296
        omega)
      (by
        show ps.cur_max_iters < 4294967296
        omega)
  have hp2 : 2 * p ≤ ps.cur_max_iters := hp2
  have ka : psk.a = ps.a := kres.ha
  have kb : psk.b = ps.b := kres.hb
  have kptr : psk.iters_ptr = ps.iters_ptr := kres.hptr
  have kab : psk.ab_in = (a, b) := kres.hab
  have kit : ∀ j, j < nlanes → psk.iters j = ps.iters j + 2 * p := kres.hiters
  have kmag : ∀ j, j < nlanes →
      psk.mag j = mag2 (mandel_z (ps.a j) (ps.b j) (ps.iters j + 2 * p - 1)) := kres.hmag
  have kprev : ∀ j, j < nlanes →
      psk.magprev j = mag2 (mandel_z (ps.a j) (ps.b j) (ps.iters j + 2 * p - 2)) := kres.hprev
  have hnd : ∀ q, 1 ≤ q → q < p → ∀ j, j < nlanes →
      ¬ 16 ≤ mag2 (mandel_z (ps.a j) (ps.b j) (ps.iters j + 2 * q - 1)) := hnd
  have hexit : (∃ j, j < nlanes ∧
      16 ≤ mag2 (mandel_z (ps.a j) (ps.b j) (ps.iters j + 2 * p - 1))) ∨
      2 * p = ps.cur_max_iters := hexit
  have hdiv : ∀ j, j < nlanes →
      (DIVERGED psk j ↔ 16 ≤ mag2 (mandel_z (ps.a j) (ps.b j) (ps.iters j + 2 * p - 1))) := by
    intro j hj
    unfold DIVERGED DIVERGED_THRESH
    rw [kmag j hj]
  have hdivp : ∀ j, j < nlanes →
      (DIVERGED_PREV psk j ↔
        16 ≤ mag2 (mandel_z (ps.a j) (ps.b j) (ps.iters j + 2 * p - 2))) := by
    intro j hj
    unfold DIVERGED_PREV DIVERGED_THRESH
    rw [kprev j hj]
  have hle : ∀ j, j < nlanes → psk.iters j ≤ cap := by
    intro j hj
    have := (hlive j hj).le
    rw [kit j hj]
    omega
  have hprog : (∃ i, i < nlanes ∧ DIVERGED psk i) ∨
      (∃ i, i < nlanes ∧ psk.iters i = cap ∧ ∀ j, j < nlanes → psk.iters j ≤ psk.iters i) := by
    rcases hexit with ⟨i, hi, hd⟩ | hB
    · exact Or.inl ⟨i, hi, (hdiv i hi).mpr hd⟩
    · right
      rcases h4 with hcB | ⟨i, hi, -, hic⟩
      · have h0 := (hlive 0 hL).le
        have e0 : psk.iters 0 = cap := by
          rw [kit 0 hL]
          omega
        exact ⟨0, hL, e0, fun j hj => by rw [e0]; exact hle j hj⟩
      · have e0 : psk.iters i = cap := by
          rw [kit i hi]
          omega
        exact ⟨i, hi, e0, fun j hj => by rw [e0]; exact hle j hj⟩
  have hck : checked_kernel nlanes cap (iterate_amd nlanes) { ps with ab_in := (a, b) } =
      some (psk, 2 * p) := by
    unfold checked_kernel
    rw [hk, Option.some_bind, if_pos]
    exact ⟨kres.hab, fun i _ => by rw [kres.hptr], hprog⟩
  have hRne : (retire_list cap psk (List.range nlanes) 0).1 ≠ [] := by
    intro h0
    rcases hprog with ⟨i, i1, i2⟩ | ⟨i, i1, i2, i3⟩
    · have := retire_list_diverged cap psk (List.range nlanes) 0 i
        (List.mem_range.mpr i1) i2
      rw [h0] at this
      simp at this
    · have := retire_list_capped cap psk (List.range nlanes)
        (fun j hj => hle j (List.mem_range.mp hj)) 0 (Nat.zero_le _) i
        (List.mem_range.mpr i1) i2
      rw [h0] at this
      simp at this
  obtain ⟨i, R, hR⟩ := List.exists_cons_of_ne_nil hRne
  have hRn := retire_list_nodup cap psk (List.range nlanes) (List.nodup_range _) 0
  have hRm := retire_list_mem cap psk (List.range nlanes) 0
  have hRd := retire_list_diverged cap psk (List.range nlanes) 0
  obtain ⟨m1, -, m3, m4, m5⟩ := retire_list_max cap psk (List.range nlanes)
    (List.nodup_range _) (fun j hj => hle j (List.mem_range.mp hj)) 0 (by omega)
  obtain ⟨hi, hs1⟩ := queue_point_full nlanes mask cap (iterate_amd nlanes)
    { ps with ab_in := (a, b) } psk (2 * p) ptr mem i R hc hq hk hR
  obtain ⟨-, hs2⟩ := queue_point_full nlanes mask cap
    (checked_kernel nlanes cap (iterate_amd nlanes))
    { ps with ab_in := (a, b) } psk (2 * p) ptr mem i R hc hq hck hR
  rw [hR] at hRn hRm hRd m1 m4 m5
  generalize hm : (retire_list cap psk (List.range nlanes) 0).2 = m at hs1 hs2 m3 m4 m5
  have hmeven : m % 2 = 0 := by
    rcases m5 with h0 | ⟨j, hj, -, hjm⟩
    · omega
    · have := (hlive j (List.mem_range.mp hj)).even
      rw [kit j (List.mem_range.mp hj)] at hjm
      omega
  have hmod : (cap + 4294967296 - m) % 4294967296 = cap - m := by omega
  rw [hmod] at hs1 hs2
  obtain ⟨s1, s2, s3, s4, s5, s6, s7⟩ := init_point_self
    { psk with cur_max_iters := cap - m, queue_status := free_code R } i ptr
  have hoth := init_point_other
    { psk with cur_max_iters := cap - m, queue_status := free_code R } i ptr
  have hiR : i ∉ R := (List.nodup_cons.mp hRn).1
  have hold : ∀ r, r < nlanes → ∀ t, t + 1 < ps.iters r + 2 * p → t % 2 = 1 →
      mag2 (mandel_z (ps.a r) (ps.b r) t) < 16 := by
    intro r hr t ht1 ht2
    by_cases hlt : t < ps.iters r
    · exact (hlive r hr).tested t hlt ht2
    · have hev := (hlive r hr).even
      obtain ⟨q, hq⟩ : ∃ q, t + 1 = ps.iters r + 2 * q := ⟨(t + 1 - ps.iters r) / 2, by omega⟩
      have ht : t = ps.iters r + 2 * q - 1 := by omega
      rw [ht]
      exact not_le.mp (hnd q (by omega) (by omega) r hr)
  refine ⟨_, _, R, i, 2 * p, i :: R, hs1, hs2,
    ⟨rfl, (List.nodup_cons.mp hRn).2,
      fun j hj => List.mem_range.mp (hRm j (List.mem_cons_of_mem _ hj)).1, ?_, ?_, ?_, ?_, ?_, ?_⟩,
    ⟨hi, hiR, ?_, ?_, s7, s6, ?_, Or.inr ⟨rfl, rfl, by omega, hRn,
      fun j hj => List.mem_range.mp (hRm j hj).1, ?_, ?_⟩⟩⟩
  · show (cap - m) % 2 = 0
    omega
  · show 2 ≤ cap - m
    omega
  · show cap - m ≤ cap
    omega
  · rcases m5 with h0 | ⟨j, hj, hjR, hjm⟩
    · left
      show cap - m = cap
      omega
    · right
      have hji : j ≠ i := fun h => hjR (h ▸ List.mem_cons_self _ _)
      refine ⟨j, List.mem_range.mp hj, fun h => hjR (List.mem_cons_of_mem _ h), ?_⟩
      rw [(hoth j hji).2.2.2.2.2.1]
      show psk.iters j + (cap - m) = cap
      omega
  · intro j j1 j2
    by_cases hji : j = i
    · subst hji
      refine lane_inv_new nlanes cap _ _ j ptr ?_ ?_
      · show cap - m ≤ cap
        omega
      · show (psk.ab_in.1, psk.ab_in.2, ptr) ∈ pts ++ [(a, b, ptr)]
        rw [kab]
        simp
    · obtain ⟨o1, o2, o3, o4, o5, o6, o7⟩ := hoth j hji
      have hjR : j ∉ i :: R := by
        intro h
        rcases List.mem_cons.mp h with h | h
        · exact hji h
        · exact j2 h
      have hl := hlive j j1
      refine ⟨?_, ?_, ?_, ?_, ?_⟩
      · have := kres.hok j j1
        unfold lane_ok at this ⊢
        rw [o1, o2, o3, o4, o5, o6]
        exact this
      · rw [o6]
        show psk.iters j % 2 = 0
        rw [kit j j1]
        have := hl.even
        omega
      · rw [o6]
        show psk.iters j + (cap - m) ≤ cap
        have := m4 j (List.mem_range.mpr j1) hjR
        omega
      · intro t ht1 ht2
        rw [o4, o5]
        rw [o6] at ht1
        have ht1 : t < ps.iters j + 2 * p := by
          rw [← kit j j1]
          exact ht1
        show mag2 (mandel_z (psk.a j) (psk.b j) t) < 16
        rw [ka, kb]
        by_cases hlast : t + 1 < ps.iters j + 2 * p
        · exact hold j j1 t hlast ht2
        · have ht : t = ps.iters j + 2 * p - 1 := by omega
          rw [ht]
          refine not_le.mp (fun hd => hjR ?_)
          exact hRd j (List.mem_range.mpr j1) ((hdiv j j1).mpr hd)
      · rw [o4, o5, o7]
        show (psk.a j, psk.b j, psk.iters_ptr j) ∈ pts ++ [(a, b, ptr)]
        rw [ka, kb, kptr]
        exact List.mem_append_left _ hl.queued
  · intro q v hv
    rcases List.mem_append.mp hv with hv | hv
    · obtain ⟨l, hl, hvl⟩ := List.mem_flatten.mp hv
      obtain ⟨r, hrR, hrl⟩ := List.mem_map.mp hl
      subst hrl
      have hr : r < nlanes := List.mem_range.mp (hRm r hrR).1
      have hlr := hlive r hr
      have hev := hlr.even
      have hrle := hle r hr
      rw [kit r hr] at hrle
      obtain ⟨c1, c2, c3⟩ := commits_of_lane cap (ps.a r) (ps.b r) (ps.iters r + 2 * p)
        (by omega) (by omega) hrle (hold r hr)
      refine ⟨ps.a r, ps.b r, ?_, ?_⟩
      · have hmem : (ps.a r, ps.b r, q) ∈ pts := by
          have hqp : q = ps.iters_ptr r := by
            unfold lane_writes at hvl
            rw [kptr] at hvl
            split_ifs at hvl <;> simp at hvl <;> exact hvl.1
          rw [hqp]
          exact hlr.queued
        exact List.mem_append_left _ hmem
      · unfold lane_writes at hvl
        rw [kit r hr] at hvl
        by_cases d1 : DIVERGED psk r
        · by_cases d2 : DIVERGED_PREV psk r
          · rw [if_pos d1, if_pos d2] at hvl
            simp at hvl
            have hv2 : v = ps.iters r + 2 * p - 1 := by
              rw [hvl.2]
              omega
            rw [hv2]
            exact c1 ((hdiv r hr).mp d1) ((hdivp r hr).mp d2)
          · rw [if_pos d1, if_neg d2] at hvl
            simp at hvl
            rw [hvl.2]
            exact c2 ((hdiv r hr).mp d1) (fun h => d2 ((hdivp r hr).mpr h))
        · rw [if_neg d1] at hvl
          simp at hvl
          rw [hvl.2]
          rcases (hRm r hrR).2 with h | ⟨-, h⟩
          · exact absurd h d1
          · rw [kit r hr] at h
            exact c3 (fun h2 => d1 ((hdiv r hr).mpr h2)) h
    · obtain ⟨a1, b1, hm1, hcm⟩ := h6 q v hv
      exact ⟨a1, b1, List.mem_append_left _ hm1, hcm⟩
  · rw [s4]
    show psk.ab_in.1 = a
    rw [kab]
  · rw [s5]
    show psk.ab_in.2 = b
    rw [kab]
  · intro j j1 hji
    obtain ⟨o1, o2, o3, o4, o5, o6, o7⟩ := hoth j hji
    refine ⟨?_, ?_, ?_, fun _ => ?_⟩
    · rw [o4]
      show psk.a j = ps.a j
      rw [ka]
    · rw [o5]
      show psk.b j = ps.b j
      rw [kb]
    · rw [o7]
      show psk.iters_ptr j = ps.iters_ptr j
      rw [kptr]
    · rw [o6]
      exact kit j j1
  · intro j hj
    have := hle j hj
    rw [kit j hj] at this
    exact this
  · intro j hj
    constructor
    · intro h
      rcases (hRm j h).2 with h | ⟨-, h⟩
      · exact Or.inl ((hdiv j hj).mp h)
      · rw [kit j hj] at h
        exact Or.inr h
    · intro h
      rcases h with h | h
      · exact hRd j (List.mem_range.mpr hj) ((hdiv j hj).mpr h)
      · refine m1 j (List.mem_range.mpr hj) ?_
        rw [kit j hj]
        exact h

theorem batch_step (nlanes mask cap : Nat) (ps : man_pointstruct)
    (a b : ℚ) (ptr : Int) (mem : List mem_write) (pts : List (ℚ × ℚ × Int)) (fs : List Nat)
    (hc : (nlanes = 4 ∧ mask = 3) ∨ (nlanes = 8 ∧ mask = 7))
    (hcap : cap < 4294967296)
    (hinv : batch_inv nlanes cap fs pts ps mem) :
    ∃ (ps1 : man_pointstruct) (mem1 : List mem_write) (fs1 : List Nat) (i e : Nat)
      (R : List Nat),
      queue_point_sse nlanes mask cap (iterate_amd nlanes) { ps with ab_in := (a, b) } ptr mem
        = some (ps1, mem1) ∧
      queue_point_sse nlanes mask cap (checked_kernel nlanes cap (iterate_amd nlanes))
        { ps with ab_in := (a, b) } ptr mem = some (ps1, mem1) ∧
      batch_inv nlanes cap fs1 (pts ++ [(a, b, ptr)]) ps1 mem1 ∧
      step_info nlanes cap fs ps a b ptr fs1 ps1 i e R := by
  cases fs with
  | nil => exact batch_step_full nlanes mask cap ps a b ptr mem pts hc hcap hinv
  | cons i fs =>
    obtain ⟨ps1, h1, h2, h3⟩ := batch_step_free nlanes mask cap (iterate_amd nlanes) ps a b ptr
      mem pts i fs hc hinv
    obtain ⟨ps2, h4, -, -⟩ := batch_step_free nlanes mask cap
      (checked_kernel nlanes cap (iterate_amd nlanes)) ps a b ptr mem pts i fs hc hinv
    have h5 : ps2 = ps1 := by
      have := h4.symm.trans (queue_point_free nlanes mask cap
        (checked_kernel nlanes cap (iterate_amd nlanes)) { ps with ab_in := (a, b) } ptr mem
        i fs hc hinv.hq (hinv.lt i (List.mem_cons_self _ _)))
      have h6 := h1.symm.trans (queue_point_free nlanes mask cap
        (iterate_amd nlanes) { ps with ab_in := (a, b) } ptr mem
        i fs hc hinv.hq (hinv.lt i (List.mem_cons_self _ _)))
      rw [(Prod.mk.inj (Option.some.inj this)).1, (Prod.mk.inj (Option.some.inj h6)).1]
    rw [h5] at h4
    exact ⟨ps1, mem, fs, i, 0, [], h1, h4, h2, h3⟩

theorem batch_run (nlanes mask cap : Nat)
    (hc : (nlanes = 4 ∧ mask = 3) ∨ (nlanes = 8 ∧ mask = 7)) (hcap : cap < 4294967296) :
    ∀ (pts done : List (ℚ × ℚ × Int)) (ps : man_pointstruct) (mem : List mem_write)
      (fs : List Nat), batch_inv nlanes cap fs done ps mem →
      ∃ (ps1 : man_pointstruct) (mem1 : List mem_write) (fs1 : List Nat),
        queue_points (queue_point_sse nlanes mask cap (iterate_amd nlanes)) pts ps mem =
          some (ps1, mem1) ∧
        queue_points (queue_point_sse nlanes mask cap
          (checked_kernel nlanes cap (iterate_amd nlanes))) pts ps mem = some (ps1, mem1) ∧
        batch_inv nlanes cap fs1 (done ++ pts) ps1 mem1 := by
  intro pts
  induction pts with
  | nil =>
    intro done ps mem fs h
    exact ⟨ps, mem, fs, rfl, rfl, by simpa using h⟩
  | cons p rest ih =>
    intro done ps mem fs h
    obtain ⟨ps1, mem1, fs1, i, e, R, h1, h2, h3, -⟩ :=
      batch_step nlanes mask cap ps p.1 p.2.1 p.2.2 mem done fs hc hcap h
    obtain ⟨ps2, mem2, fs2, k1, k2, k3⟩ := ih (done ++ [(p.1, p.2.1, p.2.2)]) ps1 mem1 fs1 h3
    refine ⟨ps2, mem2, fs2, ?_, ?_, by simpa using k3⟩
    · simp only [queue_points, h1, Option.some_bind]
      exact k1
    · simp only [queue_points, h2, Option.some_bind]
      exact k2

theorem batch_inv_init (nlanes cap : Nat) (ps : man_pointstruct)
    (hq : ps.queue_status = free_code (List.range nlanes)) (hcur : ps.cur_max_iters = cap)
    (heven : cap % 2 = 0) (h2 : 2 ≤ cap) : batch_inv nlanes cap (List.range nlanes) [] ps [] := by
  refine ⟨hq, List.nodup_range _, fun i hi => List.mem_range.mp hi, ?_, ?_, ?_, Or.inl hcur,
    fun i hi hn => absurd (List.mem_range.mpr hi) hn, fun p v hv => by simp at hv⟩
  · rw [hcur]; exact heven
  · rw [hcur]; exact h2
  · rw [hcur]

theorem batch_inv_ab_in (nlanes cap : Nat) (fs : List Nat) (pts : List (ℚ × ℚ × Int))
    (ps : man_pointstruct) (mem : List mem_write) (ab : ℚ × ℚ)
    (h : batch_inv nlanes cap fs pts ps mem) :
    batch_inv nlanes cap fs pts { ps with ab_in := ab } mem :=
  ⟨h.hq, h.nodup, h.lt, h.beven, h.bpos, h.ble, h.reach,
    fun i hi hf => ⟨(h.lanes i hi hf).ok, (h.lanes i hi hf).even, (h.lanes i hi hf).le,
      (h.lanes i hi hf).tested, (h.lanes i hi hf).queued⟩, h.stores⟩

theorem free_code_inj : ∀ (fs gs : List Nat), (∀ i ∈ fs, i < 8) → (∀ i ∈ gs, i < 8) →
    free_code fs = free_code gs → fs = gs
  | [], [], _, _, _ => rfl
  | [], j :: gs, _, _, h => by
    have := free_code_ge gs
    simp only [free_code, QUEUE_FULL] at h
    omega
  | i :: fs, [], _, _, h => by
    have := free_code_ge fs
    simp only [free_code, QUEUE_FULL] at h
    omega
  | i :: fs, j :: gs, hf, hg, h => by
    have hi := hf i (List.mem_cons_self _ _)
    have hj := hg j (List.mem_cons_self _ _)
    simp only [free_code] at h
    have e1 : i = j := by omega
    have e2 : free_code fs = free_code gs := by omega
    rw [e1, free_code_inj fs gs (fun k hk => hf k (List.mem_cons_of_mem _ hk))
      (fun k hk => hg k (List.mem_cons_of_mem _ hk)) e2]

theorem dummy_mag (n : Nat) : mag2 (mandel_z 0 0 n) = 0 := by
  have h : mandel_z 0 0 n = (0, 0) := by
    induction n with
    | zero => rfl
    | succ n ih => simp [mandel_z, ih]
  rw [h]
  simp [mag2]

theorem flush_step (nlanes cap : Nat) (d : Int) (k : Nat) (fs D fs1 R : List Nat)
    (ps ps1 : man_pointstruct) (i e : Nat)
    (hf : flush_inv nlanes d (k + 1) fs D ps)
    (hs : step_info nlanes cap fs ps 0 0 d fs1 ps1 i e R) :
    ∃ D1, flush_inv nlanes d k fs1 D1 ps1 := by
  obtain ⟨f1, f2, f3, f4⟩ := hf
  obtain ⟨s1, s2, s3, s4, s5, s6, s7, s8⟩ := hs
  rcases s8 with ⟨rfl, rfl, rfl⟩ | ⟨rfl, rfl, -, hRn, hRl, hle, hiff⟩
  · refine ⟨i :: D, ⟨?_, ?_, ?_, ?_⟩⟩
    · intro j hj
      rcases List.mem_cons.mp hj with rfl | hj
      · exact ⟨s1, s2⟩
      · exact ⟨(f1 j hj).1, fun h => (f1 j hj).2 (List.mem_cons_of_mem _ h)⟩
    · intro j hj
      rcases List.mem_cons.mp hj with rfl | hj
      · exact ⟨s3, s4, s5⟩
      · have hji : j ≠ i := fun h => (f1 j hj).2 (h ▸ List.mem_cons_self _ _)
        obtain ⟨k1, k2, k3, -⟩ := s7 j (f1 j hj).1 hji
        rw [k1, k2, k3]
        exact f2 j hj
    · intro j hj r hr hrf hrD
      have hri : r ≠ i := fun h => hrD (h ▸ List.mem_cons_self _ _)
      have hrD2 : r ∉ D := fun h => hrD (List.mem_cons_of_mem _ h)
      have hrf2 : r ∉ i :: fs1 := by
        intro h
        rcases List.mem_cons.mp h with h | h
        · exact hri h
        · exact hrf h
      rcases List.mem_cons.mp hj with rfl | hj
      · rw [s6]
        exact Nat.zero_le _
      · have hji : j ≠ i := fun h => (f1 j hj).2 (h ▸ List.mem_cons_self _ _)
        rw [(s7 j (f1 j hj).1 hji).2.2.2 (f1 j hj).2, (s7 r hr hri).2.2.2 hrf2]
        have := f3 j hj r hr hrf2 hrD2
        omega
    · rcases f4 with h | h
      · left
        intro r hr hrf
        by_cases hri : r = i
        · rw [hri]
          exact List.mem_cons_self _ _
        · refine List.mem_cons_of_mem _ (h r hr ?_)
          intro h2
          rcases List.mem_cons.mp h2 with h2 | h2
          · exact hri h2
          · exact hrf h2
      · right
        have hset : (Finset.range nlanes).filter (fun r => r ∉ fs1 ∧ r ∉ i :: D) =
            (Finset.range nlanes).filter (fun r => r ∉ i :: fs1 ∧ r ∉ D) := by
          apply Finset.filter_congr
          intro r _
          simp only [List.mem_cons, not_or]
          tauto
        rw [hset]
        simp only [List.length_cons] at h
        omega
  · have hiR : i ∈ i :: fs1 := List.mem_cons_self _ _
    have hfilt : ∀ j, j ∈ D.filter (fun j => j ∉ i :: fs1) ↔ j ∈ D ∧ j ∉ i :: fs1 := by
      intro j
      simp [List.mem_filter]
    refine ⟨i :: D.filter (fun j => j ∉ i :: fs1), ⟨?_, ?_, ?_, ?_⟩⟩
    · intro j hj
      rcases List.mem_cons.mp hj with rfl | hj
      · exact ⟨s1, s2⟩
      · obtain ⟨h1, h2⟩ := (hfilt j).mp hj
        exact ⟨(f1 j h1).1, fun h => h2 (List.mem_cons_of_mem _ h)⟩
    · intro j hj
      rcases List.mem_cons.mp hj with rfl | hj
      · exact ⟨s3, s4, s5⟩
      · obtain ⟨h1, h2⟩ := (hfilt j).mp hj
        have hji : j ≠ i := fun h => h2 (h ▸ hiR)
        obtain ⟨k1, k2, k3, -⟩ := s7 j (f1 j h1).1 hji
        rw [k1, k2, k3]
        exact f2 j h1
    · intro j hj r hr hrf hrD
      have hri : r ≠ i := fun h => hrD (h ▸ List.mem_cons_self _ _)
      have hrR : r ∉ i :: fs1 := by
        intro h
        rcases List.mem_cons.mp h with h | h
        · exact hri h
        · exact hrf h
      have hrD2 : r ∉ D := fun h => hrD (List.mem_cons_of_mem _ ((hfilt r).mpr ⟨h, hrR⟩))
      rcases List.mem_cons.mp hj with rfl | hj
      · rw [s6]
        exact Nat.zero_le _
      · obtain ⟨h1, h2⟩ := (hfilt j).mp hj
        have hji : j ≠ i := fun h => h2 (h ▸ hiR)
        rw [(s7 j (f1 j h1).1 hji).2.2.2 (List.not_mem_nil j),
          (s7 r hr hri).2.2.2 (List.not_mem_nil r)]
        have := f3 j h1 r hr (List.not_mem_nil r) hrD2
        omega
    · by_cases hdr : ∃ j, j ∈ D ∧ j ∈ i :: fs1
      · left
        intro r hr hrf
        by_cases hri : r = i
        · rw [hri]
          exact List.mem_cons_self _ _
        · have hrR : r ∉ i :: fs1 := by
            intro h
            rcases List.mem_cons.mp h with h | h
            · exact hri h
            · exact hrf h
          by_contra hrD1
          have hrD : r ∉ D := fun h => hrD1 (List.mem_cons_of_mem _ ((hfilt r).mpr ⟨h, hrR⟩))
          obtain ⟨j, hjD, hjR⟩ := hdr
          have hj := (hiff j (f1 j hjD).1).mp hjR
          rw [(f2 j hjD).1, (f2 j hjD).2.1, dummy_mag] at hj
          rcases hj with hj | hj
          · norm_num at hj
          · have h1 := f3 j hjD r hr (List.not_mem_nil r) hrD
            have h2 := hle r hr
            exact hrR ((hiff r hr).mpr (Or.inr (by omega)))
      · right
        rcases f4 with h | h
        · exact absurd ⟨i, h i s1 (List.not_mem_nil i), hiR⟩ hdr
        · simp only [List.length_nil, Nat.add_zero] at h
          have hsub : (Finset.range nlanes).filter
                (fun r => r ∉ fs1 ∧ r ∉ i :: D.filter (fun j => j ∉ i :: fs1)) ∪
              (i :: fs1).toFinset ⊆
              (Finset.range nlanes).filter (fun r => r ∉ ([] : List Nat) ∧ r ∉ D) := by
            intro r hr
            rcases Finset.mem_union.mp hr with h1 | h1
            · obtain ⟨hr1, hr2, hr3⟩ := Finset.mem_filter.mp h1
              have hri : r ≠ i := fun h => hr3 (h ▸ List.mem_cons_self _ _)
              have hrR : r ∉ i :: fs1 := by
                intro h
                rcases List.mem_cons.mp h with h | h
                · exact hri h
                · exact hr2 h
              exact Finset.mem_filter.mpr ⟨hr1, List.not_mem_nil r,
                fun h => hr3 (List.mem_cons_of_mem _ ((hfilt r).mpr ⟨h, hrR⟩))⟩
            · have h2 := List.mem_toFinset.mp h1
              exact Finset.mem_filter.mpr ⟨Finset.mem_range.mpr (hRl r h2),
                List.not_mem_nil r, fun h => hdr ⟨r, h, h2⟩⟩
          have hdis : Disjoint ((Finset.range nlanes).filter
                (fun r => r ∉ fs1 ∧ r ∉ i :: D.filter (fun j => j ∉ i :: fs1)))
              (i :: fs1).toFinset := by
            rw [Finset.disjoint_left]
            intro r h1 h2
            obtain ⟨-, hr2, hr3⟩ := Finset.mem_filter.mp h1
            rcases List.mem_cons.mp (List.mem_toFinset.mp h2) with h3 | h3
            · exact hr3 (h3 ▸ List.mem_cons_self _ _)
            · exact hr2 h3
          have hcard := Finset.card_le_card hsub
          rw [Finset.card_union_of_disjoint hdis, List.toFinset_card_of_nodup hRn] at hcard
          simp only [List.length_cons] at hcard
          omega

theorem flush_inv_init (nlanes : Nat) (d : Int) (fs : List Nat) (ps : man_pointstruct)
    (hn : fs.Nodup) (hlt : ∀ i ∈ fs, i < nlanes) : flush_inv nlanes d nlanes fs [] ps := by
  refine ⟨fun j hj => absurd hj (List.not_mem_nil j), fun j hj => absurd hj (List.not_mem_nil j),
    fun j hj => absurd hj (List.not_mem_nil j), Or.inr ?_⟩
  have hsub : (Finset.range nlanes).filter (fun r => r ∉ fs ∧ r ∉ ([] : List Nat)) ∪
      fs.toFinset ⊆ Finset.range nlanes := by
    intro r hr
    rcases Finset.mem_union.mp hr with h1 | h1
    · exact (Finset.mem_filter.mp h1).1
    · exact Finset.mem_range.mpr (hlt r (List.mem_toFinset.mp h1))
  have hdis : Disjoint ((Finset.range nlanes).filter (fun r => r ∉ fs ∧ r ∉ ([] : List Nat)))
      fs.toFinset := by
    rw [Finset.disjoint_left]
    intro r h1 h2
    exact (Finset.mem_filter.mp h1).2.1 (List.mem_toFinset.mp h2)
  have hcard := Finset.card_le_card hsub
  rw [Finset.card_union_of_disjoint hdis, List.toFinset_card_of_nodup hn,
    Finset.card_range] at hcard
  exact hcard

theorem flush_run (nlanes mask cap : Nat) (d : Int)
    (hc : (nlanes = 4 ∧ mask = 3) ∨ (nlanes = 8 ∧ mask = 7)) (hcap : cap < 4294967296) :
    ∀ (n : Nat) (done : List (ℚ × ℚ × Int)) (ps : man_pointstruct) (mem : List mem_write)
      (fs D : List Nat), batch_inv nlanes cap fs done ps mem → flush_inv nlanes d n fs D ps →
      ∃ (ps1 : man_pointstruct) (mem1 : List mem_write) (fs1 D1 : List Nat),
        queue_points (queue_point_sse nlanes mask cap (iterate_amd nlanes))
          (List.replicate n (0, 0, d)) ps mem = some (ps1, mem1) ∧
        queue_points (queue_point_sse nlanes mask cap
          (checked_kernel nlanes cap (iterate_amd nlanes)))
          (List.replicate n (0, 0, d)) ps mem = some (ps1, mem1) ∧
        batch_inv nlanes cap fs1 (done ++ List.replicate n (0, 0, d)) ps1 mem1 ∧
        flush_inv nlanes d 0 fs1 D1 ps1 := by
  intro n
  induction n with
  | zero =>
    intro done ps mem fs D h hf
    exact ⟨ps, mem, fs, D, rfl, rfl, by simpa using h, hf⟩
  | succ n ih =>
    intro done ps mem fs D h hf
    obtain ⟨ps1, mem1, fs1, i, e, R, h1, h2, h3, h4⟩ :=
      batch_step nlanes mask cap ps 0 0 d mem done fs hc hcap h
    obtain ⟨D1, hf1⟩ := flush_step nlanes cap d n fs D fs1 R ps ps1 i e hf h4
    obtain ⟨ps2, mem2, fs2, D2, k1, k2, k3, k4⟩ :=
      ih (done ++ [(0, 0, d)]) ps1 mem1 fs1 D1 h3 hf1
    refine ⟨ps2, mem2, fs2, D2, ?_, ?_, ?_, k4⟩
    · simp only [List.replicate_succ, queue_points, h1, Option.some_bind]
      exact k1
    · simp only [List.replicate_succ, queue_points, h2, Option.some_bind]
      exact k2
    · simpa [List.replicate_succ] using k3

theorem flush_done (nlanes : Nat) (d : Int) (fs D : List Nat) (ps : man_pointstruct)
    (hf : flush_inv nlanes d 0 fs D ps) :
    ∃ k, k ≤ nlanes ∧ in_flight_slots nlanes fs ps = List.replicate k d := by
  have hall : ∀ r, r < nlanes → r ∉ fs → ps.iters_ptr r = d := by
    intro r hr hrf
    rcases hf.count with h | h
    · exact (hf.dummy r (h r hr hrf)).2.2
    · have h0 : ((Finset.range nlanes).filter (fun r => r ∉ fs ∧ r ∉ D)).card = 0 := by omega
      have hrD : r ∈ D := by
        by_contra hrD
        have hmem : r ∈ (Finset.range nlanes).filter (fun r => r ∉ fs ∧ r ∉ D) :=
          Finset.mem_filter.mpr ⟨Finset.mem_range.mpr hr, hrf, hrD⟩
        rw [Finset.card_eq_zero.mp h0] at hmem
        exact absurd hmem (Finset.not_mem_empty r)
      exact (hf.dummy r hrD).2.2
  refine ⟨((List.range nlanes).filter (fun i => i ∉ fs)).length, ?_, ?_⟩
  · have := List.length_filter_le (fun i => decide (i ∉ fs)) (List.range nlanes)
    rw [List.length_range] at this
    exact this
  · unfold in_flight_slots
    rw [List.eq_replicate_iff]
    refine ⟨by simp, ?_⟩
    intro p hp
    obtain ⟨r, hr, hrp⟩ := List.mem_map.mp hp
    obtain ⟨hr1, hr2⟩ := List.mem_filter.mp hr
    rw [← hrp]
    exact hall r (List.mem_range.mp hr1) (by simpa using hr2)

theorem flush_total (nlanes mask cap : Nat) (precision : Int) (d : Int)
    (pts : List (ℚ × ℚ × Int)) (ps0 : man_pointstruct)
    (hc : (nlanes = 4 ∧ mask = 3 ∧ precision = PRECISION_DOUBLE) ∨
      (nlanes = 8 ∧ mask = 7 ∧ precision = PRECISION_SINGLE))
    (heven : cap % 2 = 0) (h2 : 2 ≤ cap) (hcap : cap < 4294967296)
    (hq : ps0.queue_status = queue_init precision) (hcur : ps0.cur_max_iters = cap) :
    ∃ (ps : man_pointstruct) (mem : List mem_write) (fs : List Nat) (k : Nat),
      (queue_points (queue_point_sse nlanes mask cap (iterate_amd nlanes)) pts ps0 []).bind
        (fun s => flush_queue precision (queue_point_sse nlanes mask cap (iterate_amd nlanes))
          d s.1 s.2) = some (ps, mem) ∧
      batch_inv nlanes cap fs (pts ++ List.replicate nlanes (0, 0, d)) ps mem ∧
      k ≤ nlanes ∧
      (stored_slots mem).Perm (pts.map (fun p => p.2.2) ++ List.replicate k d) := by
  have hc2 : (nlanes = 4 ∧ mask = 3) ∨ (nlanes = 8 ∧ mask = 7) := by
    rcases hc with ⟨h, h1, -⟩ | ⟨h, h1, -⟩
    · exact Or.inl ⟨h, h1⟩
    · exact Or.inr ⟨h, h1⟩
  have hL8 : nlanes ≤ 8 := by
    rcases hc2 with ⟨h, -⟩ | ⟨h, -⟩ <;> omega
  have hrep : (if precision = PRECISION_SINGLE then 8 else 4) = nlanes := by
    rcases hc with ⟨h, -, hp⟩ | ⟨h, -, hp⟩
    · rw [hp, h]
      decide
    · rw [hp, h]
      decide
  have hq0 : ps0.queue_status = free_code (List.range nlanes) := by
    rcases hc with ⟨h, -, hp⟩ | ⟨h, -, hp⟩
    · rw [hq, hp, h, queue_init_code.1]
      rfl
    · rw [hq, hp, h, queue_init_code.2]
      rfl
  have hb0 := batch_inv_init nlanes cap ps0 hq0 hcur heven h2
  obtain ⟨ps1, mem1, fs1, r1, r2, r3⟩ := batch_run nlanes mask cap hc2 hcap pts [] ps0 [] _ hb0
  simp only [List.nil_append] at r3
  have hqi1 := queue_inv_run nlanes mask cap (iterate_amd nlanes) hc2 pts [] ps0 []
    (ps1, mem1) (queue_inv_init nlanes ps0 hq0) r2
  simp only [List.nil_append] at hqi1
  have hf0 := flush_inv_init nlanes d fs1 ({ ps1 with ab_in := (0, 0) } : man_pointstruct)
    r3.nodup r3.lt
  obtain ⟨ps2, mem2, fs2, D2, k1, k2, k3, k4⟩ := flush_run nlanes mask cap d hc2 hcap nlanes pts
    { ps1 with ab_in := (0, 0) } mem1 fs1 [] (batch_inv_ab_in nlanes cap fs1 pts ps1 mem1 _ r3)
    hf0
  have hqi1b : queue_inv nlanes pts ({ ps1 with ab_in := (0, 0) } : man_pointstruct) mem1 :=
    hqi1
  have hqi2 := queue_inv_run nlanes mask cap (iterate_amd nlanes) hc2
    (List.replicate nlanes (0, 0, d)) pts _ mem1 (ps2, mem2) hqi1b k2
  obtain ⟨k, hk, hfl⟩ := flush_done nlanes d fs2 D2 ps2 k4
  refine ⟨ps2, mem2, fs2, nlanes - k, ?_, k3, by omega, ?_⟩
  · rw [r1, Option.some_bind]
    unfold flush_queue
    rw [hrep]
    exact k1
  · obtain ⟨fs, g1, g2, g3, g4, -⟩ := hqi2
    have hfs : fs = fs2 := free_code_inj fs fs2 (fun i hi => by have := g3 i hi; omega)
      (fun i hi => by have := k3.lt i hi; omega) (g1.symm.trans k3.hq)
    rw [hfs, hfl] at g4
    simp only [List.map_append, List.map_replicate] at g4
    have hsplit : List.replicate nlanes d =
        List.replicate k d ++ List.replicate (nlanes - k) d := by
      rw [List.append_replicate_replicate]
      congr 1
      omega
    rw [hsplit] at g4
    have g5 : (List.replicate k d ++
        (pts.map (fun p => p.2.2) ++ List.replicate (nlanes - k) d)).Perm
        (List.replicate k d ++ stored_slots mem2) := by
      refine List.Perm.trans ?_ g4
      rw [← List.append_assoc, ← List.append_assoc]
      exact List.Perm.append_right _ List.perm_append_comm
    exact ((List.perm_append_left_iff _).mp g5).symm

theorem stored_slots_mem (mem : List mem_write) (p : Int) (h : p ∈ stored_slots mem) :
    ∃ v, mem_write.iters p v ∈ mem := by
  unfold stored_slots at h
  obtain ⟨w, hw, hp⟩ := List.mem_filterMap.mp h
  cases w with
  | iters q v =>
    simp only [Option.some.injEq] at hp
    subst hp
    exact ⟨v, hw⟩
  | mag q v => simp at hp

/-- C17.  In exact arithmetic, for every even cap from 2 on, every list of points with
distinct output addresses queued through `queue_4point_sse2` with the kernel
`iterate_amd_sse2` from the state that `man_setup` installs, followed by the flush of
`man_calculate_threaded` with a dummy address `d` that is not an output address of a point:
the calls return, and for every point an iteration count is stored at its output address,
every count stored there is the same, and it is the count that `queue_point_c` with
`iterate_c` stores for this point. -/
theorem queue_4point_sse2_scalar_count (cap : Nat) (pts : List (ℚ × ℚ × Int)) (d : Int)
    (ps0 : man_pointstruct) (heven : cap % 2 = 0) (h2 : 2 ≤ cap)
    (hcap : cap + 1 < 4294967296)
    (hq : ps0.queue_status = queue_init PRECISION_DOUBLE) (hcur : ps0.cur_max_iters = cap)
    (hnd : (pts.map (fun p => p.2.2)).Nodup) (hd : d ∉ pts.map (fun p => p.2.2)) :
    ∃ (ps : man_pointstruct) (mem : List mem_write),
      (queue_points (queue_4point_sse2 cap iterate_amd_sse2) pts ps0 []).bind
        (fun s => flush_queue PRECISION_DOUBLE (queue_4point_sse2 cap iterate_amd_sse2)
          d s.1 s.2) = some (ps, mem) ∧
      ∀ q, q ∈ pts → ∃ v, mem_write.iters q.2.2 v ∈ mem ∧
        (∀ w, mem_write.iters q.2.2 w ∈ mem → w = v) ∧
        ∀ (w1 w2 : ℚ) (qs : man_pointstruct) (mem0 : List mem_write),
          qs.cur_max_iters = cap →
          ∃ (qs1 : man_pointstruct) (m : ℚ),
            queue_point_c cap iterate_c w1 w2 { qs with ab_in := (q.1, q.2.1) } q.2.2 mem0 =
              some (qs1, mem_write.mag q.2.2 m :: mem_write.iters q.2.2 v :: mem0) := by
  obtain ⟨ps, mem, fs, k, hrun, hinv, -, hperm⟩ := flush_total 4 3 cap PRECISION_DOUBLE d pts ps0
    (Or.inl ⟨rfl, rfl, rfl⟩) heven h2 (by omega) hq hcur
  refine ⟨ps, mem, hrun, ?_⟩
  intro q hq
  have hcm : ∀ w, mem_write.iters q.2.2 w ∈ mem → commits cap q.1 q.2.1 w := by
    intro w hw
    obtain ⟨a, b, hab, hc⟩ := hinv.stores q.2.2 w hw
    rcases List.mem_append.mp hab with h | h
    · have := List.inj_on_of_nodup_map hnd h hq rfl
      rw [← this]
      exact hc
    · have := (List.eq_of_mem_replicate h)
      have h3 : q.2.2 = d := (Prod.mk.inj (Prod.mk.inj this).2).2
      exact absurd (h3 ▸ List.mem_map_of_mem (fun p => p.2.2) hq) hd
  have hmem : q.2.2 ∈ stored_slots mem :=
    hperm.symm.subset (List.mem_append_left _ (List.mem_map_of_mem (fun p => p.2.2) hq))
  obtain ⟨v, hv⟩ := stored_slots_mem mem q.2.2 hmem
  refine ⟨v, hv, fun w hw => commits_unique cap q.1 q.2.1 w v (hcm w hw) (hcm v hv), ?_⟩
  intro w1 w2 qs mem0 hqs
  obtain ⟨qs1, m, v1, hs, hc1⟩ := queue_point_c_commits cap w1 w2
    { qs with ab_in := (q.1, q.2.1) } q.2.2 mem0 (by omega) hcap hqs
  have hv1 : v1 = v := commits_unique cap q.1 q.2.1 v1 v hc1 (hcm v hv)
  rw [hv1] at hs
  exact ⟨qs1, m, hs⟩

/-- Witness for C17: six points queued under the cap 1000 with the dummy address 6. -/
theorem queue_4point_sse2_scalar_count_witness :
    ∃ (ps : man_pointstruct) (mem : List mem_write),
      (queue_points (queue_4point_sse2 1000 iterate_amd_sse2) example_points
          (example_queue PRECISION_DOUBLE 1000) []).bind
        (fun s => flush_queue PRECISION_DOUBLE (queue_4point_sse2 1000 iterate_amd_sse2)
          6 s.1 s.2) = some (ps, mem) ∧
      ∀ q, q ∈ example_points → ∃ v, mem_write.iters q.2.2 v ∈ mem ∧
        (∀ w, mem_write.iters q.2.2 w ∈ mem → w = v) ∧
        ∀ (w1 w2 : ℚ) (qs : man_pointstruct) (mem0 : List mem_write),
          qs.cur_max_iters = 1000 →
          ∃ (qs1 : man_pointstruct) (m : ℚ),
            queue_point_c 1000 iterate_c w1 w2 { qs with ab_in := (q.1, q.2.1) } q.2.2 mem0 =
              some (qs1, mem_write.mag q.2.2 m :: mem_write.iters q.2.2 v :: mem0) :=
  queue_4point_sse2_scalar_count 1000 example_points 6 (example_queue PRECISION_DOUBLE 1000)
    (by decide) (by decide) (by decide) rfl rfl (by decide) (by decide)

/-- Witness for C18: six points queued through `queue_4point_sse2` with the kernel
`iterate_amd_sse2`, whose calls satisfy the assumption on the kernel. -/
theorem queue_free_slots_witness :
    ∃ (ps : man_pointstruct) (mem : List mem_write),
      queue_points (queue_4point_sse2 1000 (checked_kernel 4 1000 iterate_amd_sse2))
        example_points (example_queue PRECISION_DOUBLE 1000) [] = some (ps, mem) ∧
      queue_inv 4 example_points ps mem ∧
      example_points.length ≤ (stored_slots mem).length + 4 := by
  obtain ⟨ps, mem, fs, -, h, -⟩ := batch_run 4 3 1000 (Or.inl ⟨rfl, rfl⟩) (by decide)
    example_points [] (example_queue PRECISION_DOUBLE 1000) [] (List.range 4)
    (batch_inv_init 4 1000 _ rfl rfl (by decide) (by decide))
  exact ⟨ps, mem, h, (queue_free_slots iterate_amd_sse2 1000 example_points
    (example_queue PRECISION_DOUBLE 1000) ps mem).1 rfl h⟩

/-- C19.  In exact arithmetic, for every even cap from 2 on and every list of points queued
through `queue_4point_sse2` with `iterate_amd_sse2` (resp. `queue_8point_sse` with
`iterate_amd_sse`) from the state that `man_setup` installs: the calls and the flush of
`man_calculate_threaded` with 4 (resp. 8) dummy points return; the addresses of the iteration
count stores made are, up to order, the output addresses of all the points queued together
with `k` times the dummy address, for some `k` up to 4 (resp. 8); so every point has a count
stored at its output address; and every count stored is the count that the scalar path
commits for a queued point (or the dummy point) with that address. -/
theorem flush_queue_commits (cap : Nat) (pts : List (ℚ × ℚ × Int)) (d : Int)
    (ps0 : man_pointstruct) (heven : cap % 2 = 0) (h2 : 2 ≤ cap) (hcap : cap < 4294967296)
    (hcur : ps0.cur_max_iters = cap) :
    (ps0.queue_status = queue_init PRECISION_DOUBLE →
      ∃ (ps : man_pointstruct) (mem : List mem_write) (k : Nat),
        (queue_points (queue_4point_sse2 cap iterate_amd_sse2) pts ps0 []).bind
          (fun s => flush_queue PRECISION_DOUBLE (queue_4point_sse2 cap iterate_amd_sse2)
            d s.1 s.2) = some (ps, mem) ∧
        k ≤ 4 ∧
        (stored_slots mem).Perm (pts.map (fun p => p.2.2) ++ List.replicate k d) ∧
        (∀ q, q ∈ pts → ∃ v, mem_write.iters q.2.2 v ∈ mem) ∧
        ∀ p v, mem_write.iters p v ∈ mem →
          ∃ a b, (a, b, p) ∈ pts ++ List.replicate 4 (0, 0, d) ∧ commits cap a b v) ∧
    (ps0.queue_status = queue_init PRECISION_SINGLE →
      ∃ (ps : man_pointstruct) (mem : List mem_write) (k : Nat),
        (queue_points (queue_8point_sse cap iterate_amd_sse) pts ps0 []).bind
          (fun s => flush_queue PRECISION_SINGLE (queue_8point_sse cap iterate_amd_sse)
            d s.1 s.2) = some (ps, mem) ∧
        k ≤ 8 ∧
        (stored_slots mem).Perm (pts.map (fun p => p.2.2) ++ List.replicate k d) ∧
        (∀ q, q ∈ pts → ∃ v, mem_write.iters q.2.2 v ∈ mem) ∧
        ∀ p v, mem_write.iters p v ∈ mem →
          ∃ a b, (a, b, p) ∈ pts ++ List.replicate 8 (0, 0, d) ∧ commits cap a b v) := by
  constructor
  · intro hq
    obtain ⟨ps, mem, fs, k, hrun, hinv, hk, hperm⟩ := flush_total 4 3 cap PRECISION_DOUBLE d pts
      ps0 (Or.inl ⟨rfl, rfl, rfl⟩) heven h2 hcap hq hcur
    exact ⟨ps, mem, k, hrun, hk, hperm, fun q hq => stored_slots_mem mem q.2.2
      (hperm.symm.subset (List.mem_append_left _ (List.mem_map_of_mem (fun p => p.2.2) hq))),
      hinv.stores⟩
  · intro hq
    obtain ⟨ps, mem, fs, k, hrun, hinv, hk, hperm⟩ := flush_total 8 7 cap PRECISION_SINGLE d pts
      ps0 (Or.inr ⟨rfl, rfl, rfl⟩) heven h2 hcap hq hcur
    exact ⟨ps, mem, k, hrun, hk, hperm, fun q hq => stored_slots_mem mem q.2.2
      (hperm.symm.subset (List.mem_append_left _ (List.mem_map_of_mem (fun p => p.2.2) hq))),
      hinv.stores⟩

/-- Witness for C19: six points queued under the cap 1000 through the 4-point queue and
through the 8-point queue, each from the state installed for its precision. -/
theorem flush_queue_commits_witness :
    (∃ (ps : man_pointstruct) (mem : List mem_write) (k : Nat),
      (queue_points (queue_4point_sse2 1000 iterate_amd_sse2) example_points
          (example_queue PRECISION_DOUBLE 1000) []).bind
        (fun s => flush_queue PRECISION_DOUBLE (queue_4point_sse2 1000 iterate_amd_sse2)
          6 s.1 s.2) = some (ps, mem) ∧
      k ≤ 4 ∧
      (stored_slots mem).Perm (example_points.map (fun p => p.2.2) ++ List.replicate k 6) ∧
      (∀ q, q ∈ example_points → ∃ v, mem_write.iters q.2.2 v ∈ mem) ∧
      ∀ p v, mem_write.iters p v ∈ mem →
        ∃ a b, (a, b, p) ∈ example_points ++ List.replicate 4 (0, 0, 6) ∧
          commits 1000 a b v) ∧
    (∃ (ps : man_pointstruct) (mem : List mem_write) (k : Nat),
      (queue_points (queue_8point_sse 1000 iterate_amd_sse) example_points
          (example_queue PRECISION_SINGLE 1000) []).bind
        (fun s => flush_queue PRECISION_SINGLE (queue_8point_sse 1000 iterate_amd_sse)
          6 s.1 s.2) = some (ps, mem) ∧
      k ≤ 8 ∧
      (stored_slots mem).Perm (example_points.map (fun p => p.2.2) ++ List.replicate k 6) ∧
      (∀ q, q ∈ example_points → ∃ v, mem_write.iters q.2.2 v ∈ mem) ∧
      ∀ p v, mem_write.iters p v ∈ mem →
        ∃ a b, (a, b, p) ∈ example_points ++ List.replicate 8 (0, 0, 6) ∧
          commits 1000 a b v) :=
  ⟨(flush_queue_commits 1000 example_points 6 (example_queue PRECISION_DOUBLE 1000)
      (by decide) (by decide) (by decide) rfl).1 rfl,
   (flush_queue_commits 1000 example_points 6 (example_queue PRECISION_SINGLE 1000)
      (by decide) (by decide) (by decide) rfl).2 rfl⟩

/-- C22.  The stripe mode as computed by lines 1750-1752: `ALG_EXACT` is added exactly when
`xend - xstart` or `yend - ystart` is below 2, that is when the stripe is at most 2 pixels
wide or at most 2 pixels high; in particular the stripe with `xstart = 0`, `xend = 1`,
`ystart = 0`, `yend = 9`, which is 2 pixels wide and 10 pixels high, is switched from
`ALG_FAST_ASM_AMD` (0) to exact mode. -/
theorem stripe_cur_alg_two_wide :
    (∀ (alg : Nat) (s : stripe), stripe_cur_alg alg s =
      if s.xend - s.xstart + 1 ≤ 2 ∨ s.yend - s.ystart + 1 ≤ 2 then alg ||| ALG_EXACT
      else alg) ∧
    stripe_cur_alg 0 ⟨0, 1, 0, 9⟩ &&& ALG_EXACT ≠ 0 := by
  refine ⟨?_, by decide⟩
  intro alg s
  unfold stripe_cur_alg FE_SWITCHOVER_THRESH
  by_cases h : s.xend - s.xstart < 2 ∨ s.yend - s.ystart < 2
  · rw [if_pos h, if_pos (by omega)]
  · rw [if_neg h, if_neg (by omega)]

theorem ploss_or (p : Nat) (d f : Bool) (hp : p = 0 ∨ p = 1 ∨ p = 3) :
    (p ||| check_precision_loss d f = 0 ∨ p ||| check_precision_loss d f = 1 ∨
      p ||| check_precision_loss d f = 3) ∧
    (p ||| check_precision_loss d f ≠ 0 ↔ (p ≠ 0 ∨ d = true ∨ f = true)) ∧
    (p ||| check_precision_loss d f = 3 ↔ (p = 3 ∨ d = true)) := by
  rcases hp with rfl | rfl | rfl <;> cases d <;> cases f <;> decide

theorem accumulate_ploss_foldl (samples : List (Bool × Bool)) :
    ∀ p : Nat, (p = 0 ∨ p = 1 ∨ p = 3) →
      (samples.foldl (fun ploss s => ploss ||| check_precision_loss s.1 s.2) p = 0 ∨
        samples.foldl (fun ploss s => ploss ||| check_precision_loss s.1 s.2) p = 1 ∨
        samples.foldl (fun ploss s => ploss ||| check_precision_loss s.1 s.2) p = 3) ∧
      (samples.foldl (fun ploss s => ploss ||| check_precision_loss s.1 s.2) p ≠ 0 ↔
        (p ≠ 0 ∨ ∃ s, s ∈ samples ∧ (s.1 = true ∨ s.2 = true))) ∧
      (samples.foldl (fun ploss s => ploss ||| check_precision_loss s.1 s.2) p = 3 ↔
        (p = 3 ∨ ∃ s, s ∈ samples ∧ s.1 = true)) := by
  induction samples with
  | nil =>
    intro p hp
    refine ⟨hp, ?_, ?_⟩ <;> simp
  | cons s rest ih =>
    intro p hp
    obtain ⟨hq, e1, e2⟩ := ploss_or p s.1 s.2 hp
    obtain ⟨h1, h2, h3⟩ := ih _ hq
    simp only [List.foldl_cons]
    refine ⟨h1, h2.trans ?_, h3.trans ?_⟩
    · rw [e1]
      simp only [List.mem_cons, exists_eq_or_imp, or_assoc]
    · rw [e2]
      simp only [List.mem_cons, exists_eq_or_imp, or_assoc]

theorem accumulate_ploss_spec (samples : List (Bool × Bool)) :
    (accumulate_ploss samples = 0 ∨ accumulate_ploss samples = 1 ∨
      accumulate_ploss samples = 3) ∧
    (accumulate_ploss samples ≠ 0 ↔ ∃ s, s ∈ samples ∧ (s.1 = true ∨ s.2 = true)) ∧
    (accumulate_ploss samples = 3 ↔ ∃ s, s ∈ samples ∧ s.1 = true) := by
  obtain ⟨h1, h2, h3⟩ := accumulate_ploss_foldl samples 0 (Or.inl rfl)
  refine ⟨h1, h2.trans (by simp), h3.trans (by simp)⟩

/-- C26.  For every list of coordinate samples, each given by the outcomes of the double and
of the float comparison of `check_precision_loss`, with `ploss` the OR of the results:
in automatic mode `man_setup` selects `PRECISION_DOUBLE` exactly when some sample shows float
loss and `PRECISION_SINGLE` otherwise; `precision_loss` is 0 or 1, it is 1 exactly when
double was selected and some sample shows double loss, and it is 0 whenever single was
selected. -/
theorem man_setup_precision_auto (samples : List (Bool × Bool)) :
    ((man_setup_precision PRECISION_AUTO (accumulate_ploss samples)).1 = PRECISION_DOUBLE ↔
      ∃ s, s ∈ samples ∧ check_precision_loss s.1 s.2 &&& PLOSS_FLOAT ≠ 0) ∧
    ((man_setup_precision PRECISION_AUTO (accumulate_ploss samples)).1 = PRECISION_SINGLE ↔
      ¬ ∃ s, s ∈ samples ∧ check_precision_loss s.1 s.2 &&& PLOSS_FLOAT ≠ 0) ∧
    ((man_setup_precision PRECISION_AUTO (accumulate_ploss samples)).2 = 1 ↔
      ((man_setup_precision PRECISION_AUTO (accumulate_ploss samples)).1 = PRECISION_DOUBLE ∧
        ∃ s, s ∈ samples ∧ check_precision_loss s.1 s.2 &&& PLOSS_DOUBLE ≠ 0)) ∧
    ((man_setup_precision PRECISION_AUTO (accumulate_ploss samples)).1 = PRECISION_SINGLE →
      (man_setup_precision PRECISION_AUTO (accumulate_ploss samples)).2 = 0) ∧
    ((man_setup_precision PRECISION_AUTO (accumulate_ploss samples)).2 = 0 ∨
      (man_setup_precision PRECISION_AUTO (accumulate_ploss samples)).2 = 1) := by
  obtain ⟨h1, h2, h3⟩ := accumulate_ploss_spec samples
  have hf : (∃ s, s ∈ samples ∧ check_precision_loss s.1 s.2 &&& PLOSS_FLOAT ≠ 0) ↔
      ∃ s, s ∈ samples ∧ (s.1 = true ∨ s.2 = true) := by
    refine exists_congr (fun s => and_congr_right (fun _ => ?_))
    rcases s with ⟨_ | _, _ | _⟩ <;> decide
  have hd : (∃ s, s ∈ samples ∧ check_precision_loss s.1 s.2 &&& PLOSS_DOUBLE ≠ 0) ↔
      ∃ s, s ∈ samples ∧ s.1 = true := by
    refine exists_congr (fun s => and_congr_right (fun _ => ?_))
    rcases s with ⟨_ | _, _ | _⟩ <;> decide
  rw [hf, hd, ← h2, ← h3]
  rcases h1 with h | h | h <;> rw [h] <;> decide

/-- C27.  With each allocation of `alloc_man_mem` either succeeding or failing: the return
value is 1 exactly when the iteration array, the magnitude array and the two coordinate
arrays were allocated and, if `FLAG_IS_SAVE` is set, the PNG buffer too; in every other case
it is 0. -/
theorem alloc_man_mem_result (flags : Nat) (width height : Int)
    (iter_ok mag_ok re_ok im_ok png_ok : Bool) :
    ((alloc_man_mem flags width height iter_ok mag_ok re_ok im_ok png_ok).2 = 1 ↔
      (iter_ok = true ∧ mag_ok = true ∧ re_ok = true ∧ im_ok = true ∧
        (flags &&& FLAG_IS_SAVE ≠ 0 → png_ok = true))) ∧
    ((alloc_man_mem flags width height iter_ok mag_ok re_ok im_ok png_ok).2 = 0 ↔
      ¬ (iter_ok = true ∧ mag_ok = true ∧ re_ok = true ∧ im_ok = true ∧
        (flags &&& FLAG_IS_SAVE ≠ 0 → png_ok = true))) := by
  unfold alloc_man_mem
  by_cases hf : flags &&& FLAG_IS_SAVE ≠ 0 <;>
    cases iter_ok <;> cases mag_ok <;> cases re_ok <;> cases im_ok <;> cases png_ok <;>
    simp [hf]

/-- C29.  The output slot of the dummy points of the flush is the entry `image_size` of
`iter_data`.  For a 700 by 700 image, allocated by `alloc_man_mem` with line size 702, this
is the entry of the image pixel (4, 698); for a 4 by 3 image it is the entry of the image
pixel (0, 2). -/
theorem flush_slot_is_pixel :
    ((alloc_man_mem 0 700 700 true true true true true).1.image_size =
        pixel_addr (alloc_man_mem 0 700 700 true true true true true).1.iter_data_line_size
          4 698 ∧ (4 : Int) < 700 ∧ (698 : Int) < 700) ∧
    ((alloc_man_mem 0 4 3 true true true true true).1.image_size =
        pixel_addr (alloc_man_mem 0 4 3 true true true true true).1.iter_data_line_size
          0 2 ∧ (0 : Int) < 4 ∧ (2 : Int) < 3) := by
  decide

theorem do_while_eq_fold {σ : Type} (inc lim : Int) (body : Int → σ → Option σ)
    (hinc : 1 ≤ inc) :
    ∀ (fuel : Nat) (x : Int) (s : σ), (lim - x).toNat + 1 ≤ fuel →
      do_while inc lim body fuel x s =
        (do_while_range inc lim fuel x).foldlM (fun s x => body x s) s := by
  intro fuel
  induction fuel with
  | zero =>
    intro x s h
    omega
  | succ fuel ih =>
    intro x s h
    simp only [do_while, do_while_range, List.foldlM_cons]
    cases hb : body x s with
    | none => rfl
    | some s1 =>
      simp only [Option.some_bind, Option.bind_eq_bind]
      by_cases hc : x + inc ≤ lim
      · rw [if_pos hc, if_pos hc]
        exact ih (x + inc) s1 (by omega)
      · rw [if_neg hc, if_neg hc]
        rfl

theorem do_while_range_mem (inc lim : Int) (hinc : 1 ≤ inc) :
    ∀ (fuel : Nat) (x v : Int), (lim - x).toNat + 1 ≤ fuel →
      (v ∈ do_while_range inc lim fuel x ↔
        (v = x ∨ (x < v ∧ v ≤ lim ∧ (v - x) % inc = 0))) := by
  intro fuel
  induction fuel with
  | zero =>
    intro x v h
    omega
  | succ fuel ih =>
    intro x v h
    simp only [do_while_range, List.mem_cons]
    by_cases hc : x + inc ≤ lim
    · rw [if_pos hc, ih (x + inc) v (by omega)]
      constructor
      · rintro (h1 | h1 | ⟨h1, h2, h3⟩)
        · exact Or.inl h1
        · refine Or.inr ⟨by omega, by omega, ?_⟩
          rw [h1]
          simp
        · refine Or.inr ⟨by omega, h2, ?_⟩
          have e : v - x = v - (x + inc) + inc := by ring
          rw [e, Int.add_emod_self]
          exact h3
      · rintro (h1 | ⟨h1, h2, h3⟩)
        · exact Or.inl h1
        · right
          have hge : x + inc ≤ v := by
            obtain ⟨k, hk⟩ := Int.dvd_of_emod_eq_zero h3
            have hk1 : 1 ≤ k := by
              by_contra hk0
              have : k ≤ 0 := by omega
              have : inc * k ≤ 0 := Int.mul_nonpos_of_nonneg_of_nonpos (by omega) this
              omega
            have : inc * 1 ≤ inc * k := Int.mul_le_mul_of_nonneg_left hk1 (by omega)
            omega
          rcases lt_or_eq_of_le hge with h4 | h4
          · refine Or.inr ⟨h4, h2, ?_⟩
            have e : v - x = v - (x + inc) + inc := by ring
            rw [e, Int.add_emod_self] at h3
            exact h3
          · exact Or.inl h4.symm
    · rw [if_neg hc]
      simp only [List.not_mem_nil, or_false]
      constructor
      · exact Or.inl
      · rintro (h1 | ⟨h1, h2, h3⟩)
        · exact h1
        · exfalso
          obtain ⟨k, hk⟩ := Int.dvd_of_emod_eq_zero h3
          have hk1 : 1 ≤ k := by
            by_contra hk0
            have : k ≤ 0 := by omega
            have : inc * k ≤ 0 := Int.mul_nonpos_of_nonneg_of_nonpos (by omega) this
            omega
          have : inc * 1 ≤ inc * k := Int.mul_le_mul_of_nonneg_left hk1 (by omega)
          omega

theorem foldlM_option_congr {α β : Type} (l : List α) (f g : β → α → Option β)
    (h : ∀ a, a ∈ l → ∀ b, f b a = g b a) : ∀ b, l.foldlM f b = l.foldlM g b := by
  induction l with
  | nil => intro b; rfl
  | cons a l ih =>
    intro b
    simp only [List.foldlM_cons]
    rw [h a (List.mem_cons_self _ _) b]
    cases g b a with
    | none => rfl
    | some c =>
      exact ih (fun a1 ha1 => h a1 (List.mem_cons_of_mem _ ha1)) c

theorem wave_inc_pos (wave : Nat) (h : wave < 7) : 1 ≤ wave_inc wave := by
  interval_cases wave <;> decide

theorem wave_pass_eq (m : man_calc_data) (s : stripe) (wave : Nat) (h : wave < 7)
    (r : thread_run) :
    wave_pass m s wave r = (wave_rows s wave).foldlM (fun r y =>
      (wave_cols s wave).foldlM (fun r x => wave_pixel m wave x y r) (load_im m y r)) r := by
  unfold wave_pass wave_rows
  rw [do_while_eq_fold (wave_inc wave) s.yend _ (wave_inc_pos wave h) _ _ r (le_refl _)]
  apply foldlM_option_congr
  intro y _ r1
  unfold wave_cols wave_pixel
  by_cases h0 : wave = 0
  · subst h0
    simp only [if_true]
    unfold wave0_line
    exact do_while_eq_fold (wave_inc 0) s.xend _ (by decide) _ _ _ (le_refl _)
  · simp only [if_neg h0]
    unfold wave_line
    by_cases hc : wave_xstart wave + s.xstart ≤ s.xend
    · simp only [if_pos hc]
      exact do_while_eq_fold (wave_inc wave) s.xend _ (wave_inc_pos wave h) _ _ _ (le_refl _)
    · simp only [if_neg hc]
      rfl

theorem wave_stripe_eq (m : man_calc_data) (s : stripe) (r : thread_run) :
    wave_stripe m s r = (List.range 7).foldlM (fun r wave =>
      (wave_rows s wave).foldlM (fun r y =>
        (wave_cols s wave).foldlM (fun r x => wave_pixel m wave x y r) (load_im m y r)) r) r := by
  unfold wave_stripe
  apply foldlM_option_congr
  intro wave hw r1
  exact wave_pass_eq m s wave (List.mem_range.mp hw) r1

theorem exact_stripe_eq (m : man_calc_data) (s : stripe) (r : thread_run) :
    exact_stripe m s r = (exact_rows s).foldlM (fun r y =>
      (exact_cols s).foldlM (fun r x => queue_pixel m x y r) (load_im m y r)) r := by
  unfold exact_stripe exact_rows
  rw [do_while_eq_fold 1 s.yend _ (le_refl _) _ _ r (le_refl _)]
  apply foldlM_option_congr
  intro y _ r1
  unfold exact_line exact_cols
  exact do_while_eq_fold 1 s.xend _ (le_refl _) _ _ _ (le_refl _)

theorem exact_rows_mem (s : stripe) (hy : s.ystart ≤ s.yend) (y : Int) :
    y ∈ exact_rows s ↔ (s.ystart ≤ y ∧ y ≤ s.yend) := by
  unfold exact_rows
  rw [do_while_range_mem 1 s.yend (le_refl _) _ _ y (le_refl _)]
  omega

theorem exact_cols_mem (s : stripe) (hx : s.xstart ≤ s.xend) (x : Int) :
    x ∈ exact_cols s ↔ (s.xstart ≤ x ∧ x ≤ s.xend) := by
  unfold exact_cols
  rw [do_while_range_mem 1 s.xend (le_refl _) _ _ x (le_refl _)]
  omega

theorem pixel_addr_inj (ls x1 y1 x2 y2 : Int) (h1 : 0 ≤ x1) (h2 : x1 < ls) (h3 : 0 ≤ x2)
    (h4 : x2 < ls) (h : pixel_addr ls x1 y1 = pixel_addr ls x2 y2) : x1 = x2 ∧ y1 = y2 := by
  unfold pixel_addr at h
  have e1 : (y1 * ls + x1) % ls = x1 := by
    rw [Int.add_comm, Int.add_mul_emod_self]
    exact Int.emod_eq_of_lt h1 h2
  have e2 : (y2 * ls + x2) % ls = x2 := by
    rw [Int.add_comm, Int.add_mul_emod_self]
    exact Int.emod_eq_of_lt h3 h4
  have hx : x1 = x2 := by
    rw [← e1, ← e2, h]
  refine ⟨hx, ?_⟩
  subst hx
  have h5 : y1 * ls = y2 * ls := by omega
  exact Int.eq_of_mul_eq_mul_right (by omega) h5

theorem retire_lane_append (cap : Nat) (ps : man_pointstruct) (max qs : Nat)
    (mem1 mem : List mem_write) (i : Nat) :
    retire_lane cap ps (max, qs, mem1 ++ mem) i =
      ((retire_lane cap ps (max, qs, mem1) i).1, (retire_lane cap ps (max, qs, mem1) i).2.1,
        (retire_lane cap ps (max, qs, mem1) i).2.2 ++ mem) := by
  unfold retire_lane
  dsimp only
  split_ifs <;> rfl

theorem retire_fold_append (cap : Nat) (ps : man_pointstruct) (l : List Nat) :
    ∀ (max qs : Nat) (mem1 mem : List mem_write),
      l.foldl (retire_lane cap ps) (max, qs, mem1 ++ mem) =
        ((l.foldl (retire_lane cap ps) (max, qs, mem1)).1,
          (l.foldl (retire_lane cap ps) (max, qs, mem1)).2.1,
          (l.foldl (retire_lane cap ps) (max, qs, mem1)).2.2 ++ mem) := by
  induction l with
  | nil => intro max qs mem1 mem; rfl
  | cons i l ih =>
    intro max qs mem1 mem
    simp only [List.foldl_cons]
    rw [retire_lane_append, ih]

theorem queue_point_sse_mem (nlanes mask cap : Nat)
    (K : man_pointstruct → Option (man_pointstruct × Nat)) :
    mem_independent (queue_point_sse nlanes mask cap K) := by
  intro ps ptr mem
  unfold queue_point_sse
  by_cases hfull : ps.queue_status = QUEUE_FULL
  · simp only [if_pos hfull]
    cases K ps with
    | none => rfl
    | some k =>
      simp only [Option.map_some']
      have h := retire_fold_append cap k.1 (List.range nlanes) 0 ps.queue_status [] mem
      simp only [List.nil_append] at h
      rw [h]
  · simp only [if_neg hfull, Option.map_some', List.nil_append]

theorem queue_points_mem
    (qp : man_pointstruct → Int → List mem_write → Option (man_pointstruct × List mem_write))
    (hqp : mem_independent qp) :
    ∀ (pts : List (ℚ × ℚ × Int)) (ps : man_pointstruct) (mem1 mem : List mem_write),
      queue_points qp pts ps (mem1 ++ mem) =
        (queue_points qp pts ps mem1).map (fun r => (r.1, r.2 ++ mem)) := by
  intro pts
  induction pts with
  | nil => intro ps mem1 mem; rfl
  | cons p pts ih =>
    intro ps mem1 mem
    simp only [queue_points]
    rw [hqp _ _ (mem1 ++ mem), hqp _ _ mem1]
    cases qp { ps with ab_in := (p.1, p.2.1) } p.2.2 [] with
    | none => rfl
    | some r =>
      simp only [Option.map_some', Option.some_bind]
      rw [← List.append_assoc]
      exact ih r.1 (r.2 ++ mem1) mem

theorem queue_points_append
    (qp : man_pointstruct → Int → List mem_write → Option (man_pointstruct × List mem_write)) :
    ∀ (pts1 pts2 : List (ℚ × ℚ × Int)) (ps : man_pointstruct) (mem : List mem_write),
      queue_points qp (pts1 ++ pts2) ps mem =
        (queue_points qp pts1 ps mem).bind (fun r => queue_points qp pts2 r.1 r.2) := by
  intro pts1
  induction pts1 with
  | nil => intro pts2 ps mem; rfl
  | cons p pts ih =>
    intro pts2 ps mem
    simp only [List.cons_append, queue_points]
    cases qp { ps with ab_in := (p.1, p.2.1) } p.2.2 mem with
    | none => rfl
    | some r =>
      simp only [Option.some_bind]
      exact ih pts2 r.1 r.2

theorem iterate_amd_loop_ab_in (nlanes : Nat) :
    ∀ (fuel : Nat) (ps : man_pointstruct) (r : xmm_regs) (eax ecx : Nat)
      (res : man_pointstruct × xmm_regs × Nat),
      iterate_amd_loop nlanes fuel ps r eax ecx = some res → res.1.ab_in = ps.ab_in := by
  intro fuel
  induction fuel with
  | zero =>
    intro ps r eax ecx res h
    simp [iterate_amd_loop] at h
  | succ fuel ih =>
    intro ps r eax ecx res h
    simp only [iterate_amd_loop] at h
    split_ifs at h with h1 h2 h3
    · have := ih _ _ _ _ res h
      rw [this]
      rfl
    · have := Option.some.inj h
      rw [← this]
      rfl
    · have := ih _ _ _ _ res h
      rw [this]
      rfl
    · have := Option.some.inj h
      rw [← this]
      rfl

theorem iterate_amd_ab_in (nlanes : Nat) (ps : man_pointstruct) (r : man_pointstruct × Nat)
    (h : iterate_amd nlanes ps = some r) : r.1.ab_in = ps.ab_in := by
  unfold iterate_amd at h
  obtain ⟨res, h1, h2⟩ := Option.map_eq_some'.mp h
  rw [← h2]
  exact iterate_amd_loop_ab_in nlanes _ ps _ _ _ res h1

theorem queue_point_sse_ab_in (nlanes mask cap : Nat) :
    keeps_ab_in (queue_point_sse nlanes mask cap (iterate_amd nlanes)) := by
  intro ps ptr mem r h
  unfold queue_point_sse at h
  by_cases hfull : ps.queue_status = QUEUE_FULL
  · simp only [if_pos hfull] at h
    cases hk : iterate_amd nlanes ps with
    | none => simp [hk] at h
    | some k =>
      simp only [hk, Option.map_some', Option.some.injEq] at h
      rw [← h]
      exact iterate_amd_ab_in nlanes ps k hk
  · simp only [if_neg hfull, Option.map_some', Option.some.injEq] at h
    rw [← h]
    rfl

theorem load_iters_append (iter_data : Int → Nat) (p : Int) :
    ∀ (new mem0 : List mem_write),
      (∃ w, mem_write.iters p w ∈ new ∧ load_iters iter_data (new ++ mem0) p = w) ∨
      ((∀ w, mem_write.iters p w ∉ new) ∧
        load_iters iter_data (new ++ mem0) p = load_iters iter_data mem0 p) := by
  intro new
  induction new with
  | nil =>
    intro mem0
    exact Or.inr ⟨fun w h => List.not_mem_nil _ h, rfl⟩
  | cons a new ih =>
    intro mem0
    cases a with
    | iters q v =>
      by_cases hq : q = p
      · subst hq
        left
        refine ⟨v, List.mem_cons_self _ _, ?_⟩
        simp [load_iters]
      · rcases ih mem0 with ⟨w, h1, h2⟩ | ⟨h1, h2⟩
        · left
          refine ⟨w, List.mem_cons_of_mem _ h1, ?_⟩
          simp only [List.cons_append, load_iters, if_neg hq]
          exact h2
        · right
          refine ⟨?_, ?_⟩
          · intro w hw
            rcases List.mem_cons.mp hw with h | h
            · injection h with e1 e2
              exact hq e1.symm
            · exact h1 w h
          · simp only [List.cons_append, load_iters, if_neg hq]
            exact h2
    | mag q v =>
      rcases ih mem0 with ⟨w, h1, h2⟩ | ⟨h1, h2⟩
      · left
        refine ⟨w, List.mem_cons_of_mem _ h1, ?_⟩
        simp only [List.cons_append, load_iters]
        exact h2
      · right
        refine ⟨?_, ?_⟩
        · intro w hw
          rcases List.mem_cons.mp hw with h | h
          · injection h
          · exact h1 w h
        · simp only [List.cons_append, load_iters]
          exact h2

theorem queue_points_ab_in
    (qp : man_pointstruct → Int → List mem_write → Option (man_pointstruct × List mem_write))
    (pts : List (ℚ × ℚ × Int)) (ps : man_pointstruct) (z : ℚ × ℚ) (mem : List mem_write)
    (h : pts ≠ []) :
    queue_points qp pts { ps with ab_in := z } mem = queue_points qp pts ps mem := by
  cases pts with
  | nil => exact absurd rfl h
  | cons p pts => rfl

theorem line_queue_points (m : man_calc_data) (hk : keeps_ab_in m.queue_point) (y : Int) :
    ∀ (cols : List Int) (r : thread_run), r.ps.ab_in.2 = m.img_im y →
      cols.foldlM (fun r x => queue_pixel m x y r) r =
        (queue_points m.queue_point
          (cols.map (fun x => (m.img_re x, m.img_im y, pixel_addr m.iter_data_line_size x y)))
          r.ps r.mem).map (fun q => ⟨q.1, q.2, r.points_guessed⟩) := by
  intro cols
  induction cols with
  | nil =>
    intro r _
    rfl
  | cons x cols ih =>
    intro r hab
    simp only [List.foldlM_cons, List.map_cons, queue_points, queue_pixel]
    rw [hab]
    cases hq : m.queue_point { r.ps with ab_in := (m.img_re x, m.img_im y) }
        (pixel_addr m.iter_data_line_size x y) r.mem with
    | none => rfl
    | some q =>
      simp only [Option.map_some', Option.some_bind, Option.bind_eq_bind]
      have hq2 := hk _ _ _ q hq
      have := ih ⟨q.1, q.2, r.points_guessed⟩ (by
        show q.1.ab_in.2 = m.img_im y
        rw [hq2])
      exact this

theorem exact_cols_ne_nil (s : stripe) : exact_cols s ≠ [] := by
  unfold exact_cols
  simp [do_while_range]

theorem fold_queue_points {α : Type}
    (qp : man_pointstruct → Int → List mem_write → Option (man_pointstruct × List mem_write))
    (g : α → List (ℚ × ℚ × Int)) (f : thread_run → α → Option thread_run)
    (l : List α)
    (hf : ∀ a, a ∈ l → ∀ r, f r a =
      (queue_points qp (g a) r.ps r.mem).map (fun q => ⟨q.1, q.2, r.points_guessed⟩)) :
    ∀ r, l.foldlM f r =
      (queue_points qp (l.flatMap g) r.ps r.mem).map
        (fun q => ⟨q.1, q.2, r.points_guessed⟩) := by
  induction l with
  | nil => intro r; rfl
  | cons a l ih =>
    intro r
    simp only [List.foldlM_cons, List.flatMap_cons]
    rw [hf a (List.mem_cons_self _ _) r, queue_points_append]
    cases queue_points qp (g a) r.ps r.mem with
    | none => rfl
    | some q =>
      simp only [Option.map_some', Option.some_bind, Option.bind_eq_bind]
      exact ih (fun a1 ha1 => hf a1 (List.mem_cons_of_mem _ ha1)) ⟨q.1, q.2, r.points_guessed⟩

theorem exact_stripe_points (m : man_calc_data) (hk : keeps_ab_in m.queue_point) (s : stripe)
    (r : thread_run) :
    exact_stripe m s r =
      (queue_points m.queue_point (stripe_points m s) r.ps r.mem).map
        (fun q => ⟨q.1, q.2, r.points_guessed⟩) := by
  rw [exact_stripe_eq]
  unfold stripe_points
  apply fold_queue_points
  intro y _ r1
  rw [line_queue_points m hk y (exact_cols s) (load_im m y r1) rfl]
  have h := queue_points_ab_in m.queue_point
    ((exact_cols s).map
      (fun x => (m.img_re x, m.img_im y, pixel_addr m.iter_data_line_size x y)))
    r1.ps (r1.ps.ab_in.1, m.img_im y) r1.mem (by simp [exact_cols_ne_nil])
  exact congrArg (Option.map _) h

theorem thread_exact_points (m : man_calc_data) (hk : keeps_ab_in m.queue_point)
    (t : thread_state) (ps : man_pointstruct) (mem : List mem_write)
    (hex : ∀ s, s ∈ thread_stripes t → stripe_cur_alg m.alg s &&& ALG_EXACT ≠ 0) :
    man_calculate_threaded m t ps mem =
      ((queue_points m.queue_point (thread_points m t) ps mem).bind
        (fun q => flush_queue m.precision m.queue_point m.image_size q.1 q.2)).map
        (fun q => ⟨q.1, q.2, 0⟩) := by
  unfold man_calculate_threaded thread_points
  rw [fold_queue_points m.queue_point (stripe_points m) (fun r s => calc_stripe m s r)
    (thread_stripes t) (fun s hs r => by
      show calc_stripe m s r = _
      unfold calc_stripe
      rw [if_pos (hex s hs)]
      exact exact_stripe_points m hk s r)]
  cases queue_points m.queue_point ((thread_stripes t).flatMap (stripe_points m)) ps mem with
  | none => rfl
  | some q =>
    simp only [Option.map_some', Option.some_bind, Option.bind_eq_bind]

theorem sse_exact_queue (nlanes mask cap : Nat) (precision : Int)
    (hc : (nlanes = 4 ∧ mask = 3 ∧ precision = PRECISION_DOUBLE) ∨
      (nlanes = 8 ∧ mask = 7 ∧ precision = PRECISION_SINGLE))
    (heven : cap % 2 = 0) (h2 : 2 ≤ cap) (hcap : cap < 4294967296) :
    exact_queue cap precision (queue_point_sse nlanes mask cap (iterate_amd nlanes))
      (queue_ready cap precision) := by
  refine ⟨queue_point_sse_mem nlanes mask cap _, queue_point_sse_ab_in nlanes mask cap, ?_⟩
  intro pts d ps0 hr
  obtain ⟨ps, mem, fs, k, hrun, hinv, -, hperm⟩ := flush_total nlanes mask cap precision d pts
    ps0 hc heven h2 hcap hr.1 hr.2
  refine ⟨ps, mem, hrun, ?_, ?_⟩
  · intro q hq
    exact stored_slots_mem mem q.2.2
      (hperm.symm.subset (List.mem_append_left _ (List.mem_map_of_mem (fun p => p.2.2) hq)))
  · intro p v hv
    obtain ⟨a, b, hab, hcm⟩ := hinv.stores p v hv
    rcases List.mem_append.mp hab with h | h
    · exact Or.inr ⟨a, b, h, hcm⟩
    · have := List.eq_of_mem_replicate h
      exact Or.inl (Prod.mk.inj (Prod.mk.inj this).2).2

theorem flush_queue_mem (precision : Int)
    (qp : man_pointstruct → Int → List mem_write → Option (man_pointstruct × List mem_write))
    (hqp : mem_independent qp) (d : Int) (ps : man_pointstruct) (mem1 mem : List mem_write) :
    flush_queue precision qp d ps (mem1 ++ mem) =
      (flush_queue precision qp d ps mem1).map (fun r => (r.1, r.2 ++ mem)) := by
  unfold flush_queue
  exact queue_points_mem qp hqp _ _ mem1 mem

theorem thread_exact_effect (m : man_calc_data) (cap : Nat) (ready : man_pointstruct → Prop)
    (hq : exact_queue cap m.precision m.queue_point ready) (t : thread_state)
    (ps : man_pointstruct) (mem0 : List mem_write) (hr : ready ps)
    (hex : ∀ s, s ∈ thread_stripes t → stripe_cur_alg m.alg s &&& ALG_EXACT ≠ 0) :
    ∃ (r : thread_run) (new : List mem_write),
      man_calculate_threaded m t ps mem0 = some r ∧ r.mem = new ++ mem0 ∧
      (∀ q, q ∈ thread_points m t → ∃ v, mem_write.iters q.2.2 v ∈ new) ∧
      (∀ p v, mem_write.iters p v ∈ new →
        p = m.image_size ∨ ∃ a b, (a, b, p) ∈ thread_points m t ∧ commits cap a b v) := by
  obtain ⟨psf, new, hrun, h1, h2⟩ := hq.commits_all (thread_points m t) m.image_size ps hr
  refine ⟨⟨psf, new ++ mem0, 0⟩, new, ?_, rfl, h1, h2⟩
  rw [thread_exact_points m hq.keeps t ps mem0 hex]
  have e1 := queue_points_mem m.queue_point hq.indep (thread_points m t) ps [] mem0
  simp only [List.nil_append] at e1
  rw [e1]
  cases hqp : queue_points m.queue_point (thread_points m t) ps [] with
  | none => simp [hqp] at hrun
  | some q =>
    simp only [hqp, Option.some_bind] at hrun
    simp only [Option.map_some', Option.some_bind]
    rw [flush_queue_mem m.precision m.queue_point hq.indep m.image_size q.1 q.2 mem0, hrun]
    rfl

theorem thread_points_mem (m : man_calc_data) (t : thread_state) (q : ℚ × ℚ × Int) :
    q ∈ thread_points m t ↔ ∃ s, s ∈ thread_stripes t ∧ ∃ y, y ∈ exact_rows s ∧
      ∃ x, x ∈ exact_cols s ∧
        q = (m.img_re x, m.img_im y, pixel_addr m.iter_data_line_size x y) := by
  unfold thread_points stripe_points
  simp only [List.mem_flatMap, List.mem_map]
  constructor
  · rintro ⟨s, hs, y, hy, x, hx, rfl⟩
    exact ⟨s, hs, y, hy, x, hx, rfl⟩
  · rintro ⟨s, hs, y, hy, x, hx, rfl⟩
    exact ⟨s, hs, y, hy, x, hx, rfl⟩

theorem thread_pixel_load (m : man_calc_data) (cap : Nat) (ready : man_pointstruct → Prop)
    (hq : exact_queue cap m.precision m.queue_point ready) (t : thread_state)
    (ps : man_pointstruct) (mem0 : List mem_write) (hr : ready ps)
    (hex : ∀ s, s ∈ thread_stripes t → stripe_cur_alg m.alg s &&& ALG_EXACT ≠ 0)
    (hne : ∀ s, s ∈ thread_stripes t → s.xstart ≤ s.xend ∧ s.ystart ≤ s.yend ∧
      0 ≤ s.xstart ∧ s.xend < m.iter_data_line_size) :
    ∃ r : thread_run, man_calculate_threaded m t ps mem0 = some r ∧
      ∀ x y, 0 ≤ x → x < m.iter_data_line_size →
        pixel_addr m.iter_data_line_size x y ≠ m.image_size →
        ((∃ s, s ∈ thread_stripes t ∧ in_stripe s x y) →
          commits cap (m.img_re x) (m.img_im y)
            (load_iters m.iter_data r.mem (pixel_addr m.iter_data_line_size x y))) ∧
        ((∀ s, s ∈ thread_stripes t → ¬ in_stripe s x y) →
          load_iters m.iter_data r.mem (pixel_addr m.iter_data_line_size x y) =
            load_iters m.iter_data mem0 (pixel_addr m.iter_data_line_size x y)) := by
  obtain ⟨r, new, hrun, hmem, h1, h2⟩ := thread_exact_effect m cap ready hq t ps mem0 hr hex
  refine ⟨r, hrun, ?_⟩
  intro x y hx0 hx1 hd
  rw [hmem]
  have hown : ∀ w, mem_write.iters (pixel_addr m.iter_data_line_size x y) w ∈ new →
      commits cap (m.img_re x) (m.img_im y) w ∧ ∃ s, s ∈ thread_stripes t ∧ in_stripe s x y := by
    intro w hw
    rcases h2 _ w hw with h | ⟨a, b, hab, hcm⟩
    · exact absurd h hd
    · obtain ⟨s, hs, y1, hy1, x1, hx1m, heq⟩ := (thread_points_mem m t _).mp hab
      obtain ⟨n1, n2, n3, n4⟩ := hne s hs
      rw [exact_cols_mem s n1] at hx1m
      rw [exact_rows_mem s n2] at hy1
      have ha : a = m.img_re x1 := (Prod.mk.inj heq).1
      have hb : b = m.img_im y1 := (Prod.mk.inj (Prod.mk.inj heq).2).1
      have hp := (Prod.mk.inj (Prod.mk.inj heq).2).2
      obtain ⟨e1, e2⟩ := pixel_addr_inj m.iter_data_line_size x y x1 y1 hx0 hx1 (by omega)
        (by omega) hp
      rw [ha, hb, ← e1, ← e2] at hcm
      refine ⟨hcm, s, hs, ?_⟩
      unfold in_stripe
      omega
  rcases load_iters_append m.iter_data (pixel_addr m.iter_data_line_size x y) new mem0 with
    ⟨w, hw1, hw2⟩ | ⟨hn1, hn2⟩
  · rw [hw2]
    exact ⟨fun _ => (hown w hw1).1, fun hno => by
      obtain ⟨s, hs, hin⟩ := (hown w hw1).2
      exact absurd hin (hno s hs)⟩
  · rw [hn2]
    refine ⟨?_, fun _ => rfl⟩
    rintro ⟨s, hs, hin⟩
    exfalso
    obtain ⟨n1, n2, n3, n4⟩ := hne s hs
    unfold in_stripe at hin
    have hmemq : (m.img_re x, m.img_im y, pixel_addr m.iter_data_line_size x y) ∈
        thread_points m t :=
      (thread_points_mem m t _).mpr ⟨s, hs, y, (exact_rows_mem s n2 y).mpr ⟨hin.2.2.1, hin.2.2.2⟩,
        x, (exact_cols_mem s n1 x).mpr ⟨hin.1, hin.2.1⟩, rfl⟩
    obtain ⟨v, hv⟩ := h1 _ hmemq
    exact hn1 v hv

theorem pass_pixel_load (m : man_calc_data) (cap : Nat) (ready : man_pointstruct → Prop)
    (hq : exact_queue cap m.precision m.queue_point ready) (ts : Int → thread_state)
    (ps : Int → man_pointstruct) :
    ∀ n : Nat, (∀ t : Nat, t < n → ready (ps t)) →
      (∀ (t : Nat) s, t < n → s ∈ thread_stripes (ts t) →
        stripe_cur_alg m.alg s &&& ALG_EXACT ≠ 0 ∧ s.xstart ≤ s.xend ∧ s.ystart ≤ s.yend ∧
        0 ≤ s.xstart ∧ s.xend < m.iter_data_line_size) →
      ∃ mem, man_calculate_pass m ts ps n = some mem ∧
        ∀ x y, 0 ≤ x → x < m.iter_data_line_size →
          pixel_addr m.iter_data_line_size x y ≠ m.image_size →
          ((∃ (t : Nat) (s : stripe), t < n ∧ s ∈ thread_stripes (ts t) ∧ in_stripe s x y) →
            commits cap (m.img_re x) (m.img_im y)
              (load_iters m.iter_data mem (pixel_addr m.iter_data_line_size x y))) ∧
          ((∀ (t : Nat) (s : stripe), t < n → s ∈ thread_stripes (ts t) → ¬ in_stripe s x y) →
            load_iters m.iter_data mem (pixel_addr m.iter_data_line_size x y) =
              m.iter_data (pixel_addr m.iter_data_line_size x y)) := by
  intro n
  induction n with
  | zero =>
    intro _ _
    refine ⟨[], rfl, fun x y _ _ _ => ⟨?_, fun _ => rfl⟩⟩
    rintro ⟨t, s, ht, -⟩
    omega
  | succ n ih =>
    intro hr hs
    obtain ⟨mem, hpass, hload⟩ := ih (fun t ht => hr t (by omega))
      (fun t s ht hm => hs t s (by omega) hm)
    obtain ⟨r, hrun, hthr⟩ := thread_pixel_load m cap ready hq (ts n) (ps n) mem
      (hr n (by omega)) (fun s hm => (hs n s (by omega) hm).1)
      (fun s hm => (hs n s (by omega) hm).2)
    refine ⟨r.mem, ?_, ?_⟩
    · simp only [man_calculate_pass, hpass, Option.some_bind, hrun, Option.map_some']
    · intro x y hx0 hx1 hd
      obtain ⟨a1, a2⟩ := hthr x y hx0 hx1 hd
      obtain ⟨b1, b2⟩ := hload x y hx0 hx1 hd
      by_cases hown : ∃ s, s ∈ thread_stripes (ts n) ∧ in_stripe s x y
      · refine ⟨fun _ => a1 hown, fun hno => ?_⟩
        obtain ⟨s, hm, hin⟩ := hown
        exact absurd hin (hno n s (by omega) hm)
      · have hno : ∀ s, s ∈ thread_stripes (ts n) → ¬ in_stripe s x y :=
          fun s hm hin => hown ⟨s, hm, hin⟩
        rw [a2 hno]
        refine ⟨?_, fun hall => b2 (fun t s ht hm => hall t s (by omega) hm)⟩
        rintro ⟨t, s, ht, hm, hin⟩
        have htn : t < n := by
          rcases Nat.lt_succ_iff_lt_or_eq.mp ht with h | h
          · exact h
          · subst h
            exact absurd hin (hno s hm)
        exact b1 ⟨t, s, htn, hm, hin⟩

theorem man_calculate_cover (spt ind W : Int) (ts : Int → thread_state) (xs xe ys ye : Int)
    (hind0 : 0 ≤ ind) (hind5 : ind ≤ MAX_THREADS_IND) (hW : W = shl 1 ind)
    (hx : xs ≤ xe) (hy : ys ≤ ye) :
    ∃ l, man_calculate_locals spt ind W ts xs xe ys ye = some l ∧ 1 ≤ W ∧
      (∀ t g, valid_slot W l.thread_states t g →
        ((l.thread_states t).stripes g).xstart ≤ ((l.thread_states t).stripes g).xend ∧
        ((l.thread_states t).stripes g).ystart ≤ ((l.thread_states t).stripes g).yend ∧
        xs ≤ ((l.thread_states t).stripes g).xstart ∧
        ((l.thread_states t).stripes g).xend ≤ xe) ∧
      (∀ x y, xs ≤ x → x ≤ xe → ys ≤ y → y ≤ ye →
        ∃ t g, valid_slot W l.thread_states t g ∧
          in_stripe ((l.thread_states t).stripes g) x y) := by
  obtain ⟨l, last, pN, N1, step, r, h1, -, spec, hW1, -⟩ := man_calculate_sched spt ind W
    ts xs xe ys ye hind0 hind5 hW hx hy _ rfl
  generalize axis_of spt ind xs xe ys ye = ay at spec
  have hc : across ay xs ys ≤ across ay xe ye := by
    cases ay
    · exact hy
    · exact hx
  refine ⟨l, h1, hW1, ?_, ?_⟩
  · intro t g hv
    have hne := sched_nonempty spec t g hv
    obtain ⟨m1, m2, m3, m4⟩ := spec.mem t g hv
    cases ay
    · simp only [lo, hi, clo, chi, across, along, Bool.false_eq_true, if_false]
        at hne m1 m2 m3 m4 hc
      exact ⟨hne, by omega, by omega, by omega⟩
    · simp only [lo, hi, clo, chi, across, along, if_true] at hne m1 m2 m3 m4 hc
      exact ⟨by omega, hne, by omega, by omega⟩
  · intro x y a1 a2 a3 a4
    have hal : along ay xs ys ≤ along ay x y ∧ along ay x y ≤ along ay xe ye ∧
        across ay xs ys ≤ across ay x y ∧ across ay x y ≤ across ay xe ye := by
      cases ay <;> simp only [along, across, Bool.false_eq_true, if_false, if_true] <;> omega
    obtain ⟨t, g, hv, c1, c2⟩ := spec.cov _ hal.1 hal.2.1
    obtain ⟨m1, m2, -, -⟩ := spec.mem t g hv
    exact ⟨t, g, hv, (in_stripe_iff ay _ x y).2 ⟨c1, c2, by omega, by omega⟩⟩

theorem thread_stripes_mem (t : thread_state) (s : stripe) :
    s ∈ thread_stripes t ↔ ∃ g : Int, 0 ≤ g ∧ g < t.num_stripes ∧ s = t.stripes g := by
  unfold thread_stripes
  simp only [List.mem_map, List.mem_range]
  constructor
  · rintro ⟨g, hg, rfl⟩
    exact ⟨(g : Int), by omega, by omega, rfl⟩
  · rintro ⟨g, h0, h1, rfl⟩
    refine ⟨g.toNat, by omega, ?_⟩
    rw [Int.toNat_of_nonneg h0]

theorem exact_bit (alg : Nat) (s : stripe) (h : alg &&& ALG_EXACT ≠ 0) :
    stripe_cur_alg alg s &&& ALG_EXACT ≠ 0 := by
  unfold stripe_cur_alg
  split_ifs
  · unfold ALG_EXACT at h ⊢
    intro h0
    have := congrArg (fun n => Nat.testBit n 0) h0
    simp at this
  · exact h

theorem exact_run_pixels (spt ind W : Int) (ts : Int → thread_state) (m : man_calc_data)
    (cap : Nat) (ready : man_pointstruct → Prop)
    (hq : exact_queue cap m.precision m.queue_point ready) (ps : Int → man_pointstruct)
    (xs xe ys ye : Int)
    (hind0 : 0 ≤ ind) (hind5 : ind ≤ MAX_THREADS_IND) (hW : W = shl 1 ind)
    (hx : xs ≤ xe) (hy : ys ≤ ye) (h0 : 0 ≤ xs) (h1 : xe < m.iter_data_line_size)
    (halg : m.alg &&& ALG_EXACT ≠ 0) (hps : ∀ t : Nat, ready (ps t)) :
    ∃ mem, man_calculate_run spt ind W ts m ps xs xe ys ye = some mem ∧
      ∀ x y, xs ≤ x → x ≤ xe → ys ≤ y → y ≤ ye →
        pixel_addr m.iter_data_line_size x y ≠ m.image_size →
        commits cap (m.img_re x) (m.img_im y)
          (load_iters m.iter_data mem (pixel_addr m.iter_data_line_size x y)) := by
  obtain ⟨l, hl, hW1, hst, hcov⟩ := man_calculate_cover spt ind W ts xs xe ys ye hind0 hind5
    hW hx hy
  obtain ⟨mem, hpass, hload⟩ := pass_pixel_load m cap ready hq l.thread_states ps W.toNat
    (fun t _ => hps t) (by
      intro t s ht hm
      obtain ⟨g, g0, g1, rfl⟩ := (thread_stripes_mem _ s).mp hm
      have hv : valid_slot W l.thread_states (t : Int) g := ⟨by omega, by omega, g0, g1⟩
      obtain ⟨c1, c2, c3, c4⟩ := hst t g hv
      exact ⟨exact_bit m.alg _ halg, c1, c2, by omega, by omega⟩)
  refine ⟨mem, ?_, ?_⟩
  · unfold man_calculate_run
    rw [hl, Option.some_bind]
    exact hpass
  · intro x y a1 a2 a3 a4 hd
    obtain ⟨t, g, hv, hin⟩ := hcov x y a1 a2 a3 a4
    refine (hload x y (by omega) (by omega) hd).1 ⟨t.toNat, _, ?_, ?_, hin⟩
    · have := hv.1
      have := hv.2.1
      omega
    · rw [Int.toNat_of_nonneg hv.1]
      exact (thread_stripes_mem _ _).mpr ⟨g, hv.2.2.1, hv.2.2.2, rfl⟩

/-- Worker-count independence of the exact algorithm.  In exact arithmetic, for the exact
algorithm (`ALG_EXACT` set in `m->alg`) with the
queue `queue_4point_sse2` and the kernel `iterate_amd_sse2`, or `queue_8point_sse` and
`iterate_amd_sse`, an even cap from 2 on, point structures as `man_setup` leaves them, every
non-empty rectangle whose columns lie inside a line of the array, and any two numbers of
threads `W1 = 1 << ind1` and `W2 = 1 << ind2`: the two runs of `man_calculate` return, and in
every pixel of the rectangle other than the one stored at the dummy address of the flush
(`image_size`) the two runs leave the same iteration count, which is the count that the scalar
path commits for the coordinates of the pixel. -/
theorem exact_run_independent (spt ind1 ind2 W1 W2 : Int) (ts1 ts2 : Int → thread_state)
    (m : man_calc_data) (cap : Nat) (ps1 ps2 : Int → man_pointstruct) (xs xe ys ye : Int)
    (h10 : 0 ≤ ind1) (h15 : ind1 ≤ MAX_THREADS_IND) (hW1 : W1 = shl 1 ind1)
    (h20 : 0 ≤ ind2) (h25 : ind2 ≤ MAX_THREADS_IND) (hW2 : W2 = shl 1 ind2)
    (hx : xs ≤ xe) (hy : ys ≤ ye) (h0 : 0 ≤ xs) (h1 : xe < m.iter_data_line_size)
    (halg : m.alg &&& ALG_EXACT ≠ 0)
    (hqp : (m.queue_point = queue_4point_sse2 cap iterate_amd_sse2 ∧
        m.precision = PRECISION_DOUBLE) ∨
      (m.queue_point = queue_8point_sse cap iterate_amd_sse ∧
        m.precision = PRECISION_SINGLE))
    (heven : cap % 2 = 0) (h2 : 2 ≤ cap) (hcap : cap < 4294967296)
    (hps1 : ∀ t : Nat, queue_ready cap m.precision (ps1 t))
    (hps2 : ∀ t : Nat, queue_ready cap m.precision (ps2 t)) :
    ∃ mem1 mem2, man_calculate_run spt ind1 W1 ts1 m ps1 xs xe ys ye = some mem1 ∧
      man_calculate_run spt ind2 W2 ts2 m ps2 xs xe ys ye = some mem2 ∧
      ∀ x y, xs ≤ x → x ≤ xe → ys ≤ y → y ≤ ye →
        pixel_addr m.iter_data_line_size x y ≠ m.image_size →
        load_iters m.iter_data mem1 (pixel_addr m.iter_data_line_size x y) =
          load_iters m.iter_data mem2 (pixel_addr m.iter_data_line_size x y) ∧
        commits cap (m.img_re x) (m.img_im y)
          (load_iters m.iter_data mem1 (pixel_addr m.iter_data_line_size x y)) := by
  have hq : exact_queue cap m.precision m.queue_point (queue_ready cap m.precision) := by
    rcases hqp with ⟨e1, e2⟩ | ⟨e1, e2⟩
    · rw [e1, e2]
      exact sse_exact_queue 4 3 cap PRECISION_DOUBLE (Or.inl ⟨rfl, rfl, rfl⟩) heven h2 hcap
    · rw [e1, e2]
      exact sse_exact_queue 8 7 cap PRECISION_SINGLE (Or.inr ⟨rfl, rfl, rfl⟩) heven h2 hcap
  obtain ⟨mem1, r1, c1⟩ := exact_run_pixels spt ind1 W1 ts1 m cap _ hq ps1 xs xe ys ye h10 h15
    hW1 hx hy h0 h1 halg hps1
  obtain ⟨mem2, r2, c2⟩ := exact_run_pixels spt ind2 W2 ts2 m cap _ hq ps2 xs xe ys ye h20 h25
    hW2 hx hy h0 h1 halg hps2
  refine ⟨mem1, mem2, r1, r2, ?_⟩
  intro x y a1 a2 a3 a4 hd
  exact ⟨commits_unique cap _ _ _ _ (c1 x y a1 a2 a3 a4 hd) (c2 x y a1 a2 a3 a4 hd),
    c1 x y a1 a2 a3 a4 hd⟩

theorem foldlM_invariant {α σ : Type} (P : σ → Prop) (f : σ → α → Option σ) (l : List α)
    (h : ∀ a, a ∈ l → ∀ s, P s → ∃ s1, f s a = some s1 ∧ P s1) :
    ∀ s, P s → ∃ s1, l.foldlM f s = some s1 ∧ P s1 := by
  induction l with
  | nil =>
    intro s hs
    exact ⟨s, rfl, hs⟩
  | cons a l ih =>
    intro s hs
    obtain ⟨s1, h1, h2⟩ := h a (List.mem_cons_self _ _) s hs
    obtain ⟨s2, h3, h4⟩ := ih (fun a1 ha1 => h a1 (List.mem_cons_of_mem _ ha1)) s1 h2
    refine ⟨s2, ?_, h4⟩
    simp only [List.foldlM_cons, h1, Option.some_bind, Option.bind_eq_bind]
    exact h3

theorem guess_pixel_stale (m : man_calc_data) (u wave : Nat) (x y : Int) (r : thread_run)
    (hl : ∀ p, load_iters m.iter_data r.mem p = u) :
    ∃ r1, guess_pixel m wave x y r = some r1 ∧
      (∀ p, load_iters m.iter_data r1.mem p = u) ∧ r1.ps = r.ps := by
  unfold guess_pixel
  simp only [hl, and_self, if_true]
  refine ⟨_, rfl, ?_, rfl⟩
  intro p
  simp only [load_iters]
  split_ifs
  · rfl
  · exact hl p

theorem wave_pass_stale (m : man_calc_data) (u : Nat) (s : stripe) (base : man_pointstruct)
    (wave : Nat) (h0 : wave ≠ 0) (r : thread_run)
    (hr : (∀ p, load_iters m.iter_data r.mem p = u) ∧
      ({ r.ps with ab_in := (0, 0) } : man_pointstruct) = base) :
    ∃ r1, (wave_rows s wave).foldlM (fun r y =>
        (wave_cols s wave).foldlM (fun r x => wave_pixel m wave x y r) (load_im m y r)) r =
        some r1 ∧
      ((∀ p, load_iters m.iter_data r1.mem p = u) ∧
        ({ r1.ps with ab_in := (0, 0) } : man_pointstruct) = base) := by
  refine foldlM_invariant (fun r => (∀ p, load_iters m.iter_data r.mem p = u) ∧
    ({ r.ps with ab_in := (0, 0) } : man_pointstruct) = base) _ _ ?_ r hr
  intro y _ r1 hr1
  refine foldlM_invariant (fun r => (∀ p, load_iters m.iter_data r.mem p = u) ∧
    ({ r.ps with ab_in := (0, 0) } : man_pointstruct) = base) _ _ ?_ (load_im m y r1)
    ⟨hr1.1, hr1.2⟩
  intro x _ r2 hr2
  unfold wave_pixel
  rw [if_neg h0]
  obtain ⟨r3, e1, e2, e3⟩ := guess_pixel_stale m u wave x y r2 hr2.1
  refine ⟨r3, e1, e2, ?_⟩
  rw [e3]
  exact hr2.2

theorem commits_pos (cap : Nat) (a b : ℚ) (v : Nat) (h : commits cap a b v) : 1 ≤ v := by
  obtain ⟨n, h1, -, -, -, h5⟩ := h
  rw [h5]
  split_ifs <;> omega

theorem wave_stale_run (cap u : Nat) (m : man_calc_data) (t : thread_state)
    (ps0 : man_pointstruct)
    (hm1 : m.alg = 0) (hm2 : m.precision = PRECISION_DOUBLE) (hm3 : m.iter_data_line_size = 6)
    (hm4 : m.image_size = 16) (hm5 : m.iter_data = fun _ => u)
    (hm6 : m.queue_point = queue_4point_sse2 cap iterate_amd_sse2)
    (heven : cap % 2 = 0) (h2 : 2 ≤ cap) (hcap : cap < 4294967296)
    (hps : queue_ready cap PRECISION_DOUBLE ps0) (ht : thread_stripes t = [⟨0, 3, 0, 3⟩]) :
    ∃ r, man_calculate_threaded m t ps0 [] = some r ∧
      load_iters m.iter_data r.mem (pixel_addr 6 2 1) = u := by
  -- the only point of wave 0 goes into a free slot of the queue
  have hq0 : ({ ps0 with ab_in := (m.img_re 0, m.img_im 3) } : man_pointstruct).queue_status =
      free_code (0 :: [1, 2, 3]) := by
    show ps0.queue_status = _
    rw [hps.1, queue_init_code.1]
  have hfree := queue_point_free 4 3 cap iterate_amd_sse2
    { ps0 with ab_in := (m.img_re 0, m.img_im 3) } (pixel_addr 6 0 3) [] 0 [1, 2, 3]
    (Or.inl ⟨rfl, rfl⟩) hq0 (by decide)
  generalize hpsq : init_point
    { ({ ps0 with ab_in := (m.img_re 0, m.img_im 3) } : man_pointstruct) with
      queue_status := free_code [1, 2, 3] } 0 (pixel_addr 6 0 3) = psq at hfree
  have hw0 : (wave_rows ⟨0, 3, 0, 3⟩ 0).foldlM (fun r y =>
      (wave_cols ⟨0, 3, 0, 3⟩ 0).foldlM (fun r x => wave_pixel m 0 x y r) (load_im m y r))
      (⟨ps0, [], 0⟩ : thread_run) = some ⟨psq, [], 0⟩ := by
    have e1 : wave_rows ⟨0, 3, 0, 3⟩ 0 = [3] := by decide
    have e2 : wave_cols ⟨0, 3, 0, 3⟩ 0 = [0] := by decide
    rw [e1, e2]
    simp only [List.foldlM_cons, List.foldlM_nil, wave_pixel, if_true, queue_pixel, load_im,
      hm3, hm6]
    have e3 : queue_4point_sse2 cap iterate_amd_sse2
        { ps0 with ab_in := (m.img_re 0, m.img_im 3) } (pixel_addr 6 0 3) [] =
        some (psq, []) := hfree
    simp [e3]
  -- the waves 1 to 6 guess every pixel from the stale entries
  have hrest := foldlM_invariant
    (fun r : thread_run => (∀ p, load_iters m.iter_data r.mem p = u) ∧
      ({ r.ps with ab_in := (0, 0) } : man_pointstruct) =
        ({ psq with ab_in := (0, 0) } : man_pointstruct))
    (fun r wave => (wave_rows ⟨0, 3, 0, 3⟩ wave).foldlM (fun r y =>
      (wave_cols ⟨0, 3, 0, 3⟩ wave).foldlM (fun r x => wave_pixel m wave x y r)
        (load_im m y r)) r)
    [1, 2, 3, 4, 5, 6]
    (fun wave hw r hr => wave_pass_stale m u ⟨0, 3, 0, 3⟩ _ wave (by
      intro h
      rw [h] at hw
      simp at hw) r hr)
    ⟨psq, [], 0⟩ ⟨fun p => by rw [hm5]; rfl, rfl⟩
  obtain ⟨r1, hr1, hl1, hp1⟩ := hrest
  have hstripe : wave_stripe m ⟨0, 3, 0, 3⟩ ⟨ps0, [], 0⟩ = some r1 := by
    rw [wave_stripe_eq]
    have e : List.range 7 = 0 :: [1, 2, 3, 4, 5, 6] := by decide
    rw [e, List.foldlM_cons, hw0]
    exact hr1
  -- the flush stores only at the address of the queued point and at the dummy address
  obtain ⟨psf, memq, fs, k, hrun, hinv, -, -⟩ := flush_total 4 3 cap PRECISION_DOUBLE 16
    [(m.img_re 0, m.img_im 3, pixel_addr 6 0 3)] ps0 (Or.inl ⟨rfl, rfl, rfl⟩) heven h2 hcap
    hps.1 hps.2
  have hone : queue_points (queue_point_sse 4 3 cap (iterate_amd 4))
      [(m.img_re 0, m.img_im 3, pixel_addr 6 0 3)] ps0 [] = some (psq, []) := by
    simp only [queue_points]
    have e3 : queue_point_sse 4 3 cap (iterate_amd 4)
        { ps0 with ab_in := (m.img_re 0, m.img_im 3) } (pixel_addr 6 0 3) [] =
        some (psq, []) := hfree
    rw [e3]
    rfl
  rw [hone, Option.some_bind] at hrun
  have hflush : flush_queue m.precision m.queue_point m.image_size r1.ps r1.mem =
      some (psf, memq ++ r1.mem) := by
    rw [hm2, hm4, hm6]
    have e4 := flush_queue_mem PRECISION_DOUBLE (queue_point_sse 4 3 cap (iterate_amd 4))
      (queue_point_sse_mem 4 3 cap _) 16 r1.ps [] r1.mem
    simp only [List.nil_append] at e4
    have e5 : flush_queue PRECISION_DOUBLE (queue_point_sse 4 3 cap (iterate_amd 4)) 16 r1.ps []
        = flush_queue PRECISION_DOUBLE (queue_point_sse 4 3 cap (iterate_amd 4)) 16 psq [] := by
      unfold flush_queue
      rw [hp1]
    rw [e5, hrun] at e4
    exact e4
  refine ⟨⟨psf, memq ++ r1.mem, r1.points_guessed⟩, ?_, ?_⟩
  · unfold man_calculate_threaded
    rw [ht]
    simp only [List.foldlM_cons, List.foldlM_nil]
    have hcs : calc_stripe m ⟨0, 3, 0, 3⟩ ⟨ps0, [], 0⟩ = some r1 := by
      unfold calc_stripe
      rw [hm1, if_neg (by decide)]
      exact hstripe
    simp only [hcs, Option.some_bind, Option.bind_eq_bind, Option.pure_def, hflush,
      Option.map_some']
  · show load_iters m.iter_data (memq ++ r1.mem) (pixel_addr 6 2 1) = u
    rcases load_iters_append m.iter_data (pixel_addr 6 2 1) memq r1.mem with
      ⟨w, hw1, -⟩ | ⟨-, hn2⟩
    · exfalso
      obtain ⟨a, b, hab, -⟩ := hinv.stores _ w hw1
      rcases List.mem_append.mp hab with h | h
      · simp only [List.mem_singleton, Prod.mk.injEq] at h
        exact absurd h.2.2 (by decide)
      · have := List.eq_of_mem_replicate h
        exact absurd (Prod.mk.inj (Prod.mk.inj this).2).2 (by decide)
    · rw [hn2]
      exact hl1 _

theorem commits_far (cap : Nat) (a b : ℚ) (h2 : 2 ≤ cap) (h : 16 ≤ a * a + b * b) :
    commits cap a b 2 := by
  refine ⟨1, le_refl _, by omega, fun j h1 h2 => by omega, Or.inl ?_, ?_⟩
  · rw [mandel_z_one]
    exact h
  · rw [if_pos (by omega)]

/-- C24.  The thread that runs the fast algorithm with the queue `queue_4point_sse2` and the
kernel `iterate_amd_sse2` under the cap 1000 on the stripe of the pixels (0..3, 0..3) of a
4 by 4 image, for every value `u` that the iteration array holds everywhere before the pass:
the run, flush included, returns; the scalar path commits the count 2 for every pixel; and
after the run the pixel (2, 1) holds `u`. -/
theorem wave_stale_guess :
    ∀ u : Nat, ∃ r,
      man_calculate_threaded (example_data 0 4 4 1000 u) ⟨fun _ => ⟨0, 3, 0, 3⟩, 1⟩
        (example_queue PRECISION_DOUBLE 1000) [] = some r ∧
      (∀ x y : Int, 0 ≤ x → 0 ≤ y →
        commits 1000 ((example_data 0 4 4 1000 u).img_re x)
          ((example_data 0 4 4 1000 u).img_im y) 2) ∧
      load_iters (example_data 0 4 4 1000 u).iter_data r.mem (pixel_addr 6 2 1) = u := by
  intro u
  obtain ⟨r, h1, h2⟩ := wave_stale_run 1000 u (example_data 0 4 4 1000 u)
    ⟨fun _ => ⟨0, 3, 0, 3⟩, 1⟩ (example_queue PRECISION_DOUBLE 1000) rfl rfl rfl rfl rfl rfl
    (by decide) (by decide) (by decide) ⟨rfl, rfl⟩ (by decide)
  refine ⟨r, h1, ?_, h2⟩
  intro x y hx hy
  apply commits_far 1000 _ _ (by decide)
  show (16 : ℚ) ≤ (4 + (x : ℚ)) * (4 + (x : ℚ)) + (4 + (y : ℚ)) * (4 + (y : ℚ))
  have hx1 : (0 : ℚ) ≤ (x : ℚ) := by exact_mod_cast hx
  have hy1 : (0 : ℚ) ≤ (y : ℚ) := by exact_mod_cast hy
  nlinarith

theorem example_stripes_one :
    (man_calculate_locals 0x234471 0 1 example_calc.thread_states 0 3 0 3).map
      (fun l => thread_stripes (l.thread_states 0)) = some [⟨0, 3, 0, 3⟩] := by
  decide

theorem example_stripes_two :
    (man_calculate_locals 0x234471 1 2 example_calc.thread_states 0 3 0 3).map
      (fun l => (thread_stripes (l.thread_states 0), thread_stripes (l.thread_states 1))) =
      some ([⟨0, 3, 1, 1⟩, ⟨0, 3, 3, 3⟩], [⟨0, 3, 0, 0⟩, ⟨0, 3, 2, 2⟩]) := by
  decide

/-- C25.  With the fast algorithm configured, the queue `queue_4point_sse2`, the kernel
`iterate_amd_sse2`, the cap 1000 and a 4 by 4 image whose iteration array holds 0 everywhere,
the run of `man_calculate` with one thread and the run with two threads from the same state
both return; the run with one thread leaves the old content 0 in the pixel (2, 1), the run
with two threads leaves the count 2 there, which is the count that the scalar path commits
for the pixel. -/
theorem fast_run_depends_on_workers :
    ∃ mem1 mem2,
      man_calculate_run 0x234471 0 1 example_calc.thread_states (example_data 0 4 4 1000 0)
        (fun _ => example_queue PRECISION_DOUBLE 1000) 0 3 0 3 = some mem1 ∧
      man_calculate_run 0x234471 1 2 example_calc.thread_states (example_data 0 4 4 1000 0)
        (fun _ => example_queue PRECISION_DOUBLE 1000) 0 3 0 3 = some mem2 ∧
      load_iters (example_data 0 4 4 1000 0).iter_data mem1 (pixel_addr 6 2 1) = 0 ∧
      load_iters (example_data 0 4 4 1000 0).iter_data mem2 (pixel_addr 6 2 1) = 2 ∧
      commits 1000 ((example_data 0 4 4 1000 0).img_re 2)
        ((example_data 0 4 4 1000 0).img_im 1) 2 := by
  have hfar : commits 1000 ((example_data 0 4 4 1000 0).img_re 2)
      ((example_data 0 4 4 1000 0).img_im 1) 2 := by
    apply commits_far 1000 _ _ (by decide)
    show (16 : ℚ) ≤ (4 + ((2 : Int) : ℚ)) * (4 + ((2 : Int) : ℚ)) +
      (4 + ((1 : Int) : ℚ)) * (4 + ((1 : Int) : ℚ))
    norm_num
  have hq := sse_exact_queue 4 3 1000 PRECISION_DOUBLE (Or.inl ⟨rfl, rfl, rfl⟩) (by decide)
    (by decide) (by decide)
  cases h1 : man_calculate_locals 0x234471 0 1 example_calc.thread_states 0 3 0 3 with
  | none =>
    have := example_stripes_one
    rw [h1] at this
    simp at this
  | some l1 =>
    have e1 := example_stripes_one
    rw [h1] at e1
    simp only [Option.map_some', Option.some.injEq] at e1
    cases h2 : man_calculate_locals 0x234471 1 2 example_calc.thread_states 0 3 0 3 with
    | none =>
      have := example_stripes_two
      rw [h2] at this
      simp at this
    | some l2 =>
      have e2 := example_stripes_two
      rw [h2] at e2
      simp only [Option.map_some', Option.some.injEq, Prod.mk.injEq] at e2
      obtain ⟨r, hr, hload⟩ := wave_stale_run 1000 0 (example_data 0 4 4 1000 0)
        (l1.thread_states 0) (example_queue PRECISION_DOUBLE 1000) rfl rfl rfl rfl rfl rfl
        (by decide) (by decide) (by decide) ⟨rfl, rfl⟩ e1
      obtain ⟨mem2, hpass, hl2⟩ := pass_pixel_load (example_data 0 4 4 1000 0) 1000
        (queue_ready 1000 PRECISION_DOUBLE) hq l2.thread_states
        (fun _ => example_queue PRECISION_DOUBLE 1000) 2 (fun _ _ => ⟨rfl, rfl⟩) (by
          intro t s ht hm
          have ht2 : t = 0 ∨ t = 1 := by omega
          rcases ht2 with rfl | rfl
          · simp only [Nat.cast_zero, e2.1, List.mem_cons, List.mem_singleton,
              List.not_mem_nil, or_false] at hm
            rcases hm with rfl | rfl <;> decide
          · simp only [Nat.cast_one, e2.2, List.mem_cons, List.mem_singleton,
              List.not_mem_nil, or_false] at hm
            rcases hm with rfl | rfl <;> decide)
      refine ⟨r.mem, mem2, ?_, ?_, hload, ?_, hfar⟩
      · unfold man_calculate_run
        rw [h1]
        simp only [Option.some_bind, man_calculate_pass, Int.toNat_one, Nat.cast_zero, hr,
          Option.map_some']
      · unfold man_calculate_run
        rw [h2, Option.some_bind]
        exact hpass
      · have hc := (hl2 2 1 (by decide) (by decide) (by decide)).1 ⟨0, ⟨0, 3, 1, 1⟩,
          by decide, by
            simp only [Nat.cast_zero, e2.1]
            exact List.mem_cons_self _ _, by
            unfold in_stripe
            decide⟩
        exact commits_unique _ _ _ _ _ hc hfar

/-- Instance of `exact_run_independent`: the exact algorithm on the full 10 by 8 image with
one thread and with two threads. -/
theorem exact_run_independent_witness :
    ∃ mem1 mem2,
      man_calculate_run 0x234471 0 1 example_calc.thread_states (example_data 1 10 8 1000 0)
        (fun _ => example_queue PRECISION_DOUBLE 1000) 0 9 0 7 = some mem1 ∧
      man_calculate_run 0x234471 1 2 example_calc.thread_states (example_data 1 10 8 1000 0)
        (fun _ => example_queue PRECISION_DOUBLE 1000) 0 9 0 7 = some mem2 ∧
      ∀ x y, 0 ≤ x → x ≤ 9 → 0 ≤ y → y ≤ 7 →
        pixel_addr (example_data 1 10 8 1000 0).iter_data_line_size x y ≠
          (example_data 1 10 8 1000 0).image_size →
        load_iters (example_data 1 10 8 1000 0).iter_data mem1
            (pixel_addr (example_data 1 10 8 1000 0).iter_data_line_size x y) =
          load_iters (example_data 1 10 8 1000 0).iter_data mem2
            (pixel_addr (example_data 1 10 8 1000 0).iter_data_line_size x y) ∧
        commits 1000 ((example_data 1 10 8 1000 0).img_re x)
          ((example_data 1 10 8 1000 0).img_im y)
          (load_iters (example_data 1 10 8 1000 0).iter_data mem1
            (pixel_addr (example_data 1 10 8 1000 0).iter_data_line_size x y)) :=
  exact_run_independent 0x234471 0 1 1 2 example_calc.thread_states example_calc.thread_states
    (example_data 1 10 8 1000 0) 1000 (fun _ => example_queue PRECISION_DOUBLE 1000)
    (fun _ => example_queue PRECISION_DOUBLE 1000) 0 9 0 7 (by decide) (by decide) (by decide)
    (by decide) (by decide) (by decide) (by decide) (by decide) (by decide) (by decide)
    (by decide) (Or.inl ⟨rfl, rfl⟩) (by decide) (by decide) (by decide)
    (fun _ => ⟨rfl, rfl⟩) (fun _ => ⟨rfl, rfl⟩)

end QuickMan
